import Mathlib

/-!
# Clementine: the file-organising pipeline (`src/core/organise.cpp`)

A shallow embedding of `Organise` (the batch scheduler that copies tracks to a
storage, transcoding and segmenting on the way), of `Segmenter`
(`src/core/segmenter.cpp`), of the cue-sheet parser `CueParser`
(`src/playlistparsers/cueparser.cpp`) and of the value types they use,
followed by the theorems that settle the specification's claims about them.

Conventions of the embedding:
* C++ `int` / `qint64` values are `Int` (no run of the pipeline gets near the
  machine bounds; where a narrowing conversion is written in the source it is
  modelled explicitly);
* a `float` is a `CFloat`, an IEEE 754 binary32 value: a finite value (given by
  the rational number it stands for), an infinity or a NaN; a product of
  `float`s is rounded to the nearest `float`, ties to even; `int(x)` is
  truncation toward zero, and where C++ leaves the conversion undefined (a value
  outside `int`, an infinity, a NaN) it has the value the x86-64 conversion
  instruction gives, the least `int`;
* the `double` arithmetic of the cue parser is exact on the values it meets and
  is written with rationals;
* `QString` is `String`, `QList` is `List`, `QMap` is an association list with
  unique keys;
* calls that leave the class (storage, transcoder, tag reader, file system,
  splitter library) are answered by a `World` record; what the class does to
  the outside is recorded, in order, in the `trace_` field of the state.
-/

namespace Clementine

/-! ## Song::FileType and MusicStorage::TranscodeMode -/

/-- Modelled from the spec: `Song::FileType` is declared in `song.h`, which is
not among the sources. The two enumerators `organise.cpp` names are kept,
`Type_Unknown` (the "no transcode" / "not set" value) and `Type_Stream` (the
network-stream format); every other format is `Type_Other n`. -/
inductive FileType where
  | Type_Unknown
  | Type_Stream
  | Type_Other (n : Nat)
deriving DecidableEq, Repr

/-- Modelled from the spec: `MusicStorage::TranscodeMode` is declared in
`musicstorage.h`, which is not among the sources; these are the three
enumerators the `switch` of `Organise::CheckTranscode` names. -/
inductive TranscodeMode where
  | Transcode_Always
  | Transcode_Never
  | Transcode_Unsupported
deriving DecidableEq, Repr

open FileType TranscodeMode

/-- `Organise::CheckTranscode` (organise.cpp:264-293). The three values it reads
from its object are arguments here: `mode` is `destination_->GetTranscodeMode()`,
`format` is `destination_->GetTranscodeFormat()`, `supported_filetypes_` is the
member of that name; `PickBestFormat` stands for `Transcoder::PickBestFormat`,
whose body is not among the sources. The `return Song::Type_Unknown` after the
`switch` is not reachable for a mode of the three enumerators. -/
def CheckTranscode (PickBestFormat : List FileType → FileType)
    (mode : TranscodeMode) (format : FileType) (supported_filetypes_ : List FileType)
    (original_type : FileType) : FileType :=
  if original_type = Type_Stream then Type_Unknown
  else
    match mode with
    | Transcode_Never => Type_Unknown
    | Transcode_Always =>
        if original_type = format then Type_Unknown else format
    | Transcode_Unsupported =>
        if supported_filetypes_.isEmpty || supported_filetypes_.contains original_type then
          Type_Unknown
        else if format ≠ Type_Unknown then format
        else PickBestFormat supported_filetypes_

/-! ## Qt helpers -/

/-- `qBound(min, val, max)`, which Qt defines as `qMax(min, qMin(max, val))`. -/
def qBound (min val max : Int) : Int := Max.max min (Min.min max val)

/-- The conversion `int(x)` of a finite floating-point value `x`: truncation
toward zero. C++ leaves the conversion undefined when the truncated value is
no `int`; the value here is the one of the x86-64 conversion instructions
(`cvttss2si`, `cvttsd2si`), the least `int`. -/
def toInt (x : ℚ) : Int :=
  if -2147483648 ≤ Int.tdiv x.num x.den ∧ Int.tdiv x.num x.den ≤ 2147483647 then
    Int.tdiv x.num x.den
  else -2147483648

/-! ## The type float -/

/-- A value of the C++ type `float` (IEEE 754 binary32): a finite value, given
by the rational number it stands for, an infinity or a NaN. The sign of a zero
is not kept: no function here tells the two zeros apart. -/
inductive CFloat where
  | finite (q : ℚ)
  | inf (negative : Bool)
  | nan
deriving DecidableEq

/-- The literal `0` (`0.0`) as a `float`. -/
instance : OfNat CFloat 0 := ⟨CFloat.finite 0⟩

/-- The literal `1` (`1.0`) as a `float`. -/
instance : OfNat CFloat 1 := ⟨CFloat.finite 1⟩

/-- Two to the power `e`. -/
def pow2 (e : Int) : ℚ :=
  if 0 ≤ e then ((2 ^ e.toNat : Nat) : ℚ) else 1 / ((2 ^ (-e).toNat : Nat) : ℚ)

/-- The integer nearest to `y`; the even one of the two when `y` lies half-way. -/
def roundHalfEven (y : ℚ) : Int :=
  if y - ⌊y⌋ < 1 / 2 then ⌊y⌋
  else if 1 / 2 < y - ⌊y⌋ then ⌊y⌋ + 1
  else if ⌊y⌋ % 2 = 0 then ⌊y⌋ else ⌊y⌋ + 1

/-- The number of binary digits of `n ≥ 1`, less one; `fuel ≥ n` is enough. -/
def log2Fuel : Nat → Nat → Nat
  | 0, _ => 0
  | fuel + 1, n => if 2 ≤ n then log2Fuel fuel (n / 2) + 1 else 0

/-- The binary exponent of `x ≠ 0`: the `e` with `2^e ≤ |x| < 2^(e+1)`. -/
def binaryExponent (x : ℚ) : Int :=
  let a : Int := (log2Fuel x.num.natAbs x.num.natAbs : Int) - (log2Fuel x.den x.den : Int)
  if pow2 a ≤ |x| then a else a - 1

/-- The distance of the binary32 values around `x`: `2^(e-23)` for the binary
exponent `e` of `x`, which is taken as -126 for the subnormal values. -/
def ulpOf (x : ℚ) : ℚ := pow2 (max (binaryExponent x) (-126) - 23)

/-- The binary32 value nearest to the real number `x`, ties to even (the
rounding mode of C++ arithmetic), before the test for overflow. -/
def round32 (x : ℚ) : ℚ :=
  if x = 0 then 0 else ulpOf x * (roundHalfEven (x / ulpOf x) : ℚ)

/-- The rounding of a real number to a `float`: the nearest binary32 value,
an infinity when that is `2^128` or more in size. -/
def roundToFloat (x : ℚ) : CFloat :=
  if pow2 128 ≤ |round32 x| then CFloat.inf (decide (x < 0)) else CFloat.finite (round32 x)

/-- The conversion `(float) n` of an `int`, which C++ applies to the `int`
operand of a product with a `float`. -/
def CFloat.ofInt (n : Int) : CFloat := roundToFloat n

/-- The product `x * y` of two `float`s. -/
def CFloat.mul : CFloat → CFloat → CFloat
  | CFloat.finite a, CFloat.finite b => roundToFloat (a * b)
  | CFloat.finite a, CFloat.inf negative =>
      if a = 0 then CFloat.nan else CFloat.inf (xor negative (decide (a < 0)))
  | CFloat.inf negative, CFloat.finite b =>
      if b = 0 then CFloat.nan else CFloat.inf (xor negative (decide (b < 0)))
  | CFloat.inf n1, CFloat.inf n2 => CFloat.inf (xor n1 n2)
  | CFloat.nan, _ => CFloat.nan
  | _, CFloat.nan => CFloat.nan

instance : Mul CFloat := ⟨CFloat.mul⟩

/-- The conversion `int(x)` of a `float`: that of its value when it is finite;
for an infinity and a NaN, where C++ leaves it undefined, the least `int` (see
`toInt`). -/
def CFloat.toInt : CFloat → Int
  | CFloat.finite q => Clementine.toInt q
  | _ => -2147483648

/-- The `float` 0.02f: the binary32 value nearest to 2/100. -/
def float_0_02 : CFloat := CFloat.finite (5368709 / 268435456)

/-- The `float` 0.29f: the binary32 value nearest to 29/100. -/
def float_0_29 : CFloat := CFloat.finite (9730785 / 33554432)

/-- The `float` 1e10f: the binary32 value 10000000000. -/
def float_1e10 : CFloat := CFloat.finite 10000000000

/-- The narrowing of a `qint64` to a 32-bit `int` (two's complement wrap). -/
def toInt32 (x : Int) : Int := (x + 2147483648) % 4294967296 - 2147483648

/-- `QString::number(int)`. -/
def QString_number (n : Int) : String := toString n

/-- `QString::toLower()`; on the letters that matter here (`A`-`Z`) it is the
ASCII lower-casing. -/
def QString_toLower (s : String) : String := ⟨s.data.map Char.toLower⟩

/-- The fields of a character list separated by `sep` (empty fields included;
a list without `sep` is one field). -/
def fields (sep : Char) : List Char → List (List Char)
  | [] => [[]]
  | c :: cs =>
    if c = sep then [] :: fields sep cs
    else
      match fields sep cs with
      | [] => [[c]]
      | f :: fs => (c :: f) :: fs

/-- `s.section(sep, -1, -1)`: the last field of `s`. -/
def QString_section_last (sep : Char) (s : String) : String :=
  ⟨((fields sep s.data).getLast?).getD []⟩

/-- `s.section(sep, 0, -2)`: the fields of `s` but the last, joined by `sep`
(empty when `s` has one field only). -/
def QString_section_init (sep : Char) (s : String) : String :=
  ⟨List.intercalate [sep] (fields sep s.data).dropLast⟩

/-- `QString::contains(QChar)`. -/
def QString_contains (s : String) (c : Char) : Bool := s.data.contains c

/-- `QFileInfo::fileName()`: the path without its directory part. -/
def QFileInfo_fileName (path : String) : String := QString_section_last '/' path

/-- `QFileInfo::suffix()`: what follows the last `.` of the file name, empty
when the file name has no `.`. -/
def QFileInfo_suffix (path : String) : String :=
  let name := QFileInfo_fileName path
  if QString_contains name '.' then QString_section_last '.' name else ""

/-- `QFileInfo::baseName()`: the file name up to its first `.`. -/
def QFileInfo_baseName (path : String) : String :=
  ⟨((fields '.' (QFileInfo_fileName path).data).head?).getD []⟩

/-! ## Value types -/

/-- Modelled from the spec: `Song` is declared in `song.h`, which is not among
the sources. These are the fields the organiser and the segmenter read or
write. `url_` is the local file of the song's url (`url().toLocalFile()`, and
what `set_url(QUrl::fromLocalFile(p))` stores is `p`); `has_cue()` is "the cue
path is not empty". -/
structure Song where
  valid_ : Bool := false
  filetype_ : FileType := FileType.Type_Unknown
  url_ : String := ""
  basefilename_ : String := ""
  filesize_ : Int := -1
  title_ : String := ""
  artist_ : String := ""
  album_ : String := ""
  albumartist_ : String := ""
  year_ : Int := -1
  comment_ : String := ""
  genre_ : String := ""
  track_ : Int := -1
  cue_path_ : String := ""
  beginning_ : Int := 0
  end_ : Int := -1
deriving DecidableEq, Repr

/-- `Song::has_cue()`. -/
def Song.has_cue (s : Song) : Bool := s.cue_path_ != ""

/-- `SongOrFilePair` (organise.h:43-63): a song, a file name and the tag
`type_` (1 = song, 2 = file, 0 = default-constructed). -/
structure SongOrFilePair where
  song_ : Song := {}
  file_ : String := ""
  type_ : Int := 0
deriving DecidableEq, Repr

/-- `SongOrFilePair::SongOrFilePair(const Song&)` (organise.cpp:362-364). -/
def SongOrFilePair.ofSong (s : Song) : SongOrFilePair := { song_ := s, type_ := 1 }

/-- `SongOrFilePair::SongOrFilePair(const QString&)` (organise.cpp:366-368). -/
def SongOrFilePair.ofFile (f : String) : SongOrFilePair := { file_ := f, type_ := 2 }

/-- `SongOrFilePair::IsFile` (organise.cpp:382-384). -/
def SongOrFilePair.IsFile (p : SongOrFilePair) : Bool := p.type_ == 2

/-- `SongOrFilePair::IsSong` (organise.cpp:386-388). -/
def SongOrFilePair.IsSong (p : SongOrFilePair) : Bool := p.type_ == 1

/-- `SongOrFilePair::DisplayName` (organise.cpp:390-396). -/
def SongOrFilePair.DisplayName (p : SongOrFilePair) : String :=
  if p.IsSong then p.song_.artist_ ++ ", " ++ p.song_.title_ else p.file_

/-- `SongOrFilePair::GetFile` (organise.cpp:398-404). -/
def SongOrFilePair.GetFile (p : SongOrFilePair) : String :=
  if p.IsFile then p.file_ else p.song_.url_

/-- `Organise::Task` (organise.h:102-116). `new_filetype_` is not initialised
by the constructors; it is `Type_Unknown` here until it is assigned. -/
structure Task where
  song_or_file_ : SongOrFilePair := {}
  transcode_progress_ : CFloat := 0
  transcoded_filename_ : String := ""
  new_extension_ : String := ""
  new_filetype_ : FileType := FileType.Type_Unknown
deriving DecidableEq

/-- Modelled from the spec: `TranscoderPreset` is declared in `transcoder.h`,
which is not among the sources; the two fields the organiser reads. -/
structure TranscoderPreset where
  name_ : String := ""
  extension_ : String := ""
deriving DecidableEq, Repr

/-- Modelled from the spec: `MusicStorage::CopyJob` is declared in
`musicstorage.h`, which is not among the sources. `progress_` is the callback
`boost::bind(&Organise::SetSongProgress, this, _1, transcoded)`; what is kept
of it is the bound flag `transcoded`. -/
structure CopyJob where
  source_ : String := ""
  destination_ : String := ""
  metadata_ : Song := {}
  overwrite_ : Bool := false
  remove_original_ : Bool := false
  progress_ : Bool := false
deriving DecidableEq, Repr

/-- What `MakeSegmentMp3Splt` hands to libmp3splt before `mp3splt_split`: the
file to split, the output directory, the split points in order (value in
hundredths of a second, name, `true` for `SPLT_SPLITPOINT` and `false` for
`SPLT_SKIPPOINT`) and the tags in the argument order of `mp3splt_append_tags`. -/
structure SplitRequest where
  filename_to_split : String
  path_of_split : String
  splitpoints : List (Int × String × Bool)
  title : String
  artist : String
  album : String
  performer : String
  year : String
  comment : String
  track : Int
  genre : String
deriving DecidableEq, Repr

/-- What the organiser does to the outside, in the order it does it. -/
inductive Effect where
  | StartCopy
  | SetTaskProgress (progress total : Int)
  | AddJob (input : String) (preset : TranscoderPreset) (output : String)
  | TranscoderStart
  | mp3splt_split (request : SplitRequest)
  | CopyToStorage (job : CopyJob)
  | QFile_remove (path : String)
  | FinishCopy (success : Bool)
  | Eject
  | SetTaskFinished
  | Finished (files_with_errors : List String)
  | ScheduleProcessSomeFiles
  | ProgressTimerStart
  | ProgressTimerStop
deriving DecidableEq, Repr

/-- The answers of everything outside the class during one stretch of code
(one loop iteration, or the head or the tail of a tick). -/
structure World where
  /-- `destination_->StartCopy(&supported)`: the result and the list written. -/
  StartCopy : Bool × List FileType
  /-- `destination_->GetTranscodeMode()`. -/
  GetTranscodeMode : TranscodeMode
  /-- `destination_->GetTranscodeFormat()`. -/
  GetTranscodeFormat : FileType
  /-- `Transcoder::PickBestFormat`. -/
  PickBestFormat : List FileType → FileType
  /-- `Transcoder::PresetForFileType`. -/
  PresetForFileType : FileType → TranscoderPreset
  /-- What the transcoder would report as per-job progress, by job input. -/
  progress_report : List (String × CFloat)
  /-- `QFileInfo(path).isDir()`. -/
  isDir : String → Bool
  /-- `QDir(path).entryList(Dirs | Files | NoDotAndDotDot | Readable)`. -/
  entryList : String → List String
  /-- `TagReaderClient::ReadFileBlocking`: the song read from a file. -/
  ReadFileBlocking : String → Song
  /-- `QFileInfo(path).size()`. -/
  size : String → Int
  /-- `transcode_temp_name_.fileName()` after `open()`. -/
  QTemporaryFile_open : String
  /-- `format_.GetFilenameForSong`. -/
  GetFilenameForSong : Song → String
  /-- `destination_->CopyToStorage(job)`: the result. -/
  CopyToStorage : CopyJob → Bool
  /-- The calls of `job.progress_` the storage makes during `CopyToStorage(job)`:
  the fraction passed, and what the transcoder would report at that moment. -/
  copy_callbacks : CopyJob → List (CFloat × List (String × CFloat))
  /-- `QDir::tempPath()`. -/
  tempPath : String
  /-- The file name `QTemporaryFile` makes from a template. -/
  QTemporaryFile_fileName : String → String
  /-- The status `mp3splt_split` returns. -/
  mp3splt_split : SplitRequest → Int
  /-- The libmp3splt constant `SPLT_OK_SPLIT`. -/
  SPLT_OK_SPLIT : Int

/-! ## QMap<QString, Task> -/

/-- `QMap::contains`. -/
def QMap_contains (m : List (String × Task)) (key : String) : Bool :=
  m.any (fun kv => kv.1 == key)

/-- The assignment `m[key] = value`: the value of an existing key is replaced,
a new key is inserted. (A `QMap` keeps its entries sorted by key; nothing here
depends on the order, the position of a new entry is the end of the list.) -/
def QMap_set (m : List (String × Task)) (key : String) (value : Task) : List (String × Task) :=
  if QMap_contains m key then m.map (fun kv => if kv.1 == key then (key, value) else kv)
  else m ++ [(key, value)]

/-- `QMap::take`: the value of the key, removed from the map, or a
default-constructed value when the map has no such key. -/
def QMap_take (m : List (String × Task)) (key : String) : Task × List (String × Task) :=
  (((m.find? (fun kv => kv.1 == key)).map Prod.snd).getD {}, m.filter (fun kv => !(kv.1 == key)))

/-- `QMap::values`. -/
def QMap_values (m : List (String × Task)) : List Task := m.map Prod.snd

/-! ## The state of an Organise object -/

/-- The data members of `Organise` (organise.h:118-144) that the embedded
functions read or write. Two fields are not data members: `transcoder_jobs_`
belongs to the member object `transcoder_` (see `Transcoder_GetProgress`), and
`trace_` records the calls that leave the object. -/
structure State where
  copy_ : Bool
  overwrite_ : Bool
  eject_after_ : Bool
  supported_filetypes_ : List FileType := []
  task_count_ : Int
  transcode_temp_name_ : String := ""
  transcode_suffix_ : Int := 1
  tasks_pending_ : List Task
  tasks_transcoding_ : List (String × Task) := []
  tasks_complete_ : Int := 0
  started_ : Bool := false
  current_copy_progress_ : Int := 0
  files_with_errors_ : List String := []
  transcoder_jobs_ : List String := []
  trace_ : List Effect := []

/-- `Organise::Organise` (organise.cpp:38-64). -/
def Organise (copy overwrite eject_after : Bool) (songs_or_files : List SongOrFilePair) : State :=
  { copy_ := copy, overwrite_ := overwrite, eject_after_ := eject_after,
    task_count_ := songs_or_files.length,
    tasks_pending_ := songs_or_files.map (fun sof => { song_or_file_ := sof }) }

/-- The call of something outside the object, recorded. -/
def State.emit (s : State) (e : Effect) : State := { s with trace_ := s.trace_ ++ [e] }

/-! ## Progress -/

/-- Modelled from the spec: `Transcoder::GetProgress` is defined in
`transcoder.cpp`, which is not among the sources. It reports a fraction per
job: of what the transcoder would report (`report`), the entries of the jobs it
holds, that is the inputs given to `AddJob` whose completion it has not yet
signalled. -/
def Transcoder_GetProgress (report : List (String × CFloat)) (jobs : List String) :
    List (String × CFloat) :=
  report.filter (fun kv => jobs.contains kv.1)

/-- The points of a task that waits or is being transcoded: the summand
`qBound(0, int(task.transcode_progress_ * 50), 50)` of organise.cpp:319 and 322. -/
def Task.points (task : Task) : Int :=
  qBound 0 (task.transcode_progress_ * CFloat.ofInt 50).toInt 50

/-- `Organise::UpdateProgress` (organise.cpp:302-329); `transcode_progress` is
the map `transcoder_->GetProgress()` returned. -/
def UpdateProgress (transcode_progress : List (String × CFloat)) (s : State) : State :=
  let total := s.task_count_ * 100
  -- Update transcoding progress
  let tasks_transcoding := (transcode_progress.map Prod.fst).foldl
    (fun m filename =>
      if !QMap_contains m filename then m
      else m.map (fun kv =>
        if kv.1 == filename then
          (kv.1, { kv.2 with transcode_progress_ := (transcode_progress.lookup filename).getD 0 })
        else kv))
    s.tasks_transcoding_
  let progress := s.tasks_complete_ * 100
  let progress := s.tasks_pending_.foldl (fun progress task => progress + task.points) progress
  let progress := (QMap_values tasks_transcoding).foldl
    (fun progress task => progress + task.points) progress
  -- Add the progress of the track that is currently copying
  let progress := progress + s.current_copy_progress_
  ({ s with tasks_transcoding_ := tasks_transcoding }).emit (Effect.SetTaskProgress progress total)

/-- An entry of the in-flight map after the refresh loop of `UpdateProgress`
(organise.cpp:306-311): when the transcoder reports the key of the entry, the
progress of its task is the value reported, and the entry is as it was
otherwise. -/
def refreshed (transcode_progress : List (String × CFloat)) (kv : String × Task) :
    String × Task :=
  if (transcode_progress.map Prod.fst).contains kv.1 then
    (kv.1, { kv.2 with transcode_progress_ := (transcode_progress.lookup kv.1).getD 0 })
  else kv

/-- `Organise::SetSongProgress` (organise.cpp:295-300), with the map
`transcoder_->GetProgress()` returns in the `UpdateProgress` it ends with. -/
def SetSongProgress (transcode_progress : List (String × CFloat)) (progress : CFloat)
    (transcoded : Bool) (s : State) : State :=
  let max : Int := if transcoded then 50 else 100
  UpdateProgress transcode_progress
    { s with current_copy_progress_ :=
        (if transcoded then 50 else 0) + qBound 0 (progress * CFloat.ofInt max).toInt (max - 1) }

/-- `Organise::timerEvent` (organise.cpp:350-356) for the event of
`transcode_progress_timer_`. -/
def timerEvent (transcode_progress : List (String × CFloat)) (s : State) : State :=
  UpdateProgress transcode_progress s

/-- `Organise::FileTranscoded` (organise.cpp:331-342). -/
def FileTranscoded (filename : String) (success : Bool) (s : State) : State :=
  let s := s.emit Effect.ProgressTimerStop
  let task := (QMap_take s.tasks_transcoding_ filename).1
  let s := { s with tasks_transcoding_ := (QMap_take s.tasks_transcoding_ filename).2 }
  let s :=
    if !success then { s with files_with_errors_ := s.files_with_errors_ ++ [filename] }
    else { s with tasks_pending_ := s.tasks_pending_ ++ [task] }
  s.emit Effect.ScheduleProcessSomeFiles

/-- `Organise::FiddleFileExtension` (organise.cpp:344-348). -/
def FiddleFileExtension (filename new_extension : String) : String :=
  if QString_contains (QString_section_last '/' filename) '.' then
    QString_section_init '.' filename ++ "." ++ new_extension
  else filename ++ "." ++ new_extension

/-! ## Segmenter (segmenter.cpp) -/

/-- `Segmenter::Type` (segmenter.h:24-26). -/
inductive SegmenterType where
  | UNSUPPORTED
  | MP3
  | OGG
deriving DecidableEq, Repr

/-- The macro `NANO_TO_HECTO` (segmenter.cpp:35): integer division of a
`qint64`, which truncates toward zero. -/
def NANO_TO_HECTO (a : Int) : Int := Int.tdiv a 10000000

/-- What `MakeSegmentMp3Splt` leaves: its result, the `result_file` it wrote
and the request it made of the splitter. -/
structure SegmentResult where
  ok : Bool
  result_file : String
  request : SplitRequest
deriving DecidableEq, Repr

/-- The name `MakeSegmentMp3Splt` gives the segment (segmenter.cpp:38-52): the
base name of a fresh temporary file with the extension of the source. -/
def MakeSegmentMp3Splt_filename (w : World) (job : CopyJob) : String :=
  let ext := QString_toLower (QFileInfo_suffix job.source_)
  let templ := w.tempPath ++ "/clementine_XXXXXX." ++ ext
  let result_file := w.QTemporaryFile_fileName templ
  QFileInfo_baseName result_file

/-- What `MakeSegmentMp3Splt` asks of the splitter (segmenter.cpp:56-94). -/
def MakeSegmentMp3Splt_request (w : World) (job : CopyJob) : SplitRequest :=
  let filename := MakeSegmentMp3Splt_filename w job
  let song := job.metadata_
  let begin_offset_in_hs := toInt32 (NANO_TO_HECTO song.beginning_)
  let end_offset_in_hs := if song.end_ ≥ 0 then toInt32 (NANO_TO_HECTO song.end_) else -1
  { filename_to_split := job.source_
    path_of_split := w.tempPath
    splitpoints := [(begin_offset_in_hs, filename, true)] ++
      (if end_offset_in_hs ≥ 0 then [(end_offset_in_hs, "", false)] else [])
    title := song.title_
    artist := song.artist_
    album := song.album_
    performer := song.albumartist_
    year := toString song.year_
    comment := song.comment_
    track := song.track_
    genre := song.genre_ }

/-- `MakeSegmentMp3Splt` (segmenter.cpp:37-110). -/
def MakeSegmentMp3Splt (w : World) (job : CopyJob) : SegmentResult :=
  let ext := QString_toLower (QFileInfo_suffix job.source_)
  let filename := MakeSegmentMp3Splt_filename w job
  let request := MakeSegmentMp3Splt_request w job
  let error := w.mp3splt_split request
  if error = w.SPLT_OK_SPLIT then
    { ok := true, result_file := w.tempPath ++ "/" ++ filename ++ "." ++ ext, request := request }
  else
    { ok := false, result_file := "", request := request }

/-- `Segmenter::CheckSource` (segmenter.cpp:128-138) of a segmenter made for `job_`. -/
def Segmenter_CheckSource (job_ : CopyJob) : SegmenterType :=
  let ext := QString_toLower (QFileInfo_suffix job_.source_)
  if ext = "mp3" then SegmenterType.MP3
  else if ext = "ogg" then SegmenterType.OGG
  else SegmenterType.UNSUPPORTED

/-- `Segmenter::CanSegment` (segmenter.cpp:140-142). -/
def Segmenter_CanSegment (job_ : CopyJob) : Bool :=
  Segmenter_CheckSource job_ != SegmenterType.UNSUPPORTED

/-- `Segmenter::Create` (segmenter.cpp:144-160): the result, the member
`segment_file_` afterwards (what `CreatedFileName` returns) and the calls of
the splitter made. -/
def Segmenter_Create (w : World) (job_ : CopyJob) : Bool × String × List Effect :=
  match Segmenter_CheckSource job_ with
  | SegmenterType.MP3 =>
    let r := MakeSegmentMp3Splt w job_
    (r.ok, r.result_file, [Effect.mp3splt_split r.request])
  | SegmenterType.OGG =>
    let r := MakeSegmentMp3Splt w job_
    (r.ok, r.result_file, [Effect.mp3splt_split r.request])
  | SegmenterType.UNSUPPORTED => (false, "", [])

/-! ## Organise::ProcessSomeFiles -/

/-- `Organise::kBatchSize` (organise.cpp:35). -/
def kBatchSize : Nat := 10

/-- The call `destination_->CopyToStorage(job)` (organise.cpp:244): the storage
calls `job.progress_`, that is `SetSongProgress(fraction, transcoded)`, any
number of times and returns its result. -/
def CopyToStorage (w : World) (job : CopyJob) (s : State) : Bool × State :=
  let s := s.emit (Effect.CopyToStorage job)
  let s := (w.copy_callbacks job).foldl
    (fun s cb =>
      SetSongProgress (Transcoder_GetProgress cb.2 s.transcoder_jobs_) cb.1 job.progress_ s) s
  (w.CopyToStorage job, s)

/-- The copy job the loop body of `Organise::ProcessSomeFiles` builds for a task
(organise.cpp:204-214). -/
def ProcessSomeFiles_job (w : World) (task : Task) (song : Song) (s : State) : CopyJob :=
  let song_or_file := task.song_or_file_
  let _filename := if song_or_file.IsFile then song_or_file.file_ else song_or_file.song_.url_
  { source_ := if task.transcoded_filename_ = "" then _filename else task.transcoded_filename_
    destination_ := w.GetFilenameForSong song
    metadata_ := song
    overwrite_ := s.overwrite_
    remove_original_ := !s.copy_
    progress_ := decide (task.transcoded_filename_ ≠ "") }

/-- The segmenting in the loop body of `Organise::ProcessSomeFiles`
(organise.cpp:216-236) for the job built: the local `segment_file`, the job
(its source is the segment when one was made) and the state. -/
def ProcessSomeFiles_segment (w : World) (song : Song) (job : CopyJob) (s : State) :
    String × CopyJob × State :=
  if song.has_cue then
    if Segmenter_CanSegment job then
      let created := Segmenter_Create w job
      let s := { s with trace_ := s.trace_ ++ created.2.2 }
      if created.1 then (created.2.1, { job with source_ := created.2.1 }, s)
      else ("", job, s)
    else ("", job, s)
  else ("", job, s)

/-- The copy in the loop body of `Organise::ProcessSomeFiles` (organise.cpp:238-247):
a track of a cue without its segment is marked failed and not copied, any
other job goes to the storage and is marked failed when the copy fails. -/
def ProcessSomeFiles_store (w : World) (task : Task) (needs_segment : Bool)
    (segment_file : String) (job : CopyJob) (s : State) : State :=
  if needs_segment && segment_file = "" then
    { s with files_with_errors_ := s.files_with_errors_ ++ [task.song_or_file_.DisplayName] }
  else
    let copied := CopyToStorage w job s
    if !copied.1 then
      { copied.2 with
        files_with_errors_ := copied.2.files_with_errors_ ++ [task.song_or_file_.DisplayName] }
    else copied.2

/-- The end of the loop body of `Organise::ProcessSomeFiles` (organise.cpp:249-257):
the temporary files are removed and the task counts as complete. -/
def ProcessSomeFiles_cleanup (task : Task) (segment_file : String) (s : State) : State :=
  -- Clean up the temporary transcoded file
  let s := if task.transcoded_filename_ ≠ "" then s.emit (Effect.QFile_remove task.transcoded_filename_)
    else s
  -- Clean up the segmented file if it is there
  let s := if segment_file ≠ "" then s.emit (Effect.QFile_remove segment_file) else s
  { s with tasks_complete_ := s.tasks_complete_ + 1 }

/-- The second half of the loop body of `Organise::ProcessSomeFiles`
(organise.cpp:204-257): the copy of a task whose song is known and that needs
no transcoding (any more). -/
def ProcessSomeFiles_copy (w : World) (task : Task) (song : Song) (s : State) : State :=
  let job := ProcessSomeFiles_job w task song s
  let needs_segment := song.has_cue
  let segmented := ProcessSomeFiles_segment w song job s
  let s := ProcessSomeFiles_store w task needs_segment segmented.1 segmented.2.1 segmented.2.2
  ProcessSomeFiles_cleanup task segmented.1 s

/-- The song of a task, as the loop body of `Organise::ProcessSomeFiles` gets it
(organise.cpp:150-158): read from the file for a raw path, the song carried
otherwise. -/
def ProcessSomeFiles_read (w : World) (task : Task) : Song :=
  if task.song_or_file_.IsFile then w.ReadFileBlocking task.song_or_file_.file_
  else task.song_or_file_.song_

/-- The song of a task that has been transcoded already, as the loop body of
`Organise::ProcessSomeFiles` rewrites it (organise.cpp:164-172): the new file
type, the new extension on the url and on the base file name, the size of the
transcoded file. -/
def ProcessSomeFiles_retag (w : World) (task : Task) (song : Song) : Song :=
  { song with
    filetype_ := task.new_filetype_
    url_ := FiddleFileExtension song.url_ task.new_extension_
    basefilename_ := FiddleFileExtension song.basefilename_ task.new_extension_
    filesize_ := w.size task.transcoded_filename_ }

/-- The expansion of a directory in the loop body of `Organise::ProcessSomeFiles`
(organise.cpp:140-146): one new pending task per entry, each counted. -/
def ProcessSomeFiles_expand (w : World) (task : Task) (s : State) : State :=
  (w.entryList task.song_or_file_.file_).foldl
    (fun s entry =>
      { s with
        tasks_pending_ := s.tasks_pending_ ++
          [{ song_or_file_ := SongOrFilePair.ofFile (task.song_or_file_.file_ ++ "/" ++ entry) }]
        task_count_ := s.task_count_ + 1 }) s

/-- The dispatch of a task to the transcoder in the loop body of
`Organise::ProcessSomeFiles` (organise.cpp:177-198), `dest_type` being the
format `CheckTranscode` chose. -/
def ProcessSomeFiles_transcode (w : World) (task : Task) (dest_type : FileType) (s : State) :
    State :=
  let song_or_file := task.song_or_file_
  -- Get the preset
  let preset := w.PresetForFileType dest_type
  -- Get a temporary name for the transcoded file
  let task := { task with
    transcoded_filename_ := s.transcode_temp_name_ ++ "-" ++ QString_number s.transcode_suffix_
    new_extension_ := preset.extension_
    new_filetype_ := dest_type }
  let s := { s with
    transcode_suffix_ := s.transcode_suffix_ + 1
    tasks_transcoding_ := QMap_set s.tasks_transcoding_ song_or_file.file_ task }
  -- Start the transcoding
  let filename := if song_or_file.IsFile then song_or_file.file_ else song_or_file.song_.url_
  let s := { s with transcoder_jobs_ := s.transcoder_jobs_ ++ [filename] }
  let s := s.emit (Effect.AddJob filename preset task.transcoded_filename_)
  s.emit Effect.TranscoderStart

/-- The body of the loop of `Organise::ProcessSomeFiles` after `takeFirst`
(organise.cpp:133-257), for the task taken. -/
def ProcessSomeFiles_body (w : World) (task : Task) (s : State) : State :=
  let song_or_file := task.song_or_file_
  -- Is it a directory?
  if song_or_file.IsFile && w.isDir song_or_file.file_ then ProcessSomeFiles_expand w task s
  else
    -- Read metadata from the file
    let song := ProcessSomeFiles_read w task
    if song_or_file.IsFile && !song.valid_ then s
    -- Maybe this file is one that has been transcoded already?
    else if task.transcoded_filename_ ≠ "" then
      ProcessSomeFiles_copy w task (ProcessSomeFiles_retag w task song) s
    else
      -- Figure out if we need to transcode it
      let dest_type := CheckTranscode w.PickBestFormat w.GetTranscodeMode w.GetTranscodeFormat
        s.supported_filetypes_ song.filetype_
      if dest_type ≠ FileType.Type_Unknown then ProcessSomeFiles_transcode w task dest_type s
      else ProcessSomeFiles_copy w task song s

/-- The loop of `Organise::ProcessSomeFiles` (organise.cpp:126-258) from
iteration `i` on, with `n` iterations left; iteration `i` is answered by
`ws (i + 1)`. -/
def ProcessSomeFiles_loop (ws : Nat → World) : Nat → Nat → State → State
  | _, 0, s => s
  | i, n + 1, s =>
    let w := ws (i + 1)
    let s := SetSongProgress (Transcoder_GetProgress w.progress_report s.transcoder_jobs_) 0 false s
    match s.tasks_pending_ with
    | [] => s
    | task :: rest =>
      ProcessSomeFiles_loop ws (i + 1) n (ProcessSomeFiles_body w task { s with tasks_pending_ := rest })

/-- The start of the first tick of `Organise::ProcessSomeFiles` (organise.cpp:82-94). -/
def ProcessSomeFiles_start (w : World) (s : State) : State :=
  if !s.started_ then
    let s := { s with transcode_temp_name_ := w.QTemporaryFile_open }
    let s := { s.emit Effect.StartCopy with supported_filetypes_ := w.StartCopy.2 }
    let s :=
      if !w.StartCopy.1 then
        -- Failed to start - mark everything as failed
        { s with
          files_with_errors_ := s.tasks_pending_.foldl
            (fun errors task => errors ++ [task.song_or_file_.DisplayName]) s.files_with_errors_
          tasks_pending_ := [] }
      else s
    { s with started_ := true }
  else s

/-- The end of a run in `Organise::ProcessSomeFiles` (organise.cpp:105-122),
reached when nothing is pending and nothing is being transcoded. -/
def ProcessSomeFiles_finish (w : World) (s : State) : State :=
  let s := UpdateProgress (Transcoder_GetProgress w.progress_report s.transcoder_jobs_) s
  let s := s.emit (Effect.FinishCopy s.files_with_errors_.isEmpty)
  let s := if s.eject_after_ then s.emit Effect.Eject else s
  let s := s.emit Effect.SetTaskFinished
  s.emit (Effect.Finished s.files_with_errors_)

/-- `Organise::ProcessSomeFiles` (organise.cpp:81-262), one tick. The head of
the tick is answered by `ws 0`, iteration `i` of the loop by `ws (i + 1)`, the
tail by `ws (kBatchSize + 1)`. -/
def ProcessSomeFiles (ws : Nat → World) (s : State) : State :=
  let s := ProcessSomeFiles_start (ws 0) s
  -- None left?
  if s.tasks_pending_.isEmpty then
    if !s.tasks_transcoding_.isEmpty then
      -- Just wait - FileTranscoded will start us off again in a little while
      s.emit Effect.ProgressTimerStart
    else ProcessSomeFiles_finish (ws 0) s
  else
    -- We process files in batches so we can be cancelled part-way through.
    let s := ProcessSomeFiles_loop ws 0 kBatchSize s
    let s := SetSongProgress
      (Transcoder_GetProgress (ws (kBatchSize + 1)).progress_report s.transcoder_jobs_) 0 false s
    s.emit Effect.ScheduleProcessSomeFiles

/-! ## The events of a run -/

/-- One event of the object's event loop: a tick of `ProcessSomeFiles`, an
event of the progress timer, or the transcoder's `JobComplete` signal for one
of the jobs it holds (the transcoder drops the job, `FileTranscoded` runs). -/
inductive Step : State → State → Prop where
  | tick (ws : Nat → World) (s : State) : Step s (ProcessSomeFiles ws s)
  | timer (report : List (String × CFloat)) (s : State) :
      Step s (timerEvent (Transcoder_GetProgress report s.transcoder_jobs_) s)
  | transcoded (filename : String) (success : Bool) (s : State) :
      filename ∈ s.transcoder_jobs_ →
      Step s (FileTranscoded filename success
        { s with transcoder_jobs_ := s.transcoder_jobs_.erase filename })

/-- The states a run can be in after any number of events, from `s0` on. -/
def Reachable (s0 s : State) : Prop := Relation.ReflTransGen Step s0 s

/-- A world for the worked examples: a storage that supports format 5 only, in
mode Unsupported with no preferred format; files of format 2 whatever the
path, with a cue reference when the path ends in `.mp3`; a copy that reports
half-way and succeeds; a splitter that succeeds. -/
def sampleWorld : World :=
  { StartCopy := (true, [Type_Other 5])
    GetTranscodeMode := Transcode_Unsupported
    GetTranscodeFormat := Type_Unknown
    PickBestFormat := fun l => l.headD Type_Unknown
    PresetForFileType := fun _ => { name_ := "Mp3", extension_ := "mp3" }
    progress_report := []
    isDir := fun _ => false
    entryList := fun _ => []
    ReadFileBlocking := fun p =>
      { valid_ := true, filetype_ := Type_Other 2, url_ := p, artist_ := "Artist", title_ := p,
        cue_path_ := if QFileInfo_suffix p = "mp3" then "/music/album.cue" else "" }
    size := fun _ => 1000
    QTemporaryFile_open := "/tmp/qt_temp.1"
    GetFilenameForSong := fun song => "/dest/" ++ song.title_
    CopyToStorage := fun _ => true
    copy_callbacks := fun _ => [(CFloat.finite (1 / 2), [])]
    tempPath := "/tmp"
    QTemporaryFile_fileName := fun _ => "/tmp/clementine_abcdef.mp3"
    mp3splt_split := fun _ => 1
    SPLT_OK_SPLIT := 1 }

/-- The song the copy job of a task is built from (organise.cpp:160-173, 210):
the song read, rewritten for the new format when the task has been transcoded. -/
def ProcessSomeFiles_song (w : World) (task : Task) : Song :=
  if task.transcoded_filename_ ≠ "" then ProcessSomeFiles_retag w task (ProcessSomeFiles_read w task)
  else ProcessSomeFiles_read w task

/-- A task for the worked examples: a loaded track of format 5 that is part of
a cue sheet, its audio in the file `url`. -/
def sampleCueTask (url : String) : Task :=
  { song_or_file_ := SongOrFilePair.ofSong
      { valid_ := true, filetype_ := Type_Other 5, url_ := url, artist_ := "Artist",
        title_ := "Track 2", cue_path_ := "/music/album.cue", beginning_ := 180000000000,
        end_ := 400000000000 } }

/-- An effect that publishes the progress. -/
def Effect.isProgress : Effect → Bool
  | Effect.SetTaskProgress _ _ => true
  | _ => false

/-- An effect that hands work to the storage's copy or to the transcoder. -/
def Effect.isCopyOrTranscode : Effect → Bool
  | Effect.CopyToStorage _ => true
  | Effect.AddJob _ _ _ => true
  | _ => false

/-- A run that is over, nothing queued and nothing in flight, with no copy and
no transcode job issued so far. -/
def Idle (s : State) : Prop :=
  s.started_ = true ∧ s.tasks_pending_ = [] ∧ s.tasks_transcoding_ = [] ∧
  s.transcoder_jobs_ = [] ∧ ∀ e ∈ s.trace_, e.isCopyOrTranscode = false

/-! ## The invariant of a run -/

/-- The published values so far are within their totals, and the totals within the present one. -/
def PublishedOk (s : State) : Prop :=
  ∀ p t, Effect.SetTaskProgress p t ∈ s.trace_ → p ≤ t ∧ t ≤ s.task_count_ * 100

/-- The part of the invariant of a run that holds at every point of a tick. -/
def Core (s : State) : Prop :=
  0 ≤ s.tasks_complete_ ∧
  (s.tasks_transcoding_.map Prod.fst).Nodup ∧
  (∀ kv ∈ s.tasks_transcoding_, 0 < kv.2.points → kv.1 ∈ s.transcoder_jobs_) ∧
  (∀ kv ∈ s.tasks_transcoding_, kv.2.transcoded_filename_ ≠ "") ∧
  (∀ t ∈ s.tasks_pending_, t.transcoded_filename_ = "" → t.points = 0) ∧
  PublishedOk s

/-- The tasks complete, pending and at the transcoder, and `reserved` more
(the task being copied), are within the task count. -/
def Budget (s : State) (reserved : Int) : Prop :=
  s.tasks_complete_ + s.tasks_pending_.length + s.transcoder_jobs_.length + reserved
    ≤ s.task_count_

/-- The invariant of a run between two events. -/
def Inv (s : State) : Prop := Core s ∧ Budget s 0 ∧ s.current_copy_progress_ = 0

/-! ## Batches, frames and worked runs -/

/-- A leaf task with valid metadata that needs neither transcoding nor
segmenting, for the answers `w` and the supported formats `supported`. -/
def PlainTask (w : World) (supported : List FileType) (task : Task) : Prop :=
  (task.song_or_file_.IsFile && w.isDir task.song_or_file_.file_) = false ∧
  (task.song_or_file_.IsFile && !(ProcessSomeFiles_read w task).valid_) = false ∧
  (task.transcoded_filename_ ≠ "" ∨
    CheckTranscode w.PickBestFormat w.GetTranscodeMode w.GetTranscodeFormat supported
      (ProcessSomeFiles_read w task).filetype_ = Type_Unknown) ∧
  (ProcessSomeFiles_read w task).has_cue = false

/-- The tasks of a batch, from iteration `i` on, are all plain. -/
def PlainBatch (ws : Nat → World) (supported : List FileType) : Nat → List Task → Prop
  | _, [] => True
  | i, task :: rest => PlainTask (ws (i + 1)) supported task ∧ PlainBatch ws supported (i + 1) rest

/-- The display names a batch of plain tasks adds to the failure list: those of
the tasks whose copy the storage fails, in order. -/
def failedCopies (ws : Nat → World) (s : State) : Nat → List Task → List String
  | _, [] => []
  | i, task :: rest =>
    (if (ws (i + 1)).CopyToStorage
        (ProcessSomeFiles_job (ws (i + 1)) task (ProcessSomeFiles_song (ws (i + 1)) task) s)
      then [] else [task.song_or_file_.DisplayName]) ++ failedCopies ws s (i + 1) rest

/-- What a piece of the batch step leaves alone: everything but the progress
values of the in-flight map, `current_copy_progress_`, the failure list,
`tasks_complete_` and the calls recorded. -/
def SameQueue (s s' : State) : Prop :=
  s'.copy_ = s.copy_ ∧ s'.overwrite_ = s.overwrite_ ∧ s'.eject_after_ = s.eject_after_ ∧
  s'.supported_filetypes_ = s.supported_filetypes_ ∧ s'.task_count_ = s.task_count_ ∧
  s'.transcode_temp_name_ = s.transcode_temp_name_ ∧
  s'.transcode_suffix_ = s.transcode_suffix_ ∧ s'.tasks_pending_ = s.tasks_pending_ ∧
  s'.tasks_transcoding_.map Prod.fst = s.tasks_transcoding_.map Prod.fst ∧
  s'.started_ = s.started_ ∧ s'.transcoder_jobs_ = s.transcoder_jobs_

/-- An effect of the loop of the batch step: a progress publication, a job for
the transcoder and its start, a call of the splitter, a copy, a file removal. -/
def Effect.isBatch : Effect → Bool
  | Effect.SetTaskProgress _ _ => true
  | Effect.AddJob _ _ _ => true
  | Effect.TranscoderStart => true
  | Effect.mp3splt_split _ => true
  | Effect.CopyToStorage _ => true
  | Effect.QFile_remove _ => true
  | _ => false

/-- An effect of the end of a run: `FinishCopy` or the signal `Finished`. -/
def Effect.isFinish : Effect → Bool
  | Effect.FinishCopy _ => true
  | Effect.Finished _ => true
  | _ => false

/-- The calls recorded in `s'` are those of `s` followed by calls that all
satisfy `P`. -/
def Extends (P : Effect → Bool) (s s' : State) : Prop :=
  ∃ l, s'.trace_ = s.trace_ ++ l ∧ ∀ e ∈ l, P e = true

/-- A loaded track for the worked examples: format 2 (which the storage of
`sampleWorld` does not support), not part of a cue sheet, its audio in the
file `url`. -/
def sampleTrack (url : String) : Song :=
  { valid_ := true, filetype_ := Type_Other 2, url_ := url, artist_ := "Artist", title_ := "Song" }

/-- Modelled from the spec: the transcoder's signal `JobComplete(filename,
success)`, connected to `FileTranscoded` in `Organise::Start`
(organise.cpp:75): the transcoder drops the job, `FileTranscoded` runs. -/
def JobComplete (filename : String) (success : Bool) (s : State) : State :=
  FileTranscoded filename success { s with transcoder_jobs_ := s.transcoder_jobs_.erase filename }

/-- Modelled from the spec: the temporary transcode files of the modelled file
system after the calls recorded, in the order of their creation: the output
file of every job handed to the transcoder (on disk once the transcoder has
reported success for the job), less the files `QFile::remove` was called on
afterwards. -/
def transcodedFiles (trace : List Effect) : List String :=
  trace.foldl
    (fun files e =>
      match e with
      | Effect.AddJob _ _ output => files ++ [output]
      | Effect.QFile_remove path => files.filter (fun f => f != path)
      | _ => files) []

/-- A state for the worked examples: the job of the one raw path
`/music/a.flac` after its first tick on `sampleWorld`, which hands the file to
the transcoder, and the transcoder's report of success. -/
def sampleTranscoded : State :=
  JobComplete "/music/a.flac" true
    (ProcessSomeFiles (fun _ => sampleWorld)
      (Organise true false false [SongOrFilePair.ofFile "/music/a.flac"]))

/-- A world for the worked examples: `sampleWorld` with a tag reader that
finds no valid metadata in any file. -/
def sampleWorldUnreadable : World :=
  { sampleWorld with ReadFileBlocking := fun _ => {} }

/-- The call `QTimer::singleShot(0, this, SLOT(ProcessSomeFiles()))`. -/
def Effect.isSchedule : Effect → Bool
  | Effect.ScheduleProcessSomeFiles => true
  | _ => false

/-- The number of ticks of `ProcessSomeFiles` that the event `s → s'`
scheduled: the calls of `QTimer::singleShot` it added to the record. -/
def scheduledBy (s s' : State) : Nat :=
  (s'.trace_.filter Effect.isSchedule).length - (s.trace_.filter Effect.isSchedule).length

/-- An organiser in its event loop: the object, and the number of invocations
of the slot `ProcessSomeFiles` that are posted and have not run yet. -/
structure Run where
  organise_ : State
  scheduled_ : Nat

/-- `Organise::Start` (organise.cpp:66-79): the thread is started, its signal
`started()` invokes `ProcessSomeFiles` once. -/
def Start (s : State) : Run := { organise_ := s, scheduled_ := 1 }

/-- One posted invocation of `ProcessSomeFiles` runs. -/
def Run.tick (ws : Nat → World) (r : Run) : Run :=
  { organise_ := ProcessSomeFiles ws r.organise_
    scheduled_ := r.scheduled_ - 1 + scheduledBy r.organise_ (ProcessSomeFiles ws r.organise_) }

/-- The transcoder's signal `JobComplete` runs `FileTranscoded`. -/
def Run.transcoded (filename : String) (success : Bool) (r : Run) : Run :=
  { organise_ := JobComplete filename success r.organise_
    scheduled_ := r.scheduled_ + scheduledBy r.organise_ (JobComplete filename success r.organise_) }

/-- An event of the progress timer. -/
def Run.timer (report : List (String × CFloat)) (r : Run) : Run :=
  { r with
    organise_ := timerEvent (Transcoder_GetProgress report r.organise_.transcoder_jobs_)
      r.organise_ }

/-- One event of the event loop of a run in which `ProcessSomeFiles` runs only
when an invocation of it is posted: by `Start`, by the end of a batch, by
`FileTranscoded`. The end of a run queues the deletion of the object
(`deleteLater`, organise.cpp:118) behind the invocations posted before it and
withdraws none of them; the deletion itself is not an event here. -/
inductive RunStep : Run → Run → Prop where
  | tick (ws : Nat → World) (r : Run) : 0 < r.scheduled_ → RunStep r (r.tick ws)
  | timer (report : List (String × CFloat)) (r : Run) : RunStep r (r.timer report)
  | transcoded (filename : String) (success : Bool) (r : Run) :
      filename ∈ r.organise_.transcoder_jobs_ → RunStep r (r.transcoded filename success)

/-- The runs reachable from `r0` by any number of events. -/
def RunReachable (r0 r : Run) : Prop := Relation.ReflTransGen RunStep r0 r

/-- A run for the worked examples: the job of the two raw paths
`/music/a.flac` and `/music/b.flac` on `sampleWorld`. The first tick hands
both to the transcoder, the second finds nothing to do and waits, the
transcoder reports success for both, the third tick copies both, the fourth
and the fifth find nothing left. -/
def sampleRun : Nat → Run
  | 0 => Start (Organise true false false
      [SongOrFilePair.ofFile "/music/a.flac", SongOrFilePair.ofFile "/music/b.flac"])
  | 1 => (sampleRun 0).tick (fun _ => sampleWorld)
  | 2 => (sampleRun 1).tick (fun _ => sampleWorld)
  | 3 => (sampleRun 2).transcoded "/music/a.flac" true
  | 4 => (sampleRun 3).transcoded "/music/b.flac" true
  | n + 5 => (sampleRun (n + 4)).tick (fun _ => sampleWorld)

/-- A world for the worked examples: `sampleWorld` with a tag reader that finds
no valid metadata in `/music/x.bin`, a track of format 5 (which the storage
supports) in `/music/b.ogg`, and a track of format 2 in any other file. -/
def sampleWorldMixed : World :=
  { sampleWorld with
    ReadFileBlocking := fun p =>
      if p = "/music/x.bin" then {}
      else
        { valid_ := true, filetype_ := if p = "/music/b.ogg" then Type_Other 5 else Type_Other 2,
          url_ := p, artist_ := "Artist", title_ := p } }

/-- The number of the raw paths among `items` in which the tag reader of `w`
finds valid metadata. -/
def validCount (w : World) (items : List SongOrFilePair) : Nat :=
  (items.filter (fun p => (w.ReadFileBlocking p.file_).valid_)).length

/-- A run for the worked examples: the job of the three raw paths
`/music/x.bin` (no valid metadata), `/music/b.ogg` (no transcoding needed) and
`/music/c.flac` (to be transcoded) on `sampleWorldMixed`. The first tick drops
the first, copies the second and hands the third to the transcoder; the second
tick waits; the transcoder reports success; the third tick copies the
transcoded file; the fourth ends the run. -/
def sampleThree : Nat → Run
  | 0 => Start (Organise true false false
      [SongOrFilePair.ofFile "/music/x.bin", SongOrFilePair.ofFile "/music/b.ogg",
       SongOrFilePair.ofFile "/music/c.flac"])
  | 1 => (sampleThree 0).tick (fun _ => sampleWorldMixed)
  | 2 => (sampleThree 1).tick (fun _ => sampleWorldMixed)
  | 3 => (sampleThree 2).transcoded "/music/c.flac" true
  | n + 4 => (sampleThree (n + 3)).tick (fun _ => sampleWorldMixed)

/-- A run for the worked examples: the job that names the raw path
`/music/a.flac` twice, on `sampleWorld`, where the file has valid metadata and
is to be transcoded, and every copy succeeds. The first tick hands the file to
the transcoder twice; the second tick waits; the transcoder reports success
for one of its two jobs; the third tick copies a transcoded file; the fourth
ends the run, while the transcoder still holds the other job. -/
def sampleTwice : Nat → Run
  | 0 => Start (Organise true false false
      [SongOrFilePair.ofFile "/music/a.flac", SongOrFilePair.ofFile "/music/a.flac"])
  | 1 => (sampleTwice 0).tick (fun _ => sampleWorld)
  | 2 => (sampleTwice 1).tick (fun _ => sampleWorld)
  | 3 => (sampleTwice 2).transcoded "/music/a.flac" true
  | n + 4 => (sampleTwice (n + 3)).tick (fun _ => sampleWorld)

/-- The task that the loop body stores in the map of transcodes in flight when
it dispatches `task` (organise.cpp:181-187): the task with its temporary
output name, the extension of the preset and the target type. -/
def dispatched (w : World) (task : Task) (dest_type : FileType) (s : State) : Task :=
  { task with
    transcoded_filename_ := s.transcode_temp_name_ ++ "-" ++ QString_number s.transcode_suffix_
    new_extension_ := (w.PresetForFileType dest_type).extension_
    new_filetype_ := dest_type }

/-- The target type the loop body gets from `CheckTranscode` for a task
(organise.cpp:176), `supported` being `supported_filetypes_`. -/
def ProcessSomeFiles_dest_type (w : World) (task : Task) (supported : List FileType) : FileType :=
  CheckTranscode w.PickBestFormat w.GetTranscodeMode w.GetTranscodeFormat supported
    (ProcessSomeFiles_read w task).filetype_

/-- The temporary output names given to the transcoder so far: the third
argument of every `AddJob` recorded, in order. -/
def transcodeOutputs (trace : List Effect) : List String :=
  trace.filterMap (fun e =>
    match e with
    | Effect.AddJob _ _ output => some output
    | _ => none)

/-- The call `transcoder_->AddJob`. -/
def Effect.isAddJob : Effect → Bool
  | Effect.AddJob _ _ _ => true
  | _ => false

/-- The step `s → s'` dispatched nothing: the temporary name, the suffix
counter and the started flag are as they were, and no `AddJob` was recorded. -/
def Undispatched (s s' : State) : Prop :=
  s'.transcode_temp_name_ = s.transcode_temp_name_ ∧
  s'.transcode_suffix_ = s.transcode_suffix_ ∧
  s'.started_ = s.started_ ∧
  transcodeOutputs s'.trace_ = transcodeOutputs s.trace_

/-- The temporary output names given out so far are the names of the suffixes
1, 2, ... up to the one before `transcode_suffix_`, in this order, and none
has been given out before the first tick. -/
def NamesInv (s : State) : Prop :=
  ∃ k : Nat, s.transcode_suffix_ = (k : Int) + 1 ∧
    transcodeOutputs s.trace_ =
      (List.range k).map
        (fun (j : Nat) => s.transcode_temp_name_ ++ "-" ++ QString_number ((j : Int) + 1)) ∧
    (s.started_ = false → k = 0)

/-! ## Cue-sheet indexes (cueparser.cpp) -/

/-- Modelled from the spec: the constant `kNsecPerHsec` of
`core/timeconstants.h`, which is not among the sources: the nanoseconds in a
hundredth of a second. -/
def kNsecPerHsec : Int := 10000000

/-- `QChar::isSpace()`: the control characters 9 to 13 and the Unicode
separators. -/
def QChar_isSpace (c : Char) : Bool :=
  (9 ≤ c.toNat && c.toNat ≤ 13) || c.toNat = 0x20 || c.toNat = 0xA0 || c.toNat = 0x1680 ||
  c.toNat = 0x180E || (0x2000 ≤ c.toNat && c.toNat ≤ 0x200A) || c.toNat = 0x2028 ||
  c.toNat = 0x2029 || c.toNat = 0x202F || c.toNat = 0x205F || c.toNat = 0x3000

/-- A decimal digit `0`-`9`, the class `[0-9]` of a `QRegExp`. -/
def isDigit09 (c : Char) : Bool := 48 ≤ c.toNat && c.toNat ≤ 57

/-- The value of a list of decimal digits. -/
def digitsValue (ds : List Char) : Int :=
  ds.foldl (fun acc c => acc * 10 + ((c.toNat : Int) - 48)) 0

/-- `QString::trimmed()`: without the white space at both ends. -/
def QString_trimmed (s : String) : String :=
  ⟨((s.data.dropWhile QChar_isSpace).reverse.dropWhile QChar_isSpace).reverse⟩

/-- `QString::toInt()`: the value of an optional sign and decimal digits, white
space at both ends ignored; 0 when the text is anything else or the value is
not an `int`. -/
def QString_toInt (s : String) : Int :=
  let cs := (QString_trimmed s).data
  let negative := cs.head? = some '-'
  let ds := if cs.head? = some '-' ∨ cs.head? = some '+' then cs.tail else cs
  if ds ≠ [] ∧ ds.all isDigit09 then
    let v := if negative then -digitsValue ds else digitsValue ds
    if -2147483648 ≤ v ∧ v ≤ 2147483647 then v else 0
  else 0

/-- `QString().sprintf("%02d", n)`: the decimal digits of `n`, with a leading
`0` when `n` is a single digit, with its sign when `n` is negative. -/
def sprintf_02d (n : Int) : String :=
  if 0 ≤ n ∧ n < 10 then "0" ++ toString n else toString n

/-- The removal of the match of `skip`, `^\s*[0-9]+\s+`, in `IndexToNano`
(cueparser.cpp:673-675): leading white space, digits and white space after
them go, when the text begins so; any other text is left as it is. -/
def IndexToNano_skip (index : String) : String :=
  let s1 := index.data.dropWhile QChar_isSpace
  let s2 := s1.dropWhile isDigit09
  let s3 := s2.dropWhile QChar_isSpace
  if (s1.takeWhile isDigit09 ≠ [] ∧ s2.takeWhile QChar_isSpace ≠ []) then ⟨s3⟩ else index

/-- The time in hundredths of a second that `IndexToNano` computes from the
three fields (cueparser.cpp:689-690); the arithmetic is in `int`. The quotient
`(100.0 * frames) / 75.0` is a `double`: the product is exact, and the rounding
of the quotient (a relative 2^-53) never moves it across an integer, so its
`(int)` is the `toInt` of the exact quotient. -/
def IndexToNano_hs (min sec frames : Int) : Int :=
  toInt32 (toInt32 (toInt32 (toInt32 (min * 60) * 100) + toInt32 (sec * 100)) +
    toInt ((100 * (frames : ℚ)) / 75))

/-- `IndexToNano` (cueparser.cpp:671-694). -/
def IndexToNano (_index : String) : Int :=
  let index := IndexToNano_skip _index
  -- Skip the 00 / 01 part
  let parts := (fields ':' index.data).map String.mk
  let min := if parts.length > 0 then QString_toInt (parts.getD 0 "") else 0
  let sec := if parts.length > 1 then QString_toInt (parts.getD 1 "") else 0
  let frames := if parts.length > 2 then QString_toInt (parts.getD 2 "") else 0
  let totaltime_in_hs := IndexToNano_hs min sec frames
  totaltime_in_hs * kNsecPerHsec

/-- The three numbers `NanoToIndex` prints (cueparser.cpp:700-706): minutes,
seconds, frames. The `double` `f` is exact at every step: an integer below 100
in size, its product with 75, and a multiple of 1/4 after the division. -/
def NanoToIndex_fields (time_in_nano : Int) : Int × Int × Int :=
  let t := Int.tdiv time_in_nano kNsecPerHsec
  let f : ℚ := ((Int.tmod t 100 : Int) : ℚ)
  let f := f * 75
  let f := f / 100
  let frames := toInt f
  let sec := toInt32 (Int.tmod (Int.tdiv t 100) 60)
  let min := toInt32 (Int.tdiv (Int.tdiv t 100) 60)
  (min, sec, frames)

/-- `NanoToIndex` (cueparser.cpp:698-708). -/
def NanoToIndex (time_in_nano : Int) : String :=
  sprintf_02d (NanoToIndex_fields time_in_nano).1 ++ ":" ++
    sprintf_02d (NanoToIndex_fields time_in_nano).2.1 ++ ":" ++
    sprintf_02d (NanoToIndex_fields time_in_nano).2.2

/-- The frame field as the specification words it: the hundredths of the
second, times 75, over 100, rounded to the nearest integer. -/
def frames_rounded (time_in_nano : Int) : Int :=
  round ((((time_in_nano / 10000000 % 100 : Int) : ℚ) * 75) / 100)

/-! ## CueSheetEntry and CueParser (cueparser.cpp) -/

/-- `CueSheetEntry` (cueparser.h:34-99); the defaults are the values
`CueSheetEntry::CueSheetEntry()` leaves (cueparser.cpp:77-80). -/
structure CueSheetEntry where
  media_file_ : String := ""
  album_title_ : String := ""
  album_performer_ : String := ""
  album_composer_ : String := ""
  album_image_ : String := ""
  album_genre_ : String := ""
  track_ : Int := -1
  title_ : String := ""
  piece_ : String := ""
  composer_ : String := ""
  performer_ : String := ""
  year_ : Int := -1
  begin_offset_ : Int := -1
  end_offset_ : Int := -1
deriving DecidableEq, Repr

/-- `CueSheetEntry::Clear` (cueparser.cpp:133-149). -/
def CueSheetEntry.Clear (e : CueSheetEntry) (tracknr : Int) (mediafile : String) : CueSheetEntry :=
  { e with
    track_ := tracknr
    media_file_ := mediafile
    album_title_ := ""
    album_performer_ := ""
    album_composer_ := ""
    album_image_ := ""
    album_genre_ := ""
    title_ := ""
    piece_ := ""
    composer_ := ""
    performer_ := ""
    begin_offset_ := -1
    end_offset_ := -1
    year_ := -1 }

/-- `QString::toUpper()`; on the letters `a`-`z` it is the ASCII upper-casing. -/
def QString_toUpper (s : String) : String := ⟨s.data.map Char.toUpper⟩

/-- `CueParser::Keyword` (cueparser.h:122-135). The two `QRegExp` members are
made from the other three by the constructor (cueparser.cpp:631-642) and are
modelled by `Keyword.kw_rest` and `removeFromLastQuote`. -/
structure Keyword where
  keyword_ : String
  rem_ : Bool := false
  has_end_keyword_ : Bool := false
deriving DecidableEq, Repr

/-- A text at the head of `s`, letter case ignored: what follows it in `s`. -/
def stripPrefixNoCase : List Char → List Char → Option (List Char)
  | [], s => some s
  | _ :: _, [] => none
  | p :: ps, c :: cs => if p.toLower = c.toLower then stripPrefixNoCase ps cs else none

/-- The match of the regular expression `kw_` of a keyword, which is
`^\s*keyword\s+`, or `^\s*rem\s*keyword\s+` for a keyword after `REM`, letter
case ignored (cueparser.cpp:636-641): what follows the match in `line`, or
nothing when `line` does not begin so. -/
def Keyword.kw_rest (k : Keyword) (line : List Char) : Option (List Char) :=
  let s := line.dropWhile QChar_isSpace
  let s := if k.rem_ then (stripPrefixNoCase "rem".data s).map (fun r => r.dropWhile QChar_isSpace)
    else some s
  match s.bind (stripPrefixNoCase k.keyword_.data) with
  | none => none
  | some r => if r.takeWhile QChar_isSpace ≠ [] then some (r.dropWhile QChar_isSpace) else none

/-- `CueParser::Keyword::eq` (cueparser.cpp:644-650). -/
def Keyword.eq (k : Keyword) (line : String) : Bool := (k.kw_rest line.data).isSome

/-- The removal of the match of `endkw_`, which is `["][^"]*$`
(cueparser.cpp:635): the text from its last double quote on goes. -/
def removeFromLastQuote (s : List Char) : List Char :=
  if s.contains '"' then (List.intercalate ['"'] (fields '"' s).dropLast) else s

/-- `CueParser::Keyword::unquote` (cueparser.cpp:657-667). -/
def Keyword.unquote (k : Keyword) (line : String) : String :=
  let ln := (k.kw_rest line.data).getD line.data
  let ln := (QString_trimmed ⟨ln⟩).data
  if ln.length > 0 then
    let ln := if ln.head? = some '"' then ln.drop 1 else ln
    ⟨removeFromLastQuote ln⟩
  else ⟨ln⟩

/-- The list `album_keywords` that `CueParser::Init` fills (cueparser.cpp:226-234). -/
def album_keywords : List Keyword :=
  [{ keyword_ := "performer" }, { keyword_ := "songwriter" }, { keyword_ := "title" },
   { keyword_ := "composer", rem_ := true }, { keyword_ := "genre", rem_ := true },
   { keyword_ := "date", rem_ := true }, { keyword_ := "image", rem_ := true },
   { keyword_ := "file", rem_ := false, has_end_keyword_ := true }, { keyword_ := "track" }]

/-- The list `track_keywords` that `CueParser::Init` fills (cueparser.cpp:236-244). -/
def track_keywords : List Keyword :=
  [{ keyword_ := "performer" }, { keyword_ := "songwriter" },
   { keyword_ := "composer", rem_ := true }, { keyword_ := "piece", rem_ := true },
   { keyword_ := "date", rem_ := true }, { keyword_ := "title" },
   { keyword_ := "file", rem_ := true }, { keyword_ := "index" }, { keyword_ := "track" }]

/-- `CueParser::ProcessLine` (cueparser.cpp:610-622): the keyword of the first
entry of `keys` that matches the line, and the unquoted contents. -/
def CueParser_ProcessLine (line : String) : List Keyword → Option (String × String)
  | [] => none
  | k :: keys =>
    if k.eq line then some (k.keyword_, k.unquote line) else CueParser_ProcessLine line keys

/-- What `CueParser::Parse` asks of the file system: `QDir::isAbsolutePath` and
`cue_dir_.absoluteFilePath`. -/
structure CueDir where
  isAbsolutePath : String → Bool
  absoluteFilePath : String → String

/-- The locals of `CueParser::Parse(QIODevice*)` (cueparser.cpp:263-278) and
the two members it writes, `songs_` and `media_file_`; `media_file` and
`album_image` are the file names of the two `QFile` locals. -/
structure ParseState where
  songs_ : List CueSheetEntry := []
  media_file : String := ""
  media_file_ : String := ""
  album_title : String := ""
  album_performer : String := ""
  album_composer : String := ""
  year : Int := -1
  album_image : String := ""
  album_genre : String := "unknown"
  in_tracks : Bool := false
  song : CueSheetEntry := {}
  songnr : Int := 0
deriving DecidableEq, Repr

/-- The album part of the loop body of `CueParser::Parse` (cueparser.cpp:282-309). -/
def Parse_album (dir : CueDir) (line : String) (st : ParseState) : ParseState :=
  match CueParser_ProcessLine line album_keywords with
  | none => st
  | some (keyword, result) =>
    if keyword = "performer" then { st with album_performer := result }
    else if keyword = "title" then { st with album_title := result }
    else if keyword = "composer" ∨ keyword = "songwriter" then { st with album_composer := result }
    else if keyword = "image" then
      { st with album_image :=
          if dir.isAbsolutePath result then result else dir.absoluteFilePath result }
    else if keyword = "file" then
      let media_file := if dir.isAbsolutePath result then result else dir.absoluteFilePath result
      { st with media_file := media_file, media_file_ := media_file }
    else if keyword = "genre" then
      -- Make sure genre is always Capital followed by lowers.
      { st with album_genre :=
          QString_toUpper ⟨result.data.take 1⟩ ++ QString_toLower ⟨result.data.drop 1⟩ }
    else if keyword = "date" then
      let year := QString_toInt result
      { st with year := if year = 0 then -1 else year }
    else if keyword = "track" then { st with in_tracks := true }
    else st

/-- The track part of the loop body of `CueParser::Parse` (cueparser.cpp:312-354). -/
def Parse_track (dir : CueDir) (line : String) (st : ParseState) : ParseState :=
  match CueParser_ProcessLine line track_keywords with
  | none => st
  | some (keyword, result) =>
    if keyword = "track" then
      let st := if st.songnr > 0 then { st with songs_ := st.songs_ ++ [st.song] } else st
      let st := { st with songnr := st.songnr + 1 }
      let song := st.song.Clear st.songnr st.media_file
      let song := { song with album_title_ := st.album_title }
      let song := { song with album_genre_ := st.album_genre }
      let song := { song with album_composer_ := st.album_composer }
      let song := { song with performer_ := st.album_performer }
      let song := { song with composer_ := st.album_composer }
      let song := { song with album_performer_ := st.album_performer }
      let song := { song with album_image_ := st.album_image }
      let song := { song with year_ := st.year }
      { st with song := song }
    else if keyword = "title" then { st with song := { st.song with title_ := result } }
    else if keyword = "performer" then { st with song := { st.song with performer_ := result } }
    else if keyword = "composer" ∨ keyword = "songwriter" then
      { st with song := { st.song with composer_ := result } }
    else if keyword = "date" then
      let year := QString_toInt result
      { st with year := year, song := { st.song with year_ := year } }
    else if keyword = "piece" then { st with song := { st.song with piece_ := result } }
    else if keyword = "index" then
      let offset_in_nanosec := IndexToNano result
      { st with song := { st.song with begin_offset_ := offset_in_nanosec } }
    else if keyword = "file" then
      -- If we find the 'file' keyword, we apply it to the next track.
      { st with media_file :=
          if dir.isAbsolutePath result then result else dir.absoluteFilePath result }
    else st

/-- The body of the loop over the lines in `CueParser::Parse` (cueparser.cpp:281-355). -/
def Parse_line (dir : CueDir) (st : ParseState) (line : String) : ParseState :=
  let st := if !st.in_tracks then Parse_album dir line st else st
  if st.in_tracks then Parse_track dir line st else st

/-- One iteration of the loop that updates the end offsets in
`CueParser::Parse` (cueparser.cpp:366-373), for the index `i`. -/
def Parse_end_offsets_step (songs : List CueSheetEntry) (i : Nat) : List CueSheetEntry :=
  match songs[i]?, songs[i + 1]? with
  | some s1, some s2 =>
    if s1.media_file_ = s2.media_file_ then
      songs.set i { s1 with end_offset_ := s2.begin_offset_ }
    else songs
  | _, _ => songs

/-- The update of the end offsets in `CueParser::Parse` (cueparser.cpp:362-375):
the loop over `i` from 0 to `songs_.length() - 2`. -/
def Parse_end_offsets (songs_ : List CueSheetEntry) : List CueSheetEntry :=
  (List.range (songs_.length - 1)).foldl Parse_end_offsets_step songs_

/-- The entry `s1` at index `i` of the list `songs` with the end offset the
loop gives it: the begin offset of the next entry when there is one with the
same media file. -/
def withEndOffset (songs : List CueSheetEntry) (i : Nat) (s1 : CueSheetEntry) : CueSheetEntry :=
  match songs[i + 1]? with
  | some s2 =>
    if s1.media_file_ = s2.media_file_ then { s1 with end_offset_ := s2.begin_offset_ } else s1
  | none => s1

/-- `CueParser::Parse(QIODevice*)` (cueparser.cpp:255-379) on the lines that
`QTextStream::readLine` returns: the locals at the end, with the member
`songs_` complete. -/
def CueParser_Parse (dir : CueDir) (lines : List String) : ParseState :=
  let st := lines.foldl (Parse_line dir) {}
  -- if we read any songs, we have one left to add now
  let st := if st.songnr > 0 then { st with songs_ := st.songs_ ++ [st.song] } else st
  -- Now update the end offset for all songs (except for the last one).
  { st with songs_ := Parse_end_offsets st.songs_ }

/-- A directory for the worked examples: the cue sheet is in `/music`. -/
def sampleCueDir : CueDir :=
  { isAbsolutePath := fun p => p.data.head? = some '/'
    absoluteFilePath := fun p => "/music/" ++ p }

/-- A cue sheet for the worked examples: two tracks in `a.flac` and one in
`b.flac`, named by a `REM FILE` line in the track part. -/
def sampleCueSheet : List String :=
  ["REM GENRE \"rock\"",
   "REM DATE \"1999\"",
   "PERFORMER \"The Band\"",
   "TITLE \"The Album\"",
   "FILE \"a.flac\" WAVE",
   "  TRACK 01 AUDIO",
   "    TITLE \"One\"",
   "    INDEX 01 00:00:00",
   "  TRACK 02 AUDIO",
   "    TITLE \"Two\"",
   "    INDEX 01 03:00:00",
   "REM FILE \"b.flac\" WAVE",
   "  TRACK 03 AUDIO",
   "    TITLE \"Three\"",
   "    INDEX 01 00:00:00"]

/-- No entry read so far has an end offset. -/
def EndsUnset (st : ParseState) : Prop :=
  (∀ e ∈ st.songs_, e.end_offset_ = -1) ∧ st.song.end_offset_ = -1

/-- The `for` loop of `CueParser::indexOf` (cueparser.cpp:482-488), run from
counter `i` over the entries `songs_[i..]` that are left: it goes on while
`i < N && not_found`, and an entry with the track number of the song clears
`not_found` and stores `i` in `index`. The value is `index` after the loop. -/
def CueParser_indexOf_loop (track : Int) :
    List CueSheetEntry → Int → Bool → Int → Int
  | [], _, _, index => index
  | e :: rest, i, not_found, index =>
      if not_found then
        if e.track_ = track then CueParser_indexOf_loop track rest (i + 1) false i
        else CueParser_indexOf_loop track rest (i + 1) true index
      else index

/-- `CueParser::indexOf(const Song &)` (cueparser.cpp:474-491); `cueFile` is
`CueFile()`, the file name of `cue_file_`. -/
def CueParser_indexOf (cueFile : String) (songs_ : List CueSheetEntry) (s : Song) : Int :=
  if s.cue_path_ ≠ cueFile then -1
  else CueParser_indexOf_loop s.track_ songs_ 0 true (-1)

/-- A cue sheet of three entries with the track numbers 4, 7 and 7. -/
def sampleEntries : List CueSheetEntry :=
  [{ track_ := 4 }, { track_ := 7 }, { track_ := 7, title_ := "again" }]

/-- The text `p` and the lower-cased text `q` differ at a place that both have. -/
def divergeL : List Char → List Char → Bool
  | p :: ps, c :: cs => if p.toLower = c then divergeL ps cs else true
  | _, _ => false

/-- The first word that the regular expression of a keyword asks for after the
leading white space: `rem` for a keyword after `REM`, the keyword otherwise. -/
def Keyword.firstWord (k : Keyword) : List Char :=
  if k.rem_ then "rem".data else k.keyword_.data

/-- The keyword `e` does not match a line written for the keyword `k`: the
first words differ, or both are `rem` and the keywords differ. -/
def Keyword.clash (e k : Keyword) : Bool :=
  divergeL e.firstWord (k.firstWord.map Char.toLower) ||
  (e.rem_ && k.rem_ && divergeL e.keyword_.data (k.keyword_.data.map Char.toLower))

/-- The text begins with a character that is not white space. -/
def startsNonSpace : List Char → Bool
  | l :: _ => !QChar_isSpace l
  | [] => false

/-- The keyword, lower-cased, begins with a character that is not white space. -/
def Keyword.startsWithLetter (k : Keyword) : Bool :=
  startsNonSpace (k.keyword_.data.map Char.toLower)

/-- A line for the keyword `k`: white space `ws`, then for a keyword after
`REM` the word `R` and white space `ws2`, the keyword `K`, white space `gap`,
the value `v` in double quotes and the text `T`. -/
def quotedLine (k : Keyword) (ws R ws2 K gap v T : List Char) : String :=
  ⟨ws ++ ((if k.rem_ then R ++ ws2 else []) ++ (K ++ (gap ++ '"' :: (v ++ '"' :: T))))⟩

/-- A cue sheet of two files, as `CueParser::Write` lays it out: the second
`FILE` line comes after the first track. -/
def twoFileSheet : List String :=
  ["FILE \"a.flac\" WAVE",
   "  TRACK 01 AUDIO",
   "    TITLE \"One\"",
   "    INDEX 01 00:00:00",
   "FILE \"b.flac\" WAVE",
   "  TRACK 02 AUDIO",
   "    TITLE \"Two\"",
   "    INDEX 01 00:00:00"]

/-- A cue sheet with the album year 1999, a first track with a `REM DATE` line
of its own and a second track without one. -/
def datedSheet : List String :=
  ["REM DATE \"1999\"",
   "FILE \"a.flac\" WAVE",
   "  TRACK 01 AUDIO",
   "    REM DATE \"2005\"",
   "    INDEX 01 00:00:00",
   "  TRACK 02 AUDIO",
   "    INDEX 01 03:00:00"]

/-- The form of a temporary transcode name (organise.cpp:182-183): empty, for a
task that has not been dispatched, or a text, `-` and a decimal number. -/
def TempForm (name : String) : Prop :=
  name = "" ∨ ∃ (temp : String) (n : Int), name = temp ++ "-" ++ QString_number n

/-- Every task in the queue and every task in the map of transcodes in flight
has a transcoded file name of the form `TempForm`. -/
def FormInv (s : State) : Prop :=
  (∀ task ∈ s.tasks_pending_, TempForm task.transcoded_filename_) ∧
  (∀ kv ∈ s.tasks_transcoding_, TempForm kv.2.transcoded_filename_)

/-- A state for the worked examples: the job of the one raw path
`/music/album.mp3`, a track of a cue sheet in `sampleWorld`, after its first
tick, which hands the file to the transcoder, and the transcoder's report of
success. -/
def sampleTranscodedCue : State :=
  JobComplete "/music/album.mp3" true
    (ProcessSomeFiles (fun _ => sampleWorld)
      (Organise true false false [SongOrFilePair.ofFile "/music/album.mp3"]))

/-- The task that waits in the queue of `sampleTranscodedCue`. -/
def sampleTranscodedTask : Task :=
  { song_or_file_ := SongOrFilePair.ofFile "/music/album.mp3"
    transcoded_filename_ := "/tmp/qt_temp.1-1"
    new_extension_ := "mp3"
    new_filetype_ := Type_Other 5 }

/-- The step `s → s'` leaves the queue as it is and the transcoded file names
of the map of transcodes in flight among those it had. -/
def KeepsNames (s s' : State) : Prop :=
  s'.tasks_pending_ = s.tasks_pending_ ∧
  ∀ kv' ∈ s'.tasks_transcoding_, ∃ kv ∈ s.tasks_transcoding_,
    kv'.2.transcoded_filename_ = kv.2.transcoded_filename_

/-! # Theorems -/

/-! ## Organise::CheckTranscode (claims C1, C2, C3) -/

/-- C1. In mode Unsupported and for an original format that is not the stream
type, `CheckTranscode` returns `Type_Unknown` ("no transcode") when the
supported list is empty or contains the original format; otherwise it returns
the preferred format when one is set and `PickBestFormat(supported)` when none
is set. Hence, `PickBestFormat` returning a format (not `Type_Unknown`) for
the list, the result is "no transcode" if and only if the list is empty or
contains the original format. -/
theorem C1_CheckTranscode_unsupported (PickBestFormat : List FileType → FileType)
    (format : FileType) (supported : List FileType) (original : FileType)
    (hstream : original ≠ Type_Stream) :
    ((supported = [] ∨ original ∈ supported) →
        CheckTranscode PickBestFormat Transcode_Unsupported format supported original
          = Type_Unknown) ∧
    (¬ (supported = [] ∨ original ∈ supported) → format ≠ Type_Unknown →
        CheckTranscode PickBestFormat Transcode_Unsupported format supported original
          = format) ∧
    (¬ (supported = [] ∨ original ∈ supported) → format = Type_Unknown →
        CheckTranscode PickBestFormat Transcode_Unsupported format supported original
          = PickBestFormat supported) ∧
    (PickBestFormat supported ≠ Type_Unknown →
        (CheckTranscode PickBestFormat Transcode_Unsupported format supported original
          = Type_Unknown ↔ (supported = [] ∨ original ∈ supported))) := by
  have hcond : (supported.isEmpty || supported.contains original) = true ↔
      (supported = [] ∨ original ∈ supported) := by
    simp [List.isEmpty_iff]
  refine ⟨?_, ?_, ?_, ?_⟩
  · intro h
    simp only [CheckTranscode, if_neg hstream, if_pos (hcond.mpr h)]
  · intro h hf
    have hc : ¬ ((supported.isEmpty || supported.contains original) = true) :=
      fun hc => h (hcond.mp hc)
    simp only [CheckTranscode, if_neg hstream, if_neg hc]
    simp [hf]
  · intro h hf
    have hc : ¬ ((supported.isEmpty || supported.contains original) = true) :=
      fun hc => h (hcond.mp hc)
    simp only [CheckTranscode, if_neg hstream, if_neg hc]
    simp [hf]
  · intro hbest
    constructor
    · intro hres
      by_contra h
      have hc : ¬ ((supported.isEmpty || supported.contains original) = true) :=
        fun hc => h (hcond.mp hc)
      simp only [CheckTranscode, if_neg hstream, if_neg hc] at hres
      by_cases hf : format = Type_Unknown
      · simp [hf] at hres
        exact hbest hres
      · simp [hf] at hres
    · intro h
      simp only [CheckTranscode, if_neg hstream, if_pos (hcond.mpr h)]

/-- Witness of C1: the original format 3 with the supported formats 1 and 2 and
no preferred format, a best-of that takes the first of the list. -/
theorem C1_CheckTranscode_unsupported_witness :
    CheckTranscode (fun l => l.headD Type_Unknown) Transcode_Unsupported Type_Unknown
        [Type_Other 1, Type_Other 2] (Type_Other 3) = Type_Other 1 ∧
    (CheckTranscode (fun l => l.headD Type_Unknown) Transcode_Unsupported Type_Unknown
        [Type_Other 1, Type_Other 2] (Type_Other 3) = Type_Unknown ↔
      (([Type_Other 1, Type_Other 2] : List FileType) = [] ∨
        Type_Other 3 ∈ [Type_Other 1, Type_Other 2])) :=
  ⟨(C1_CheckTranscode_unsupported (fun l => l.headD Type_Unknown) Type_Unknown
      [Type_Other 1, Type_Other 2] (Type_Other 3) (by decide)).2.2.1 (by decide) rfl,
   (C1_CheckTranscode_unsupported (fun l => l.headD Type_Unknown) Type_Unknown
      [Type_Other 1, Type_Other 2] (Type_Other 3) (by decide)).2.2.2 (by decide)⟩

/-- C2. Whatever the mode, the preferred format and the supported list are,
`CheckTranscode` of the stream type is `Type_Unknown` ("no transcode"); and
`CheckTranscode` is a total function of its inputs: every input has one and
only one result. -/
theorem C2_CheckTranscode_stream_total (PickBestFormat : List FileType → FileType)
    (mode : TranscodeMode) (format : FileType) (supported : List FileType) :
    CheckTranscode PickBestFormat mode format supported Type_Stream = Type_Unknown ∧
    ∀ original : FileType,
      ∃! result : FileType,
        CheckTranscode PickBestFormat mode format supported original = result := by
  refine ⟨by simp [CheckTranscode], fun original => ⟨_, rfl, fun y hy => hy.symm⟩⟩

/-- C3. For an original format that is not the stream type: in mode Never
`CheckTranscode` returns `Type_Unknown` whatever the preferred and supported
formats are; in mode Always it returns `Type_Unknown` when the original is the
preferred format and the preferred format otherwise, whatever the supported
list is. -/
theorem C3_CheckTranscode_never_always (PickBestFormat : List FileType → FileType)
    (format : FileType) (supported : List FileType) (original : FileType)
    (hstream : original ≠ Type_Stream) :
    CheckTranscode PickBestFormat Transcode_Never format supported original = Type_Unknown ∧
    (original = format →
      CheckTranscode PickBestFormat Transcode_Always format supported original
        = Type_Unknown) ∧
    (original ≠ format →
      CheckTranscode PickBestFormat Transcode_Always format supported original = format) := by
  refine ⟨by simp [CheckTranscode, hstream], fun h => ?_, fun h => ?_⟩
  · simp [CheckTranscode, hstream, h]
  · simp [CheckTranscode, hstream, h]

/-- Witness of C3: original format 3, preferred format 5. -/
theorem C3_CheckTranscode_never_always_witness :
    CheckTranscode (fun _ => Type_Unknown) Transcode_Never (Type_Other 5) [] (Type_Other 3)
      = Type_Unknown ∧
    CheckTranscode (fun _ => Type_Unknown) Transcode_Always (Type_Other 5) [] (Type_Other 3)
      = Type_Other 5 :=
  ⟨(C3_CheckTranscode_never_always (fun _ => Type_Unknown) (Type_Other 5) [] (Type_Other 3)
      (by decide)).1,
   (C3_CheckTranscode_never_always (fun _ => Type_Unknown) (Type_Other 5) [] (Type_Other 3)
      (by decide)).2.2 (by decide)⟩

/-! ## The arithmetic of float: rounding, truncation and clamping -/

theorem pow2_eq (e : Int) : pow2 e = (2 : ℚ) ^ e := by
  unfold pow2
  split
  · rename_i h
    obtain ⟨n, rfl⟩ := Int.eq_ofNat_of_zero_le h
    simp
  · rename_i h
    have h1 : e < 0 := by omega
    obtain ⟨n, hn⟩ := Int.eq_negSucc_of_lt_zero h1
    subst hn
    have h2 : (-Int.negSucc n).toNat = n + 1 := by
      simp [Int.neg_negSucc]
    rw [h2, zpow_negSucc]
    simp

theorem pow2_pos (e : Int) : 0 < pow2 e := by
  rw [pow2_eq]; positivity

theorem pow2_succ (e : Int) : pow2 (e + 1) = 2 * pow2 e := by
  rw [pow2_eq, pow2_eq, zpow_add_one₀ (by norm_num : (2 : ℚ) ≠ 0)]; ring

theorem pow2_le_pow2 {a b : Int} (h : a ≤ b) : pow2 a ≤ pow2 b := by
  rw [pow2_eq, pow2_eq]
  exact zpow_le_zpow_right₀ (by norm_num) h

theorem pow2_lt_pow2_iff {a b : Int} : pow2 a < pow2 b ↔ a < b := by
  rw [pow2_eq, pow2_eq]
  exact zpow_lt_zpow_iff_right₀ (by norm_num)

theorem log2Fuel_spec (fuel : Nat) : ∀ n : Nat, 1 ≤ n → n ≤ fuel →
    2 ^ log2Fuel fuel n ≤ n ∧ n < 2 ^ (log2Fuel fuel n + 1) := by
  induction fuel with
  | zero => intro n h1 h2; omega
  | succ fuel ih =>
    intro n h1 h2
    unfold log2Fuel
    split
    · rename_i h
      have h3 := ih (n / 2) (by omega) (by omega)
      obtain ⟨h4, h5⟩ := h3
      constructor
      · rw [pow_succ]; omega
      · rw [pow_succ]; omega
    · have : n = 1 := by omega
      subst this
      simp


theorem zpow_two_nat (n : Nat) : (2 : ℚ) ^ (n : Int) = ((2 ^ n : Nat) : ℚ) := by
  rw [zpow_natCast]; push_cast; rfl

theorem zpow_two_nat_succ (n : Nat) : (2 : ℚ) ^ ((n : Int) + 1) = ((2 ^ (n + 1) : Nat) : ℚ) := by
  rw [← zpow_two_nat]; push_cast; rfl

theorem abs_eq_natAbs_div (x : ℚ) : |x| = (x.num.natAbs : ℚ) / (x.den : ℚ) := by
  have h := Rat.num_div_den x
  have hd : (0 : ℚ) < (x.den : ℚ) := by exact_mod_cast x.den_pos
  conv_lhs => rw [← h]
  rw [abs_div, abs_of_pos hd]
  congr 1
  rw [Nat.cast_natAbs]
  simp

theorem binaryExponent_spec (x : ℚ) (hx : x ≠ 0) :
    pow2 (binaryExponent x) ≤ |x| ∧ |x| < pow2 (binaryExponent x + 1) := by
  have hp : 1 ≤ x.num.natAbs := by
    have : x.num ≠ 0 := Rat.num_ne_zero.mpr hx
    omega
  have hd : 1 ≤ x.den := x.den_pos
  obtain ⟨p1, p2⟩ := log2Fuel_spec _ _ hp le_rfl
  obtain ⟨d1, d2⟩ := log2Fuel_spec _ _ hd le_rfl
  have habs := abs_eq_natAbs_div x
  generalize hA : log2Fuel x.num.natAbs x.num.natAbs = A at p1 p2
  generalize hB : log2Fuel x.den x.den = B at d1 d2
  have hdq : (0 : ℚ) < (x.den : ℚ) := by exact_mod_cast x.den_pos
  have hlow : pow2 ((A : Int) - B - 1) < |x| := by
    rw [habs, pow2_eq, lt_div_iff₀ hdq, sub_sub, zpow_sub₀ (by norm_num : (2 : ℚ) ≠ 0)]
    rw [div_mul_eq_mul_div, div_lt_iff₀ (by positivity)]
    have h1 : ((x.den : ℚ)) < (2 : ℚ) ^ ((B : Int) + 1) := by
      rw [zpow_two_nat_succ]
      exact_mod_cast d2
    have h2 : (2 : ℚ) ^ (A : Int) ≤ (x.num.natAbs : ℚ) := by
      rw [zpow_two_nat]
      exact_mod_cast p1
    have h3 : (0 : ℚ) < (2 : ℚ) ^ (A : Int) := by positivity
    calc (2 : ℚ) ^ (A : Int) * (x.den : ℚ) < (2 : ℚ) ^ (A : Int) * (2 : ℚ) ^ ((B : Int) + 1) := by
          exact mul_lt_mul_of_pos_left h1 h3
      _ ≤ (x.num.natAbs : ℚ) * (2 : ℚ) ^ ((B : Int) + 1) := by
          exact mul_le_mul_of_nonneg_right h2 (by positivity)
  have hhigh : |x| < pow2 ((A : Int) - B + 1) := by
    rw [habs, pow2_eq, div_lt_iff₀ hdq]
    have h1 : (2 : ℚ) ^ (B : Int) ≤ (x.den : ℚ) := by
      rw [zpow_two_nat]
      exact_mod_cast d1
    have h2 : (x.num.natAbs : ℚ) < (2 : ℚ) ^ ((A : Int) + 1) := by
      rw [zpow_two_nat_succ]
      exact_mod_cast p2
    have h3 : (2 : ℚ) ^ ((A : Int) - B + 1) * (2 : ℚ) ^ (B : Int) = (2 : ℚ) ^ ((A : Int) + 1) := by
      rw [← zpow_add₀ (by norm_num : (2 : ℚ) ≠ 0)]
      congr 1
      ring
    calc (x.num.natAbs : ℚ) < (2 : ℚ) ^ ((A : Int) + 1) := h2
      _ = (2 : ℚ) ^ ((A : Int) - B + 1) * (2 : ℚ) ^ (B : Int) := h3.symm
      _ ≤ (2 : ℚ) ^ ((A : Int) - B + 1) * (x.den : ℚ) := by
          exact mul_le_mul_of_nonneg_left h1 (by positivity)
  unfold binaryExponent
  simp only [hA, hB]
  split
  · rename_i h
    exact ⟨h, hhigh⟩
  · rename_i h
    refine ⟨hlow.le, ?_⟩
    have : (A : Int) - B - 1 + 1 = A - B := by ring
    rw [this]
    exact not_le.mp h


theorem roundHalfEven_ge_floor (y : ℚ) : ⌊y⌋ ≤ roundHalfEven y := by
  unfold roundHalfEven
  split_ifs <;> omega

theorem roundHalfEven_le_floor_succ (y : ℚ) : roundHalfEven y ≤ ⌊y⌋ + 1 := by
  unfold roundHalfEven
  split_ifs <;> omega

theorem roundHalfEven_intCast (n : Int) : roundHalfEven (n : ℚ) = n := by
  unfold roundHalfEven
  simp

theorem roundHalfEven_le_of_le (y : ℚ) (k : Int) (h : y ≤ k) : roundHalfEven y ≤ k := by
  rcases lt_or_eq_of_le h with h1 | h1
  · have h2 : ⌊y⌋ < k := Int.floor_lt.mpr h1
    have := roundHalfEven_le_floor_succ y
    omega
  · rw [h1, roundHalfEven_intCast]

theorem roundHalfEven_ge_of_ge (y : ℚ) (k : Int) (h : (k : ℚ) ≤ y) : k ≤ roundHalfEven y :=
  le_trans (Int.le_floor.mpr h) (roundHalfEven_ge_floor y)

theorem roundHalfEven_mono {a b : ℚ} (h : a ≤ b) : roundHalfEven a ≤ roundHalfEven b := by
  rcases lt_or_eq_of_le (Int.floor_mono h) with h1 | h1
  · have h2 := roundHalfEven_le_floor_succ a
    have h3 := roundHalfEven_ge_floor b
    omega
  · unfold roundHalfEven
    rw [← h1]
    have hab : a - ⌊a⌋ ≤ b - ⌊a⌋ := by linarith
    split_ifs <;> first | omega | (exfalso; linarith)

theorem ulpOf_pos (x : ℚ) : 0 < ulpOf x := pow2_pos _

theorem round32_of_ne (x : ℚ) (hx : x ≠ 0) :
    round32 x = ulpOf x * (roundHalfEven (x / ulpOf x) : ℚ) := by
  simp [round32, hx]

theorem round32_nonneg (x : ℚ) (hx : 0 ≤ x) : 0 ≤ round32 x := by
  by_cases h0 : x = 0
  · simp [round32, h0]
  · rw [round32_of_ne x h0]
    have h1 : (0 : ℚ) ≤ x / ulpOf x := div_nonneg hx (ulpOf_pos x).le
    have h2 : (0 : Int) ≤ roundHalfEven (x / ulpOf x) :=
      roundHalfEven_ge_of_ge _ 0 (by simpa using h1)
    have h3 : (0 : ℚ) ≤ (roundHalfEven (x / ulpOf x) : ℚ) := by exact_mod_cast h2
    exact mul_nonneg (ulpOf_pos x).le h3

theorem round32_nonpos (x : ℚ) (hx : x ≤ 0) : round32 x ≤ 0 := by
  by_cases h0 : x = 0
  · simp [round32, h0]
  · rw [round32_of_ne x h0]
    have h1 : x / ulpOf x ≤ 0 := div_nonpos_of_nonpos_of_nonneg hx (ulpOf_pos x).le
    have h2 : roundHalfEven (x / ulpOf x) ≤ 0 :=
      roundHalfEven_le_of_le _ 0 (by simpa using h1)
    have h3 : (roundHalfEven (x / ulpOf x) : ℚ) ≤ 0 := by exact_mod_cast h2
    exact mul_nonpos_of_nonneg_of_nonpos (ulpOf_pos x).le h3

theorem binaryExponent_mono {x y : ℚ} (hx : 0 < x) (hxy : x ≤ y) :
    binaryExponent x ≤ binaryExponent y := by
  by_contra h
  have h1 : binaryExponent y + 1 ≤ binaryExponent x := by omega
  obtain ⟨a1, _⟩ := binaryExponent_spec x hx.ne'
  obtain ⟨_, b2⟩ := binaryExponent_spec y (lt_of_lt_of_le hx hxy).ne'
  rw [abs_of_pos hx] at a1
  rw [abs_of_pos (lt_of_lt_of_le hx hxy)] at b2
  have := pow2_le_pow2 h1
  linarith


theorem pow2_add (a b : Int) : pow2 (a + b) = pow2 a * pow2 b := by
  rw [pow2_eq, pow2_eq, pow2_eq, zpow_add₀ (by norm_num : (2 : ℚ) ≠ 0)]

theorem pow2_mul_24 (e : Int) : pow2 (e - 23) * 16777216 = pow2 (e + 1) := by
  have h : pow2 24 = 16777216 := by decide!
  rw [← h, ← pow2_add]
  congr 1
  ring

theorem pow2_mul_23 (e : Int) : pow2 (e - 23) * 8388608 = pow2 e := by
  have h : pow2 23 = 8388608 := by decide!
  rw [← h, ← pow2_add]
  congr 1
  ring

theorem round32_mono_pos {x y : ℚ} (hx : 0 < x) (hxy : x ≤ y) : round32 x ≤ round32 y := by
  have hy : 0 < y := lt_of_lt_of_le hx hxy
  rw [round32_of_ne x hx.ne', round32_of_ne y hy.ne']
  have hbe := binaryExponent_mono hx hxy
  have hE : max (binaryExponent x) (-126) ≤ max (binaryExponent y) (-126) :=
    max_le_max hbe le_rfl
  rcases lt_or_eq_of_le hE with hlt | heq
  · -- different binades
    have hey : max (binaryExponent y) (-126) = binaryExponent y := by
      apply max_eq_left
      have : (-126 : Int) ≤ max (binaryExponent x) (-126) := le_max_right _ _
      by_contra hc
      have hc2 : binaryExponent y < -126 := by omega
      rw [max_eq_right hc2.le] at hlt
      omega
    obtain ⟨_, x2⟩ := binaryExponent_spec x hx.ne'
    obtain ⟨y1, _⟩ := binaryExponent_spec y hy.ne'
    rw [abs_of_pos hx] at x2
    rw [abs_of_pos hy] at y1
    have hux := ulpOf_pos x
    have huy := ulpOf_pos y
    -- the upper bound of the lower value
    have hx3 : x < pow2 (max (binaryExponent x) (-126) + 1) :=
      lt_of_lt_of_le x2 (pow2_le_pow2 (by have := le_max_left (binaryExponent x) (-126); omega))
    have hx4 : x / ulpOf x ≤ ((16777216 : Int) : ℚ) := by
      rw [div_le_iff₀ hux]
      have := pow2_mul_24 (max (binaryExponent x) (-126))
      unfold ulpOf
      push_cast
      linarith
    have hx5 : (roundHalfEven (x / ulpOf x) : ℚ) ≤ 16777216 := by
      exact_mod_cast roundHalfEven_le_of_le _ _ hx4
    have hx6 : ulpOf x * (roundHalfEven (x / ulpOf x) : ℚ)
        ≤ pow2 (max (binaryExponent x) (-126) + 1) := by
      rw [← pow2_mul_24]
      exact mul_le_mul_of_nonneg_left hx5 hux.le
    -- the lower bound of the upper value
    have hy4 : ((8388608 : Int) : ℚ) ≤ y / ulpOf y := by
      rw [le_div_iff₀ huy]
      have := pow2_mul_23 (max (binaryExponent y) (-126))
      rw [hey] at this
      unfold ulpOf
      rw [hey]
      push_cast
      linarith
    have hy5 : (8388608 : ℚ) ≤ (roundHalfEven (y / ulpOf y) : ℚ) := by
      exact_mod_cast roundHalfEven_ge_of_ge _ _ hy4
    have hy6 : pow2 (max (binaryExponent y) (-126))
        ≤ ulpOf y * (roundHalfEven (y / ulpOf y) : ℚ) := by
      rw [← pow2_mul_23]
      exact mul_le_mul_of_nonneg_left hy5 huy.le
    have hmid : pow2 (max (binaryExponent x) (-126) + 1)
        ≤ pow2 (max (binaryExponent y) (-126)) := pow2_le_pow2 (by omega)
    linarith
  · have hu : ulpOf x = ulpOf y := by unfold ulpOf; rw [heq]
    rw [hu]
    have huy := ulpOf_pos y
    have h1 : x / ulpOf y ≤ y / ulpOf y := div_le_div_of_nonneg_right hxy huy.le
    have h2 : (roundHalfEven (x / ulpOf y) : ℚ) ≤ (roundHalfEven (y / ulpOf y) : ℚ) := by
      exact_mod_cast roundHalfEven_mono h1
    exact mul_le_mul_of_nonneg_left h2 huy.le

theorem round32_mono {x y : ℚ} (hx : 0 ≤ x) (hxy : x ≤ y) : round32 x ≤ round32 y := by
  rcases lt_or_eq_of_le hx with h | h
  · exact round32_mono_pos h hxy
  · rw [← h]
    have : round32 0 = 0 := by simp [round32]
    rw [this]
    exact round32_nonneg y (le_trans hx hxy)

theorem round32_exact (x : ℚ) (k : Int) (hx : x ≠ 0) (h : x / ulpOf x = k) : round32 x = x := by
  rw [round32_of_ne x hx, h, roundHalfEven_intCast, ← h]
  field_simp [(ulpOf_pos x).ne']

/-- A natural number below 2^24 is a `float`. -/
theorem round32_natCast (n : Nat) (hn : n < 16777216) : round32 (n : ℚ) = n := by
  by_cases h0 : n = 0
  · subst h0; simp [round32]
  have hpos : (0 : ℚ) < (n : ℚ) := by exact_mod_cast Nat.pos_of_ne_zero h0
  obtain ⟨s1, _⟩ := binaryExponent_spec (n : ℚ) hpos.ne'
  rw [abs_of_pos hpos] at s1
  have hlt : pow2 (binaryExponent (n : ℚ)) < pow2 24 := by
    have h24 : pow2 24 = 16777216 := by decide!
    rw [h24]
    have : (n : ℚ) < 16777216 := by exact_mod_cast hn
    linarith
  have hbe : binaryExponent (n : ℚ) < 24 := pow2_lt_pow2_iff.mp hlt
  have hE : max (binaryExponent (n : ℚ)) (-126) ≤ 23 := max_le (by omega) (by norm_num)
  generalize hEe : max (binaryExponent (n : ℚ)) (-126) = E at hE
  obtain ⟨m, hm⟩ := Int.eq_ofNat_of_zero_le (show 0 ≤ 23 - E by omega)
  have hinv : pow2 (E - 23) * ((2 ^ m : Nat) : ℚ) = 1 := by
    have h1 : pow2 (23 - E) = ((2 ^ m : Nat) : ℚ) := by
      rw [hm, pow2_eq, zpow_two_nat]
    rw [← h1, ← pow2_add]
    have : E - 23 + (23 - E) = 0 := by ring
    rw [this]
    decide!
  apply round32_exact (n : ℚ) ((n * 2 ^ m : Nat) : Int) hpos.ne'
  unfold ulpOf
  rw [hEe, div_eq_iff (pow2_pos _).ne']
  push_cast
  have : (n : ℚ) * 2 ^ m * pow2 (E - 23) = (n : ℚ) * (pow2 (E - 23) * ((2 ^ m : Nat) : ℚ)) := by
    push_cast; ring
  rw [this, hinv, mul_one]


theorem tdiv_eq_floor (x : ℚ) (h : 0 ≤ x) : Int.tdiv x.num x.den = ⌊x⌋ := by
  rw [Rat.floor_def, Int.tdiv_eq_ediv (Rat.num_nonneg.mpr h) (by positivity)]

theorem toInt_of_nonneg (x : ℚ) (h : 0 ≤ x) (hb : x < 2147483648) : toInt x = ⌊x⌋ := by
  have h1 := tdiv_eq_floor x h
  have h2 : (0 : Int) ≤ ⌊x⌋ := Int.floor_nonneg.mpr h
  have h3 : ⌊x⌋ < 2147483648 := Int.floor_lt.mpr (by exact_mod_cast hb)
  unfold toInt
  rw [h1, if_pos ⟨by omega, by omega⟩]

theorem toInt_of_large (x : ℚ) (h : 2147483648 ≤ x) : toInt x = -2147483648 := by
  have h1 := tdiv_eq_floor x (by linarith)
  have h3 : (2147483648 : Int) ≤ ⌊x⌋ := Int.le_floor.mpr (by exact_mod_cast h)
  unfold toInt
  rw [h1, if_neg (by omega)]

theorem toInt_of_nonpos (x : ℚ) (h : x ≤ 0) : toInt x ≤ 0 := by
  have h1 : Int.tdiv x.num x.den ≤ 0 := by
    have hn : x.num ≤ 0 := Rat.num_nonpos.mpr h
    have : Int.tdiv x.num x.den = -Int.tdiv (-x.num) x.den := by
      rw [Int.neg_tdiv]; simp
    rw [this]
    have := Int.tdiv_nonneg (show 0 ≤ -x.num by omega) (show (0 : Int) ≤ x.den by positivity)
    omega
  unfold toInt
  split
  · exact h1
  · norm_num

/-- `int(x)` of the real number `x` rounded to a `float`. -/
theorem conv_nonpos (x : ℚ) (h : x ≤ 0) : (roundToFloat x).toInt ≤ 0 := by
  unfold roundToFloat
  split
  · simp [CFloat.toInt]
  · exact toInt_of_nonpos _ (round32_nonpos x h)

theorem round32_top : round32 2147483520 = 2147483520 := by decide!

theorem round32_2_31 : round32 2147483648 = 2147483648 := by decide!

theorem round32_2_24 : round32 16777216 = 16777216 := by decide!

theorem pow2_128_large : (2147483648 : ℚ) < pow2 128 := by decide!

theorem conv_of_le_top (x : ℚ) (h0 : 0 ≤ x) (h : x ≤ 2147483520) :
    roundToFloat x = CFloat.finite (round32 x) ∧ (roundToFloat x).toInt = ⌊round32 x⌋ ∧
    0 ≤ round32 x ∧ round32 x ≤ 2147483520 := by
  have h1 := round32_nonneg x h0
  have h2 : round32 x ≤ 2147483520 := by
    have := round32_mono h0 h
    rwa [round32_top] at this
  have h3 : ¬ (pow2 128 ≤ |round32 x|) := by
    rw [abs_of_nonneg h1]
    have := pow2_128_large
    linarith
  have h4 : roundToFloat x = CFloat.finite (round32 x) := by
    unfold roundToFloat
    rw [if_neg h3]
  refine ⟨h4, ?_, h1, h2⟩
  rw [h4]
  exact toInt_of_nonneg _ h1 (by linarith)

theorem conv_mono (x y : ℚ) (h0 : 0 ≤ x) (hxy : x ≤ y) (h : y ≤ 2147483520) :
    0 ≤ (roundToFloat x).toInt ∧ (roundToFloat x).toInt ≤ (roundToFloat y).toInt := by
  obtain ⟨_, a2, a3, _⟩ := conv_of_le_top x h0 (le_trans hxy h)
  obtain ⟨_, b2, _, _⟩ := conv_of_le_top y (le_trans h0 hxy) h
  rw [a2, b2]
  exact ⟨Int.floor_nonneg.mpr a3, Int.floor_mono (round32_mono h0 hxy)⟩

theorem conv_of_large (x : ℚ) (h : 2147483648 ≤ x) : (roundToFloat x).toInt = -2147483648 := by
  unfold roundToFloat
  split
  · rfl
  · have := round32_mono (show (0 : ℚ) ≤ 2147483648 by norm_num) h
    rw [round32_2_31] at this
    exact toInt_of_large _ this

/-- Below 2^24 the rounded value lies between the floor and the next integer. -/
theorem round32_bracket (x : ℚ) (h0 : 0 ≤ x) (h : x < 16777216) :
    (⌊x⌋ : ℚ) ≤ round32 x ∧ round32 x ≤ (⌊x⌋ : ℚ) + 1 := by
  have hf0 : (0 : Int) ≤ ⌊x⌋ := Int.floor_nonneg.mpr h0
  obtain ⟨n, hn⟩ := Int.eq_ofNat_of_zero_le hf0
  have hlt : ⌊x⌋ < 16777216 := Int.floor_lt.mpr (by exact_mod_cast h)
  have hn1 : n < 16777216 := by omega
  have hfl : (n : ℚ) ≤ x := by
    have := Int.floor_le x
    rw [hn] at this
    exact_mod_cast this
  have hfu : x ≤ ((n + 1 : Nat) : ℚ) := by
    have := (Int.lt_floor_add_one x).le
    rw [hn] at this
    push_cast at this ⊢
    exact this
  have e1 : round32 (n : ℚ) = n := round32_natCast n hn1
  have e2 : round32 ((n + 1 : Nat) : ℚ) = ((n + 1 : Nat) : ℚ) := by
    by_cases hc : n + 1 < 16777216
    · exact round32_natCast (n + 1) hc
    · have : n + 1 = 16777216 := by omega
      rw [this]
      exact round32_2_24
  have m1 := round32_mono (show (0 : ℚ) ≤ (n : ℚ) by positivity) hfl
  have m2 := round32_mono h0 hfu
  rw [e1] at m1
  rw [e2] at m2
  rw [hn]
  push_cast at m2 ⊢
  exact ⟨m1, m2⟩

theorem conv_bracket (x : ℚ) (h0 : 0 ≤ x) (h : x < 16777216) :
    ((roundToFloat x).toInt = ⌊x⌋ ∨ (roundToFloat x).toInt = ⌊x⌋ + 1) ∧
    (round32 x = x → (roundToFloat x).toInt = ⌊x⌋) := by
  obtain ⟨_, a2, _, _⟩ := conv_of_le_top x h0 (by linarith)
  obtain ⟨b1, b2⟩ := round32_bracket x h0 h
  rw [a2]
  constructor
  · have h1 : ⌊x⌋ ≤ ⌊round32 x⌋ := Int.le_floor.mpr b1
    have h2 : ⌊round32 x⌋ ≤ ⌊x⌋ + 1 := by
      have : ⌊round32 x⌋ ≤ ⌊((⌊x⌋ + 1 : Int) : ℚ)⌋ := Int.floor_mono (by push_cast; exact b2)
      rwa [Int.floor_intCast] at this
    omega
  · intro he
    rw [he]

theorem ofInt_50 : CFloat.ofInt 50 = CFloat.finite 50 := by decide!

theorem ofInt_100 : CFloat.ofInt 100 = CFloat.finite 100 := by decide!

theorem mul_finite (a b : ℚ) : CFloat.finite a * CFloat.finite b = roundToFloat (a * b) := rfl

theorem mul_special_toInt (x : CFloat) (b : ℚ) (hx : ∀ q, x ≠ CFloat.finite q) :
    (x * CFloat.finite b).toInt = -2147483648 := by
  cases x with
  | finite q => exact absurd rfl (hx q)
  | inf n =>
    show (CFloat.mul (CFloat.inf n) (CFloat.finite b)).toInt = _
    simp only [CFloat.mul]
    split <;> rfl
  | nan => rfl

theorem qBound_nonneg (v M : Int) : 0 ≤ qBound 0 v M := le_max_left _ _

theorem qBound_le (v M : Int) (hM : 0 ≤ M) : qBound 0 v M ≤ M :=
  max_le hM (min_le_left _ _)

theorem qBound_mono {u v : Int} (M : Int) (h : u ≤ v) : qBound 0 u M ≤ qBound 0 v M :=
  max_le_max le_rfl (min_le_min le_rfl h)

theorem Task.points_nonneg (task : Task) : 0 ≤ task.points := qBound_nonneg _ _

theorem Task.points_le (task : Task) : task.points ≤ 50 := qBound_le _ _ (by norm_num)

/-! ## Organise::UpdateProgress and Organise::SetSongProgress (claims C5 to C8) -/

theorem foldl_add_points (l : List Task) (init : Int) :
    l.foldl (fun progress task => progress + task.points) init
      = init + (l.map Task.points).sum := by
  induction l generalizing init with
  | nil => simp
  | cons t l ih => simp [ih, add_assoc]

@[simp] theorem UpdateProgress_tasks_pending (gp : List (String × CFloat)) (s : State) :
    (UpdateProgress gp s).tasks_pending_ = s.tasks_pending_ := rfl

@[simp] theorem UpdateProgress_tasks_complete (gp : List (String × CFloat)) (s : State) :
    (UpdateProgress gp s).tasks_complete_ = s.tasks_complete_ := rfl

@[simp] theorem UpdateProgress_task_count (gp : List (String × CFloat)) (s : State) :
    (UpdateProgress gp s).task_count_ = s.task_count_ := rfl

@[simp] theorem UpdateProgress_current_copy_progress (gp : List (String × CFloat)) (s : State) :
    (UpdateProgress gp s).current_copy_progress_ = s.current_copy_progress_ := rfl

@[simp] theorem UpdateProgress_files_with_errors (gp : List (String × CFloat)) (s : State) :
    (UpdateProgress gp s).files_with_errors_ = s.files_with_errors_ := rfl

@[simp] theorem UpdateProgress_transcoder_jobs (gp : List (String × CFloat)) (s : State) :
    (UpdateProgress gp s).transcoder_jobs_ = s.transcoder_jobs_ := rfl

@[simp] theorem UpdateProgress_started (gp : List (String × CFloat)) (s : State) :
    (UpdateProgress gp s).started_ = s.started_ := rfl

/-- What `UpdateProgress` publishes, with the sums of its two loops written as sums. -/
theorem UpdateProgress_trace (gp : List (String × CFloat)) (s : State) :
    (UpdateProgress gp s).trace_ = s.trace_ ++
      [Effect.SetTaskProgress
        (s.tasks_complete_ * 100 + (s.tasks_pending_.map Task.points).sum
          + ((QMap_values (UpdateProgress gp s).tasks_transcoding_).map Task.points).sum
          + s.current_copy_progress_)
        (s.task_count_ * 100)] := by
  simp only [UpdateProgress, State.emit, foldl_add_points]

theorem SetSongProgress_current_copy_progress (gp : List (String × CFloat)) (f : CFloat)
    (transcoded : Bool) (s : State) :
    (SetSongProgress gp f transcoded s).current_copy_progress_ =
      (if transcoded then 50 else 0) +
        qBound 0 (f * CFloat.ofInt (if transcoded then 50 else 100)).toInt
          ((if transcoded then 50 else 100) - 1) := by
  simp [SetSongProgress]

theorem SetSongProgress_le_99 (gp : List (String × CFloat)) (f : CFloat) (transcoded : Bool)
    (s : State) :
    (SetSongProgress gp f transcoded s).current_copy_progress_ ≤ 99 := by
  rw [SetSongProgress_current_copy_progress]
  cases transcoded with
  | true =>
    have h1 := qBound_le (f * CFloat.ofInt 50).toInt (50 - 1) (by norm_num)
    simp only [if_true]
    linarith
  | false =>
    have h1 := qBound_le (f * CFloat.ofInt 100).toInt (100 - 1) (by norm_num)
    simp only [Bool.false_eq_true, if_false]
    linarith

/-- The refresh loop of `UpdateProgress` changes no key of the in-flight map. -/
theorem refresh_keys (keys : List String) (gp : List (String × CFloat)) (m : List (String × Task)) :
    (keys.foldl
      (fun m filename =>
        if !QMap_contains m filename then m
        else m.map (fun kv =>
          if kv.1 == filename then
            (kv.1, { kv.2 with transcode_progress_ := (gp.lookup filename).getD 0 })
          else kv)) m).map Prod.fst = m.map Prod.fst := by
  induction keys generalizing m with
  | nil => rfl
  | cons k ks ih =>
    simp only [List.foldl_cons]
    rw [ih]
    split
    · rfl
    · rw [List.map_map]
      apply List.map_congr_left
      intro kv _
      simp only [Function.comp]
      split <;> rfl

theorem UpdateProgress_keys (gp : List (String × CFloat)) (s : State) :
    (UpdateProgress gp s).tasks_transcoding_.map Prod.fst = s.tasks_transcoding_.map Prod.fst := by
  simp only [UpdateProgress, State.emit]
  exact refresh_keys _ _ _

/-- The refresh loop of `UpdateProgress`, entry by entry. -/
theorem refresh_map (keys : List String) (gp : List (String × CFloat)) (m : List (String × Task)) :
    keys.foldl
      (fun m filename =>
        if !QMap_contains m filename then m
        else m.map (fun kv =>
          if kv.1 == filename then
            (kv.1, { kv.2 with transcode_progress_ := (gp.lookup filename).getD 0 })
          else kv)) m
      = m.map (fun kv =>
          if keys.contains kv.1 then
            (kv.1, { kv.2 with transcode_progress_ := (gp.lookup kv.1).getD 0 })
          else kv) := by
  induction keys generalizing m with
  | nil => simp
  | cons k ks ih =>
    have hstep : (if !QMap_contains m k then m
        else m.map (fun kv =>
          if kv.1 == k then
            (kv.1, { kv.2 with transcode_progress_ := (gp.lookup k).getD 0 })
          else kv))
        = m.map (fun kv =>
          if kv.1 == k then
            (kv.1, { kv.2 with transcode_progress_ := (gp.lookup kv.1).getD 0 })
          else kv) := by
      by_cases hc : QMap_contains m k = true
      · simp only [hc, Bool.not_true, Bool.false_eq_true, if_false]
        apply List.map_congr_left
        intro kv _
        by_cases hk : (kv.1 == k) = true
        · have : kv.1 = k := by simpa using hk
          simp [this]
        · simp [hk]
      · have hc2 : QMap_contains m k = false := by simpa using hc
        simp only [hc2, Bool.not_false, if_true]
        symm
        conv_rhs => rw [← List.map_id m]
        apply List.map_congr_left
        intro kv hkv
        have hk : (kv.1 == k) = false := by
          cases hb : (kv.1 == k) with
          | false => rfl
          | true =>
            have : QMap_contains m k = true := List.any_eq_true.mpr ⟨kv, hkv, hb⟩
            rw [hc2] at this; cases this
        simp [hk]
    simp only [List.foldl_cons]
    rw [hstep, ih, List.map_map]
    apply List.map_congr_left
    intro kv _
    simp only [Function.comp]
    by_cases hk : (kv.1 == k) = true
    · have hk2 : kv.1 = k := by simpa using hk
      simp [hk2]
    · have hk2 : ¬ kv.1 = k := by simpa using hk
      simp [hk, hk2]

theorem UpdateProgress_tasks_transcoding (gp : List (String × CFloat)) (s : State) :
    (UpdateProgress gp s).tasks_transcoding_ = s.tasks_transcoding_.map (refreshed gp) := by
  simp only [UpdateProgress, State.emit]
  rw [refresh_map]
  rfl

theorem clamp_nonpos (x : ℚ) (M : Int) (hM : 0 ≤ M) (hx : x ≤ 0) :
    qBound 0 (roundToFloat x).toInt M = 0 := by
  have := conv_nonpos x hx
  unfold qBound
  rw [min_eq_right (by omega), max_eq_left this]

theorem clamp_large (x : ℚ) (M : Int) (hM : 0 ≤ M) (hx : 2147483648 ≤ x) :
    qBound 0 (roundToFloat x).toInt M = 0 := by
  rw [conv_of_large x hx]
  unfold qBound
  rw [min_eq_right (by omega), max_eq_left (by norm_num)]

theorem clamp_special (x : CFloat) (b : ℚ) (M : Int) (hM : 0 ≤ M)
    (hx : ∀ q, x ≠ CFloat.finite q) :
    qBound 0 (x * CFloat.finite b).toInt M = 0 := by
  rw [mul_special_toInt x b hx]
  unfold qBound
  rw [min_eq_right (by omega), max_eq_left (by norm_num)]

theorem clamp_bracket (x : ℚ) (M : Int) (h0 : 0 ≤ x) (h : x < 16777216) :
    (qBound 0 (roundToFloat x).toInt M = qBound 0 ⌊x⌋ M ∨
      qBound 0 (roundToFloat x).toInt M = qBound 0 (⌊x⌋ + 1) M) ∧
    (round32 x = x → qBound 0 (roundToFloat x).toInt M = qBound 0 ⌊x⌋ M) := by
  obtain ⟨h1, h2⟩ := conv_bracket x h0 h
  refine ⟨?_, fun he => by rw [h2 he]⟩
  rcases h1 with h1 | h1
  · left; rw [h1]
  · right; rw [h1]

theorem clamp_mono (x y : ℚ) (M : Int) (hM : 0 ≤ M) (hxy : x ≤ y) (hy : y ≤ 2147483520) :
    qBound 0 (roundToFloat x).toInt M ≤ qBound 0 (roundToFloat y).toInt M := by
  rcases le_or_lt 0 x with hx | hx
  · exact qBound_mono M (conv_mono x y hx hxy hy).2
  · rw [clamp_nonpos x M hM hx.le]
    exact qBound_nonneg _ _

theorem clamp_top (x : ℚ) (M : Nat) (hM : M < 16777216) (hx : (M : ℚ) ≤ x)
    (hy : x ≤ 2147483520) :
    qBound 0 (roundToFloat x).toInt (M : Int) = M := by
  have h0 : (0 : ℚ) ≤ (M : ℚ) := by positivity
  obtain ⟨_, h2⟩ := conv_mono (M : ℚ) x h0 hx hy
  obtain ⟨_, a2, _, _⟩ := conv_of_le_top (M : ℚ) h0 (le_trans hx hy)
  rw [a2, round32_natCast M hM] at h2
  have h3 : ⌊(M : ℚ)⌋ = (M : Int) := by
    have := Int.floor_intCast (α := ℚ) (M : Int)
    push_cast at this
    exact this
  rw [h3] at h2
  unfold qBound
  rw [min_eq_left h2, max_eq_right (by positivity)]

theorem points_finite (task : Task) (f : ℚ) (h : task.transcode_progress_ = CFloat.finite f) :
    task.points = qBound 0 (roundToFloat (f * 50)).toInt 50 := by
  unfold Task.points
  rw [h, ofInt_50]
  rfl

theorem points_special (task : Task) (h : ∀ q, task.transcode_progress_ ≠ CFloat.finite q) :
    task.points = 0 := by
  unfold Task.points
  rw [ofInt_50]
  exact clamp_special _ _ 50 (by norm_num) h

theorem copy_progress_finite (gp : List (String × CFloat)) (q : ℚ) (transcoded : Bool)
    (s : State) :
    (SetSongProgress gp (CFloat.finite q) transcoded s).current_copy_progress_ =
      (if transcoded then 50 else 0) +
        qBound 0 (roundToFloat (q * (if transcoded then 50 else 100))).toInt
          (if transcoded then 49 else 99) := by
  rw [SetSongProgress_current_copy_progress]
  cases transcoded with
  | true => simp only [if_true, ofInt_50]; rfl
  | false => simp only [Bool.false_eq_true, if_false, ofInt_100]; rfl

theorem copy_progress_special (gp : List (String × CFloat)) (f : CFloat) (transcoded : Bool)
    (s : State) (h : ∀ q, f ≠ CFloat.finite q) :
    (SetSongProgress gp f transcoded s).current_copy_progress_ =
      (if transcoded then 50 else 0) := by
  rw [SetSongProgress_current_copy_progress]
  cases transcoded with
  | true =>
    simp only [if_true, ofInt_50]
    rw [clamp_special f 50 (50 - 1) (by norm_num) h]; rfl
  | false =>
    simp only [Bool.false_eq_true, if_false, ofInt_100]
    rw [clamp_special f 100 (100 - 1) (by norm_num) h]; rfl

/-- What `UpdateProgress` publishes, in terms of the state before and of the
report of the transcoder. -/
theorem UpdateProgress_published (gp : List (String × CFloat)) (s : State) :
    (UpdateProgress gp s).trace_ = s.trace_ ++
      [Effect.SetTaskProgress
        (s.tasks_complete_ * 100 + (s.tasks_pending_.map Task.points).sum
          + ((s.tasks_transcoding_.map (refreshed gp)).map (fun kv => kv.2.points)).sum
          + s.current_copy_progress_)
        (s.task_count_ * 100)] := by
  rw [UpdateProgress_trace, UpdateProgress_tasks_transcoding]
  simp only [QMap_values, List.map_map]
  rfl

/-- C5, the claim as stated fails, in two ways. A raw path dispatched for
transcoding whose job the transcoder reports at fraction 1 is published by the
progress timer as 50 points of 100, where the clamp to 0..49 of the claim
gives 49. And the product is a product of `float`s: at the fraction 0.02f,
which is a little less than 2/100, the product with 50 rounds to 1 and the task
counts 1 point, where the floor of the exact product is 0. -/
theorem C5_counterexample :
    (timerEvent [("/music/a.flac", 1)]
      (ProcessSomeFiles
        (fun _ => sampleWorld)
        (Organise true false false [SongOrFilePair.ofFile "/music/a.flac"]))).trace_.getLast?
      = some (Effect.SetTaskProgress 50 100) ∧
    Task.points { transcode_progress_ := 1 } = 50 ∧
    qBound 0 ⌊(1 : ℚ) * 50⌋ 49 = 49 ∧
    float_0_02 = roundToFloat (2 / 100) ∧
    Task.points { transcode_progress_ := float_0_02 } = 1 ∧
    qBound 0 ⌊(5368709 / 268435456 : ℚ) * 50⌋ 49 = 0 := by
  refine ⟨by decide!, by decide!, by decide!, by decide!, by decide!, by decide!⟩

/-- C5, amended. A task that waits in the pending queue or is in flight in the
transcoder contributes `qBound(0, int(f * 50), 50)` to the progress
`UpdateProgress` computes, `f * 50` being the product of `float`s: a value
from 0 to 50 for every `float` f. For a finite f with 0 <= f and f * 50 below
2^24 it is floor(f * 50) or floor(f * 50) + 1, clamped to 0..50, and it is
floor(f * 50) when the exact product is a `float`; it is 0 for f <= 0 and 50
for 1 <= f with f * 50 up to 2147483520, the greatest `float` below 2^31. From
2^31 on, for an infinity and for a NaN the conversion to `int` gives the least
`int` and the task contributes 0. -/
theorem C5_points_clamped_0_50 (gp : List (String × CFloat)) (s : State) :
    (∀ task : Task, 0 ≤ task.points ∧ task.points ≤ 50) ∧
    (∀ (task : Task) (f : ℚ), task.transcode_progress_ = CFloat.finite f →
      (0 ≤ f → f * 50 < 16777216 →
        (task.points = qBound 0 ⌊f * 50⌋ 50 ∨ task.points = qBound 0 (⌊f * 50⌋ + 1) 50) ∧
        (round32 (f * 50) = f * 50 → task.points = qBound 0 ⌊f * 50⌋ 50)) ∧
      (f ≤ 0 → task.points = 0) ∧
      (1 ≤ f → f * 50 ≤ 2147483520 → task.points = 50) ∧
      (2147483648 ≤ f * 50 → task.points = 0)) ∧
    (∀ task : Task, (∀ f, task.transcode_progress_ ≠ CFloat.finite f) → task.points = 0) ∧
    (UpdateProgress gp s).trace_ = s.trace_ ++
      [Effect.SetTaskProgress
        (s.tasks_complete_ * 100 + (s.tasks_pending_.map Task.points).sum
          + ((s.tasks_transcoding_.map (refreshed gp)).map (fun kv => kv.2.points)).sum
          + s.current_copy_progress_)
        (s.task_count_ * 100)] := by
  refine ⟨fun task => ⟨task.points_nonneg, task.points_le⟩, ?_, points_special,
    UpdateProgress_published gp s⟩
  intro task f hf
  rw [points_finite task f hf]
  refine ⟨?_, ?_, ?_, ?_⟩
  · intro h0 hb
    exact clamp_bracket (f * 50) 50 (by positivity) hb
  · intro h0
    exact clamp_nonpos _ _ (by norm_num) (by nlinarith)
  · intro h1 hb
    exact clamp_top (f * 50) 50 (by norm_num) (by push_cast; linarith) hb
  · intro hb
    exact clamp_large _ _ (by norm_num) hb

/-- Witness of C5: at the fraction 0.02f the task counts floor(f * 50) or one
more (it is one more, 1), at the fraction 1/2, where the product 25 is a
`float`, it counts floor(f * 50) = 25. -/
theorem C5_points_clamped_0_50_witness :
    (Task.points { transcode_progress_ := float_0_02 }
        = qBound 0 ⌊(5368709 / 268435456 : ℚ) * 50⌋ 50 ∨
      Task.points { transcode_progress_ := float_0_02 }
        = qBound 0 (⌊(5368709 / 268435456 : ℚ) * 50⌋ + 1) 50) ∧
    Task.points { transcode_progress_ := CFloat.finite (1 / 2) }
      = qBound 0 ⌊(1 / 2 : ℚ) * 50⌋ 50 :=
  ⟨(((C5_points_clamped_0_50 [] (Organise true false false [])).2.1
      { transcode_progress_ := float_0_02 } (5368709 / 268435456) rfl).1
      (by norm_num) (by norm_num)).1,
   (((C5_points_clamped_0_50 [] (Organise true false false [])).2.1
      { transcode_progress_ := CFloat.finite (1 / 2) } (1 / 2) rfl).1
      (by norm_num) (by norm_num)).2 (by decide!)⟩

/-- C6, the claim as stated fails: the product is a product of `float`s. At
the copy fraction 0.29f, a little less than 29/100, the product with 100 rounds
to 29 and `current_copy_progress_` is 29, where the floor of the exact product
is 28; at 0.02f a transcoded task gets 51, where the claim gives 50. At 1e10f
the product is no `int`, the conversion gives the least `int`, and the value
is 0, or 50 for a transcoded task, where the claim gives 99. -/
theorem C6_counterexample :
    float_0_29 = roundToFloat (29 / 100) ∧
    (SetSongProgress [] float_0_29 false (Organise true false false [])).current_copy_progress_
      = 29 ∧
    qBound 0 ⌊(9730785 / 33554432 : ℚ) * 100⌋ 99 = 28 ∧
    (SetSongProgress [] float_0_02 true (Organise true false false [])).current_copy_progress_
      = 51 ∧
    50 + qBound 0 ⌊(5368709 / 268435456 : ℚ) * 50⌋ 49 = 50 ∧
    (SetSongProgress [] float_1e10 false (Organise true false false [])).current_copy_progress_
      = 0 ∧
    (SetSongProgress [] float_1e10 true (Organise true false false [])).current_copy_progress_
      = 50 ∧
    qBound 0 ⌊(10000000000 : ℚ) * 100⌋ 99 = 99 := by
  refine ⟨by decide!, by decide!, by decide!, by decide!, by decide!, by decide!, by decide!,
    by decide!⟩

/-- C6, amended. `SetSongProgress` sets `current_copy_progress_` to
50 + qBound(0, int(f * 50), 49) when the task was transcoded and to
qBound(0, int(f * 100), 99) when it was not, the product being the product of
`float`s; the value lies in 0..99, and in 50..99 for a transcoded task, for
every `float` f. With max = 50 or 100: for a finite f with 0 <= f and f * max
below 2^24 the clamped number is floor(f * max) or floor(f * max) + 1, and it
is floor(f * max) when the exact product is a `float`; for f <= 0 it is 0 and
for 1 <= f with f * max up to 2147483520 it is max - 1. From 2^31 on, for an
infinity and for a NaN the conversion to `int` gives the least `int` and the
clamped number is 0. -/
theorem C6_SetSongProgress_value (gp : List (String × CFloat)) (f : CFloat) (transcoded : Bool)
    (s : State) :
    (SetSongProgress gp f transcoded s).current_copy_progress_ =
      (if transcoded then 50 else 0) +
        qBound 0 (f * CFloat.ofInt (if transcoded then 50 else 100)).toInt
          ((if transcoded then 50 else 100) - 1) ∧
    0 ≤ (SetSongProgress gp f transcoded s).current_copy_progress_ ∧
    (SetSongProgress gp f transcoded s).current_copy_progress_ ≤ 99 ∧
    (transcoded = true → 50 ≤ (SetSongProgress gp f transcoded s).current_copy_progress_) ∧
    (∀ q : ℚ, f = CFloat.finite q →
      (0 ≤ q → q * (if transcoded then 50 else 100) < 16777216 →
        ((SetSongProgress gp f transcoded s).current_copy_progress_ =
            (if transcoded then 50 else 0) +
              qBound 0 ⌊q * (if transcoded then 50 else 100)⌋ (if transcoded then 49 else 99) ∨
          (SetSongProgress gp f transcoded s).current_copy_progress_ =
            (if transcoded then 50 else 0) +
              qBound 0 (⌊q * (if transcoded then 50 else 100)⌋ + 1)
                (if transcoded then 49 else 99)) ∧
        (round32 (q * (if transcoded then 50 else 100)) = q * (if transcoded then 50 else 100) →
          (SetSongProgress gp f transcoded s).current_copy_progress_ =
            (if transcoded then 50 else 0) +
              qBound 0 ⌊q * (if transcoded then 50 else 100)⌋
                (if transcoded then 49 else 99))) ∧
      (q ≤ 0 →
        (SetSongProgress gp f transcoded s).current_copy_progress_ =
          (if transcoded then 50 else 0)) ∧
      (1 ≤ q → q * (if transcoded then 50 else 100) ≤ 2147483520 →
        (SetSongProgress gp f transcoded s).current_copy_progress_ = 99) ∧
      (2147483648 ≤ q * (if transcoded then 50 else 100) →
        (SetSongProgress gp f transcoded s).current_copy_progress_ =
          (if transcoded then 50 else 0))) ∧
    ((∀ q, f ≠ CFloat.finite q) →
      (SetSongProgress gp f transcoded s).current_copy_progress_ =
        (if transcoded then 50 else 0)) := by
  have hM : (0 : Int) ≤ (if transcoded then 49 else 99) := by cases transcoded <;> norm_num
  have hmax : (0 : ℚ) ≤ (if transcoded then 50 else 100 : ℚ) := by
    cases transcoded <;> norm_num
  have hrange : 0 ≤ (SetSongProgress gp f transcoded s).current_copy_progress_ ∧
      (transcoded = true → 50 ≤ (SetSongProgress gp f transcoded s).current_copy_progress_) := by
    rw [SetSongProgress_current_copy_progress]
    have := qBound_nonneg (f * CFloat.ofInt (if transcoded then 50 else 100)).toInt
      ((if transcoded then 50 else 100) - 1)
    cases transcoded with
    | true => simp only [if_true] at this ⊢; exact ⟨by linarith, fun _ => by linarith⟩
    | false =>
      simp only [Bool.false_eq_true, if_false] at this ⊢
      exact ⟨by linarith, fun h => by cases h⟩
  refine ⟨SetSongProgress_current_copy_progress gp f transcoded s, hrange.1,
    SetSongProgress_le_99 gp f transcoded s, hrange.2, ?_,
    copy_progress_special gp f transcoded s⟩
  intro q hq
  subst hq
  rw [copy_progress_finite]
  refine ⟨?_, ?_, ?_, ?_⟩
  · intro h0 hb
    obtain ⟨b1, b2⟩ := clamp_bracket (q * (if transcoded then 50 else 100))
      (if transcoded then 49 else 99) (mul_nonneg h0 hmax) hb
    refine ⟨?_, fun he => by rw [b2 he]⟩
    rcases b1 with b1 | b1
    · left; rw [b1]
    · right; rw [b1]
  · intro h0
    rw [clamp_nonpos _ _ hM (mul_nonpos_of_nonpos_of_nonneg h0 hmax)]
    simp
  · intro h1 hb
    cases transcoded with
    | true =>
      simp only [if_true] at hb ⊢
      have := clamp_top (q * 50) 49 (by norm_num) (by push_cast; linarith) hb
      push_cast at this
      rw [this]; norm_num
    | false =>
      simp only [Bool.false_eq_true, if_false] at hb ⊢
      have := clamp_top (q * 100) 99 (by norm_num) (by push_cast; linarith) hb
      push_cast at this
      rw [this]; norm_num
  · intro hb
    rw [clamp_large _ _ hM hb]
    simp

/-- Witness of C6: at the copy fraction 0.29f of a task that was not transcoded
the value is floor(f * 100) or one more (it is one more, 29), and at the
fraction 1/4 of a transcoded task, where the product 12.5 is a `float`, it is
50 + floor(f * 50) = 62. -/
theorem C6_SetSongProgress_value_witness :
    ((SetSongProgress [] float_0_29 false (Organise true false false [])).current_copy_progress_
        = 0 + qBound 0 ⌊(9730785 / 33554432 : ℚ) * 100⌋ 99 ∨
      (SetSongProgress [] float_0_29 false (Organise true false false [])).current_copy_progress_
        = 0 + qBound 0 (⌊(9730785 / 33554432 : ℚ) * 100⌋ + 1) 99) ∧
    (SetSongProgress [] (CFloat.finite (1 / 4)) true
        (Organise true false false [])).current_copy_progress_
      = 50 + qBound 0 ⌊(1 / 4 : ℚ) * 50⌋ 49 :=
  ⟨((((C6_SetSongProgress_value [] float_0_29 false
      (Organise true false false [])).2.2.2.2.1 (9730785 / 33554432) rfl).1
      (by norm_num) (by norm_num)).1),
   ((((C6_SetSongProgress_value [] (CFloat.finite (1 / 4)) true
      (Organise true false false [])).2.2.2.2.1 (1 / 4) rfl).1
      (by norm_num) (by norm_num)).2 (by decide!))⟩

/-- C7. `UpdateProgress` reports the pair (progress, total) with
total = task_count_ * 100 and progress = tasks_complete_ * 100 + the points of
every pending task + the points of every task of the in-flight map, each with
the fraction the transcoder reports for its key when it reports one and with
the fraction it had otherwise, + current_copy_progress_. The in-flight map is
left with these fractions, and the counters and the queue are as they were.
Each completed task contributes exactly 100: with one more task complete the
progress reported is 100 more. -/
theorem C7_UpdateProgress_formula (gp : List (String × CFloat)) (s : State) :
    (UpdateProgress gp s).trace_ = s.trace_ ++
      [Effect.SetTaskProgress
        (s.tasks_complete_ * 100 + (s.tasks_pending_.map Task.points).sum
          + ((s.tasks_transcoding_.map (refreshed gp)).map (fun kv => kv.2.points)).sum
          + s.current_copy_progress_)
        (s.task_count_ * 100)] ∧
    (UpdateProgress gp s).tasks_transcoding_ = s.tasks_transcoding_.map (refreshed gp) ∧
    (UpdateProgress gp s).tasks_pending_ = s.tasks_pending_ ∧
    (UpdateProgress gp s).tasks_complete_ = s.tasks_complete_ ∧
    (UpdateProgress gp s).task_count_ = s.task_count_ ∧
    (UpdateProgress gp s).current_copy_progress_ = s.current_copy_progress_ ∧
    (UpdateProgress gp { s with tasks_complete_ := s.tasks_complete_ + 1 }).trace_ = s.trace_ ++
      [Effect.SetTaskProgress
        (s.tasks_complete_ * 100 + (s.tasks_pending_.map Task.points).sum
          + ((s.tasks_transcoding_.map (refreshed gp)).map (fun kv => kv.2.points)).sum
          + s.current_copy_progress_ + 100)
        (s.task_count_ * 100)] := by
  refine ⟨UpdateProgress_published gp s, UpdateProgress_tasks_transcoding gp s, rfl, rfl, rfl,
    rfl, ?_⟩
  rw [UpdateProgress_published]
  simp only []
  congr 3
  ring

/-- C8, the claim as stated fails for fractions whose product is no `int`:
the conversion then gives the least `int` and the clamp gives 0. The fraction
1 counts 50 points in the transcoding phase and 99 in the copy phase; the
greater fraction 1e10f counts 0 points in the transcoding phase and 0 (50 for
a transcoded task) in the copy phase. -/
theorem C8_counterexample :
    (1 : ℚ) ≤ 10000000000 ∧
    Task.points { transcode_progress_ := 1 } = 50 ∧
    Task.points { transcode_progress_ := float_1e10 } = 0 ∧
    (SetSongProgress [] 1 false (Organise true false false [])).current_copy_progress_ = 99 ∧
    (SetSongProgress [] float_1e10 false (Organise true false false [])).current_copy_progress_
      = 0 ∧
    (SetSongProgress [] 1 true (Organise true false false [])).current_copy_progress_ = 99 ∧
    (SetSongProgress [] float_1e10 true (Organise true false false [])).current_copy_progress_
      = 50 := by
  refine ⟨by norm_num, by decide!, by decide!, by decide!, by decide!, by decide!, by decide!⟩

/-- C8, amended. The points of one task never decrease over its lifetime as
long as the products are `int`s: for finite transcode fractions p <= q with
q * 50 up to 2147483520 (the greatest `float` below 2^31) the
transcoding-phase points grow, for finite copy fractions p <= q with q * max up
to 2147483520 (max = 50 for a transcoded task, 100 otherwise) the copy-phase
points grow; for every `float` whatever, every transcoding-phase value is at
most every copy-phase value of a transcoded task, and every copy-phase value
is at most the 100 points of a completed task. -/
theorem C8_points_never_decrease (gp gp' : List (String × CFloat)) (s s' : State) (p q : ℚ)
    (hpq : p ≤ q) :
    (q * 50 ≤ 2147483520 → ∀ t1 t2 : Task, t1.transcode_progress_ = CFloat.finite p →
      t2.transcode_progress_ = CFloat.finite q → t1.points ≤ t2.points) ∧
    (∀ transcoded : Bool, q * (if transcoded then 50 else 100) ≤ 2147483520 →
      (SetSongProgress gp (CFloat.finite p) transcoded s).current_copy_progress_ ≤
        (SetSongProgress gp' (CFloat.finite q) transcoded s').current_copy_progress_) ∧
    (∀ (t : Task) (f : CFloat),
      t.points ≤ (SetSongProgress gp f true s).current_copy_progress_) ∧
    (∀ (f : CFloat) (transcoded : Bool),
      (SetSongProgress gp f transcoded s).current_copy_progress_ ≤ 100) := by
  refine ⟨?_, ?_, ?_, ?_⟩
  · intro hb t1 t2 h1 h2
    rw [points_finite t1 p h1, points_finite t2 q h2]
    exact clamp_mono _ _ 50 (by norm_num) (by linarith) hb
  · intro transcoded hb
    rw [copy_progress_finite, copy_progress_finite]
    have hmax : (0 : ℚ) ≤ (if transcoded then 50 else 100 : ℚ) := by
      cases transcoded <;> norm_num
    have hM : (0 : Int) ≤ (if transcoded then 49 else 99) := by cases transcoded <;> norm_num
    have := clamp_mono (p * (if transcoded then 50 else 100))
      (q * (if transcoded then 50 else 100)) (if transcoded then 49 else 99) hM
      (mul_le_mul_of_nonneg_right hpq hmax) hb
    linarith
  · intro t f
    have h1 := t.points_le
    have h2 : 50 ≤ (SetSongProgress gp f true s).current_copy_progress_ := by
      rw [SetSongProgress_current_copy_progress]
      have := qBound_nonneg (f * CFloat.ofInt 50).toInt (50 - 1)
      simp only [if_true]
      linarith
    linarith
  · intro f transcoded
    have h2 := SetSongProgress_le_99 gp f transcoded s
    linarith

/-- Witness of C8: the fractions 1/4 and 3/4. -/
theorem C8_points_never_decrease_witness :
    (Task.points { transcode_progress_ := CFloat.finite (1 / 4) } ≤
      Task.points { transcode_progress_ := CFloat.finite (3 / 4) }) ∧
    (SetSongProgress [] (CFloat.finite (1 / 4)) true
        (Organise true false false [])).current_copy_progress_ ≤
      (SetSongProgress [] (CFloat.finite (3 / 4)) true
        (Organise true false false [])).current_copy_progress_ :=
  ⟨(C8_points_never_decrease [] [] (Organise true false false []) (Organise true false false [])
      (1 / 4) (3 / 4) (by norm_num)).1 (by norm_num) _ _ rfl rfl,
   (C8_points_never_decrease [] [] (Organise true false false []) (Organise true false false [])
      (1 / 4) (3 / 4) (by norm_num)).2.1 true (by norm_num)⟩

/-! ## The first tick when StartCopy fails (claim C9) -/

theorem foldl_append_names (l : List Task) (init : List String) :
    l.foldl (fun errors task => errors ++ [task.song_or_file_.DisplayName]) init
      = init ++ l.map (fun task => task.song_or_file_.DisplayName) := by
  induction l generalizing init with
  | nil => simp
  | cons t l ih => simp [ih]

theorem UpdateProgress_tasks_transcoding_nil (gp : List (String × CFloat)) (s : State)
    (h : s.tasks_transcoding_ = []) : (UpdateProgress gp s).tasks_transcoding_ = [] := by
  have := UpdateProgress_keys gp s
  rw [h] at this
  simpa using this

@[simp] theorem emit_trace (s : State) (e : Effect) : (s.emit e).trace_ = s.trace_ ++ [e] := rfl

@[simp] theorem emit_tasks_pending (s : State) (e : Effect) :
    (s.emit e).tasks_pending_ = s.tasks_pending_ := rfl

@[simp] theorem emit_tasks_transcoding (s : State) (e : Effect) :
    (s.emit e).tasks_transcoding_ = s.tasks_transcoding_ := rfl

@[simp] theorem emit_tasks_complete (s : State) (e : Effect) :
    (s.emit e).tasks_complete_ = s.tasks_complete_ := rfl

@[simp] theorem emit_task_count (s : State) (e : Effect) :
    (s.emit e).task_count_ = s.task_count_ := rfl

@[simp] theorem emit_files_with_errors (s : State) (e : Effect) :
    (s.emit e).files_with_errors_ = s.files_with_errors_ := rfl

@[simp] theorem emit_transcoder_jobs (s : State) (e : Effect) :
    (s.emit e).transcoder_jobs_ = s.transcoder_jobs_ := rfl

@[simp] theorem emit_started (s : State) (e : Effect) : (s.emit e).started_ = s.started_ := rfl

@[simp] theorem emit_current_copy_progress (s : State) (e : Effect) :
    (s.emit e).current_copy_progress_ = s.current_copy_progress_ := rfl

theorem ProcessSomeFiles_start_started (w : World) (s : State) (h : s.started_ = true) :
    ProcessSomeFiles_start w s = s := by
  simp [ProcessSomeFiles_start, h]

/-- The first tick when `StartCopy` fails, in full. -/
theorem ProcessSomeFiles_start_failed (copy overwrite eject_after : Bool)
    (items : List SongOrFilePair) (ws : Nat → World) (hfail : (ws 0).StartCopy.1 = false) :
    ProcessSomeFiles ws (Organise copy overwrite eject_after items) =
      { Organise copy overwrite eject_after items with
        supported_filetypes_ := (ws 0).StartCopy.2
        transcode_temp_name_ := (ws 0).QTemporaryFile_open
        tasks_pending_ := []
        started_ := true
        files_with_errors_ := items.map SongOrFilePair.DisplayName
        trace_ := [Effect.StartCopy, Effect.SetTaskProgress 0 ((items.length : Int) * 100),
            Effect.FinishCopy (items.map SongOrFilePair.DisplayName).isEmpty] ++
          (if eject_after then [Effect.Eject] else []) ++
          [Effect.SetTaskFinished, Effect.Finished (items.map SongOrFilePair.DisplayName)] } := by
  simp only [ProcessSomeFiles, ProcessSomeFiles_start, ProcessSomeFiles_finish, Organise, hfail,
    State.emit, foldl_append_names]
  simp [UpdateProgress, Transcoder_GetProgress, State.emit, QMap_values]
  cases eject_after <;> simp [Function.comp] <;> rfl

theorem Idle_UpdateProgress (gp : List (String × CFloat)) (s : State) (h : Idle s) :
    Idle (UpdateProgress gp s) := by
  obtain ⟨h1, h2, h3, h4, h5⟩ := h
  refine ⟨h1, h2, UpdateProgress_tasks_transcoding_nil gp s h3, h4, ?_⟩
  intro e he
  rw [UpdateProgress_trace] at he
  rcases List.mem_append.mp he with he | he
  · exact h5 e he
  · simp only [List.mem_singleton] at he
    rw [he]; rfl

theorem Idle_emit (s : State) (e : Effect) (h : Idle s) (he : e.isCopyOrTranscode = false) :
    Idle (s.emit e) := by
  obtain ⟨h1, h2, h3, h4, h5⟩ := h
  refine ⟨h1, h2, h3, h4, ?_⟩
  intro e' he'
  simp only [State.emit, List.mem_append, List.mem_singleton] at he'
  rcases he' with he' | he'
  · exact h5 e' he'
  · rw [he']; exact he

theorem Idle_finish (w : World) (s : State) (h : Idle s) : Idle (ProcessSomeFiles_finish w s) := by
  have hU := Idle_UpdateProgress (Transcoder_GetProgress w.progress_report s.transcoder_jobs_) s h
  simp only [ProcessSomeFiles_finish]
  refine Idle_emit _ _ ?_ rfl
  refine Idle_emit _ _ ?_ rfl
  split
  · exact Idle_emit _ _ (Idle_emit _ _ hU rfl) rfl
  · exact Idle_emit _ _ hU rfl

theorem Idle_step {s s' : State} (h : Idle s) (hstep : Step s s') : Idle s' := by
  cases hstep with
  | tick ws =>
    have hF := Idle_finish (ws 0) s h
    obtain ⟨h1, h2, h3, h4, h5⟩ := h
    have e1 : ProcessSomeFiles ws s = ProcessSomeFiles_finish (ws 0) s := by
      simp [ProcessSomeFiles, ProcessSomeFiles_start_started _ _ h1, h2, h3]
    rw [e1]
    exact hF
  | timer report => exact Idle_UpdateProgress _ _ h
  | transcoded filename success hmem =>
    rename_i hmem'
    obtain ⟨h1, h2, h3, h4, h5⟩ := h
    rw [h4] at hmem'
    cases hmem'

theorem Idle_reachable {s s' : State} (h : Idle s) (hr : Reachable s s') : Idle s' := by
  induction hr with
  | refl => exact h
  | tail _ hstep ih => exact Idle_step ih hstep

/-- C9, the claim as stated fails: for a job with no item (n = 0) whose
`StartCopy` fails, the failure list is empty and `FinishCopy` is called with
success = true, not false. -/
theorem C9_counterexample :
    (ProcessSomeFiles (fun _ => { sampleWorld with StartCopy := (false, []) })
        (Organise true false false [])).trace_
      = [Effect.StartCopy, Effect.SetTaskProgress 0 0, Effect.FinishCopy true,
          Effect.SetTaskFinished, Effect.Finished []] ∧
    Effect.FinishCopy false ∉
      (ProcessSomeFiles (fun _ => { sampleWorld with StartCopy := (false, []) })
        (Organise true false false [])).trace_ := by
  constructor <;> decide!

/-- C9, amended. If `StartCopy` fails on the first tick of a job with n queued
items, the failure list carried by `Finished` is the n display names of the
items in submission order, the pending queue is emptied, and neither in this
tick nor after any later event is a copy or a transcode job issued; when
n >= 1, `FinishCopy` is called with success = false (and never with true). -/
theorem C9_StartCopy_failed (copy overwrite eject_after : Bool) (items : List SongOrFilePair)
    (ws : Nat → World) (hfail : (ws 0).StartCopy.1 = false) :
    (ProcessSomeFiles ws (Organise copy overwrite eject_after items)).files_with_errors_
      = items.map SongOrFilePair.DisplayName ∧
    (ProcessSomeFiles ws (Organise copy overwrite eject_after items)).files_with_errors_.length
      = items.length ∧
    Effect.Finished (items.map SongOrFilePair.DisplayName) ∈
      (ProcessSomeFiles ws (Organise copy overwrite eject_after items)).trace_ ∧
    (∀ names, Effect.Finished names ∈
        (ProcessSomeFiles ws (Organise copy overwrite eject_after items)).trace_ →
      names = items.map SongOrFilePair.DisplayName) ∧
    (ProcessSomeFiles ws (Organise copy overwrite eject_after items)).tasks_pending_ = [] ∧
    (∀ s, Reachable (ProcessSomeFiles ws (Organise copy overwrite eject_after items)) s →
      ∀ e ∈ s.trace_, e.isCopyOrTranscode = false) ∧
    (items ≠ [] →
      Effect.FinishCopy false ∈
        (ProcessSomeFiles ws (Organise copy overwrite eject_after items)).trace_ ∧
      Effect.FinishCopy true ∉
        (ProcessSomeFiles ws (Organise copy overwrite eject_after items)).trace_) := by
  rw [ProcessSomeFiles_start_failed copy overwrite eject_after items ws hfail]
  refine ⟨rfl, by simp, by simp, ?_, rfl, ?_, ?_⟩
  · intro names h
    cases eject_after <;> simpa using h
  · intro s hr
    refine (Idle_reachable ⟨rfl, rfl, rfl, rfl, ?_⟩ hr).2.2.2.2
    intro e he
    have hall : ∀ l : List Effect, (∀ x ∈ l, x.isCopyOrTranscode = false) →
        e ∈ l → e.isCopyOrTranscode = false := fun l hl hmem => hl e hmem
    cases eject_after
    · exact hall _ (by simp [Effect.isCopyOrTranscode]) he
    · exact hall _ (by simp [Effect.isCopyOrTranscode]) he
  · intro hne
    have hemp : (items.map SongOrFilePair.DisplayName).isEmpty = false := by
      cases items with
      | nil => exact absurd rfl hne
      | cons a l => rfl
    rw [hemp]
    cases eject_after <;> simp

/-- Witness of C9: a job of five items, three raw paths and two loaded
tracks, on a storage that refuses to start the copy. -/
theorem C9_StartCopy_failed_witness :
    (ProcessSomeFiles (fun _ => { sampleWorld with StartCopy := (false, []) })
      (Organise true false false
        [SongOrFilePair.ofFile "/music/a.flac", SongOrFilePair.ofSong { artist_ := "X", title_ := "one" },
          SongOrFilePair.ofFile "/music/b.mp3", SongOrFilePair.ofSong { artist_ := "Y", title_ := "two" },
          SongOrFilePair.ofFile "/music/c.ogg"])).files_with_errors_
      = ["/music/a.flac", "X, one", "/music/b.mp3", "Y, two", "/music/c.ogg"] ∧
    Effect.FinishCopy false ∈
      (ProcessSomeFiles (fun _ => { sampleWorld with StartCopy := (false, []) })
        (Organise true false false
          [SongOrFilePair.ofFile "/music/a.flac", SongOrFilePair.ofSong { artist_ := "X", title_ := "one" },
            SongOrFilePair.ofFile "/music/b.mp3", SongOrFilePair.ofSong { artist_ := "Y", title_ := "two" },
            SongOrFilePair.ofFile "/music/c.ogg"])).trace_ :=
  ⟨(C9_StartCopy_failed true false false _ (fun _ => { sampleWorld with StartCopy := (false, []) })
      rfl).1,
   ((C9_StartCopy_failed true false false _ (fun _ => { sampleWorld with StartCopy := (false, []) })
      rfl).2.2.2.2.2.2 (by simp)).1⟩

/-! ## Tracks of a cue sheet (claim C10) -/

@[simp] theorem SetSongProgress_files_with_errors (gp : List (String × CFloat)) (f : CFloat) (tr : Bool)
    (s : State) : (SetSongProgress gp f tr s).files_with_errors_ = s.files_with_errors_ := rfl

theorem SetSongProgress_trace (gp : List (String × CFloat)) (f : CFloat) (tr : Bool) (s : State) :
    ∃ p t, (SetSongProgress gp f tr s).trace_ = s.trace_ ++ [Effect.SetTaskProgress p t] := by
  unfold SetSongProgress
  exact ⟨_, _, UpdateProgress_trace _ _⟩

theorem callbacks_spec (cbs : List (CFloat × List (String × CFloat))) (tr : Bool) (s : State) :
    (cbs.foldl (fun s cb =>
        SetSongProgress (Transcoder_GetProgress cb.2 s.transcoder_jobs_) cb.1 tr s) s).files_with_errors_
      = s.files_with_errors_ ∧
    ∃ l, (cbs.foldl (fun s cb =>
        SetSongProgress (Transcoder_GetProgress cb.2 s.transcoder_jobs_) cb.1 tr s) s).trace_
      = s.trace_ ++ l ∧ ∀ e ∈ l, e.isProgress = true := by
  induction cbs generalizing s with
  | nil => exact ⟨rfl, [], by simp, by simp⟩
  | cons cb cbs ih =>
    simp only [List.foldl_cons]
    obtain ⟨h1, l, h2, h3⟩ := ih (SetSongProgress (Transcoder_GetProgress cb.2 s.transcoder_jobs_) cb.1 tr s)
    obtain ⟨p, t, h4⟩ := SetSongProgress_trace (Transcoder_GetProgress cb.2 s.transcoder_jobs_) cb.1 tr s
    refine ⟨by rw [h1]; rfl, Effect.SetTaskProgress p t :: l, ?_, ?_⟩
    · rw [h2, h4]; simp
    · intro e he
      rcases List.mem_cons.mp he with he | he
      · rw [he]; rfl
      · exact h3 e he

theorem CopyToStorage_spec (w : World) (job : CopyJob) (s : State) :
    (CopyToStorage w job s).1 = w.CopyToStorage job ∧
    (CopyToStorage w job s).2.files_with_errors_ = s.files_with_errors_ ∧
    ∃ l, (CopyToStorage w job s).2.trace_ = s.trace_ ++ Effect.CopyToStorage job :: l ∧
      ∀ e ∈ l, e.isProgress = true := by
  obtain ⟨h1, l, h2, h3⟩ := callbacks_spec (w.copy_callbacks job) job.progress_
    (s.emit (Effect.CopyToStorage job))
  refine ⟨rfl, ?_, l, ?_, h3⟩
  · simp only [CopyToStorage]; rw [h1]; rfl
  · simp only [CopyToStorage]; rw [h2]; simp

theorem String_append_ne_empty (a b c : String) : a ++ "/" ++ b ++ "." ++ c ≠ "" := by
  intro h
  have := congrArg String.length h
  simp at this
  exact absurd this.1.1.1.2 (by decide)

theorem MakeSegmentMp3Splt_ok (w : World) (job : CopyJob) (h : (MakeSegmentMp3Splt w job).ok = true) :
    (MakeSegmentMp3Splt w job).result_file ≠ "" := by
  unfold MakeSegmentMp3Splt at h ⊢
  by_cases hs : w.mp3splt_split (MakeSegmentMp3Splt_request w job) = w.SPLT_OK_SPLIT
  · simp only [hs, if_true]
    exact String_append_ne_empty _ _ _
  · simp only [hs, if_false] at h
    cases h

theorem Segmenter_Create_ok (w : World) (job : CopyJob) (h : (Segmenter_Create w job).1 = true) :
    (Segmenter_Create w job).2.1 ≠ "" := by
  unfold Segmenter_Create at h ⊢
  split at h
  · rename_i heq; simp only [heq]; exact MakeSegmentMp3Splt_ok w job h
  · rename_i heq; simp only [heq]; exact MakeSegmentMp3Splt_ok w job h
  · cases h

theorem Segmenter_Create_calls (w : World) (job : CopyJob) :
    ∀ e ∈ (Segmenter_Create w job).2.2, ∀ j, e ≠ Effect.CopyToStorage j := by
  intro e he j
  unfold Segmenter_Create at he
  split at he <;> simp at he <;> rw [he] <;> simp


theorem segment_cannot (w : World) (song : Song) (job : CopyJob) (s : State)
    (h : Segmenter_CanSegment job = false) :
    ProcessSomeFiles_segment w song job s = ("", job, s) := by
  unfold ProcessSomeFiles_segment
  simp [h]

theorem segment_failed (w : World) (song : Song) (job : CopyJob) (s : State)
    (hcue : song.has_cue = true) (hcan : Segmenter_CanSegment job = true)
    (h : (Segmenter_Create w job).1 = false) :
    ProcessSomeFiles_segment w song job s =
      ("", job, { s with trace_ := s.trace_ ++ (Segmenter_Create w job).2.2 }) := by
  unfold ProcessSomeFiles_segment
  simp [h, hcue, hcan]

theorem segment_created (w : World) (song : Song) (job : CopyJob) (s : State)
    (hcue : song.has_cue = true) (hcan : Segmenter_CanSegment job = true)
    (h : (Segmenter_Create w job).1 = true) :
    ProcessSomeFiles_segment w song job s =
      ((Segmenter_Create w job).2.1, { job with source_ := (Segmenter_Create w job).2.1 },
        { s with trace_ := s.trace_ ++ (Segmenter_Create w job).2.2 }) := by
  unfold ProcessSomeFiles_segment
  simp [h, hcue, hcan]

theorem store_no_segment (w : World) (task : Task) (job : CopyJob) (s : State) :
    ProcessSomeFiles_store w task true "" job s =
      { s with files_with_errors_ := s.files_with_errors_ ++ [task.song_or_file_.DisplayName] } := by
  simp [ProcessSomeFiles_store]

theorem store_copy (w : World) (task : Task) (needs_segment : Bool) (segment_file : String)
    (job : CopyJob) (s : State) (h : needs_segment = false ∨ segment_file ≠ "") :
    ∃ l, (ProcessSomeFiles_store w task needs_segment segment_file job s).trace_
        = s.trace_ ++ Effect.CopyToStorage job :: l ∧ ∀ e ∈ l, e.isProgress = true := by
  obtain ⟨_, _, l, h2, h3⟩ := CopyToStorage_spec w job s
  refine ⟨l, ?_, h3⟩
  have hc : (needs_segment && decide (segment_file = "")) = false := by
    rcases h with h | h
    · simp [h]
    · simp [h]
  unfold ProcessSomeFiles_store
  rw [if_neg (by simp [hc])]
  simp only []
  split <;> exact h2

theorem cleanup_files_with_errors (task : Task) (segment_file : String) (s : State) :
    (ProcessSomeFiles_cleanup task segment_file s).files_with_errors_ = s.files_with_errors_ := by
  unfold ProcessSomeFiles_cleanup
  split <;> split <;> rfl

theorem cleanup_trace (task : Task) (segment_file : String) (s : State) :
    ∃ l, (ProcessSomeFiles_cleanup task segment_file s).trace_ = s.trace_ ++ l ∧
      ∀ e ∈ l, ∃ path, e = Effect.QFile_remove path := by
  unfold ProcessSomeFiles_cleanup
  split <;> split
  · exact ⟨[Effect.QFile_remove task.transcoded_filename_, Effect.QFile_remove segment_file],
      by simp, by simp⟩
  · exact ⟨[Effect.QFile_remove task.transcoded_filename_], by simp, by simp⟩
  · exact ⟨[Effect.QFile_remove segment_file], by simp, by simp⟩
  · exact ⟨[], by simp, by simp⟩


theorem body_eq_copy (w : World) (task : Task) (s : State)
    (hnotdir : (task.song_or_file_.IsFile && w.isDir task.song_or_file_.file_) = false)
    (hvalid : (task.song_or_file_.IsFile && !(ProcessSomeFiles_read w task).valid_) = false)
    (hready : task.transcoded_filename_ ≠ "" ∨
      CheckTranscode w.PickBestFormat w.GetTranscodeMode w.GetTranscodeFormat
        s.supported_filetypes_ (ProcessSomeFiles_read w task).filetype_ = Type_Unknown) :
    ProcessSomeFiles_body w task s =
      ProcessSomeFiles_copy w task (ProcessSomeFiles_song w task) s := by
  unfold ProcessSomeFiles_body ProcessSomeFiles_song
  simp only [hnotdir, hvalid, Bool.false_eq_true, if_false]
  by_cases ht : task.transcoded_filename_ = ""
  · have hc := hready.resolve_left (fun h => h ht)
    simp [ht, hc]
  · simp [ht]

theorem song_has_cue (w : World) (task : Task) :
    (ProcessSomeFiles_song w task).has_cue = (ProcessSomeFiles_read w task).has_cue := by
  unfold ProcessSomeFiles_song
  split <;> rfl

/-- C10. For a task that the batch step copies (not a directory, metadata
valid, transcoded already or in no need of it) and whose track has a cue
reference: if the Segmenter cannot segment the copy source or `Create` fails,
the step appends the task's display name to the failure list and hands no job
to `CopyToStorage`; if `Create` succeeds, a job is handed to `CopyToStorage`
and every job handed has the segment file as its source. -/
theorem C10_cue_track_segment (w : World) (task : Task) (s : State)
    (hnotdir : (task.song_or_file_.IsFile && w.isDir task.song_or_file_.file_) = false)
    (hvalid : (task.song_or_file_.IsFile && !(ProcessSomeFiles_read w task).valid_) = false)
    (hready : task.transcoded_filename_ ≠ "" ∨
      CheckTranscode w.PickBestFormat w.GetTranscodeMode w.GetTranscodeFormat
        s.supported_filetypes_ (ProcessSomeFiles_read w task).filetype_ = Type_Unknown)
    (hcue : (ProcessSomeFiles_read w task).has_cue = true) :
    ((Segmenter_CanSegment (ProcessSomeFiles_job w task (ProcessSomeFiles_song w task) s) = false ∨
        (Segmenter_Create w (ProcessSomeFiles_job w task (ProcessSomeFiles_song w task) s)).1
          = false) →
      (ProcessSomeFiles_body w task s).files_with_errors_ =
        s.files_with_errors_ ++ [task.song_or_file_.DisplayName] ∧
      ∃ l, (ProcessSomeFiles_body w task s).trace_ = s.trace_ ++ l ∧
        ∀ j, Effect.CopyToStorage j ∉ l) ∧
    (Segmenter_CanSegment (ProcessSomeFiles_job w task (ProcessSomeFiles_song w task) s) = true →
      (Segmenter_Create w (ProcessSomeFiles_job w task (ProcessSomeFiles_song w task) s)).1
          = true →
      ∃ l, (ProcessSomeFiles_body w task s).trace_ = s.trace_ ++ l ∧
        Effect.CopyToStorage
          { ProcessSomeFiles_job w task (ProcessSomeFiles_song w task) s with
            source_ := (Segmenter_Create w
              (ProcessSomeFiles_job w task (ProcessSomeFiles_song w task) s)).2.1 } ∈ l ∧
        ∀ j, Effect.CopyToStorage j ∈ l →
          j.source_ = (Segmenter_Create w
            (ProcessSomeFiles_job w task (ProcessSomeFiles_song w task) s)).2.1) := by
  rw [body_eq_copy w task s hnotdir hvalid hready]
  have hcue' : (ProcessSomeFiles_song w task).has_cue = true := by rw [song_has_cue]; exact hcue
  generalize ProcessSomeFiles_song w task = song at hcue' ⊢
  generalize hjob : ProcessSomeFiles_job w task song s = job
  have hnoprog : ∀ (l : List Effect), (∀ e ∈ l, e.isProgress = true) →
      ∀ j, Effect.CopyToStorage j ∉ l := by
    intro l hl j hj
    have := hl _ hj
    cases this
  have hnorm : ∀ (l : List Effect), (∀ e ∈ l, ∃ path, e = Effect.QFile_remove path) →
      ∀ j, Effect.CopyToStorage j ∉ l := by
    intro l hl j hj
    obtain ⟨path, hp⟩ := hl _ hj
    cases hp
  constructor
  · intro hfail
    unfold ProcessSomeFiles_copy
    simp only [hjob, hcue']
    have hseg : ∃ s1, ProcessSomeFiles_segment w song job s = ("", job, s1) ∧
        s1.files_with_errors_ = s.files_with_errors_ ∧
        ∃ l, s1.trace_ = s.trace_ ++ l ∧ ∀ j, Effect.CopyToStorage j ∉ l := by
      by_cases hcan : Segmenter_CanSegment job = true
      · have hcr := hfail.resolve_left (by simp [hcan])
        refine ⟨_, segment_failed w song job s hcue' hcan hcr, rfl, _, rfl, ?_⟩
        intro j hj
        exact Segmenter_Create_calls w job _ hj j rfl
      · refine ⟨s, segment_cannot w song job s (by simpa using hcan), rfl, [], by simp, by simp⟩
    obtain ⟨s1, hs1, herr, l1, htr, hno⟩ := hseg
    rw [hs1]
    simp only [store_no_segment]
    obtain ⟨l2, h2, h3⟩ := cleanup_trace task ""
      { s1 with files_with_errors_ := s1.files_with_errors_ ++ [task.song_or_file_.DisplayName] }
    refine ⟨by rw [cleanup_files_with_errors, herr], l1 ++ l2, ?_, ?_⟩
    · rw [h2]; simp only []; rw [htr, List.append_assoc]
    · intro j hj
      rcases List.mem_append.mp hj with hj | hj
      · exact hno j hj
      · exact hnorm l2 h3 j hj
  · intro hcan hcr
    unfold ProcessSomeFiles_copy
    simp only [hjob, hcue']
    rw [segment_created w song job s hcue' hcan hcr]
    simp only []
    obtain ⟨l1, h1, h1p⟩ := store_copy w task true (Segmenter_Create w job).2.1
      { job with source_ := (Segmenter_Create w job).2.1 }
      { s with trace_ := s.trace_ ++ (Segmenter_Create w job).2.2 }
      (Or.inr (Segmenter_Create_ok w job hcr))
    obtain ⟨l2, h2, h3⟩ := cleanup_trace task (Segmenter_Create w job).2.1
      (ProcessSomeFiles_store w task true (Segmenter_Create w job).2.1
        { job with source_ := (Segmenter_Create w job).2.1 }
        { s with trace_ := s.trace_ ++ (Segmenter_Create w job).2.2 })
    refine ⟨(Segmenter_Create w job).2.2 ++
      Effect.CopyToStorage { job with source_ := (Segmenter_Create w job).2.1 } :: l1 ++ l2, ?_, ?_, ?_⟩
    · rw [h2, h1]; simp
    · simp
    · intro j hj
      simp only [List.mem_append, List.mem_cons] at hj
      rcases hj with (hj | hj | hj) | hj
      · exact absurd rfl (Segmenter_Create_calls w job _ hj j)
      · cases hj; rfl
      · exact absurd hj (hnoprog l1 h1p j)
      · exact absurd hj (hnorm l2 h3 j)

/-- Witness of C10: a track of a cue sheet whose audio is a FLAC file cannot be
segmented and is marked failed without a copy; the same track in an MP3 file
is segmented, and the segment is what the storage is given. -/
theorem C10_cue_track_segment_witness :
    ((ProcessSomeFiles_body sampleWorld (sampleCueTask "/music/album.flac")
          (Organise true false false [])).files_with_errors_
        = (Organise true false false []).files_with_errors_ ++
          [(sampleCueTask "/music/album.flac").song_or_file_.DisplayName] ∧
      ∃ l, (ProcessSomeFiles_body sampleWorld (sampleCueTask "/music/album.flac")
          (Organise true false false [])).trace_ = (Organise true false false []).trace_ ++ l ∧
        ∀ j, Effect.CopyToStorage j ∉ l) ∧
    ∃ l, (ProcessSomeFiles_body sampleWorld (sampleCueTask "/music/album.MP3")
        (Organise true false false [])).trace_ = (Organise true false false []).trace_ ++ l ∧
      Effect.CopyToStorage
        { ProcessSomeFiles_job sampleWorld (sampleCueTask "/music/album.MP3")
            (ProcessSomeFiles_song sampleWorld (sampleCueTask "/music/album.MP3"))
            (Organise true false false []) with
          source_ := (Segmenter_Create sampleWorld
            (ProcessSomeFiles_job sampleWorld (sampleCueTask "/music/album.MP3")
              (ProcessSomeFiles_song sampleWorld (sampleCueTask "/music/album.MP3"))
              (Organise true false false []))).2.1 } ∈ l ∧
      ∀ j, Effect.CopyToStorage j ∈ l →
        j.source_ = (Segmenter_Create sampleWorld
          (ProcessSomeFiles_job sampleWorld (sampleCueTask "/music/album.MP3")
            (ProcessSomeFiles_song sampleWorld (sampleCueTask "/music/album.MP3"))
            (Organise true false false []))).2.1 :=
  ⟨(C10_cue_track_segment sampleWorld (sampleCueTask "/music/album.flac")
      (Organise true false false []) (by decide) (by decide) (Or.inr (by decide)) (by decide)).1
      (Or.inl (by decide)),
   (C10_cue_track_segment sampleWorld (sampleCueTask "/music/album.MP3")
      (Organise true false false []) (by decide) (by decide) (Or.inr (by decide)) (by decide)).2
      (by decide) (by decide)⟩

/-! ## The published progress never exceeds the total (claim C4) -/

theorem sum_points_le_filter (m : List (String × Task)) :
    ((QMap_values m).map Task.points).sum ≤
      50 * ((m.filter (fun kv => decide (0 < kv.2.points))).length : Int) := by
  induction m with
  | nil => simp [QMap_values]
  | cons kv m ih =>
    simp only [QMap_values, List.map_cons, List.sum_cons] at ih ⊢
    by_cases h : 0 < kv.2.points
    · simp only [List.filter_cons, h, decide_True, if_true, List.length_cons]
      have := kv.2.points_le
      push_cast
      linarith
    · simp only [List.filter_cons, h, decide_False]
      have := kv.2.points_nonneg
      have h0 : kv.2.points = 0 := by omega
      simp only [h0]
      simpa using ih

theorem filter_length_le (m : List (String × Task)) (jobs : List String)
    (hnd : (m.map Prod.fst).Nodup)
    (hin : ∀ kv ∈ m, 0 < kv.2.points → kv.1 ∈ jobs) :
    (m.filter (fun kv => decide (0 < kv.2.points))).length ≤ jobs.length := by
  have h1 : ((m.filter (fun kv => decide (0 < kv.2.points))).map Prod.fst).Nodup :=
    List.Nodup.sublist ((List.filter_sublist m).map Prod.fst) hnd
  have h2 : (m.filter (fun kv => decide (0 < kv.2.points))).map Prod.fst ⊆ jobs := by
    intro k hk
    obtain ⟨kv, hkv, rfl⟩ := List.mem_map.mp hk
    rw [List.mem_filter] at hkv
    exact hin kv hkv.1 (by simpa using hkv.2)
  have := (List.subperm_of_subset h1 h2).length_le
  simpa using this

theorem sum_pending_le (l : List Task) : (l.map Task.points).sum ≤ 50 * (l.length : Int) := by
  induction l with
  | nil => simp
  | cons t l ih =>
    simp only [List.map_cons, List.sum_cons, List.length_cons]
    have := t.points_le
    push_cast
    linarith

theorem refresh_mem (keys : List String) (gp : List (String × CFloat)) (m : List (String × Task)) :
    ∀ kv' ∈ keys.foldl
      (fun m filename =>
        if !QMap_contains m filename then m
        else m.map (fun kv =>
          if kv.1 == filename then
            (kv.1, { kv.2 with transcode_progress_ := (gp.lookup filename).getD 0 })
          else kv)) m,
      ∃ kv ∈ m, kv'.1 = kv.1 ∧ kv'.2.transcoded_filename_ = kv.2.transcoded_filename_ ∧
        (kv' = kv ∨ kv'.1 ∈ keys) := by
  induction keys generalizing m with
  | nil =>
    intro kv' h
    exact ⟨kv', h, rfl, rfl, Or.inl rfl⟩
  | cons k ks ih =>
    intro kv' h
    simp only [List.foldl_cons] at h
    obtain ⟨kv1, hkv1, h1, h2, h3⟩ := ih _ kv' h
    have hstep : ∃ kv ∈ m, kv1.1 = kv.1 ∧ kv1.2.transcoded_filename_ = kv.2.transcoded_filename_ ∧
        (kv1 = kv ∨ kv1.1 = k) := by
      split at hkv1
      · exact ⟨kv1, hkv1, rfl, rfl, Or.inl rfl⟩
      · obtain ⟨kv, hkv, heq⟩ := List.mem_map.mp hkv1
        by_cases hk : (kv.1 == k) = true
        · rw [if_pos hk] at heq
          refine ⟨kv, hkv, by rw [← heq], by rw [← heq], Or.inr ?_⟩
          rw [← heq]
          simpa using hk
        · rw [if_neg hk] at heq
          exact ⟨kv, hkv, by rw [heq], by rw [heq], Or.inl heq.symm⟩
    obtain ⟨kv, hkv, g1, g2, g3⟩ := hstep
    refine ⟨kv, hkv, h1.trans g1, h2.trans g2, ?_⟩
    rcases h3 with h3 | h3
    · rcases g3 with g3 | g3
      · exact Or.inl (h3.trans g3)
      · exact Or.inr (by rw [h3, g3]; exact List.mem_cons_self _ _)
    · exact Or.inr (List.mem_cons_of_mem _ h3)

theorem UpdateProgress_mem (gp : List (String × CFloat)) (s : State) :
    ∀ kv' ∈ (UpdateProgress gp s).tasks_transcoding_,
      ∃ kv ∈ s.tasks_transcoding_, kv'.1 = kv.1 ∧
        kv'.2.transcoded_filename_ = kv.2.transcoded_filename_ ∧
        (kv' = kv ∨ kv'.1 ∈ gp.map Prod.fst) := by
  simp only [UpdateProgress, State.emit]
  exact refresh_mem _ _ _

theorem GetProgress_keys (report : List (String × CFloat)) (jobs : List String) :
    ∀ k ∈ (Transcoder_GetProgress report jobs).map Prod.fst, k ∈ jobs := by
  intro k hk
  obtain ⟨kv, hkv, rfl⟩ := List.mem_map.mp hk
  simp only [Transcoder_GetProgress, List.mem_filter] at hkv
  simpa using hkv.2

theorem UpdateProgress_Core (gp : List (String × CFloat)) (s : State) (reserved : Int)
    (hgp : ∀ k ∈ gp.map Prod.fst, k ∈ s.transcoder_jobs_)
    (hc : Core s) (hb : Budget s reserved) (hccp : s.current_copy_progress_ ≤ 100 * reserved) :
    Core (UpdateProgress gp s) := by
  obtain ⟨c1, c2, c3, c4, c5, c6⟩ := hc
  have k3 : ∀ kv ∈ (UpdateProgress gp s).tasks_transcoding_, 0 < kv.2.points →
      kv.1 ∈ s.transcoder_jobs_ := by
    intro kv' hkv' hpos
    obtain ⟨kv, hkv, h1, _, h3⟩ := UpdateProgress_mem gp s kv' hkv'
    rcases h3 with h3 | h3
    · rw [h3] at hpos ⊢
      exact c3 kv hkv hpos
    · exact hgp _ h3
  have k2 : ((UpdateProgress gp s).tasks_transcoding_.map Prod.fst).Nodup := by
    rw [UpdateProgress_keys]; exact c2
  refine ⟨c1, k2, k3, ?_, c5, ?_⟩
  · intro kv' hkv'
    obtain ⟨kv, hkv, _, h2, _⟩ := UpdateProgress_mem gp s kv' hkv'
    rw [h2]; exact c4 kv hkv
  · intro p t hpt
    rw [UpdateProgress_trace] at hpt
    rcases List.mem_append.mp hpt with hpt | hpt
    · exact c6 p t hpt
    · simp only [List.mem_singleton, Effect.SetTaskProgress.injEq] at hpt
      obtain ⟨rfl, rfl⟩ := hpt
      refine ⟨?_, le_refl _⟩
      have s1 := sum_pending_le s.tasks_pending_
      have s2 := sum_points_le_filter (UpdateProgress gp s).tasks_transcoding_
      have s3 := filter_length_le (UpdateProgress gp s).tasks_transcoding_ s.transcoder_jobs_ k2 k3
      have s3' : (((UpdateProgress gp s).tasks_transcoding_.filter
          (fun kv => decide (0 < kv.2.points))).length : Int) ≤ s.transcoder_jobs_.length := by
        exact_mod_cast s3
      unfold Budget at hb
      have hp : (0 : Int) ≤ s.tasks_pending_.length := Int.natCast_nonneg _
      have hj : (0 : Int) ≤ s.transcoder_jobs_.length := Int.natCast_nonneg _
      linarith

theorem Core_congr {s s' : State} (hc : Core s)
    (h1 : s'.tasks_complete_ = s.tasks_complete_)
    (h2 : s'.tasks_transcoding_ = s.tasks_transcoding_)
    (h3 : s'.transcoder_jobs_ = s.transcoder_jobs_)
    (h4 : s'.tasks_pending_ = s.tasks_pending_)
    (h5 : s'.task_count_ = s.task_count_)
    (h6 : ∀ p t, Effect.SetTaskProgress p t ∈ s'.trace_ → Effect.SetTaskProgress p t ∈ s.trace_) :
    Core s' := by
  unfold Core PublishedOk at hc ⊢
  rw [h1, h2, h3, h4, h5]
  exact ⟨hc.1, hc.2.1, hc.2.2.1, hc.2.2.2.1, hc.2.2.2.2.1, fun p t h => hc.2.2.2.2.2 p t (h6 p t h)⟩

theorem Budget_congr {s s' : State} {r : Int} (hb : Budget s r)
    (h1 : s'.tasks_complete_ = s.tasks_complete_)
    (h3 : s'.transcoder_jobs_ = s.transcoder_jobs_)
    (h4 : s'.tasks_pending_ = s.tasks_pending_)
    (h5 : s'.task_count_ = s.task_count_) : Budget s' r := by
  unfold Budget at hb ⊢
  rw [h1, h3, h4, h5]; exact hb

theorem Core_emit {s : State} (e : Effect) (hc : Core s) (he : e.isProgress = false) :
    Core (s.emit e) := by
  refine Core_congr hc rfl rfl rfl rfl rfl ?_
  intro p t h
  simp only [emit_trace, List.mem_append, List.mem_singleton] at h
  rcases h with h | h
  · exact h
  · rw [← h] at he; cases he

theorem Budget_emit {s : State} {r : Int} (e : Effect) (hb : Budget s r) : Budget (s.emit e) r :=
  Budget_congr hb rfl rfl rfl rfl

theorem Core_append_trace {s : State} (l : List Effect) (hc : Core s)
    (hl : ∀ e ∈ l, e.isProgress = false) : Core { s with trace_ := s.trace_ ++ l } := by
  refine Core_congr hc rfl rfl rfl rfl rfl ?_
  intro p t h
  simp only [List.mem_append] at h
  rcases h with h | h
  · exact h
  · have := hl _ h; cases this

theorem zero_mul_toInt : ((0 : CFloat) * CFloat.ofInt 50).toInt = 0 ∧
    ((0 : CFloat) * CFloat.ofInt 100).toInt = 0 := by
  constructor <;> decide!

theorem SetSongProgress_zero (gp : List (String × CFloat)) (s : State)
    (hgp : ∀ k ∈ gp.map Prod.fst, k ∈ s.transcoder_jobs_) (hc : Core s) (hb : Budget s 0) :
    Core (SetSongProgress gp 0 false s) ∧ Budget (SetSongProgress gp 0 false s) 0 ∧
    (SetSongProgress gp 0 false s).current_copy_progress_ = 0 := by
  have hv : (SetSongProgress gp 0 false s).current_copy_progress_ = 0 := by
    rw [SetSongProgress_current_copy_progress]
    simp [zero_mul_toInt.2, qBound]
  refine ⟨?_, ?_, hv⟩
  · unfold SetSongProgress
    refine UpdateProgress_Core gp _ 0 hgp (Core_congr hc rfl rfl rfl rfl rfl (fun p t h => h))
      (Budget_congr hb rfl rfl rfl rfl) ?_
    have := hv
    unfold SetSongProgress at this
    simp only [UpdateProgress_current_copy_progress] at this
    rw [this]; norm_num
  · exact Budget_congr hb rfl rfl rfl rfl

theorem SetSongProgress_reserved (gp : List (String × CFloat)) (f : CFloat) (transcoded : Bool)
    (s : State)
    (hgp : ∀ k ∈ gp.map Prod.fst, k ∈ s.transcoder_jobs_) (hc : Core s) (hb : Budget s 1) :
    Core (SetSongProgress gp f transcoded s) ∧ Budget (SetSongProgress gp f transcoded s) 1 := by
  refine ⟨?_, Budget_congr hb rfl rfl rfl rfl⟩
  have hv := SetSongProgress_le_99 gp f transcoded s
  unfold SetSongProgress at hv ⊢
  refine UpdateProgress_Core gp _ 1 hgp (Core_congr hc rfl rfl rfl rfl rfl (fun p t h => h))
    (Budget_congr hb rfl rfl rfl rfl) ?_
  simp only [UpdateProgress_current_copy_progress] at hv
  exact le_trans hv (by norm_num)

theorem points_fresh (sof : SongOrFilePair) :
    Task.points { song_or_file_ := sof } = 0 := by
  have h0 : Task.points { song_or_file_ := sof } = qBound 0 ((0 : CFloat) * CFloat.ofInt 50).toInt 50 :=
    rfl
  rw [h0, zero_mul_toInt.1]
  decide

theorem expand_fold (dir : String) (entries : List String) (s : State) (r : Int)
    (hc : Core s) (hb : Budget s r) :
    Core (entries.foldl
      (fun s entry =>
        { s with
          tasks_pending_ := s.tasks_pending_ ++
            [{ song_or_file_ := SongOrFilePair.ofFile (dir ++ "/" ++ entry) }]
          task_count_ := s.task_count_ + 1 }) s) ∧
    Budget (entries.foldl
      (fun s entry =>
        { s with
          tasks_pending_ := s.tasks_pending_ ++
            [{ song_or_file_ := SongOrFilePair.ofFile (dir ++ "/" ++ entry) }]
          task_count_ := s.task_count_ + 1 }) s) r := by
  induction entries generalizing s with
  | nil => exact ⟨hc, hb⟩
  | cons entry entries ih =>
    simp only [List.foldl_cons]
    apply ih
    · obtain ⟨c1, c2, c3, c4, c5, c6⟩ := hc
      refine ⟨c1, c2, c3, c4, ?_, ?_⟩
      · intro t ht hne
        simp only [List.mem_append, List.mem_singleton] at ht
        rcases ht with ht | ht
        · exact c5 t ht hne
        · rw [ht]; exact points_fresh _
      · intro p t hpt
        have := c6 p t hpt
        refine ⟨this.1, ?_⟩
        have h2 := this.2
        show t ≤ (s.task_count_ + 1) * 100
        linarith
    · unfold Budget at hb ⊢
      simp only [List.length_append, List.length_singleton]
      push_cast
      linarith

theorem expand_inv (w : World) (task : Task) (s : State) (r : Int) (hc : Core s)
    (hb : Budget s r) :
    Core (ProcessSomeFiles_expand w task s) ∧ Budget (ProcessSomeFiles_expand w task s) r :=
  expand_fold _ _ s r hc hb

theorem QMap_contains_iff (m : List (String × Task)) (key : String) :
    QMap_contains m key = true ↔ key ∈ m.map Prod.fst := by
  simp only [QMap_contains, List.any_eq_true, List.mem_map, beq_iff_eq]

theorem QMap_set_keys (m : List (String × Task)) (key : String) (value : Task)
    (hnd : (m.map Prod.fst).Nodup) : ((QMap_set m key value).map Prod.fst).Nodup := by
  unfold QMap_set
  split
  · have : (m.map (fun kv => if (kv.1 == key) = true then (key, value) else kv)).map Prod.fst
        = m.map Prod.fst := by
      rw [List.map_map]
      apply List.map_congr_left
      intro kv _
      simp only [Function.comp]
      split
      · rename_i h
        have h' : kv.1 = key := by simpa using h
        exact h'.symm
      · rfl
    rw [this]; exact hnd
  · rename_i h
    rw [QMap_contains_iff] at h
    rw [List.map_append, List.map_singleton]
    refine List.Nodup.append hnd (List.nodup_singleton _) ?_
    intro a ha hb
    rw [List.mem_singleton] at hb
    rw [hb] at ha
    exact h ha

theorem QMap_set_mem (m : List (String × Task)) (key : String) (value : Task) :
    ∀ kv ∈ QMap_set m key value, kv = (key, value) ∨ kv ∈ m := by
  intro kv h
  unfold QMap_set at h
  split at h
  · obtain ⟨kv0, h0, heq⟩ := List.mem_map.mp h
    split at heq
    · exact Or.inl heq.symm
    · exact Or.inr (heq ▸ h0)
  · rcases List.mem_append.mp h with h | h
    · exact Or.inr h
    · exact Or.inl (List.mem_singleton.mp h)

theorem transcode_inv (w : World) (task : Task) (dest_type : FileType) (s : State)
    (hc : Core s) (hb : Budget s 1) (ht : task.transcoded_filename_ = "" → task.points = 0)
    (hempty : task.transcoded_filename_ = "") :
    Core (ProcessSomeFiles_transcode w task dest_type s) ∧
    Budget (ProcessSomeFiles_transcode w task dest_type s) 0 := by
  obtain ⟨c1, c2, c3, c4, c5, c6⟩ := hc
  unfold ProcessSomeFiles_transcode
  simp only []
  constructor
  · refine Core_emit _ (Core_emit _ ?_ rfl) rfl
    refine ⟨c1, QMap_set_keys _ _ _ c2, ?_, ?_, c5, c6⟩
    · intro kv hkv hpos
      rcases QMap_set_mem _ _ _ kv hkv with h | h
      · rw [h] at hpos
        have : task.points = 0 := ht hempty
        have hp : Task.points
            { task with
              transcoded_filename_ := s.transcode_temp_name_ ++ "-" ++
                QString_number s.transcode_suffix_
              new_extension_ := (w.PresetForFileType dest_type).extension_
              new_filetype_ := dest_type } = task.points := rfl
        simp only [hp, this] at hpos
        exact absurd hpos (lt_irrefl _)
      · exact List.mem_append_left _ (c3 kv h hpos)
    · intro kv hkv
      rcases QMap_set_mem _ _ _ kv hkv with h | h
      · rw [h]
        intro hcontra
        have := congrArg String.length hcontra
        simp at this
        exact absurd this.1.2 (by decide)
      · exact c4 kv h
  · refine Budget_emit _ (Budget_emit _ ?_)
    unfold Budget at hb ⊢
    simp only [List.length_append, List.length_singleton]
    push_cast
    linarith

theorem callbacks_inv (cbs : List (CFloat × List (String × CFloat))) (tr : Bool) (s : State)
    (hc : Core s) (hb : Budget s 1) :
    Core (cbs.foldl (fun s cb =>
        SetSongProgress (Transcoder_GetProgress cb.2 s.transcoder_jobs_) cb.1 tr s) s) ∧
    Budget (cbs.foldl (fun s cb =>
        SetSongProgress (Transcoder_GetProgress cb.2 s.transcoder_jobs_) cb.1 tr s) s) 1 := by
  induction cbs generalizing s with
  | nil => exact ⟨hc, hb⟩
  | cons cb cbs ih =>
    simp only [List.foldl_cons]
    obtain ⟨h1, h2⟩ := SetSongProgress_reserved (Transcoder_GetProgress cb.2 s.transcoder_jobs_)
      cb.1 tr s (GetProgress_keys _ _) hc hb
    exact ih _ h1 h2

theorem CopyToStorage_inv (w : World) (job : CopyJob) (s : State) (hc : Core s)
    (hb : Budget s 1) :
    Core (CopyToStorage w job s).2 ∧ Budget (CopyToStorage w job s).2 1 := by
  unfold CopyToStorage
  exact callbacks_inv _ _ _ (Core_emit _ hc rfl) (Budget_emit _ hb)

theorem store_inv (w : World) (task : Task) (needs_segment : Bool) (segment_file : String)
    (job : CopyJob) (s : State) (hc : Core s) (hb : Budget s 1) :
    Core (ProcessSomeFiles_store w task needs_segment segment_file job s) ∧
    Budget (ProcessSomeFiles_store w task needs_segment segment_file job s) 1 := by
  obtain ⟨h1, h2⟩ := CopyToStorage_inv w job s hc hb
  unfold ProcessSomeFiles_store
  split
  · exact ⟨Core_congr hc rfl rfl rfl rfl rfl (fun p t h => h), Budget_congr hb rfl rfl rfl rfl⟩
  · simp only []
    split
    · exact ⟨Core_congr h1 rfl rfl rfl rfl rfl (fun p t h => h), Budget_congr h2 rfl rfl rfl rfl⟩
    · exact ⟨h1, h2⟩

theorem Segmenter_Create_calls_progress (w : World) (job : CopyJob) :
    ∀ e ∈ (Segmenter_Create w job).2.2, e.isProgress = false := by
  intro e he
  unfold Segmenter_Create at he
  split at he <;> simp at he <;> rw [he] <;> rfl

theorem segment_inv (w : World) (song : Song) (job : CopyJob) (s : State) (hc : Core s)
    (hb : Budget s 1) :
    Core (ProcessSomeFiles_segment w song job s).2.2 ∧
    Budget (ProcessSomeFiles_segment w song job s).2.2 1 := by
  have hc' := Core_append_trace (Segmenter_Create w job).2.2 hc
    (Segmenter_Create_calls_progress w job)
  have hb' : Budget { s with trace_ := s.trace_ ++ (Segmenter_Create w job).2.2 } 1 :=
    Budget_congr hb rfl rfl rfl rfl
  unfold ProcessSomeFiles_segment
  split
  · split
    · simp only []
      split
      · exact ⟨hc', hb'⟩
      · exact ⟨hc', hb'⟩
    · exact ⟨hc, hb⟩
  · exact ⟨hc, hb⟩

theorem cleanup_inv (task : Task) (segment_file : String) (s : State) (hc : Core s)
    (hb : Budget s 1) :
    Core (ProcessSomeFiles_cleanup task segment_file s) ∧
    Budget (ProcessSomeFiles_cleanup task segment_file s) 0 := by
  have key : ∀ s1 : State, Core s1 → Budget s1 1 →
      Core { s1 with tasks_complete_ := s1.tasks_complete_ + 1 } ∧
      Budget { s1 with tasks_complete_ := s1.tasks_complete_ + 1 } 0 := by
    intro s1 h1 h2
    obtain ⟨c1, c2, c3, c4, c5, c6⟩ := h1
    refine ⟨⟨?_, c2, c3, c4, c5, c6⟩, ?_⟩
    · show 0 ≤ s1.tasks_complete_ + 1
      linarith
    · unfold Budget at h2 ⊢
      show s1.tasks_complete_ + 1 + _ + _ + 0 ≤ _
      linarith
  unfold ProcessSomeFiles_cleanup
  simp only []
  apply key
  · split <;> split
    · exact Core_emit _ (Core_emit _ hc rfl) rfl
    · exact Core_emit _ hc rfl
    · exact Core_emit _ hc rfl
    · exact hc
  · split <;> split
    · exact Budget_emit _ (Budget_emit _ hb)
    · exact Budget_emit _ hb
    · exact Budget_emit _ hb
    · exact hb

theorem copy_inv (w : World) (task : Task) (song : Song) (s : State) (hc : Core s)
    (hb : Budget s 1) :
    Core (ProcessSomeFiles_copy w task song s) ∧ Budget (ProcessSomeFiles_copy w task song s) 0 := by
  unfold ProcessSomeFiles_copy
  simp only []
  obtain ⟨h1, h2⟩ := segment_inv w song (ProcessSomeFiles_job w task song s) s hc hb
  obtain ⟨h3, h4⟩ := store_inv w task song.has_cue
    (ProcessSomeFiles_segment w song (ProcessSomeFiles_job w task song s) s).1
    (ProcessSomeFiles_segment w song (ProcessSomeFiles_job w task song s) s).2.1 _ h1 h2
  exact cleanup_inv _ _ _ h3 h4

theorem Budget_of_le {s s' : State} {r : Int} (hb : Budget s r)
    (h1 : s'.tasks_complete_ = s.tasks_complete_)
    (h3 : s'.transcoder_jobs_ = s.transcoder_jobs_)
    (h4 : s'.tasks_pending_.length ≤ s.tasks_pending_.length)
    (h5 : s'.task_count_ = s.task_count_) : Budget s' r := by
  unfold Budget at hb ⊢
  rw [h1, h3, h5]
  have : (s'.tasks_pending_.length : Int) ≤ s.tasks_pending_.length := by exact_mod_cast h4
  linarith

theorem Budget_mono {s : State} {r r' : Int} (hb : Budget s r) (h : r' ≤ r) : Budget s r' := by
  unfold Budget at hb ⊢
  linarith

theorem body_inv (w : World) (task : Task) (s : State) (hc : Core s) (hb : Budget s 1)
    (ht : task.transcoded_filename_ = "" → task.points = 0) :
    Core (ProcessSomeFiles_body w task s) ∧ Budget (ProcessSomeFiles_body w task s) 0 := by
  unfold ProcessSomeFiles_body
  simp only []
  split
  · exact expand_inv w task s 0 hc (Budget_mono hb (by norm_num))
  · split
    · exact ⟨hc, Budget_mono hb (by norm_num)⟩
    · split
      · exact copy_inv w task _ s hc hb
      · rename_i hempty
        split
        · exact transcode_inv w task _ s hc hb ht (by simpa using hempty)
        · exact copy_inv w task _ s hc hb

theorem loop_inv (ws : Nat → World) (n i : Nat) (s : State) (hc : Core s) (hb : Budget s 0) :
    Core (ProcessSomeFiles_loop ws i n s) ∧ Budget (ProcessSomeFiles_loop ws i n s) 0 := by
  induction n generalizing i s with
  | zero => exact ⟨hc, hb⟩
  | succ n ih =>
    obtain ⟨h1, h2, _⟩ := SetSongProgress_zero
      (Transcoder_GetProgress (ws (i + 1)).progress_report s.transcoder_jobs_) s
      (GetProgress_keys _ _) hc hb
    simp only [ProcessSomeFiles_loop]
    split
    · exact ⟨h1, h2⟩
    · rename_i task rest heq
      obtain ⟨c1, c2, c3, c4, c5, c6⟩ := h1
      have hc' : Core { SetSongProgress
          (Transcoder_GetProgress (ws (i + 1)).progress_report s.transcoder_jobs_) 0 false s with
          tasks_pending_ := rest } := by
        refine ⟨c1, c2, c3, c4, ?_, c6⟩
        intro t ht
        exact c5 t (by rw [heq]; exact List.mem_cons_of_mem _ ht)
      have hb' : Budget { SetSongProgress
          (Transcoder_GetProgress (ws (i + 1)).progress_report s.transcoder_jobs_) 0 false s with
          tasks_pending_ := rest } 1 := by
        unfold Budget at h2 ⊢
        rw [heq] at h2
        simp only [List.length_cons] at h2
        push_cast at h2
        show _ + (rest.length : Int) + _ + 1 ≤ _
        linarith
      obtain ⟨g1, g2⟩ := body_inv (ws (i + 1)) task _ hc' hb'
        (c5 task (by rw [heq]; exact List.mem_cons_self _ _))
      exact ih (i + 1) _ g1 g2

theorem start_inv (w : World) (s : State) (h : Inv s) : Inv (ProcessSomeFiles_start w s) := by
  obtain ⟨hc, hb, hccp⟩ := h
  unfold ProcessSomeFiles_start
  split
  · simp only []
    have hc1 : Core ({ s with transcode_temp_name_ := w.QTemporaryFile_open }.emit Effect.StartCopy) :=
      Core_emit _ (Core_congr hc rfl rfl rfl rfl rfl (fun p t h => h)) rfl
    split
    · refine ⟨?_, ?_, hccp⟩
      · obtain ⟨c1, c2, c3, c4, c5, c6⟩ := hc1
        refine ⟨c1, c2, c3, c4, ?_, c6⟩
        intro t ht
        cases ht
      · exact Budget_of_le hb rfl rfl (Nat.zero_le _) rfl
    · exact ⟨Core_congr hc1 rfl rfl rfl rfl rfl (fun p t h => h),
        Budget_congr hb rfl rfl rfl rfl, hccp⟩
  · exact ⟨hc, hb, hccp⟩

theorem finish_inv (w : World) (s : State) (h : Inv s) : Inv (ProcessSomeFiles_finish w s) := by
  obtain ⟨hc, hb, hccp⟩ := h
  have hU := UpdateProgress_Core (Transcoder_GetProgress w.progress_report s.transcoder_jobs_) s 0
    (GetProgress_keys _ _) hc hb (by rw [hccp]; norm_num)
  have hUb : Budget (UpdateProgress
      (Transcoder_GetProgress w.progress_report s.transcoder_jobs_) s) 0 :=
    Budget_congr hb rfl rfl rfl rfl
  unfold ProcessSomeFiles_finish
  simp only []
  refine ⟨Core_emit _ (Core_emit _ ?_ rfl) rfl, Budget_emit _ (Budget_emit _ ?_), ?_⟩
  · split
    · exact Core_emit _ (Core_emit _ hU rfl) rfl
    · exact Core_emit _ hU rfl
  · split
    · exact Budget_emit _ (Budget_emit _ hUb)
    · exact Budget_emit _ hUb
  · simp only [emit_current_copy_progress]
    split
    · exact hccp
    · exact hccp

theorem tick_inv (ws : Nat → World) (s : State) (h : Inv s) : Inv (ProcessSomeFiles ws s) := by
  have hs := start_inv (ws 0) s h
  unfold ProcessSomeFiles
  simp only []
  split
  · split
    · exact ⟨Core_emit _ hs.1 rfl, Budget_emit _ hs.2.1, hs.2.2⟩
    · exact finish_inv _ _ hs
  · obtain ⟨l1, l2⟩ := loop_inv ws kBatchSize 0 _ hs.1 hs.2.1
    obtain ⟨h1, h2, h3⟩ := SetSongProgress_zero
      (Transcoder_GetProgress (ws (kBatchSize + 1)).progress_report
        (ProcessSomeFiles_loop ws 0 kBatchSize (ProcessSomeFiles_start (ws 0) s)).transcoder_jobs_)
      _ (GetProgress_keys _ _) l1 l2
    exact ⟨Core_emit _ h1 rfl, Budget_emit _ h2, h3⟩

theorem timer_inv (report : List (String × CFloat)) (s : State) (h : Inv s) :
    Inv (timerEvent (Transcoder_GetProgress report s.transcoder_jobs_) s) := by
  obtain ⟨hc, hb, hccp⟩ := h
  exact ⟨UpdateProgress_Core _ s 0 (GetProgress_keys _ _) hc hb (by rw [hccp]; norm_num),
    Budget_congr hb rfl rfl rfl rfl, hccp⟩

theorem QMap_take_snd_mem (m : List (String × Task)) (key : String) :
    ∀ kv ∈ (QMap_take m key).2, kv ∈ m ∧ kv.1 ≠ key := by
  intro kv h
  simp only [QMap_take, List.mem_filter] at h
  exact ⟨h.1, by simpa using h.2⟩

theorem QMap_take_fst (m : List (String × Task)) (key : String) :
    (QMap_take m key).1 = {} ∨ ∃ kv ∈ m, (QMap_take m key).1 = kv.2 := by
  simp only [QMap_take]
  cases h : m.find? (fun kv => kv.1 == key) with
  | none => exact Or.inl rfl
  | some kv => exact Or.inr ⟨kv, List.mem_of_find?_eq_some h, rfl⟩

theorem transcoded_inv (filename : String) (success : Bool) (s : State) (h : Inv s)
    (hmem : filename ∈ s.transcoder_jobs_) :
    Inv (FileTranscoded filename success
      { s with transcoder_jobs_ := s.transcoder_jobs_.erase filename }) := by
  obtain ⟨⟨c1, c2, c3, c4, c5, c6⟩, hb, hccp⟩ := h
  have hlen : ((s.transcoder_jobs_.erase filename).length : Int) + 1 = s.transcoder_jobs_.length := by
    have := List.length_erase_of_mem hmem
    have hpos : 0 < s.transcoder_jobs_.length := List.length_pos_of_mem hmem
    omega
  have k2 : ((QMap_take s.tasks_transcoding_ filename).2.map Prod.fst).Nodup :=
    List.Nodup.sublist ((List.filter_sublist _).map Prod.fst) c2
  have k3 : ∀ kv ∈ (QMap_take s.tasks_transcoding_ filename).2, 0 < kv.2.points →
      kv.1 ∈ s.transcoder_jobs_.erase filename := by
    intro kv hkv hpos
    obtain ⟨g1, g2⟩ := QMap_take_snd_mem _ _ kv hkv
    exact (List.mem_erase_of_ne g2).mpr (c3 kv g1 hpos)
  have k4 : ∀ kv ∈ (QMap_take s.tasks_transcoding_ filename).2, kv.2.transcoded_filename_ ≠ "" :=
    fun kv hkv => c4 kv (QMap_take_snd_mem _ _ kv hkv).1
  unfold FileTranscoded
  simp only []
  refine ⟨Core_emit _ ?_ rfl, Budget_emit _ ?_, ?_⟩
  · split
    · refine ⟨c1, k2, k3, k4, c5, ?_⟩
      intro p t hpt
      simp only [emit_trace, List.mem_append, List.mem_singleton] at hpt
      rcases hpt with hpt | hpt
      · exact c6 p t hpt
      · cases hpt
    · refine ⟨c1, k2, k3, k4, ?_, ?_⟩
      · intro t ht hne
        simp only [emit_tasks_pending, List.mem_append, List.mem_singleton] at ht
        rcases ht with ht | ht
        · exact c5 t ht hne
        · have ht' : t = (QMap_take s.tasks_transcoding_ filename).1 := ht
          rcases QMap_take_fst s.tasks_transcoding_ filename with h0 | ⟨kv, hkv, h0⟩
          · rw [ht', h0]; exact points_fresh _
          · rw [ht', h0] at hne
            exact absurd hne (c4 kv hkv)
      · intro p t hpt
        simp only [emit_trace, List.mem_append, List.mem_singleton] at hpt
        rcases hpt with hpt | hpt
        · exact c6 p t hpt
        · cases hpt
  · unfold Budget at hb ⊢
    split
    · show s.tasks_complete_ + (s.tasks_pending_.length : Int) +
        ((s.transcoder_jobs_.erase filename).length : Int) + 0 ≤ s.task_count_
      linarith
    · show s.tasks_complete_ + ((s.tasks_pending_ ++ [_]).length : Int) +
        ((s.transcoder_jobs_.erase filename).length : Int) + 0 ≤ s.task_count_
      simp only [List.length_append, List.length_singleton]
      push_cast
      linarith
  · split <;> exact hccp

theorem step_inv {s s' : State} (h : Inv s) (hstep : Step s s') : Inv s' := by
  cases hstep with
  | tick ws => exact tick_inv ws s h
  | timer report => exact timer_inv report s h
  | transcoded filename success =>
    rename_i hmem
    exact transcoded_inv filename success s h hmem

theorem init_inv (copy overwrite eject_after : Bool) (items : List SongOrFilePair) :
    Inv (Organise copy overwrite eject_after items) := by
  refine ⟨⟨le_refl _, List.nodup_nil, ?_, ?_, ?_, ?_⟩, ?_, rfl⟩
  · intro kv hkv; cases hkv
  · intro kv hkv; cases hkv
  · intro t ht _
    simp only [Organise, List.mem_map] at ht
    obtain ⟨sof, _, rfl⟩ := ht
    exact points_fresh _
  · intro p t hpt; cases hpt
  · unfold Budget
    simp [Organise]

theorem reachable_inv {s0 s : State} (h : Inv s0) (hr : Reachable s0 s) : Inv s := by
  induction hr with
  | refl => exact h
  | tail _ hstep ih => exact step_inv ih hstep

/-- C4. In every state a run can reach (any interleaving of ticks of
`ProcessSomeFiles` with the copy-progress callbacks of their copies, events of
the progress timer and `FileTranscoded` callbacks for jobs the transcoder
holds), every progress value `UpdateProgress` has published is at most the
total published with it (task_count_ * 100 at that moment), which is at most
the present task_count_ * 100. -/
theorem C4_progress_within_total (copy overwrite eject_after : Bool)
    (items : List SongOrFilePair) (s : State)
    (hr : Reachable (Organise copy overwrite eject_after items) s) :
    ∀ p t, Effect.SetTaskProgress p t ∈ s.trace_ → p ≤ t ∧ t ≤ s.task_count_ * 100 :=
  (reachable_inv (init_inv copy overwrite eject_after items) hr).1.2.2.2.2.2

/-- Witness of C4: one raw path, dispatched for transcoding by the first tick
and reported at fraction 1 when the progress timer fires: 50 of 100 is published. -/
theorem C4_progress_within_total_witness :
    (50 : Int) ≤ 100 ∧
    (100 : Int) ≤
      (timerEvent
        (Transcoder_GetProgress [("/music/a.flac", 1)]
          (ProcessSomeFiles (fun _ => sampleWorld)
            (Organise true false false [SongOrFilePair.ofFile "/music/a.flac"])).transcoder_jobs_)
        (ProcessSomeFiles (fun _ => sampleWorld)
          (Organise true false false [SongOrFilePair.ofFile "/music/a.flac"]))).task_count_ * 100 :=
  C4_progress_within_total true false false [SongOrFilePair.ofFile "/music/a.flac"] _
    (Relation.ReflTransGen.tail (Relation.ReflTransGen.single (Step.tick _ _))
      (Step.timer [("/music/a.flac", 1)] _))
    50 100 (by decide!)

/-! ## Invalid files and directories in the batch step (claims C11, C14) -/

@[simp] theorem SetSongProgress_tasks_pending (gp : List (String × CFloat)) (f : CFloat) (tr : Bool)
    (s : State) : (SetSongProgress gp f tr s).tasks_pending_ = s.tasks_pending_ := rfl

@[simp] theorem SetSongProgress_tasks_complete (gp : List (String × CFloat)) (f : CFloat) (tr : Bool)
    (s : State) : (SetSongProgress gp f tr s).tasks_complete_ = s.tasks_complete_ := rfl

@[simp] theorem SetSongProgress_task_count (gp : List (String × CFloat)) (f : CFloat) (tr : Bool)
    (s : State) : (SetSongProgress gp f tr s).task_count_ = s.task_count_ := rfl

@[simp] theorem SetSongProgress_transcoder_jobs (gp : List (String × CFloat)) (f : CFloat) (tr : Bool)
    (s : State) : (SetSongProgress gp f tr s).transcoder_jobs_ = s.transcoder_jobs_ := rfl

@[simp] theorem SetSongProgress_supported_filetypes (gp : List (String × CFloat)) (f : CFloat) (tr : Bool)
    (s : State) : (SetSongProgress gp f tr s).supported_filetypes_ = s.supported_filetypes_ := rfl

/-- One iteration of the loop on a queue that is not empty: the progress is
published, the first task is taken and the body runs on it. -/
theorem loop_cons (ws : Nat → World) (i n : Nat) (s : State) (task : Task) (rest : List Task)
    (hpend : s.tasks_pending_ = task :: rest) :
    ProcessSomeFiles_loop ws i (n + 1) s =
      ProcessSomeFiles_loop ws (i + 1) n
        (ProcessSomeFiles_body (ws (i + 1)) task
          { SetSongProgress
              (Transcoder_GetProgress (ws (i + 1)).progress_report s.transcoder_jobs_) 0 false s with
            tasks_pending_ := rest }) := by
  have h : (SetSongProgress
      (Transcoder_GetProgress (ws (i + 1)).progress_report s.transcoder_jobs_) 0 false
      s).tasks_pending_ = task :: rest := hpend
  simp only [ProcessSomeFiles_loop]
  split
  · rename_i heq; rw [h] at heq; cases heq
  · rename_i t r heq
    rw [h] at heq
    cases heq
    rfl

theorem body_invalid (w : World) (task : Task) (s : State)
    (hfile : task.song_or_file_.IsFile = true)
    (hnotdir : w.isDir task.song_or_file_.file_ = false)
    (hinvalid : (w.ReadFileBlocking task.song_or_file_.file_).valid_ = false) :
    ProcessSomeFiles_body w task s = s := by
  simp [ProcessSomeFiles_body, ProcessSomeFiles_read, hfile, hnotdir, hinvalid]

theorem expand_eq (w : World) (task : Task) (s : State) :
    ProcessSomeFiles_expand w task s =
      { s with
        tasks_pending_ := s.tasks_pending_ ++
          (w.entryList task.song_or_file_.file_).map (fun entry =>
            ({ song_or_file_ := SongOrFilePair.ofFile (task.song_or_file_.file_ ++ "/" ++ entry) }
              : Task))
        task_count_ := s.task_count_ + (w.entryList task.song_or_file_.file_).length } := by
  unfold ProcessSomeFiles_expand
  generalize w.entryList task.song_or_file_.file_ = entries
  induction entries generalizing s with
  | nil => simp
  | cons e es ih =>
    simp only [List.foldl_cons]
    rw [ih]
    simp only [List.map_cons, List.length_cons, List.append_assoc, List.singleton_append]
    congr 1
    push_cast
    ring

/-- C11. A raw-path task (not a directory) whose metadata read yields an
invalid song is dropped by the batch step: the body of the loop leaves the
state as it is (failure list, tasks_complete_, in-flight map, task_count_ and
the calls made so far: no transcode, no copy), and the loop goes on with the
rest of the pending queue. -/
theorem C11_invalid_raw_path_dropped (ws : Nat → World) (i n : Nat) (s : State) (task : Task)
    (rest : List Task) (hpend : s.tasks_pending_ = task :: rest)
    (hfile : task.song_or_file_.IsFile = true)
    (hnotdir : (ws (i + 1)).isDir task.song_or_file_.file_ = false)
    (hinvalid : ((ws (i + 1)).ReadFileBlocking task.song_or_file_.file_).valid_ = false) :
    (∀ s1 : State, ProcessSomeFiles_body (ws (i + 1)) task s1 = s1) ∧
    ProcessSomeFiles_loop ws i (n + 1) s =
      ProcessSomeFiles_loop ws (i + 1) n
        { SetSongProgress
            (Transcoder_GetProgress (ws (i + 1)).progress_report s.transcoder_jobs_) 0 false s with
          tasks_pending_ := rest } := by
  have hbody : ∀ s1 : State, ProcessSomeFiles_body (ws (i + 1)) task s1 = s1 :=
    fun s1 => body_invalid _ task s1 hfile hnotdir hinvalid
  refine ⟨hbody, ?_⟩
  rw [loop_cons ws i n s task rest hpend, hbody]

/-- Witness of C11: a raw path that the tag reader cannot read. -/
theorem C11_invalid_raw_path_dropped_witness :
    ProcessSomeFiles_body { sampleWorld with ReadFileBlocking := fun _ => {} }
        { song_or_file_ := SongOrFilePair.ofFile "/music/broken.mp3" }
        (Organise true false false [])
      = Organise true false false [] :=
  (C11_invalid_raw_path_dropped (fun _ => { sampleWorld with ReadFileBlocking := fun _ => {} })
    0 0 (Organise true false false [SongOrFilePair.ofFile "/music/broken.mp3"])
    { song_or_file_ := SongOrFilePair.ofFile "/music/broken.mp3" } [] rfl rfl rfl rfl).1 _

/-- C14. When the batch step takes a raw path that is a directory whose listing
has k entries, task_count_ grows by exactly k, the pending queue (which has
lost the directory item) gains exactly k raw-path tasks at its back, in listing
order, each of path directory + "/" + entry; tasks_complete_, the failure list,
the in-flight map and the calls made so far are unchanged, and the loop goes
on with that queue. -/
theorem C14_directory_expansion (ws : Nat → World) (i n : Nat) (s : State) (task : Task)
    (rest : List Task) (hpend : s.tasks_pending_ = task :: rest)
    (hfile : task.song_or_file_.IsFile = true)
    (hdir : (ws (i + 1)).isDir task.song_or_file_.file_ = true) :
    (∀ s1 : State,
      (ProcessSomeFiles_body (ws (i + 1)) task s1).task_count_ =
        s1.task_count_ + ((ws (i + 1)).entryList task.song_or_file_.file_).length ∧
      (ProcessSomeFiles_body (ws (i + 1)) task s1).tasks_pending_ =
        s1.tasks_pending_ ++ ((ws (i + 1)).entryList task.song_or_file_.file_).map (fun entry =>
          ({ song_or_file_ := SongOrFilePair.ofFile (task.song_or_file_.file_ ++ "/" ++ entry) }
            : Task)) ∧
      (ProcessSomeFiles_body (ws (i + 1)) task s1).tasks_complete_ = s1.tasks_complete_ ∧
      (ProcessSomeFiles_body (ws (i + 1)) task s1).files_with_errors_ = s1.files_with_errors_ ∧
      (ProcessSomeFiles_body (ws (i + 1)) task s1).tasks_transcoding_ = s1.tasks_transcoding_ ∧
      (ProcessSomeFiles_body (ws (i + 1)) task s1).trace_ = s1.trace_) ∧
    (ProcessSomeFiles_body (ws (i + 1)) task
        { SetSongProgress
            (Transcoder_GetProgress (ws (i + 1)).progress_report s.transcoder_jobs_) 0 false s with
          tasks_pending_ := rest }).tasks_pending_ =
      rest ++ ((ws (i + 1)).entryList task.song_or_file_.file_).map (fun entry =>
        ({ song_or_file_ := SongOrFilePair.ofFile (task.song_or_file_.file_ ++ "/" ++ entry) }
          : Task)) ∧
    ProcessSomeFiles_loop ws i (n + 1) s =
      ProcessSomeFiles_loop ws (i + 1) n
        (ProcessSomeFiles_body (ws (i + 1)) task
          { SetSongProgress
              (Transcoder_GetProgress (ws (i + 1)).progress_report s.transcoder_jobs_) 0 false s with
            tasks_pending_ := rest }) := by
  have hbody : ∀ s1 : State, ProcessSomeFiles_body (ws (i + 1)) task s1 =
      ProcessSomeFiles_expand (ws (i + 1)) task s1 := by
    intro s1
    simp [ProcessSomeFiles_body, hfile, hdir]
  refine ⟨?_, ?_, loop_cons ws i n s task rest hpend⟩
  · intro s1
    rw [hbody, expand_eq]
    exact ⟨rfl, rfl, rfl, rfl, rfl, rfl⟩
  · rw [hbody, expand_eq]

/-- Witness of C14: a directory with two files and one subdirectory. -/
theorem C14_directory_expansion_witness :
    (ProcessSomeFiles_body
        { sampleWorld with
          isDir := fun path => path == "/music"
          entryList := fun _ => ["a.mp3", "b.flac", "live"] }
        { song_or_file_ := SongOrFilePair.ofFile "/music" }
        (Organise true false false [])).task_count_ = 0 + 3 ∧
    (ProcessSomeFiles_body
        { sampleWorld with
          isDir := fun path => path == "/music"
          entryList := fun _ => ["a.mp3", "b.flac", "live"] }
        { song_or_file_ := SongOrFilePair.ofFile "/music" }
        (Organise true false false [])).tasks_pending_ =
      [{ song_or_file_ := SongOrFilePair.ofFile "/music/a.mp3" },
        { song_or_file_ := SongOrFilePair.ofFile "/music/b.flac" },
        { song_or_file_ := SongOrFilePair.ofFile "/music/live" }] :=
  ⟨((C14_directory_expansion
      (fun _ => { sampleWorld with
        isDir := fun path => path == "/music"
        entryList := fun _ => ["a.mp3", "b.flac", "live"] })
      0 0 (Organise true false false [SongOrFilePair.ofFile "/music"])
      { song_or_file_ := SongOrFilePair.ofFile "/music" } [] rfl rfl rfl).1
      (Organise true false false [])).1,
   ((C14_directory_expansion
      (fun _ => { sampleWorld with
        isDir := fun path => path == "/music"
        entryList := fun _ => ["a.mp3", "b.flac", "live"] })
      0 0 (Organise true false false [SongOrFilePair.ofFile "/music"])
      { song_or_file_ := SongOrFilePair.ofFile "/music" } [] rfl rfl rfl).1
      (Organise true false false [])).2.1⟩

/-! ## Skip-and-continue in the batch (claim C12) -/

theorem SameQueue_refl (s : State) : SameQueue s s :=
  ⟨rfl, rfl, rfl, rfl, rfl, rfl, rfl, rfl, rfl, rfl, rfl⟩

theorem SameQueue_trans {s1 s2 s3 : State} (h1 : SameQueue s1 s2) (h2 : SameQueue s2 s3) :
    SameQueue s1 s3 := by
  obtain ⟨a1, a2, a3, a4, a5, a6, a7, a8, a9, a10, a11⟩ := h1
  obtain ⟨b1, b2, b3, b4, b5, b6, b7, b8, b9, b10, b11⟩ := h2
  exact ⟨b1.trans a1, b2.trans a2, b3.trans a3, b4.trans a4, b5.trans a5, b6.trans a6,
    b7.trans a7, b8.trans a8, b9.trans a9, b10.trans a10, b11.trans a11⟩

theorem SameQueue_UpdateProgress (gp : List (String × CFloat)) (s : State) :
    SameQueue s (UpdateProgress gp s) :=
  ⟨rfl, rfl, rfl, rfl, rfl, rfl, rfl, rfl, UpdateProgress_keys gp s, rfl, rfl⟩

theorem SameQueue_SetSongProgress (gp : List (String × CFloat)) (f : CFloat) (tr : Bool) (s : State) :
    SameQueue s (SetSongProgress gp f tr s) := by
  unfold SetSongProgress
  exact @SameQueue_trans s { s with current_copy_progress_ := _ } _
    ⟨rfl, rfl, rfl, rfl, rfl, rfl, rfl, rfl, rfl, rfl, rfl⟩ (SameQueue_UpdateProgress _ _)

theorem callbacks_frame (cbs : List (CFloat × List (String × CFloat))) (tr : Bool) (s : State) :
    SameQueue s (cbs.foldl (fun s cb =>
        SetSongProgress (Transcoder_GetProgress cb.2 s.transcoder_jobs_) cb.1 tr s) s) ∧
    (cbs.foldl (fun s cb =>
        SetSongProgress (Transcoder_GetProgress cb.2 s.transcoder_jobs_) cb.1 tr s) s).tasks_complete_
      = s.tasks_complete_ := by
  induction cbs generalizing s with
  | nil => exact ⟨SameQueue_refl s, rfl⟩
  | cons cb cbs ih =>
    simp only [List.foldl_cons]
    obtain ⟨h1, h2⟩ := ih (SetSongProgress (Transcoder_GetProgress cb.2 s.transcoder_jobs_) cb.1 tr s)
    exact ⟨SameQueue_trans (SameQueue_SetSongProgress _ _ _ _) h1, h2⟩

theorem CopyToStorage_frame (w : World) (job : CopyJob) (s : State) :
    SameQueue s (CopyToStorage w job s).2 ∧
    (CopyToStorage w job s).2.tasks_complete_ = s.tasks_complete_ := by
  obtain ⟨h1, h2⟩ := callbacks_frame (w.copy_callbacks job) job.progress_
    (s.emit (Effect.CopyToStorage job))
  exact ⟨@SameQueue_trans s (s.emit (Effect.CopyToStorage job)) _
    ⟨rfl, rfl, rfl, rfl, rfl, rfl, rfl, rfl, rfl, rfl, rfl⟩ h1, h2⟩

/-- The copy of a task that needs no segment: the job goes to the storage, the
name goes to the failure list when the copy fails, the task counts as complete. -/
theorem copy_plain (w : World) (task : Task) (song : Song) (s : State)
    (hcue : song.has_cue = false) :
    SameQueue s (ProcessSomeFiles_copy w task song s) ∧
    (ProcessSomeFiles_copy w task song s).tasks_complete_ = s.tasks_complete_ + 1 ∧
    (ProcessSomeFiles_copy w task song s).files_with_errors_ =
      s.files_with_errors_ ++
        (if w.CopyToStorage (ProcessSomeFiles_job w task song s) then []
          else [task.song_or_file_.DisplayName]) := by
  obtain ⟨f1, f2⟩ := CopyToStorage_frame w (ProcessSomeFiles_job w task song s) s
  obtain ⟨e1, e2, _⟩ := CopyToStorage_spec w (ProcessSomeFiles_job w task song s) s
  have hseg : ProcessSomeFiles_segment w song (ProcessSomeFiles_job w task song s) s
      = ("", ProcessSomeFiles_job w task song s, s) := by
    simp [ProcessSomeFiles_segment, hcue]
  unfold ProcessSomeFiles_copy
  simp only [hseg, hcue]
  unfold ProcessSomeFiles_store ProcessSomeFiles_cleanup
  simp only [Bool.false_and, Bool.false_eq_true, if_false, e1, ne_eq, not_true_eq_false]
  obtain ⟨a1, a2, a3, a4, a5, a6, a7, a8, a9, a10, a11⟩ := f1
  cases hc : w.CopyToStorage (ProcessSomeFiles_job w task song s) <;>
    by_cases ht : task.transcoded_filename_ = "" <;>
    simp [ht, SameQueue, State.emit, a1, a2, a3, a4, a5, a6, a7, a8, a9, a10, a11, f2, e2]

theorem job_congr (w : World) (task : Task) (song : Song) (s s' : State)
    (h1 : s'.copy_ = s.copy_) (h2 : s'.overwrite_ = s.overwrite_) :
    ProcessSomeFiles_job w task song s' = ProcessSomeFiles_job w task song s := by
  simp [ProcessSomeFiles_job, h1, h2]

theorem failedCopies_congr (ws : Nat → World) (s s' : State) (h1 : s'.copy_ = s.copy_)
    (h2 : s'.overwrite_ = s.overwrite_) (i : Nat) (tasks : List Task) :
    failedCopies ws s' i tasks = failedCopies ws s i tasks := by
  induction tasks generalizing i with
  | nil => rfl
  | cons task rest ih =>
    simp only [failedCopies, ih, job_congr _ _ _ s s' h1 h2]

theorem body_plain (w : World) (task : Task) (s : State)
    (h : PlainTask w s.supported_filetypes_ task) :
    SameQueue s (ProcessSomeFiles_body w task s) ∧
    (ProcessSomeFiles_body w task s).tasks_complete_ = s.tasks_complete_ + 1 ∧
    (ProcessSomeFiles_body w task s).files_with_errors_ =
      s.files_with_errors_ ++
        (if w.CopyToStorage (ProcessSomeFiles_job w task (ProcessSomeFiles_song w task) s) then []
          else [task.song_or_file_.DisplayName]) := by
  obtain ⟨h1, h2, h3, h4⟩ := h
  rw [body_eq_copy w task s h1 h2 h3]
  exact copy_plain w task _ s (by rw [song_has_cue]; exact h4)

theorem loop_plain (ws : Nat → World) (tasks : List Task) :
    ∀ (i n : Nat) (s : State), s.tasks_pending_ = tasks → tasks.length ≤ n →
      PlainBatch ws s.supported_filetypes_ i tasks →
      (ProcessSomeFiles_loop ws i n s).tasks_complete_ = s.tasks_complete_ + tasks.length ∧
      (ProcessSomeFiles_loop ws i n s).tasks_pending_ = [] ∧
      (ProcessSomeFiles_loop ws i n s).files_with_errors_ =
        s.files_with_errors_ ++ failedCopies ws s i tasks ∧
      (ProcessSomeFiles_loop ws i n s).task_count_ = s.task_count_ := by
  induction tasks with
  | nil =>
    intro i n s hpend _ _
    cases n with
    | zero => exact ⟨by simp [ProcessSomeFiles_loop], hpend, by simp [ProcessSomeFiles_loop, failedCopies], rfl⟩
    | succ m =>
      have h : (SetSongProgress
          (Transcoder_GetProgress (ws (i + 1)).progress_report s.transcoder_jobs_) 0 false
          s).tasks_pending_ = [] := hpend
      simp only [ProcessSomeFiles_loop]
      split
      · exact ⟨by simp, h, by simp [failedCopies], rfl⟩
      · rename_i t r heq
        rw [h] at heq
        cases heq
  | cons task rest ih =>
    intro i n s hpend hlen hplain
    cases n with
    | zero => simp at hlen
    | succ m =>
      rw [loop_cons ws i m s task rest hpend]
      obtain ⟨hp1, hp2⟩ := hplain
      obtain ⟨b1, b2, b3⟩ := body_plain (ws (i + 1)) task
        { SetSongProgress
            (Transcoder_GetProgress (ws (i + 1)).progress_report s.transcoder_jobs_) 0 false s with
          tasks_pending_ := rest } hp1
      obtain ⟨a1, a2, a3, a4, a5, a6, a7, a8, a9, a10, a11⟩ := b1
      obtain ⟨r1, r2, r3, r4⟩ := ih (i + 1) m _ a8 (by simpa using hlen) (by rw [a4]; exact hp2)
      refine ⟨?_, r2, ?_, ?_⟩
      · rw [r1, b2]
        simp only [List.length_cons]
        show s.tasks_complete_ + 1 + (rest.length : Int) = s.tasks_complete_ + ((rest.length + 1 : Nat) : Int)
        push_cast
        ring
      · rw [r3, b3, failedCopies_congr ws s _ a1 a2]
        simp only [failedCopies, List.append_assoc]
        rw [job_congr (ws (i + 1)) task _ s _ rfl rfl]
        rfl
      · rw [r4, a5]; rfl

theorem segment_frame (w : World) (song : Song) (job : CopyJob) (s : State) :
    (ProcessSomeFiles_segment w song job s).2.2.files_with_errors_ = s.files_with_errors_ ∧
    (ProcessSomeFiles_segment w song job s).2.2.tasks_complete_ = s.tasks_complete_ := by
  unfold ProcessSomeFiles_segment
  split
  · split
    · simp only []
      split <;> exact ⟨rfl, rfl⟩
    · exact ⟨rfl, rfl⟩
  · exact ⟨rfl, rfl⟩

/-- A failed copy changes the failure list and nothing else: for a task whose
job reaches the storage (its track has no cue reference, or its segment was
made), the state after the copy step is the state the same step leaves when
the storage succeeds, with the name of the task appended to the list. -/
theorem copy_failed_as_succeeded_any (w : World) (task : Task) (song : Song) (s : State)
    (hreach : (song.has_cue &&
      decide ((ProcessSomeFiles_segment w song (ProcessSomeFiles_job w task song s) s).1 = ""))
        = false)
    (hfail : w.CopyToStorage
      (ProcessSomeFiles_segment w song (ProcessSomeFiles_job w task song s) s).2.1 = false) :
    ProcessSomeFiles_copy w task song s =
      { ProcessSomeFiles_copy { w with CopyToStorage := fun _ => true } task song s with
        files_with_errors_ :=
          (ProcessSomeFiles_copy { w with CopyToStorage := fun _ => true } task song
            s).files_with_errors_ ++ [task.song_or_file_.DisplayName] } ∧
    (ProcessSomeFiles_copy w task song s).files_with_errors_ =
      s.files_with_errors_ ++ [task.song_or_file_.DisplayName] ∧
    (ProcessSomeFiles_copy w task song s).tasks_complete_ = s.tasks_complete_ + 1 := by
  have hjob : ProcessSomeFiles_job { w with CopyToStorage := fun _ => true } task song s
      = ProcessSomeFiles_job w task song s := rfl
  have hseg : ProcessSomeFiles_segment { w with CopyToStorage := fun _ => true } song
      (ProcessSomeFiles_job w task song s) s
      = ProcessSomeFiles_segment w song (ProcessSomeFiles_job w task song s) s := rfl
  obtain ⟨g1, g2⟩ := segment_frame w song (ProcessSomeFiles_job w task song s) s
  unfold ProcessSomeFiles_copy
  simp only [hjob, hseg]
  generalize ProcessSomeFiles_segment w song (ProcessSomeFiles_job w task song s) s = seg
    at hreach hfail g1 g2 ⊢
  obtain ⟨e1, e2, _⟩ := CopyToStorage_spec w seg.2.1 seg.2.2
  obtain ⟨_, f2⟩ := CopyToStorage_frame w seg.2.1 seg.2.2
  have hcopy : (CopyToStorage { w with CopyToStorage := fun _ => true } seg.2.1 seg.2.2).2 =
      (CopyToStorage w seg.2.1 seg.2.2).2 := rfl
  have h1 : (CopyToStorage w seg.2.1 seg.2.2).1 = false := by rw [e1]; exact hfail
  have h2 : (CopyToStorage { w with CopyToStorage := fun _ => true } seg.2.1 seg.2.2).1 = true :=
    rfl
  have hstore : ProcessSomeFiles_store w task song.has_cue seg.1 seg.2.1 seg.2.2 =
      { (CopyToStorage w seg.2.1 seg.2.2).2 with
        files_with_errors_ := (CopyToStorage w seg.2.1 seg.2.2).2.files_with_errors_ ++
          [task.song_or_file_.DisplayName] } := by
    unfold ProcessSomeFiles_store
    rw [if_neg (by rw [hreach]; exact Bool.false_ne_true)]
    simp only [h1, Bool.not_false, if_true]
  have hstore2 : ProcessSomeFiles_store { w with CopyToStorage := fun _ => true } task
      song.has_cue seg.1 seg.2.1 seg.2.2 = (CopyToStorage w seg.2.1 seg.2.2).2 := by
    unfold ProcessSomeFiles_store
    rw [if_neg (by rw [hreach]; exact Bool.false_ne_true)]
    simp only [h2, hcopy, Bool.not_true, Bool.false_eq_true, if_false]
  rw [hstore, hstore2]
  refine ⟨?_, ?_, ?_⟩
  · unfold ProcessSomeFiles_cleanup
    by_cases ht : task.transcoded_filename_ = "" <;> by_cases hs : seg.1 = "" <;>
      simp [ht, hs, State.emit]
  · rw [cleanup_files_with_errors]
    simp only []
    rw [e2, g1]
  · unfold ProcessSomeFiles_cleanup
    by_cases ht : task.transcoded_filename_ = "" <;> by_cases hs : seg.1 = "" <;>
      simp [ht, hs, State.emit, f2, g2]

/-- C12. Skip-and-continue. When `CopyToStorage` fails for a task (any task
whose job the batch step hands to the storage: a leaf with valid metadata,
transcoded already or in no need of it, whose track has no cue reference or
whose segment was made), exactly that task's display name is appended to the
failure list, tasks_complete_ is still incremented by one, and the state is
the one a successful copy leaves but for the failure list, so the rest of the
batch is processed as if the copy had succeeded. A batch over k <= 10 pending
plain tasks (leaves with valid metadata that need neither transcoding nor
segmenting) therefore raises tasks_complete_ by exactly k whatever the copy
outcomes are, empties the queue, and appends the names of the tasks whose copy
failed, in order. -/
theorem C12_skip_and_continue (ws : Nat → World) (s : State) (tasks : List Task)
    (hpend : s.tasks_pending_ = tasks) (hk : tasks.length ≤ kBatchSize)
    (hplain : PlainBatch ws s.supported_filetypes_ 0 tasks) :
    (∀ (w : World) (task : Task) (s1 : State),
      (task.song_or_file_.IsFile && w.isDir task.song_or_file_.file_) = false →
      (task.song_or_file_.IsFile && !(ProcessSomeFiles_read w task).valid_) = false →
      (task.transcoded_filename_ ≠ "" ∨
        CheckTranscode w.PickBestFormat w.GetTranscodeMode w.GetTranscodeFormat
          s1.supported_filetypes_ (ProcessSomeFiles_read w task).filetype_ = Type_Unknown) →
      ((ProcessSomeFiles_song w task).has_cue &&
        decide ((ProcessSomeFiles_segment w (ProcessSomeFiles_song w task)
          (ProcessSomeFiles_job w task (ProcessSomeFiles_song w task) s1) s1).1 = "")) = false →
      w.CopyToStorage (ProcessSomeFiles_segment w (ProcessSomeFiles_song w task)
        (ProcessSomeFiles_job w task (ProcessSomeFiles_song w task) s1) s1).2.1 = false →
      (ProcessSomeFiles_body w task s1).files_with_errors_ =
        s1.files_with_errors_ ++ [task.song_or_file_.DisplayName] ∧
      (ProcessSomeFiles_body w task s1).tasks_complete_ = s1.tasks_complete_ + 1 ∧
      ProcessSomeFiles_body w task s1 =
        { ProcessSomeFiles_body { w with CopyToStorage := fun _ => true } task s1 with
          files_with_errors_ :=
            (ProcessSomeFiles_body { w with CopyToStorage := fun _ => true } task
              s1).files_with_errors_ ++ [task.song_or_file_.DisplayName] }) ∧
    (ProcessSomeFiles_loop ws 0 kBatchSize s).tasks_complete_ =
      s.tasks_complete_ + tasks.length ∧
    (ProcessSomeFiles_loop ws 0 kBatchSize s).tasks_pending_ = [] ∧
    (ProcessSomeFiles_loop ws 0 kBatchSize s).files_with_errors_ =
      s.files_with_errors_ ++ failedCopies ws s 0 tasks := by
  obtain ⟨r1, r2, r3, _⟩ := loop_plain ws tasks 0 kBatchSize s hpend hk hplain
  refine ⟨?_, r1, r2, r3⟩
  intro w task s1 h1 h2 h3 hreach hfail
  have h1' : (task.song_or_file_.IsFile &&
      ({ w with CopyToStorage := fun _ => true } : World).isDir task.song_or_file_.file_)
        = false := h1
  have h2' : (task.song_or_file_.IsFile &&
      !(ProcessSomeFiles_read { w with CopyToStorage := fun _ => true } task).valid_)
        = false := h2
  have h3' : (task.transcoded_filename_ ≠ "" ∨
      CheckTranscode ({ w with CopyToStorage := fun _ => true } : World).PickBestFormat
        ({ w with CopyToStorage := fun _ => true } : World).GetTranscodeMode
        ({ w with CopyToStorage := fun _ => true } : World).GetTranscodeFormat
        s1.supported_filetypes_
        (ProcessSomeFiles_read { w with CopyToStorage := fun _ => true } task).filetype_
          = Type_Unknown) := h3
  have hsong : ProcessSomeFiles_song { w with CopyToStorage := fun _ => true } task
      = ProcessSomeFiles_song w task := rfl
  rw [body_eq_copy w task s1 h1 h2 h3,
    body_eq_copy { w with CopyToStorage := fun _ => true } task s1 h1' h2' h3', hsong]
  obtain ⟨c1, c2, c3⟩ := copy_failed_as_succeeded_any w task _ s1 hreach hfail
  exact ⟨c2, c3, c1⟩

/-- Witness of C12: a batch of three raw paths that need no transcoding (the
storage names no supported format); the copy of the second fails. And a track
of a cue sheet whose segment is made and whose copy fails is marked failed and
counted. -/
theorem C12_skip_and_continue_witness :
    (ProcessSomeFiles_loop
        (fun _ => { sampleWorld with CopyToStorage := fun job => job.source_ != "/music/b.ogg" })
        0 kBatchSize
        (Organise true false false
          [SongOrFilePair.ofFile "/music/a.ogg", SongOrFilePair.ofFile "/music/b.ogg",
            SongOrFilePair.ofFile "/music/c.ogg"])).tasks_complete_ = 0 + (3 : Nat) ∧
    (ProcessSomeFiles_loop
        (fun _ => { sampleWorld with CopyToStorage := fun job => job.source_ != "/music/b.ogg" })
        0 kBatchSize
        (Organise true false false
          [SongOrFilePair.ofFile "/music/a.ogg", SongOrFilePair.ofFile "/music/b.ogg",
            SongOrFilePair.ofFile "/music/c.ogg"])).files_with_errors_ = ["/music/b.ogg"] ∧
    (ProcessSomeFiles_body { sampleWorld with CopyToStorage := fun _ => false }
        (sampleCueTask "/music/album.mp3") (Organise true false false [])).files_with_errors_
      = [] ++ ["Artist, Track 2"] ∧
    (ProcessSomeFiles_body { sampleWorld with CopyToStorage := fun _ => false }
        (sampleCueTask "/music/album.mp3") (Organise true false false [])).tasks_complete_
      = 0 + 1 :=
  ⟨(C12_skip_and_continue
      (fun _ => { sampleWorld with CopyToStorage := fun job => job.source_ != "/music/b.ogg" })
      (Organise true false false
        [SongOrFilePair.ofFile "/music/a.ogg", SongOrFilePair.ofFile "/music/b.ogg",
          SongOrFilePair.ofFile "/music/c.ogg"]) _ rfl (by decide)
      ⟨⟨rfl, rfl, Or.inr (by decide), rfl⟩, ⟨rfl, rfl, Or.inr (by decide), rfl⟩,
        ⟨rfl, rfl, Or.inr (by decide), rfl⟩, trivial⟩).2.1,
   (C12_skip_and_continue
      (fun _ => { sampleWorld with CopyToStorage := fun job => job.source_ != "/music/b.ogg" })
      (Organise true false false
        [SongOrFilePair.ofFile "/music/a.ogg", SongOrFilePair.ofFile "/music/b.ogg",
          SongOrFilePair.ofFile "/music/c.ogg"]) _ rfl (by decide)
      ⟨⟨rfl, rfl, Or.inr (by decide), rfl⟩, ⟨rfl, rfl, Or.inr (by decide), rfl⟩,
        ⟨rfl, rfl, Or.inr (by decide), rfl⟩, trivial⟩).2.2.2,
   ((C12_skip_and_continue (fun _ => sampleWorld) (Organise true false false []) [] rfl
      (by decide) trivial).1 { sampleWorld with CopyToStorage := fun _ => false }
      (sampleCueTask "/music/album.mp3") (Organise true false false []) (by decide) (by decide)
      (Or.inr (by decide)) (by decide!) (by decide)).1,
   ((C12_skip_and_continue (fun _ => sampleWorld) (Organise true false false []) [] rfl
      (by decide) trivial).1 { sampleWorld with CopyToStorage := fun _ => false }
      (sampleCueTask "/music/album.mp3") (Organise true false false []) (by decide) (by decide)
      (Or.inr (by decide)) (by decide!) (by decide)).2.1⟩

/-! ## Effects of the batch loop -/

theorem Extends_refl (P : Effect → Bool) (s : State) : Extends P s s :=
  ⟨[], by simp, by simp⟩

theorem Extends_of_trace_eq (P : Effect → Bool) {s s' : State} (h : s'.trace_ = s.trace_) :
    Extends P s s' := ⟨[], by simp [h], by simp⟩

theorem Extends_trans {P : Effect → Bool} {s1 s2 s3 : State} (h1 : Extends P s1 s2)
    (h2 : Extends P s2 s3) : Extends P s1 s3 := by
  obtain ⟨l1, e1, p1⟩ := h1
  obtain ⟨l2, e2, p2⟩ := h2
  refine ⟨l1 ++ l2, by rw [e2, e1, List.append_assoc], ?_⟩
  intro e he
  rcases List.mem_append.mp he with he | he
  · exact p1 e he
  · exact p2 e he

theorem Extends_emit (P : Effect → Bool) (s : State) (e : Effect) (h : P e = true) :
    Extends P s (s.emit e) :=
  ⟨[e], rfl, by simpa using h⟩

theorem Extends_mono {P Q : Effect → Bool} {s s' : State} (h : Extends P s s')
    (hpq : ∀ e, P e = true → Q e = true) : Extends Q s s' := by
  obtain ⟨l, e1, p1⟩ := h
  exact ⟨l, e1, fun e he => hpq e (p1 e he)⟩

theorem Extends_SetSongProgress (gp : List (String × CFloat)) (f : CFloat) (tr : Bool) (s : State) :
    Extends Effect.isBatch s (SetSongProgress gp f tr s) := by
  obtain ⟨p, t, h⟩ := SetSongProgress_trace gp f tr s
  exact ⟨[Effect.SetTaskProgress p t], h, by simp [Effect.isBatch]⟩

theorem Extends_CopyToStorage (w : World) (job : CopyJob) (s : State) :
    Extends Effect.isBatch s (CopyToStorage w job s).2 := by
  obtain ⟨_, _, l, h2, h3⟩ := CopyToStorage_spec w job s
  refine ⟨Effect.CopyToStorage job :: l, h2, ?_⟩
  intro e he
  rcases List.mem_cons.mp he with he | he
  · rw [he]; rfl
  · have := h3 e he
    cases e <;> simp_all [Effect.isProgress, Effect.isBatch]

theorem Extends_copy (w : World) (task : Task) (song : Song) (s : State) :
    Extends Effect.isBatch s (ProcessSomeFiles_copy w task song s) := by
  unfold ProcessSomeFiles_copy
  simp only []
  have hseg : Extends Effect.isBatch s
      (ProcessSomeFiles_segment w song (ProcessSomeFiles_job w task song s) s).2.2 := by
    have hc : Extends Effect.isBatch s
        { s with trace_ := s.trace_ ++
          (Segmenter_Create w (ProcessSomeFiles_job w task song s)).2.2 } := by
      refine ⟨_, rfl, ?_⟩
      intro e he
      unfold Segmenter_Create at he
      split at he <;> simp at he <;> rw [he] <;> rfl
    unfold ProcessSomeFiles_segment
    split
    · split
      · simp only []
        split
        · exact hc
        · exact hc
      · exact Extends_refl _ _
    · exact Extends_refl _ _
  have hstore : ∀ (ns : Bool) (sf : String) (job : CopyJob) (s1 : State),
      Extends Effect.isBatch s1 (ProcessSomeFiles_store w task ns sf job s1) := by
    intro ns sf job s1
    unfold ProcessSomeFiles_store
    split
    · exact Extends_of_trace_eq _ rfl
    · simp only []
      split
      · exact Extends_trans (Extends_CopyToStorage w job s1) (Extends_of_trace_eq _ rfl)
      · exact Extends_CopyToStorage w job s1
  have hclean : ∀ (sf : String) (s1 : State),
      Extends Effect.isBatch s1 (ProcessSomeFiles_cleanup task sf s1) := by
    intro sf s1
    obtain ⟨l, h1, h2⟩ := cleanup_trace task sf s1
    refine ⟨l, h1, ?_⟩
    intro e he
    obtain ⟨path, hp⟩ := h2 e he
    rw [hp]; rfl
  exact Extends_trans hseg (Extends_trans (hstore _ _ _ _) (hclean _ _))

theorem Extends_body (w : World) (task : Task) (s : State) :
    Extends Effect.isBatch s (ProcessSomeFiles_body w task s) := by
  unfold ProcessSomeFiles_body
  simp only []
  split
  · rw [expand_eq]; exact Extends_of_trace_eq _ rfl
  · split
    · exact Extends_refl _ _
    · split
      · exact Extends_copy w task _ s
      · split
        · unfold ProcessSomeFiles_transcode
          simp only []
          exact @Extends_trans _ _ (State.emit _ (Effect.AddJob _ _ _)) _
            (Extends_trans (Extends_of_trace_eq _ rfl) (Extends_emit _ _ _ rfl))
            (Extends_emit _ _ _ rfl)
        · exact Extends_copy w task _ s

theorem loop_nil (ws : Nat → World) (i n : Nat) (s : State) (hpend : s.tasks_pending_ = []) :
    ProcessSomeFiles_loop ws i (n + 1) s =
      SetSongProgress
        (Transcoder_GetProgress (ws (i + 1)).progress_report s.transcoder_jobs_) 0 false s := by
  have h : (SetSongProgress
      (Transcoder_GetProgress (ws (i + 1)).progress_report s.transcoder_jobs_) 0 false
      s).tasks_pending_ = [] := hpend
  simp only [ProcessSomeFiles_loop]
  split
  · rfl
  · rename_i t r heq; rw [h] at heq; cases heq

theorem Extends_loop (ws : Nat → World) (n i : Nat) (s : State) :
    Extends Effect.isBatch s (ProcessSomeFiles_loop ws i n s) := by
  induction n generalizing i s with
  | zero => exact Extends_refl _ _
  | succ n ih =>
    have h1 := Extends_SetSongProgress
      (Transcoder_GetProgress (ws (i + 1)).progress_report s.transcoder_jobs_) 0 false s
    cases hp : s.tasks_pending_ with
    | nil => rw [loop_nil ws i n s hp]; exact h1
    | cons task rest =>
      rw [loop_cons ws i n s task rest hp]
      have h2 : Extends Effect.isBatch s
          { SetSongProgress
              (Transcoder_GetProgress (ws (i + 1)).progress_report s.transcoder_jobs_) 0 false s with
            tasks_pending_ := rest } := by
        obtain ⟨l, e1, p1⟩ := h1
        exact ⟨l, e1, p1⟩
      have h3 := Extends_body (ws (i + 1)) task
          { SetSongProgress
              (Transcoder_GetProgress (ws (i + 1)).progress_report s.transcoder_jobs_) 0 false s with
            tasks_pending_ := rest }
      exact Extends_trans h2 (Extends_trans h3 (ih (i + 1) _))

/-! ## The end of a run (claim C17) -/

/-- What the start of a tick does: nothing once started; on the first tick it
calls `StartCopy` and nothing else, and touches neither the map of the
transcodes in flight nor the counters; a queue that was empty stays empty and
the failure list is then unchanged. -/
theorem start_spec (w : World) (s : State) :
    (ProcessSomeFiles_start w s).tasks_transcoding_ = s.tasks_transcoding_ ∧
    (ProcessSomeFiles_start w s).tasks_complete_ = s.tasks_complete_ ∧
    (ProcessSomeFiles_start w s).task_count_ = s.task_count_ ∧
    (ProcessSomeFiles_start w s).current_copy_progress_ = s.current_copy_progress_ ∧
    (ProcessSomeFiles_start w s).transcode_suffix_ = s.transcode_suffix_ ∧
    (ProcessSomeFiles_start w s).transcoder_jobs_ = s.transcoder_jobs_ ∧
    (s.tasks_pending_ = [] → (ProcessSomeFiles_start w s).tasks_pending_ = [] ∧
      (ProcessSomeFiles_start w s).files_with_errors_ = s.files_with_errors_) ∧
    ∃ l, (ProcessSomeFiles_start w s).trace_ = s.trace_ ++ l ∧ ∀ e ∈ l, e = Effect.StartCopy := by
  unfold ProcessSomeFiles_start
  by_cases hs : s.started_ = true
  · simp only [hs, Bool.not_true]
    exact ⟨rfl, rfl, rfl, rfl, rfl, rfl, fun h => ⟨h, rfl⟩, [], by simp, by simp⟩
  · simp only [Bool.not_eq_true] at hs
    simp only [hs, Bool.not_false, if_true]
    refine ⟨?_, ?_, ?_, ?_, ?_, ?_, ?_, [Effect.StartCopy], ?_, by simp⟩
    all_goals split <;> simp [State.emit]
    all_goals intro h; simp [h]

/-- A tick that finds the queue empty and transcodes in flight only starts the
progress timer. -/
theorem tick_wait (ws : Nat → World) (s : State)
    (hp : (ProcessSomeFiles_start (ws 0) s).tasks_pending_ = [])
    (hm : (ProcessSomeFiles_start (ws 0) s).tasks_transcoding_ ≠ []) :
    ProcessSomeFiles ws s = (ProcessSomeFiles_start (ws 0) s).emit Effect.ProgressTimerStart := by
  simp [ProcessSomeFiles, hp, hm]

/-- A tick that finds the queue and the map empty ends the run. -/
theorem tick_finish (ws : Nat → World) (s : State)
    (hp : (ProcessSomeFiles_start (ws 0) s).tasks_pending_ = [])
    (hm : (ProcessSomeFiles_start (ws 0) s).tasks_transcoding_ = []) :
    ProcessSomeFiles ws s = ProcessSomeFiles_finish (ws 0) (ProcessSomeFiles_start (ws 0) s) := by
  simp [ProcessSomeFiles, hp, hm]

/-- A tick that finds tasks in the queue runs the loop, publishes the progress
and schedules the next tick. -/
theorem tick_batch (ws : Nat → World) (s : State)
    (hp : (ProcessSomeFiles_start (ws 0) s).tasks_pending_ ≠ []) :
    ProcessSomeFiles ws s =
      (SetSongProgress
        (Transcoder_GetProgress (ws (kBatchSize + 1)).progress_report
          (ProcessSomeFiles_loop ws 0 kBatchSize
            (ProcessSomeFiles_start (ws 0) s)).transcoder_jobs_) 0 false
        (ProcessSomeFiles_loop ws 0 kBatchSize (ProcessSomeFiles_start (ws 0) s))).emit
        Effect.ScheduleProcessSomeFiles := by
  simp [ProcessSomeFiles, hp]

/-- The end of a run, call by call. -/
theorem finish_spec (w : World) (s : State) :
    (ProcessSomeFiles_finish w s).tasks_pending_ = s.tasks_pending_ ∧
    (ProcessSomeFiles_finish w s).files_with_errors_ = s.files_with_errors_ ∧
    (s.tasks_transcoding_ = [] → (ProcessSomeFiles_finish w s).tasks_transcoding_ = []) ∧
    ∃ p t, (ProcessSomeFiles_finish w s).trace_ = s.trace_ ++
      ([Effect.SetTaskProgress p t, Effect.FinishCopy s.files_with_errors_.isEmpty] ++
       (if s.eject_after_ then [Effect.Eject] else []) ++
       [Effect.SetTaskFinished, Effect.Finished s.files_with_errors_]) := by
  have he : (UpdateProgress (Transcoder_GetProgress w.progress_report s.transcoder_jobs_)
      s).eject_after_ = s.eject_after_ := rfl
  refine ⟨?_, ?_, ?_, ?_⟩
  · unfold ProcessSomeFiles_finish; simp only []; split <;> simp
  · unfold ProcessSomeFiles_finish; simp only []; split <;> simp
  · intro h
    have := UpdateProgress_tasks_transcoding_nil
      (Transcoder_GetProgress w.progress_report s.transcoder_jobs_) s h
    unfold ProcessSomeFiles_finish; simp only []; split <;> simpa using this
  · refine ⟨s.tasks_complete_ * 100 + (s.tasks_pending_.map Task.points).sum
        + ((QMap_values (UpdateProgress
            (Transcoder_GetProgress w.progress_report s.transcoder_jobs_)
            s).tasks_transcoding_).map Task.points).sum
        + s.current_copy_progress_, s.task_count_ * 100, ?_⟩
    have ht := UpdateProgress_trace (Transcoder_GetProgress w.progress_report s.transcoder_jobs_) s
    unfold ProcessSomeFiles_finish
    simp only []
    have he2 : ((UpdateProgress (Transcoder_GetProgress w.progress_report s.transcoder_jobs_)
      s).emit (Effect.FinishCopy (UpdateProgress (Transcoder_GetProgress w.progress_report
        s.transcoder_jobs_) s).files_with_errors_.isEmpty)).eject_after_ = s.eject_after_ := rfl
    rw [he2]
    cases s.eject_after_
    · simp [ht]
    · simp [ht]

/-- C17. A tick of `Organise::ProcessSomeFiles` adds calls `l` to the record.
If `l` holds a `FinishCopy` or a `Finished`, then the state the tick was in
after its start part (the state in which `FinishCopy` is called; for a started
object the state before the tick) has an empty queue and an empty map of
transcodes in flight, and so has the state after the tick. The flag of every
`FinishCopy` in `l` is true exactly when the failure list is empty, and
`Finished` carries that list. A tick that finds the queue empty and the map
not empty issues neither call and leaves the queue, the map, the counters and
the failure list as they were. -/
theorem C17_finish_only_when_drained (ws : Nat → World) (s : State) :
    ∃ l, (ProcessSomeFiles ws s).trace_ = s.trace_ ++ l ∧
      ((∃ e ∈ l, e.isFinish = true) →
        (ProcessSomeFiles_start (ws 0) s).tasks_pending_ = [] ∧
        (ProcessSomeFiles_start (ws 0) s).tasks_transcoding_ = [] ∧
        (s.started_ = true → s.tasks_pending_ = []) ∧
        s.tasks_transcoding_ = [] ∧
        (ProcessSomeFiles ws s).tasks_pending_ = [] ∧
        (ProcessSomeFiles ws s).tasks_transcoding_ = []) ∧
      (∀ b, Effect.FinishCopy b ∈ l →
        (b = true ↔ (ProcessSomeFiles ws s).files_with_errors_ = [])) ∧
      (∀ names, Effect.Finished names ∈ l →
        names = (ProcessSomeFiles ws s).files_with_errors_) ∧
      (s.tasks_pending_ = [] → s.tasks_transcoding_ ≠ [] →
        (∀ e ∈ l, e.isFinish = false) ∧
        (ProcessSomeFiles ws s).tasks_pending_ = s.tasks_pending_ ∧
        (ProcessSomeFiles ws s).tasks_transcoding_ = s.tasks_transcoding_ ∧
        (ProcessSomeFiles ws s).tasks_complete_ = s.tasks_complete_ ∧
        (ProcessSomeFiles ws s).task_count_ = s.task_count_ ∧
        (ProcessSomeFiles ws s).current_copy_progress_ = s.current_copy_progress_ ∧
        (ProcessSomeFiles ws s).transcode_suffix_ = s.transcode_suffix_ ∧
        (ProcessSomeFiles ws s).files_with_errors_ = s.files_with_errors_) := by
  obtain ⟨hmap, hcomp, hcount, hcur, hsuf, _, hnil, l0, hl0, hl0s⟩ := start_spec (ws 0) s
  have hl0f : ∀ e ∈ l0, e.isFinish = false := fun e he => by rw [hl0s e he]; rfl
  by_cases hp : (ProcessSomeFiles_start (ws 0) s).tasks_pending_ = []
  · by_cases hm : (ProcessSomeFiles_start (ws 0) s).tasks_transcoding_ = []
    · -- the end of the run
      obtain ⟨fp, fe, fm, p, t, ftr⟩ := finish_spec (ws 0) (ProcessSomeFiles_start (ws 0) s)
      rw [tick_finish ws s hp hm]
      refine ⟨l0 ++ ([Effect.SetTaskProgress p t,
          Effect.FinishCopy (ProcessSomeFiles_start (ws 0) s).files_with_errors_.isEmpty] ++
        (if (ProcessSomeFiles_start (ws 0) s).eject_after_ then [Effect.Eject] else []) ++
        [Effect.SetTaskFinished,
          Effect.Finished (ProcessSomeFiles_start (ws 0) s).files_with_errors_]), ?_, ?_, ?_, ?_, ?_⟩
      · rw [ftr, hl0, List.append_assoc]
      · intro _
        refine ⟨hp, hm, ?_, by rw [← hmap]; exact hm, by rw [fp]; exact hp, fm hm⟩
        intro hs
        rw [ProcessSomeFiles_start_started _ _ hs] at hp
        exact hp
      · intro b hb
        rw [fe]
        have hb' : b = (ProcessSomeFiles_start (ws 0) s).files_with_errors_.isEmpty := by
          rcases List.mem_append.mp hb with hb | hb
          · exact absurd (hl0s _ hb) (by simp)
          · split at hb <;> simpa using hb
        rw [hb', List.isEmpty_iff]
      · intro names hn
        rw [fe]
        rcases List.mem_append.mp hn with hn | hn
        · exact absurd (hl0s _ hn) (by simp)
        · split at hn <;> simpa using hn
      · intro _ hne
        rw [← hmap] at hne
        exact absurd hm hne
    · -- waiting for the transcoder
      rw [tick_wait ws s hp hm]
      refine ⟨l0 ++ [Effect.ProgressTimerStart], ?_, ?_, ?_, ?_, ?_⟩
      · rw [emit_trace, hl0, List.append_assoc]
      · rintro ⟨e, he, hfin⟩
        rcases List.mem_append.mp he with he | he
        · rw [hl0f e he] at hfin; cases hfin
        · rw [List.mem_singleton.mp he] at hfin; cases hfin
      · intro b hb
        rcases List.mem_append.mp hb with hb | hb
        · exact absurd (hl0s _ hb) (by simp)
        · simp at hb
      · intro names hn
        rcases List.mem_append.mp hn with hn | hn
        · exact absurd (hl0s _ hn) (by simp)
        · simp at hn
      · intro hsp _
        refine ⟨?_, ?_, hmap, hcomp, hcount, hcur, hsuf, (hnil hsp).2⟩
        · intro e he
          rcases List.mem_append.mp he with he | he
          · exact hl0f e he
          · rw [List.mem_singleton.mp he]; rfl
        · rw [emit_tasks_pending, hp, hsp]
  · -- a batch
    rw [tick_batch ws s hp]
    obtain ⟨l1, hl1, hl1b⟩ := Extends_trans
      (Extends_loop ws kBatchSize 0 (ProcessSomeFiles_start (ws 0) s))
      (Extends_SetSongProgress
        (Transcoder_GetProgress (ws (kBatchSize + 1)).progress_report
          (ProcessSomeFiles_loop ws 0 kBatchSize
            (ProcessSomeFiles_start (ws 0) s)).transcoder_jobs_) 0 false
        (ProcessSomeFiles_loop ws 0 kBatchSize (ProcessSomeFiles_start (ws 0) s)))
    have hnone : ∀ e ∈ l0 ++ (l1 ++ [Effect.ScheduleProcessSomeFiles]), e.isFinish = false := by
      intro e he
      rcases List.mem_append.mp he with he | he
      · exact hl0f e he
      · rcases List.mem_append.mp he with he | he
        · have := hl1b e he
          cases e <;> simp_all [Effect.isBatch, Effect.isFinish]
        · rw [List.mem_singleton.mp he]; rfl
    refine ⟨l0 ++ (l1 ++ [Effect.ScheduleProcessSomeFiles]), ?_, ?_, ?_, ?_, ?_⟩
    · rw [emit_trace, hl1, hl0]; simp only [List.append_assoc]
    · rintro ⟨e, he, hfin⟩
      rw [hnone e he] at hfin; cases hfin
    · intro b hb
      have := hnone _ hb
      cases this
    · intro names hn
      have := hnone _ hn
      cases this
    · intro hsp _
      exact absurd (hnil hsp).1 hp

/-! ## The transcode-completion callback (claim C15) -/

theorem QMap_take_miss (m : List (String × Task)) (key : String)
    (h : QMap_contains m key = false) : QMap_take m key = ({}, m) := by
  have hall : ∀ kv ∈ m, (kv.1 == key) = false := by
    intro kv hkv
    cases hb : (kv.1 == key) with
    | false => rfl
    | true =>
      have : QMap_contains m key = true := List.any_eq_true.mpr ⟨kv, hkv, hb⟩
      rw [h] at this; cases this
  unfold QMap_take
  congr 1
  · have : m.find? (fun kv => kv.1 == key) = none := by
      rw [List.find?_eq_none]
      intro kv hkv
      simp [hall kv hkv]
    rw [this]; rfl
  · rw [List.filter_eq_self]
    intro kv hkv
    simp [hall kv hkv]

theorem QMap_set_contains (m : List (String × Task)) (key key' : String) (value : Task)
    (hne : key' ≠ key) : QMap_contains (QMap_set m key value) key' = QMap_contains m key' := by
  unfold QMap_set
  split
  · simp only [QMap_contains, List.any_map]
    congr 1
    funext kv
    simp only [Function.comp]
    split
    · rename_i h
      have h' : kv.1 = key := by simpa using h
      simp [h', hne, Ne.symm hne]
    · rfl
  · simp [QMap_contains, Ne.symm hne]

theorem QMap_take_set (m : List (String × Task)) (key : String) (value : Task) :
    (QMap_take (QMap_set m key value) key).1 = value ∧
    QMap_contains (QMap_take (QMap_set m key value) key).2 key = false := by
  constructor
  · unfold QMap_take QMap_set
    simp only []
    split
    · rename_i h
      induction m with
      | nil => simp [QMap_contains] at h
      | cons kv m ih =>
        by_cases hk : kv.1 = key
        · simp [List.find?, hk]
        · have hk' : (kv.1 == key) = false := by simpa using hk
          have h' : QMap_contains m key = true := by
            simpa [QMap_contains, hk] using h
          simpa [List.find?, hk', hk] using ih h'
    · rename_i h
      have hnone : m.find? (fun kv => kv.1 == key) = none := by
        rw [List.find?_eq_none]
        intro kv hkv hb
        exact h (List.any_eq_true.mpr ⟨kv, hkv, hb⟩)
      simp [List.find?_append, hnone]
  · simp [QMap_take, QMap_contains]

/-- A raw path that was dispatched for transcoding comes back from the
callback as the dispatched task, and the map no longer holds its key. -/
theorem transcode_roundtrip_raw (w : World) (task : Task) (dest_type : FileType) (s : State)
    (hfile : task.song_or_file_.IsFile = true) (success : Bool) :
    (QMap_take (ProcessSomeFiles_transcode w task dest_type s).tasks_transcoding_
      task.song_or_file_.file_).1 =
      { task with
        transcoded_filename_ := s.transcode_temp_name_ ++ "-" ++ QString_number s.transcode_suffix_
        new_extension_ := (w.PresetForFileType dest_type).extension_
        new_filetype_ := dest_type } ∧
    (JobComplete task.song_or_file_.file_ true
      (ProcessSomeFiles_transcode w task dest_type s)).tasks_pending_ =
      s.tasks_pending_ ++ [{ task with
        transcoded_filename_ := s.transcode_temp_name_ ++ "-" ++ QString_number s.transcode_suffix_
        new_extension_ := (w.PresetForFileType dest_type).extension_
        new_filetype_ := dest_type }] ∧
    QMap_contains (JobComplete task.song_or_file_.file_ success
      (ProcessSomeFiles_transcode w task dest_type s)).tasks_transcoding_
      task.song_or_file_.file_ = false ∧
    (ProcessSomeFiles_transcode w task dest_type s).trace_ = s.trace_ ++
      [Effect.AddJob task.song_or_file_.file_ (w.PresetForFileType dest_type)
        (s.transcode_temp_name_ ++ "-" ++ QString_number s.transcode_suffix_),
       Effect.TranscoderStart] := by
  have h := QMap_take_set s.tasks_transcoding_ task.song_or_file_.file_
    { task with
      transcoded_filename_ := s.transcode_temp_name_ ++ "-" ++ QString_number s.transcode_suffix_
      new_extension_ := (w.PresetForFileType dest_type).extension_
      new_filetype_ := dest_type }
  refine ⟨h.1, ?_, ?_, ?_⟩
  · simp only [JobComplete, FileTranscoded, ProcessSomeFiles_transcode, State.emit]
    simp [h.1]
  · simp only [JobComplete, FileTranscoded, ProcessSomeFiles_transcode, State.emit]
    cases success <;> simpa using h.2
  · simp [ProcessSomeFiles_transcode, State.emit, hfile]

/-- C15, the divergence. A loaded track (a task built from a `Song`) that
needs transcoding is dispatched by the loop body: the job is submitted to the
transcoder under the track's path `song.url_`, but the task is stored in the
map of transcodes in flight under the pair's file name, which is empty for a
loaded track. When the callback arrives with success for the submitted path,
`FileTranscoded` finds no task under that path: it appends a
default-constructed task to the queue (no track reference, no transcoded file
name, no new extension), not the dispatched task, and the map still holds the
dispatched task. -/
theorem C15_loaded_track_lost_by_callback (w : World) (song : Song) (task : Task) (s : State)
    (htask : task.song_or_file_ = SongOrFilePair.ofSong song)
    (hfresh : task.transcoded_filename_ = "")
    (hneeds : CheckTranscode w.PickBestFormat w.GetTranscodeMode w.GetTranscodeFormat
      s.supported_filetypes_ song.filetype_ ≠ Type_Unknown)
    (hurl : song.url_ ≠ "")
    (hfree : QMap_contains s.tasks_transcoding_ song.url_ = false) :
    (ProcessSomeFiles_body w task s).trace_ = s.trace_ ++
      [Effect.AddJob song.url_
        (w.PresetForFileType (CheckTranscode w.PickBestFormat w.GetTranscodeMode
          w.GetTranscodeFormat s.supported_filetypes_ song.filetype_))
        (s.transcode_temp_name_ ++ "-" ++ QString_number s.transcode_suffix_),
       Effect.TranscoderStart] ∧
    song.url_ ∈ (ProcessSomeFiles_body w task s).transcoder_jobs_ ∧
    ("", { task with
        transcoded_filename_ := s.transcode_temp_name_ ++ "-" ++ QString_number s.transcode_suffix_
        new_extension_ := (w.PresetForFileType (CheckTranscode w.PickBestFormat
          w.GetTranscodeMode w.GetTranscodeFormat s.supported_filetypes_
          song.filetype_)).extension_
        new_filetype_ := CheckTranscode w.PickBestFormat w.GetTranscodeMode
          w.GetTranscodeFormat s.supported_filetypes_ song.filetype_ })
      ∈ (ProcessSomeFiles_body w task s).tasks_transcoding_ ∧
    (JobComplete song.url_ true (ProcessSomeFiles_body w task s)).tasks_pending_ =
      s.tasks_pending_ ++ [({} : Task)] ∧
    ({} : Task).song_or_file_ ≠ task.song_or_file_ ∧
    (JobComplete song.url_ true (ProcessSomeFiles_body w task s)).tasks_transcoding_ =
      (ProcessSomeFiles_body w task s).tasks_transcoding_ := by
  have hIsFile : task.song_or_file_.IsFile = false := by rw [htask]; rfl
  have hfileE : task.song_or_file_.file_ = "" := by rw [htask]; rfl
  have hsong : task.song_or_file_.song_ = song := by rw [htask]; rfl
  have hread : ProcessSomeFiles_read w task = song := by
    simp [ProcessSomeFiles_read, hIsFile, hsong]
  have hbody : ProcessSomeFiles_body w task s =
      ProcessSomeFiles_transcode w task (CheckTranscode w.PickBestFormat w.GetTranscodeMode
        w.GetTranscodeFormat s.supported_filetypes_ song.filetype_) s := by
    unfold ProcessSomeFiles_body
    simp only [hIsFile, hread, hfresh, Bool.false_and]
    simp [hneeds]
  have hmap : (ProcessSomeFiles_transcode w task (CheckTranscode w.PickBestFormat
      w.GetTranscodeMode w.GetTranscodeFormat s.supported_filetypes_ song.filetype_)
      s).tasks_transcoding_ = QMap_set s.tasks_transcoding_ ""
        { task with
          transcoded_filename_ :=
            s.transcode_temp_name_ ++ "-" ++ QString_number s.transcode_suffix_
          new_extension_ := (w.PresetForFileType (CheckTranscode w.PickBestFormat
            w.GetTranscodeMode w.GetTranscodeFormat s.supported_filetypes_
            song.filetype_)).extension_
          new_filetype_ := CheckTranscode w.PickBestFormat w.GetTranscodeMode
            w.GetTranscodeFormat s.supported_filetypes_ song.filetype_ } := by
    simp [ProcessSomeFiles_transcode, State.emit, hfileE]
  have hmiss : QMap_contains (ProcessSomeFiles_transcode w task (CheckTranscode w.PickBestFormat
      w.GetTranscodeMode w.GetTranscodeFormat s.supported_filetypes_ song.filetype_)
      s).tasks_transcoding_ song.url_ = false := by
    rw [hmap, QMap_set_contains _ _ _ _ hurl, hfree]
  have htake := QMap_take_miss _ _ hmiss
  rw [hbody]
  refine ⟨?_, ?_, ?_, ?_, ?_, ?_⟩
  · simp [ProcessSomeFiles_transcode, State.emit, hIsFile, hsong]
  · simp [ProcessSomeFiles_transcode, State.emit, hIsFile, hsong]
  · rw [hmap]
    unfold QMap_set
    split
    · rename_i hc
      obtain ⟨kv, hkv, hk⟩ := List.any_eq_true.mp hc
      refine List.mem_map.mpr ⟨kv, hkv, ?_⟩
      simp [hk]
    · simp
  · have hp : (ProcessSomeFiles_transcode w task (CheckTranscode w.PickBestFormat
        w.GetTranscodeMode w.GetTranscodeFormat s.supported_filetypes_ song.filetype_)
        s).tasks_pending_ = s.tasks_pending_ := rfl
    simp only [JobComplete, FileTranscoded, State.emit]
    simp [htake, hp]
  · rw [htask]
    intro h
    have h2 : (0 : Int) = 1 := congrArg SongOrFilePair.type_ h
    exact absurd h2 (by decide)
  · simp only [JobComplete, FileTranscoded, State.emit]
    simp [htake]

/-- C15, an instance: the track `/music/a.flac` on a storage that needs it
transcoded. -/
theorem C15_loaded_track_lost_by_callback_witness :
    (JobComplete "/music/a.flac" true
      (ProcessSomeFiles_body sampleWorld
        { song_or_file_ := SongOrFilePair.ofSong (sampleTrack "/music/a.flac") }
        (ProcessSomeFiles_start sampleWorld
          (Organise true false false [])))).tasks_pending_ = [] ++ [({} : Task)] ∧
    (JobComplete "/music/a.flac" true
      (ProcessSomeFiles_body sampleWorld
        { song_or_file_ := SongOrFilePair.ofSong (sampleTrack "/music/a.flac") }
        (ProcessSomeFiles_start sampleWorld
          (Organise true false false [])))).tasks_transcoding_ =
      (ProcessSomeFiles_body sampleWorld
        { song_or_file_ := SongOrFilePair.ofSong (sampleTrack "/music/a.flac") }
        (ProcessSomeFiles_start sampleWorld
          (Organise true false false []))).tasks_transcoding_ :=
  ⟨(C15_loaded_track_lost_by_callback sampleWorld (sampleTrack "/music/a.flac")
      { song_or_file_ := SongOrFilePair.ofSong (sampleTrack "/music/a.flac") }
      (ProcessSomeFiles_start sampleWorld (Organise true false false []))
      rfl rfl (by decide) (by decide) rfl).2.2.2.1,
   (C15_loaded_track_lost_by_callback sampleWorld (sampleTrack "/music/a.flac")
      { song_or_file_ := SongOrFilePair.ofSong (sampleTrack "/music/a.flac") }
      (ProcessSomeFiles_start sampleWorld (Organise true false false []))
      rfl rfl (by decide) (by decide) rfl).2.2.2.2.2⟩

/-! ## Names in the failure list (claim C16) -/

/-- C16, the divergence. When the callback reports failure for a loaded track
that was dispatched for transcoding, `FileTranscoded` appends the path it was
called with (`song.url_`) to the failure list, not the track's display name
"artist, title", which the other places that record a failure use. -/
theorem C16_failed_transcode_records_path (w : World) (song : Song) (task : Task) (s : State)
    (htask : task.song_or_file_ = SongOrFilePair.ofSong song)
    (hfresh : task.transcoded_filename_ = "")
    (hneeds : CheckTranscode w.PickBestFormat w.GetTranscodeMode w.GetTranscodeFormat
      s.supported_filetypes_ song.filetype_ ≠ Type_Unknown)
    (hname : song.url_ ≠ song.artist_ ++ ", " ++ song.title_) :
    task.song_or_file_.DisplayName = song.artist_ ++ ", " ++ song.title_ ∧
    song.url_ ∈ (ProcessSomeFiles_body w task s).transcoder_jobs_ ∧
    (JobComplete song.url_ false (ProcessSomeFiles_body w task s)).files_with_errors_ =
      s.files_with_errors_ ++ [song.url_] ∧
    task.song_or_file_.DisplayName ∉
      [song.url_] := by
  have hIsFile : task.song_or_file_.IsFile = false := by rw [htask]; rfl
  have hsong : task.song_or_file_.song_ = song := by rw [htask]; rfl
  have hread : ProcessSomeFiles_read w task = song := by
    simp [ProcessSomeFiles_read, hIsFile, hsong]
  have hbody : ProcessSomeFiles_body w task s =
      ProcessSomeFiles_transcode w task (CheckTranscode w.PickBestFormat w.GetTranscodeMode
        w.GetTranscodeFormat s.supported_filetypes_ song.filetype_) s := by
    unfold ProcessSomeFiles_body
    simp only [hIsFile, hread, hfresh, Bool.false_and]
    simp [hneeds]
  have hname' : task.song_or_file_.DisplayName = song.artist_ ++ ", " ++ song.title_ := by
    rw [htask]; rfl
  rw [hbody]
  refine ⟨hname', ?_, ?_, ?_⟩
  · simp [ProcessSomeFiles_transcode, State.emit, hIsFile, hsong]
  · simp [JobComplete, FileTranscoded, ProcessSomeFiles_transcode, State.emit]
  · rw [hname']
    simpa using Ne.symm hname

/-- C16, an instance: the track "Artist, Song" in `/music/a.flac`, whose
transcode fails, is recorded as `/music/a.flac`. -/
theorem C16_failed_transcode_records_path_witness :
    (JobComplete "/music/a.flac" false
      (ProcessSomeFiles_body sampleWorld
        { song_or_file_ := SongOrFilePair.ofSong (sampleTrack "/music/a.flac") }
        (ProcessSomeFiles_start sampleWorld
          (Organise true false false [])))).files_with_errors_ = [] ++ ["/music/a.flac"] ∧
    (SongOrFilePair.ofSong (sampleTrack "/music/a.flac")).DisplayName = "Artist" ++ ", " ++ "Song" :=
  ⟨(C16_failed_transcode_records_path sampleWorld (sampleTrack "/music/a.flac")
      { song_or_file_ := SongOrFilePair.ofSong (sampleTrack "/music/a.flac") }
      (ProcessSomeFiles_start sampleWorld (Organise true false false []))
      rfl rfl (by decide) (by decide)).2.2.1,
   (C16_failed_transcode_records_path sampleWorld (sampleTrack "/music/a.flac")
      { song_or_file_ := SongOrFilePair.ofSong (sampleTrack "/music/a.flac") }
      (ProcessSomeFiles_start sampleWorld (Organise true false false []))
      rfl rfl (by decide) (by decide)).1⟩

/-! ## Temporary files (claim C19) -/

theorem transcodedFiles_append_remove (trace : List Effect) (path : String) :
    transcodedFiles (trace ++ [Effect.QFile_remove path]) =
      (transcodedFiles trace).filter (fun f => f != path) := by
  simp [transcodedFiles, List.foldl_append]

theorem transcodedFiles_append_progress (trace : List Effect) (p t : Int) :
    transcodedFiles (trace ++ [Effect.SetTaskProgress p t]) = transcodedFiles trace := by
  simp [transcodedFiles, List.foldl_append]

theorem not_mem_filter_ne (files : List String) (path : String) :
    path ∉ files.filter (fun f => f != path) := by
  simp [List.mem_filter]

theorem copy_trace_end (w : World) (task : Task) (song : Song) (s : State)
    (htrans : task.transcoded_filename_ ≠ "") :
    ∃ t, (ProcessSomeFiles_copy w task song s).trace_ =
      t ++ [Effect.QFile_remove task.transcoded_filename_] ++
        (if (ProcessSomeFiles_segment w song (ProcessSomeFiles_job w task song s) s).1 ≠ "" then
          [Effect.QFile_remove (ProcessSomeFiles_segment w song
            (ProcessSomeFiles_job w task song s) s).1]
         else []) := by
  refine ⟨(ProcessSomeFiles_store w task song.has_cue
    (ProcessSomeFiles_segment w song (ProcessSomeFiles_job w task song s) s).1
    (ProcessSomeFiles_segment w song (ProcessSomeFiles_job w task song s) s).2.1
    (ProcessSomeFiles_segment w song (ProcessSomeFiles_job w task song s) s).2.2).trace_, ?_⟩
  unfold ProcessSomeFiles_copy ProcessSomeFiles_cleanup
  simp only [htrans, ne_eq, not_false_eq_true, if_true]
  split <;> simp

/-- The copy step of a transcoded task removes the temporary transcode file,
and the segment file when one was made, whatever the copy returned. -/
theorem copy_removes_temporaries (w : World) (task : Task) (song : Song) (s : State)
    (htrans : task.transcoded_filename_ ≠ "") :
    task.transcoded_filename_ ∉ transcodedFiles (ProcessSomeFiles_copy w task song s).trace_ ∧
    Effect.QFile_remove task.transcoded_filename_ ∈ (ProcessSomeFiles_copy w task song s).trace_ ∧
    ((ProcessSomeFiles_segment w song (ProcessSomeFiles_job w task song s) s).1 ≠ "" →
      Effect.QFile_remove (ProcessSomeFiles_segment w song
        (ProcessSomeFiles_job w task song s) s).1 ∈ (ProcessSomeFiles_copy w task song s).trace_) := by
  obtain ⟨t, ht⟩ := copy_trace_end w task song s htrans
  rw [ht]
  refine ⟨?_, by simp, ?_⟩
  · split
    · rw [transcodedFiles_append_remove, transcodedFiles_append_remove]
      intro h
      exact not_mem_filter_ne _ _ (List.mem_filter.mp h).1
    · rw [List.append_nil, transcodedFiles_append_remove]
      exact not_mem_filter_ne _ _
  · intro h
    simp [h]

/-- C19, the divergence. A raw path that has come back from the transcoder
with its temporary transcode file on disk, and whose metadata is invalid when
the loop body reads the file again, is dropped by the body with no call at
all: the task is gone from the queue and its temporary transcode file is still
in the modelled file system, where the copy step, had the task reached it,
would have removed the file whatever the copy returned. -/
theorem C19_invalid_reread_keeps_transcoded_file (ws : Nat → World) (i n : Nat) (s : State)
    (task : Task) (rest : List Task)
    (hpend : s.tasks_pending_ = task :: rest)
    (hfile : task.song_or_file_.IsFile = true)
    (hnotdir : (ws (i + 1)).isDir task.song_or_file_.file_ = false)
    (hinvalid : ((ws (i + 1)).ReadFileBlocking task.song_or_file_.file_).valid_ = false)
    (htrans : task.transcoded_filename_ ≠ "")
    (hdisk : task.transcoded_filename_ ∈ transcodedFiles s.trace_) :
    ProcessSomeFiles_loop ws i (n + 1) s =
      ProcessSomeFiles_loop ws (i + 1) n
        { SetSongProgress
            (Transcoder_GetProgress (ws (i + 1)).progress_report s.transcoder_jobs_) 0 false s with
          tasks_pending_ := rest } ∧
    task.transcoded_filename_ ∈ transcodedFiles
      ({ SetSongProgress
            (Transcoder_GetProgress (ws (i + 1)).progress_report s.transcoder_jobs_) 0 false s with
          tasks_pending_ := rest } : State).trace_ ∧
    (∀ (song : Song) (s1 : State),
      task.transcoded_filename_ ∉
        transcodedFiles (ProcessSomeFiles_copy (ws (i + 1)) task song s1).trace_) := by
  refine ⟨?_, ?_, fun song s1 => (copy_removes_temporaries _ task song s1 htrans).1⟩
  · rw [loop_cons ws i n s task rest hpend, body_invalid _ _ _ hfile hnotdir hinvalid]
  · obtain ⟨p, t, h⟩ := SetSongProgress_trace
      (Transcoder_GetProgress (ws (i + 1)).progress_report s.transcoder_jobs_) 0 false s
    show task.transcoded_filename_ ∈ transcodedFiles (SetSongProgress
      (Transcoder_GetProgress (ws (i + 1)).progress_report s.transcoder_jobs_) 0 false s).trace_
    rw [h, transcodedFiles_append_progress]
    exact hdisk

/-- C19, an instance, to the end of the run: `/music/a.flac` is transcoded to
`/tmp/qt_temp.1-1`, is unreadable when the next tick reads it again and is
dropped; the tick after that ends the run with an empty failure list, and
`/tmp/qt_temp.1-1` is still there. -/
theorem C19_invalid_reread_keeps_transcoded_file_witness :
    sampleTranscoded.tasks_pending_ =
      [{ song_or_file_ := SongOrFilePair.ofFile "/music/a.flac"
         transcoded_filename_ := "/tmp/qt_temp.1-1"
         new_extension_ := "mp3"
         new_filetype_ := Type_Other 5 }] ∧
    "/tmp/qt_temp.1-1" ∈ transcodedFiles
      ({ SetSongProgress
            (Transcoder_GetProgress sampleWorldUnreadable.progress_report
              sampleTranscoded.transcoder_jobs_) 0 false sampleTranscoded with
          tasks_pending_ := [] } : State).trace_ ∧
    (ProcessSomeFiles (fun _ => sampleWorldUnreadable)
      (ProcessSomeFiles (fun _ => sampleWorldUnreadable) sampleTranscoded)).trace_.getLast? =
      some (Effect.Finished []) ∧
    transcodedFiles (ProcessSomeFiles (fun _ => sampleWorldUnreadable)
      (ProcessSomeFiles (fun _ => sampleWorldUnreadable) sampleTranscoded)).trace_ =
      ["/tmp/qt_temp.1-1"] :=
  ⟨by decide!,
   (C19_invalid_reread_keeps_transcoded_file (fun _ => sampleWorldUnreadable) 0 9
      sampleTranscoded
      { song_or_file_ := SongOrFilePair.ofFile "/music/a.flac"
        transcoded_filename_ := "/tmp/qt_temp.1-1"
        new_extension_ := "mp3"
        new_filetype_ := Type_Other 5 } [] (by decide!) rfl rfl rfl (by decide)
      (by decide!)).2.1,
   by decide!, by decide!⟩

/-! ## One completion signal per run (claim C18) -/

/-- C18, the divergence. In the run of `sampleRun`, where `ProcessSomeFiles`
runs only when an invocation of it is posted, both callbacks of the transcoder
arrive while the organiser waits, so two invocations are posted; the tick that
copies the two files posts a third. The first of the two that remain ends the
run (`FinishCopy`, `Finished`), and the second ends it again: `FinishCopy` is
called twice and `Finished` is emitted twice. -/
theorem C18_Finished_twice :
    RunReachable (sampleRun 0) (sampleRun 6) ∧
    RunStep (sampleRun 6) (sampleRun 7) ∧
    (sampleRun 5).organise_.tasks_complete_ = 2 ∧
    (sampleRun 5).scheduled_ = 2 ∧
    (sampleRun 5).organise_.trace_.filter Effect.isFinish = [] ∧
    (sampleRun 6).organise_.trace_.filter Effect.isFinish =
      [Effect.FinishCopy true, Effect.Finished []] ∧
    (sampleRun 6).scheduled_ = 1 ∧
    (sampleRun 7).organise_.trace_.filter Effect.isFinish =
      [Effect.FinishCopy true, Effect.Finished [], Effect.FinishCopy true, Effect.Finished []] := by
  have h1 : RunStep (sampleRun 0) (sampleRun 1) := RunStep.tick _ _ (by decide!)
  have h2 : RunStep (sampleRun 1) (sampleRun 2) := RunStep.tick _ _ (by decide!)
  have h3 : RunStep (sampleRun 2) (sampleRun 3) := RunStep.transcoded _ _ _ (by decide!)
  have h4 : RunStep (sampleRun 3) (sampleRun 4) := RunStep.transcoded _ _ _ (by decide!)
  have h5 : RunStep (sampleRun 4) (sampleRun 5) := RunStep.tick _ _ (by decide!)
  have h6 : RunStep (sampleRun 5) (sampleRun 6) := RunStep.tick _ _ (by decide!)
  have h7 : RunStep (sampleRun 6) (sampleRun 7) := RunStep.tick _ _ (by decide!)
  refine ⟨?_, h7, by decide!, by decide!, by decide!, by decide!, by decide!, by decide!⟩
  exact ((((((Relation.ReflTransGen.refl.tail h1).tail h2).tail h3).tail h4).tail h5).tail h6)

/-! ## Early termination (claim C20) -/

/-- The scenario of three raw paths, one without valid metadata, one that
needs no transcoding and one that is transcoded with success: the run ends
with an empty failure list, two tasks complete and `FinishCopy(true)`. -/
theorem sampleThree_run :
    RunReachable (sampleThree 0) (sampleThree 5) ∧
    validCount sampleWorldMixed
      [SongOrFilePair.ofFile "/music/x.bin", SongOrFilePair.ofFile "/music/b.ogg",
       SongOrFilePair.ofFile "/music/c.flac"] = 2 ∧
    (sampleThree 5).organise_.tasks_complete_ = 2 ∧
    (sampleThree 5).organise_.files_with_errors_ = [] ∧
    (sampleThree 5).scheduled_ = 0 ∧
    (sampleThree 5).organise_.trace_.filter
        (fun e => e matches Effect.StartCopy || e.isFinish) =
      [Effect.StartCopy, Effect.FinishCopy true, Effect.Finished []] := by
  have h1 : RunStep (sampleThree 0) (sampleThree 1) := RunStep.tick _ _ (by decide!)
  have h2 : RunStep (sampleThree 1) (sampleThree 2) := RunStep.tick _ _ (by decide!)
  have h3 : RunStep (sampleThree 2) (sampleThree 3) := RunStep.transcoded _ _ _ (by decide!)
  have h4 : RunStep (sampleThree 3) (sampleThree 4) := RunStep.tick _ _ (by decide!)
  have h5 : RunStep (sampleThree 4) (sampleThree 5) := RunStep.tick _ _ (by decide!)
  refine ⟨((((Relation.ReflTransGen.refl.tail h1).tail h2).tail h3).tail h4).tail h5,
    by decide!, by decide!, by decide!, by decide!, by decide!⟩

/-- C13, the divergence. The job names the raw path `/music/a.flac` twice;
`StartCopy` succeeds, the file has valid metadata, every copy succeeds and the
transcoder's callback reports success. Both tasks are handed to the
transcoder, but the second assignment to the map of transcodes in flight
replaces the first, so one callback empties the map: the run ends with
`FinishCopy(true)` and `Finished([])` when one task is complete, not the two
submitted items with valid metadata, and the transcoder still holds a job. -/
theorem C13_duplicate_path_ends_early :
    RunReachable (sampleTwice 0) (sampleTwice 5) ∧
    sampleWorld.StartCopy.1 = true ∧
    validCount sampleWorld
      [SongOrFilePair.ofFile "/music/a.flac", SongOrFilePair.ofFile "/music/a.flac"] = 2 ∧
    (sampleTwice 1).organise_.tasks_transcoding_.length = 1 ∧
    (sampleTwice 1).organise_.transcoder_jobs_ = ["/music/a.flac", "/music/a.flac"] ∧
    (sampleTwice 5).organise_.tasks_complete_ = 1 ∧
    (sampleTwice 5).organise_.files_with_errors_ = [] ∧
    (sampleTwice 5).organise_.transcoder_jobs_ = ["/music/a.flac"] ∧
    (sampleTwice 5).organise_.trace_.filter
        (fun e => e matches Effect.StartCopy || e.isFinish) =
      [Effect.StartCopy, Effect.FinishCopy true, Effect.Finished []] := by
  have h1 : RunStep (sampleTwice 0) (sampleTwice 1) := RunStep.tick _ _ (by decide!)
  have h2 : RunStep (sampleTwice 1) (sampleTwice 2) := RunStep.tick _ _ (by decide!)
  have h3 : RunStep (sampleTwice 2) (sampleTwice 3) := RunStep.transcoded _ _ _ (by decide!)
  have h4 : RunStep (sampleTwice 3) (sampleTwice 4) := RunStep.tick _ _ (by decide!)
  have h5 : RunStep (sampleTwice 4) (sampleTwice 5) := RunStep.tick _ _ (by decide!)
  refine ⟨((((Relation.ReflTransGen.refl.tail h1).tail h2).tail h3).tail h4).tail h5,
    rfl, by decide!, by decide!, by decide!, by decide!, by decide!, by decide!, by decide!⟩

/-! ## Dispatch to the transcoder (claim C21) -/

theorem temp_name_ne_empty (a b : String) : a ++ "-" ++ b ≠ "" := by
  intro h
  have := congrArg String.length h
  simp at this
  exact absurd this.1.2 (by decide)

theorem QMap_set_mem_self (m : List (String × Task)) (key : String) (value : Task) :
    (key, value) ∈ QMap_set m key value := by
  unfold QMap_set
  split
  · rename_i hc
    obtain ⟨kv, hkv, hk⟩ := List.any_eq_true.mp hc
    refine List.mem_map.mpr ⟨kv, hkv, ?_⟩
    simp [hk]
  · simp

/-- The loop body on a task that is to be transcoded is the dispatch. -/
theorem body_eq_transcode (w : World) (task : Task) (s : State)
    (hnotdir : (task.song_or_file_.IsFile && w.isDir task.song_or_file_.file_) = false)
    (hvalid : (task.song_or_file_.IsFile && !(ProcessSomeFiles_read w task).valid_) = false)
    (hfresh : task.transcoded_filename_ = "")
    (hneeds : CheckTranscode w.PickBestFormat w.GetTranscodeMode w.GetTranscodeFormat
      s.supported_filetypes_ (ProcessSomeFiles_read w task).filetype_ ≠ Type_Unknown) :
    ProcessSomeFiles_body w task s =
      ProcessSomeFiles_transcode w task
        (CheckTranscode w.PickBestFormat w.GetTranscodeMode w.GetTranscodeFormat
          s.supported_filetypes_ (ProcessSomeFiles_read w task).filetype_) s := by
  unfold ProcessSomeFiles_body
  simp only [hnotdir, hvalid, Bool.false_eq_true, if_false]
  simp [hfresh, hneeds]

/-- C21. When the loop of the batch step takes a task that is to be
transcoded (not a directory, valid metadata, no transcoded file yet,
`CheckTranscode` returns a target type), the loop body only dispatches it:
the queue it works on (the pending queue without the task), `tasks_complete_`
and the failure list are as before, the calls it makes are exactly one
`AddJob` (source path, preset of the target type, temporary output name) and
the start of the transcoder, no copy; the task is in the map of transcodes in
flight with a non-empty `transcoded_filename_`, the target type and the
extension of its preset; the transcoder holds one more job. -/
theorem C21_dispatch_only (ws : Nat → World) (i n : Nat) (s : State) (task : Task)
    (rest : List Task)
    (hpend : s.tasks_pending_ = task :: rest)
    (hnotdir : (task.song_or_file_.IsFile && (ws (i + 1)).isDir task.song_or_file_.file_) = false)
    (hvalid : (task.song_or_file_.IsFile &&
      !(ProcessSomeFiles_read (ws (i + 1)) task).valid_) = false)
    (hfresh : task.transcoded_filename_ = "")
    (hneeds : ProcessSomeFiles_dest_type (ws (i + 1)) task s.supported_filetypes_ ≠ Type_Unknown) :
    ProcessSomeFiles_loop ws i (n + 1) s =
      ProcessSomeFiles_loop ws (i + 1) n
        (ProcessSomeFiles_body (ws (i + 1)) task
          { SetSongProgress
              (Transcoder_GetProgress (ws (i + 1)).progress_report s.transcoder_jobs_) 0 false s with
            tasks_pending_ := rest }) ∧
    ∀ s1 : State, s1.supported_filetypes_ = s.supported_filetypes_ →
      (ProcessSomeFiles_body (ws (i + 1)) task s1).tasks_pending_ = s1.tasks_pending_ ∧
      (ProcessSomeFiles_body (ws (i + 1)) task s1).tasks_complete_ = s1.tasks_complete_ ∧
      (ProcessSomeFiles_body (ws (i + 1)) task s1).files_with_errors_ = s1.files_with_errors_ ∧
      (ProcessSomeFiles_body (ws (i + 1)) task s1).trace_ = s1.trace_ ++
        [Effect.AddJob task.song_or_file_.GetFile
          ((ws (i + 1)).PresetForFileType
            (ProcessSomeFiles_dest_type (ws (i + 1)) task s.supported_filetypes_))
          (s1.transcode_temp_name_ ++ "-" ++ QString_number s1.transcode_suffix_),
         Effect.TranscoderStart] ∧
      (ProcessSomeFiles_body (ws (i + 1)) task s1).transcoder_jobs_ =
        s1.transcoder_jobs_ ++ [task.song_or_file_.GetFile] ∧
      (task.song_or_file_.file_,
        dispatched (ws (i + 1)) task
          (ProcessSomeFiles_dest_type (ws (i + 1)) task s.supported_filetypes_) s1)
        ∈ (ProcessSomeFiles_body (ws (i + 1)) task s1).tasks_transcoding_ ∧
      (dispatched (ws (i + 1)) task
          (ProcessSomeFiles_dest_type (ws (i + 1)) task s.supported_filetypes_)
          s1).song_or_file_ = task.song_or_file_ ∧
      (dispatched (ws (i + 1)) task
          (ProcessSomeFiles_dest_type (ws (i + 1)) task s.supported_filetypes_)
          s1).transcoded_filename_ =
        s1.transcode_temp_name_ ++ "-" ++ QString_number s1.transcode_suffix_ ∧
      (dispatched (ws (i + 1)) task
          (ProcessSomeFiles_dest_type (ws (i + 1)) task s.supported_filetypes_)
          s1).transcoded_filename_ ≠ "" ∧
      (dispatched (ws (i + 1)) task
          (ProcessSomeFiles_dest_type (ws (i + 1)) task s.supported_filetypes_)
          s1).new_filetype_ =
        ProcessSomeFiles_dest_type (ws (i + 1)) task s.supported_filetypes_ ∧
      (dispatched (ws (i + 1)) task
          (ProcessSomeFiles_dest_type (ws (i + 1)) task s.supported_filetypes_)
          s1).new_extension_ =
        ((ws (i + 1)).PresetForFileType
          (ProcessSomeFiles_dest_type (ws (i + 1)) task s.supported_filetypes_)).extension_ := by
  refine ⟨loop_cons ws i n s task rest hpend, ?_⟩
  intro s1 hs1
  have hneeds1 : CheckTranscode (ws (i + 1)).PickBestFormat (ws (i + 1)).GetTranscodeMode
      (ws (i + 1)).GetTranscodeFormat s1.supported_filetypes_
      (ProcessSomeFiles_read (ws (i + 1)) task).filetype_ ≠ Type_Unknown := by
    rw [hs1]; exact hneeds
  rw [body_eq_transcode _ task s1 hnotdir hvalid hfresh hneeds1, hs1]
  refine ⟨rfl, rfl, rfl, ?_, ?_, ?_, rfl, rfl, temp_name_ne_empty _ _, rfl, rfl⟩
  · simp [ProcessSomeFiles_transcode, State.emit, SongOrFilePair.GetFile,
      ProcessSomeFiles_dest_type]
  · simp [ProcessSomeFiles_transcode, State.emit, SongOrFilePair.GetFile]
  · simp only [ProcessSomeFiles_transcode, State.emit, dispatched, ProcessSomeFiles_dest_type]
    exact QMap_set_mem_self _ _ _

/-- C21, an instance: the raw path `/music/a.flac` on `sampleWorld`, whose
storage needs it transcoded to format 5. -/
theorem C21_dispatch_only_witness :
    (ProcessSomeFiles_body sampleWorld { song_or_file_ := SongOrFilePair.ofFile "/music/a.flac" }
      { ProcessSomeFiles_start sampleWorld
          (Organise true false false [SongOrFilePair.ofFile "/music/a.flac"]) with
        tasks_pending_ := [] }).trace_ =
      [Effect.StartCopy] ++
        [Effect.AddJob "/music/a.flac" { name_ := "Mp3", extension_ := "mp3" } "/tmp/qt_temp.1-1",
         Effect.TranscoderStart] ∧
    (ProcessSomeFiles_body sampleWorld { song_or_file_ := SongOrFilePair.ofFile "/music/a.flac" }
      { ProcessSomeFiles_start sampleWorld
          (Organise true false false [SongOrFilePair.ofFile "/music/a.flac"]) with
        tasks_pending_ := [] }).tasks_complete_ = 0 :=
  ⟨((C21_dispatch_only (fun _ => sampleWorld) 0 9
      (ProcessSomeFiles_start sampleWorld
        (Organise true false false [SongOrFilePair.ofFile "/music/a.flac"]))
      { song_or_file_ := SongOrFilePair.ofFile "/music/a.flac" } [] rfl rfl rfl rfl
      (by decide)).2
      { ProcessSomeFiles_start sampleWorld
          (Organise true false false [SongOrFilePair.ofFile "/music/a.flac"]) with
        tasks_pending_ := [] } rfl).2.2.2.1,
   ((C21_dispatch_only (fun _ => sampleWorld) 0 9
      (ProcessSomeFiles_start sampleWorld
        (Organise true false false [SongOrFilePair.ofFile "/music/a.flac"]))
      { song_or_file_ := SongOrFilePair.ofFile "/music/a.flac" } [] rfl rfl rfl rfl
      (by decide)).2
      { ProcessSomeFiles_start sampleWorld
          (Organise true false false [SongOrFilePair.ofFile "/music/a.flac"]) with
        tasks_pending_ := [] } rfl).2.1⟩

/-! ## Temporary output names (claim C22) -/

theorem digitChar_toNat (k : Nat) (h : k < 10) : (Nat.digitChar k).toNat - 48 = k := by
  interval_cases k <;> rfl

theorem toDigitsCore_decode (fuel : Nat) : ∀ (n : Nat) (ds : List Char), n < fuel →
    (Nat.toDigitsCore 10 fuel n ds).foldl (fun a c => a * 10 + (c.toNat - 48)) 0 =
      ds.foldl (fun a c => a * 10 + (c.toNat - 48)) n := by
  induction fuel with
  | zero => intro n ds h; omega
  | succ fuel ih =>
    intro n ds h
    unfold Nat.toDigitsCore
    simp only []
    split
    · rename_i h0
      simp only [List.foldl_cons, Nat.zero_mul, Nat.zero_add]
      rw [digitChar_toNat _ (Nat.mod_lt _ (by decide))]
      congr 1
      omega
    · rename_i h0
      rw [ih (n / 10) _ (by omega)]
      simp only [List.foldl_cons]
      rw [digitChar_toNat _ (Nat.mod_lt _ (by decide))]
      congr 1
      omega

theorem Nat_repr_injective (a b : Nat) (h : Nat.repr a = Nat.repr b) : a = b := by
  have ha := toDigitsCore_decode (a + 1) a [] (by omega)
  have hb := toDigitsCore_decode (b + 1) b [] (by omega)
  have hd : Nat.toDigits 10 a = Nat.toDigits 10 b := by
    have := congrArg String.data h
    simpa [Nat.repr, List.asString] using this
  unfold Nat.toDigits at hd
  rw [hd] at ha
  simp only [List.foldl_nil] at ha hb
  omega

theorem QString_number_injective (j k : Nat)
    (h : QString_number ((j : Int) + 1) = QString_number ((k : Int) + 1)) : j = k := by
  have h1 : ∀ m : Nat, QString_number ((m : Int) + 1) = Nat.repr (m + 1) := fun m => rfl
  rw [h1, h1] at h
  have := Nat_repr_injective _ _ h
  omega

theorem String_append_left_cancel (a b c : String) (h : a ++ b = a ++ c) : b = c := by
  have := congrArg String.data h
  simp only [String.data_append] at this
  have := List.append_cancel_left this
  exact String.ext this

theorem temp_name_injective (temp : String) (j k : Nat)
    (h : temp ++ "-" ++ QString_number ((j : Int) + 1) =
      temp ++ "-" ++ QString_number ((k : Int) + 1)) : j = k := by
  rw [String.append_assoc, String.append_assoc] at h
  exact QString_number_injective j k
    (String_append_left_cancel _ _ _ (String_append_left_cancel _ _ _ h))

theorem NamesInv_nodup {s : State} (h : NamesInv s) : (transcodeOutputs s.trace_).Nodup := by
  obtain ⟨k, _, hout, _⟩ := h
  rw [hout]
  exact List.Nodup.map (by intro j k h; exact temp_name_injective _ j k h) (List.nodup_range k)

theorem transcodeOutputs_append (t l : List Effect) (h : ∀ e ∈ l, e.isAddJob = false) :
    transcodeOutputs (t ++ l) = transcodeOutputs t := by
  unfold transcodeOutputs
  rw [List.filterMap_append]
  have : l.filterMap (fun e =>
      match e with
      | Effect.AddJob _ _ output => some output
      | _ => none) = [] := by
    rw [List.filterMap_eq_nil_iff]
    intro e he
    have := h e he
    cases e <;> simp_all [Effect.isAddJob]
  rw [this, List.append_nil]

theorem Undispatched_refl (s : State) : Undispatched s s := ⟨rfl, rfl, rfl, rfl⟩

theorem Undispatched_trans {s1 s2 s3 : State} (h1 : Undispatched s1 s2)
    (h2 : Undispatched s2 s3) : Undispatched s1 s3 :=
  ⟨h2.1.trans h1.1, h2.2.1.trans h1.2.1, h2.2.2.1.trans h1.2.2.1, h2.2.2.2.trans h1.2.2.2⟩

theorem Undispatched_of {s s' : State} (h1 : s'.transcode_temp_name_ = s.transcode_temp_name_)
    (h2 : s'.transcode_suffix_ = s.transcode_suffix_) (h3 : s'.started_ = s.started_)
    (l : List Effect) (h4 : s'.trace_ = s.trace_ ++ l) (h5 : ∀ e ∈ l, e.isAddJob = false) :
    Undispatched s s' :=
  ⟨h1, h2, h3, by rw [h4]; exact transcodeOutputs_append _ _ h5⟩

theorem Undispatched_emit (s : State) (e : Effect) (h : e.isAddJob = false) :
    Undispatched s (s.emit e) :=
  Undispatched_of rfl rfl rfl [e] rfl (by simpa using h)

theorem Undispatched_UpdateProgress (gp : List (String × CFloat)) (s : State) :
    Undispatched s (UpdateProgress gp s) :=
  Undispatched_of rfl rfl rfl _ (UpdateProgress_trace gp s) (by simp [Effect.isAddJob])

theorem Undispatched_SetSongProgress (gp : List (String × CFloat)) (f : CFloat) (tr : Bool) (s : State) :
    Undispatched s (SetSongProgress gp f tr s) := by
  obtain ⟨p, t, h⟩ := SetSongProgress_trace gp f tr s
  have hq := SameQueue_SetSongProgress gp f tr s
  exact Undispatched_of hq.2.2.2.2.2.1 hq.2.2.2.2.2.2.1 hq.2.2.2.2.2.2.2.2.2.1 _ h
    (by simp [Effect.isAddJob])

theorem Undispatched_CopyToStorage (w : World) (job : CopyJob) (s : State) :
    Undispatched s (CopyToStorage w job s).2 := by
  obtain ⟨_, _, l, h2, h3⟩ := CopyToStorage_spec w job s
  have hq := (CopyToStorage_frame w job s).1
  refine Undispatched_of hq.2.2.2.2.2.1 hq.2.2.2.2.2.2.1 hq.2.2.2.2.2.2.2.2.2.1 _ h2 ?_
  intro e he
  rcases List.mem_cons.mp he with he | he
  · rw [he]; rfl
  · have := h3 e he
    cases e <;> simp_all [Effect.isProgress, Effect.isAddJob]

theorem Undispatched_copy (w : World) (task : Task) (song : Song) (s : State) :
    Undispatched s (ProcessSomeFiles_copy w task song s) := by
  unfold ProcessSomeFiles_copy
  simp only []
  have hseg : Undispatched s
      (ProcessSomeFiles_segment w song (ProcessSomeFiles_job w task song s) s).2.2 := by
    have hc : Undispatched s
        { s with trace_ := s.trace_ ++
          (Segmenter_Create w (ProcessSomeFiles_job w task song s)).2.2 } := by
      refine Undispatched_of rfl rfl rfl _ rfl ?_
      intro e he
      unfold Segmenter_Create at he
      split at he <;> simp at he <;> rw [he] <;> rfl
    unfold ProcessSomeFiles_segment
    split
    · split
      · simp only []
        split
        · exact hc
        · exact hc
      · exact Undispatched_refl _
    · exact Undispatched_refl _
  have hstore : ∀ (ns : Bool) (sf : String) (job : CopyJob) (s1 : State),
      Undispatched s1 (ProcessSomeFiles_store w task ns sf job s1) := by
    intro ns sf job s1
    unfold ProcessSomeFiles_store
    split
    · exact Undispatched_of rfl rfl rfl [] (by simp) (by simp)
    · simp only []
      split
      · exact Undispatched_trans (Undispatched_CopyToStorage w job s1)
          (Undispatched_of rfl rfl rfl [] (by simp) (by simp))
      · exact Undispatched_CopyToStorage w job s1
  have hclean : ∀ (sf : String) (s1 : State),
      Undispatched s1 (ProcessSomeFiles_cleanup task sf s1) := by
    intro sf s1
    obtain ⟨l, h1, h2⟩ := cleanup_trace task sf s1
    refine Undispatched_of ?_ ?_ ?_ l h1 ?_
    · unfold ProcessSomeFiles_cleanup; split <;> split <;> rfl
    · unfold ProcessSomeFiles_cleanup; split <;> split <;> rfl
    · unfold ProcessSomeFiles_cleanup; split <;> split <;> rfl
    · intro e he
      obtain ⟨path, hp⟩ := h2 e he
      rw [hp]; rfl
  exact Undispatched_trans hseg (Undispatched_trans (hstore _ _ _ _) (hclean _ _))

theorem Undispatched_expand (w : World) (task : Task) (s : State) :
    Undispatched s (ProcessSomeFiles_expand w task s) := by
  rw [expand_eq]
  exact ⟨rfl, rfl, rfl, rfl⟩

/-- The dispatch gives out the name of the current suffix and moves the
counter on by one. -/
theorem NamesInv_transcode (w : World) (task : Task) (dest_type : FileType) (s : State)
    (h : NamesInv s) (hs : s.started_ = true) :
    NamesInv (ProcessSomeFiles_transcode w task dest_type s) ∧
    (ProcessSomeFiles_transcode w task dest_type s).started_ = true ∧
    (ProcessSomeFiles_transcode w task dest_type s).transcode_temp_name_ =
      s.transcode_temp_name_ := by
  obtain ⟨k, hk, hout, _⟩ := h
  refine ⟨⟨k + 1, ?_, ?_, ?_⟩, hs, rfl⟩
  · simp [ProcessSomeFiles_transcode, State.emit, hk]
  · have htr : (ProcessSomeFiles_transcode w task dest_type s).trace_ = s.trace_ ++
        ([Effect.AddJob (if task.song_or_file_.IsFile then task.song_or_file_.file_
            else task.song_or_file_.song_.url_) (w.PresetForFileType dest_type)
          (s.transcode_temp_name_ ++ "-" ++ QString_number s.transcode_suffix_)] ++
         [Effect.TranscoderStart]) := by
      simp [ProcessSomeFiles_transcode, State.emit]
    have htn : (ProcessSomeFiles_transcode w task dest_type s).transcode_temp_name_ =
        s.transcode_temp_name_ := rfl
    rw [htr, ← List.append_assoc, transcodeOutputs_append _ [Effect.TranscoderStart]
      (by simp [Effect.isAddJob]), htn, List.range_succ, List.map_append, ← hout, hk]
    simp [transcodeOutputs, List.filterMap_append]
  · intro hf
    have : (ProcessSomeFiles_transcode w task dest_type s).started_ = s.started_ := rfl
    rw [this, hs] at hf
    cases hf

theorem NamesInv_of_Undispatched {s s' : State} (h : NamesInv s) (hu : Undispatched s s') :
    NamesInv s' := by
  obtain ⟨k, hk, hout, hst⟩ := h
  obtain ⟨h1, h2, h3, h4⟩ := hu
  exact ⟨k, by rw [h2, hk], by rw [h4, h1, hout], by rw [h3]; exact hst⟩

theorem NamesInv_body (w : World) (task : Task) (s : State) (h : NamesInv s)
    (hs : s.started_ = true) :
    NamesInv (ProcessSomeFiles_body w task s) ∧ (ProcessSomeFiles_body w task s).started_ = true ∧
    (ProcessSomeFiles_body w task s).transcode_temp_name_ = s.transcode_temp_name_ := by
  have hu : ∀ s', Undispatched s s' →
      NamesInv s' ∧ s'.started_ = true ∧ s'.transcode_temp_name_ = s.transcode_temp_name_ :=
    fun s' hu => ⟨NamesInv_of_Undispatched h hu, by rw [hu.2.2.1, hs], hu.1⟩
  unfold ProcessSomeFiles_body
  simp only []
  split
  · exact hu _ (Undispatched_expand w task s)
  · split
    · exact hu _ (Undispatched_refl s)
    · split
      · exact hu _ (Undispatched_copy w task _ s)
      · split
        · exact NamesInv_transcode w task _ s h hs
        · exact hu _ (Undispatched_copy w task _ s)

theorem NamesInv_loop (ws : Nat → World) (n i : Nat) (s : State) (h : NamesInv s)
    (hs : s.started_ = true) :
    NamesInv (ProcessSomeFiles_loop ws i n s) ∧ (ProcessSomeFiles_loop ws i n s).started_ = true ∧
    (ProcessSomeFiles_loop ws i n s).transcode_temp_name_ = s.transcode_temp_name_ := by
  induction n generalizing i s with
  | zero => exact ⟨h, hs, rfl⟩
  | succ n ih =>
    have h1 := Undispatched_SetSongProgress
      (Transcoder_GetProgress (ws (i + 1)).progress_report s.transcoder_jobs_) 0 false s
    cases hp : s.tasks_pending_ with
    | nil =>
      rw [loop_nil ws i n s hp]
      exact ⟨NamesInv_of_Undispatched h h1, by rw [h1.2.2.1, hs], h1.1⟩
    | cons task rest =>
      rw [loop_cons ws i n s task rest hp]
      have h2 : Undispatched s
          { SetSongProgress
              (Transcoder_GetProgress (ws (i + 1)).progress_report s.transcoder_jobs_) 0 false s with
            tasks_pending_ := rest } := ⟨h1.1, h1.2.1, h1.2.2.1, h1.2.2.2⟩
      obtain ⟨b1, b2, b3⟩ := NamesInv_body (ws (i + 1)) task _ (NamesInv_of_Undispatched h h2)
        (by rw [h2.2.2.1, hs])
      obtain ⟨c1, c2, c3⟩ := ih (i + 1) _ b1 b2
      exact ⟨c1, c2, by rw [c3, b3]; exact h2.1⟩

theorem NamesInv_start (w : World) (s : State) (h : NamesInv s) :
    NamesInv (ProcessSomeFiles_start w s) ∧ (ProcessSomeFiles_start w s).started_ = true := by
  by_cases hs : s.started_ = true
  · rw [ProcessSomeFiles_start_started w s hs]; exact ⟨h, hs⟩
  · simp only [Bool.not_eq_true] at hs
    obtain ⟨k, hk, hout, hst⟩ := h
    have hk0 := hst hs
    subst hk0
    have hout' : transcodeOutputs s.trace_ = [] := by simpa using hout
    refine ⟨⟨0, ?_, ?_, ?_⟩, ?_⟩
    · unfold ProcessSomeFiles_start
      simp only [hs, Bool.not_false, if_true]
      split <;> simpa [State.emit] using hk
    · have : ∀ s' : State, s'.trace_ = s.trace_ ++ [Effect.StartCopy] →
          transcodeOutputs s'.trace_ = [] := by
        intro s' hs'
        rw [hs', transcodeOutputs_append _ _ (by simp [Effect.isAddJob]), hout']
      simp only [List.range_zero, List.map_nil]
      unfold ProcessSomeFiles_start
      simp only [hs, Bool.not_false, if_true]
      split <;> exact this _ rfl
    · intro _; rfl
    · simp [ProcessSomeFiles_start, hs]

theorem Undispatched_finish (w : World) (s : State) :
    Undispatched s (ProcessSomeFiles_finish w s) := by
  obtain ⟨_, _, _, p, t, ftr⟩ := finish_spec w s
  have h1 : (ProcessSomeFiles_finish w s).transcode_temp_name_ = s.transcode_temp_name_ := by
    unfold ProcessSomeFiles_finish; simp only []; split <;> rfl
  have h2 : (ProcessSomeFiles_finish w s).transcode_suffix_ = s.transcode_suffix_ := by
    unfold ProcessSomeFiles_finish; simp only []; split <;> rfl
  have h3 : (ProcessSomeFiles_finish w s).started_ = s.started_ := by
    unfold ProcessSomeFiles_finish; simp only []; split <;> simp
  refine ⟨h1, h2, h3, ?_⟩
  rw [ftr]
  apply transcodeOutputs_append
  intro e he
  cases hej : s.eject_after_
  · simp [hej] at he
    rcases he with he | he | he | he <;> rw [he] <;> rfl
  · simp [hej] at he
    rcases he with he | he | he | he | he <;> rw [he] <;> rfl

theorem NamesInv_tick (ws : Nat → World) (s : State) (h : NamesInv s) :
    NamesInv (ProcessSomeFiles ws s) := by
  obtain ⟨h0, hs0⟩ := NamesInv_start (ws 0) s h
  by_cases hp : (ProcessSomeFiles_start (ws 0) s).tasks_pending_ = []
  · by_cases hm : (ProcessSomeFiles_start (ws 0) s).tasks_transcoding_ = []
    · rw [tick_finish ws s hp hm]
      exact NamesInv_of_Undispatched h0 (Undispatched_finish _ _)
    · rw [tick_wait ws s hp hm]
      exact NamesInv_of_Undispatched h0 (Undispatched_emit _ _ rfl)
  · rw [tick_batch ws s hp]
    obtain ⟨c1, _, _⟩ := NamesInv_loop ws kBatchSize 0 _ h0 hs0
    exact NamesInv_of_Undispatched c1
      (Undispatched_trans (Undispatched_SetSongProgress _ _ _ _) (Undispatched_emit _ _ rfl))

theorem NamesInv_step {s s' : State} (h : NamesInv s) (hstep : Step s s') : NamesInv s' := by
  cases hstep with
  | tick ws => exact NamesInv_tick ws s h
  | timer report => exact NamesInv_of_Undispatched h (Undispatched_UpdateProgress _ _)
  | transcoded filename success hmem =>
    refine NamesInv_of_Undispatched h ?_
    unfold FileTranscoded
    simp only []
    cases success
    · exact Undispatched_of rfl rfl rfl
        [Effect.ProgressTimerStop, Effect.ScheduleProcessSomeFiles]
        (by simp [State.emit]) (by simp [Effect.isAddJob])
    · exact Undispatched_of rfl rfl rfl
        [Effect.ProgressTimerStop, Effect.ScheduleProcessSomeFiles]
        (by simp [State.emit]) (by simp [Effect.isAddJob])

theorem NamesInv_init (copy overwrite eject_after : Bool) (items : List SongOrFilePair) :
    NamesInv (Organise copy overwrite eject_after items) :=
  ⟨0, rfl, rfl, fun _ => rfl⟩

theorem NamesInv_reachable {s0 s : State} (h : NamesInv s0) (hr : Reachable s0 s) :
    NamesInv s := by
  induction hr with
  | refl => exact h
  | tail _ hstep ih => exact NamesInv_step ih hstep

/-- C22. In every state of a run the temporary output names given to the
transcoder so far are pairwise distinct, and a dispatch from that state moves
`transcode_suffix_` on by one and gives out the name
`<temp name>-<transcode_suffix_>`, which has not been given out before. -/
theorem C22_temporary_names_distinct (copy overwrite eject_after : Bool)
    (items : List SongOrFilePair) (s : State)
    (hr : Reachable (Organise copy overwrite eject_after items) s) :
    (transcodeOutputs s.trace_).Nodup ∧
    ∀ (w : World) (task : Task) (dest_type : FileType),
      (ProcessSomeFiles_transcode w task dest_type s).transcode_suffix_ =
        s.transcode_suffix_ + 1 ∧
      s.transcode_suffix_ < (ProcessSomeFiles_transcode w task dest_type s).transcode_suffix_ ∧
      transcodeOutputs (ProcessSomeFiles_transcode w task dest_type s).trace_ =
        transcodeOutputs s.trace_ ++
          [s.transcode_temp_name_ ++ "-" ++ QString_number s.transcode_suffix_] ∧
      s.transcode_temp_name_ ++ "-" ++ QString_number s.transcode_suffix_ ∉
        transcodeOutputs s.trace_ := by
  have hinv := NamesInv_reachable (NamesInv_init copy overwrite eject_after items) hr
  refine ⟨NamesInv_nodup hinv, ?_⟩
  intro w task dest_type
  have hsuf : (ProcessSomeFiles_transcode w task dest_type s).transcode_suffix_ =
      s.transcode_suffix_ + 1 := rfl
  refine ⟨hsuf, by rw [hsuf]; omega, ?_, ?_⟩
  · have htr : (ProcessSomeFiles_transcode w task dest_type s).trace_ = s.trace_ ++
        ([Effect.AddJob (if task.song_or_file_.IsFile then task.song_or_file_.file_
            else task.song_or_file_.song_.url_) (w.PresetForFileType dest_type)
          (s.transcode_temp_name_ ++ "-" ++ QString_number s.transcode_suffix_)] ++
         [Effect.TranscoderStart]) := by
      simp [ProcessSomeFiles_transcode, State.emit]
    rw [htr, ← List.append_assoc, transcodeOutputs_append _ [Effect.TranscoderStart]
      (by simp [Effect.isAddJob])]
    simp [transcodeOutputs, List.filterMap_append]
  · obtain ⟨k, hk, hout, _⟩ := hinv
    rw [hout, hk]
    intro hmem
    obtain ⟨j, hj, hjk⟩ := List.mem_map.mp hmem
    have := temp_name_injective _ j k hjk
    rw [List.mem_range] at hj
    omega

/-- C22, an instance: the first tick of the job that names `/music/a.flac`
twice dispatches two tasks, with the names `/tmp/qt_temp.1-1` and
`/tmp/qt_temp.1-2`. -/
theorem C22_temporary_names_distinct_witness :
    transcodeOutputs (ProcessSomeFiles (fun _ => sampleWorld)
      (Organise true false false
        [SongOrFilePair.ofFile "/music/a.flac", SongOrFilePair.ofFile "/music/a.flac"])).trace_ =
      ["/tmp/qt_temp.1-1", "/tmp/qt_temp.1-2"] ∧
    (transcodeOutputs (ProcessSomeFiles (fun _ => sampleWorld)
      (Organise true false false
        [SongOrFilePair.ofFile "/music/a.flac", SongOrFilePair.ofFile "/music/a.flac"])).trace_).Nodup :=
  ⟨by decide!,
   (C22_temporary_names_distinct true false false
      [SongOrFilePair.ofFile "/music/a.flac", SongOrFilePair.ofFile "/music/a.flac"] _
      (Relation.ReflTransGen.single (Step.tick (fun _ => sampleWorld) _))).1⟩

/-! ## Variants of SongOrFilePair (claim C23) -/

/-- C23, the claim as stated fails: a loaded track is dispatched for
transcoding by the first tick and the transcoder reports success for the path
submitted; the task that `FileTranscoded` takes from the map of transcodes in
flight and queues is default-constructed, and neither `IsFile()` nor
`IsSong()` is true of its pair. -/
theorem C23_counterexample :
    "/music/a.flac" ∈ (ProcessSomeFiles (fun _ => sampleWorld)
      (Organise true false false
        [SongOrFilePair.ofSong (sampleTrack "/music/a.flac")])).transcoder_jobs_ ∧
    (JobComplete "/music/a.flac" true
      (ProcessSomeFiles (fun _ => sampleWorld)
        (Organise true false false
          [SongOrFilePair.ofSong (sampleTrack "/music/a.flac")]))).tasks_pending_.map
      (fun task => (task.song_or_file_.IsFile, task.song_or_file_.IsSong)) = [(false, false)] := by
  constructor <;> decide!

/-- C23, amended. `IsFile()` and `IsSong()` are never both true. Exactly one of
them is true of a pair built from a song or from a path, hence of every task
the constructor of `Organise` queues for such pairs and of every task the
expansion of a directory queues. Neither is true of a default-constructed
pair, which is the pair of a default-constructed task, and that is the task
`QMap::take` returns for a key the map does not hold. -/
theorem C23_variants (p : SongOrFilePair) :
    ¬ (p.IsFile = true ∧ p.IsSong = true) ∧
    (∀ song : Song, (SongOrFilePair.ofSong song).IsSong = true ∧
      (SongOrFilePair.ofSong song).IsFile = false) ∧
    (∀ file : String, (SongOrFilePair.ofFile file).IsFile = true ∧
      (SongOrFilePair.ofFile file).IsSong = false) ∧
    (({} : SongOrFilePair).IsFile = false ∧ ({} : SongOrFilePair).IsSong = false) ∧
    (({} : Task).song_or_file_.IsFile = false ∧ ({} : Task).song_or_file_.IsSong = false) ∧
    (∀ (m : List (String × Task)) (key : String), QMap_contains m key = false →
      (QMap_take m key).1 = {}) ∧
    (∀ (m : List (String × Task)) (key : String), QMap_contains m key = true →
      ∃ kv ∈ m, kv.1 = key ∧ (QMap_take m key).1 = kv.2) ∧
    (∀ (copy overwrite eject_after : Bool) (items : List SongOrFilePair),
      (∀ item ∈ items, item.IsFile ≠ item.IsSong) →
      ∀ task ∈ (Organise copy overwrite eject_after items).tasks_pending_,
        task.song_or_file_.IsFile ≠ task.song_or_file_.IsSong) ∧
    (∀ (w : World) (task : Task) (s : State),
      ∀ t ∈ (ProcessSomeFiles_expand w task s).tasks_pending_,
        t ∈ s.tasks_pending_ ∨ (t.song_or_file_.IsFile = true ∧ t.song_or_file_.IsSong = false)) := by
  refine ⟨?_, fun _ => ⟨rfl, rfl⟩, fun _ => ⟨rfl, rfl⟩, ⟨rfl, rfl⟩, ⟨rfl, rfl⟩, ?_, ?_, ?_, ?_⟩
  · rintro ⟨h1, h2⟩
    simp only [SongOrFilePair.IsFile, SongOrFilePair.IsSong, beq_iff_eq] at h1 h2
    omega
  · intro m key h
    rw [QMap_take_miss m key h]
  · intro m key h
    obtain ⟨kv, hkv, hk⟩ := List.any_eq_true.mp h
    induction m with
    | nil => cases hkv
    | cons a m ih =>
      by_cases ha : (a.1 == key) = true
      · exact ⟨a, List.mem_cons_self _ _, by simpa using ha, by simp [QMap_take, List.find?, ha]⟩
      · simp only [Bool.not_eq_true] at ha
        have hkv' : kv ∈ m := by
          rcases List.mem_cons.mp hkv with h1 | h1
          · rw [h1] at hk; rw [hk] at ha; cases ha
          · exact h1
        have hc : QMap_contains m key = true := List.any_eq_true.mpr ⟨kv, hkv', hk⟩
        obtain ⟨kv2, h2, h3, h4⟩ := ih hc hkv'
        refine ⟨kv2, List.mem_cons_of_mem _ h2, h3, ?_⟩
        simpa [QMap_take, List.find?, ha] using h4
  · intro copy overwrite eject_after items hitems task htask
    simp only [Organise, List.mem_map] at htask
    obtain ⟨item, hi, rfl⟩ := htask
    exact hitems item hi
  · intro w task s t ht
    rw [expand_eq] at ht
    simp only [List.mem_append, List.mem_map] at ht
    rcases ht with ht | ⟨entry, _, rfl⟩
    · exact Or.inl ht
    · exact Or.inr ⟨rfl, rfl⟩

/-! ## Segmenter::CanSegment (claim C24) -/

theorem fields_ne_nil (sep : Char) (l : List Char) : fields sep l ≠ [] := by
  cases l with
  | nil => simp [fields]
  | cons c cs =>
    unfold fields
    split
    · simp
    · split <;> simp

theorem fields_nosep (sep : Char) (l : List Char) (h : sep ∉ l) : fields sep l = [l] := by
  induction l with
  | nil => rfl
  | cons c cs ih =>
    have hc : c ≠ sep := fun hc => h (by simp [hc])
    have hcs : sep ∉ cs := fun hcs => h (List.mem_cons_of_mem _ hcs)
    unfold fields
    rw [if_neg hc, ih hcs]

theorem fields_cons_sep (sep : Char) (cs : List Char) :
    fields sep (sep :: cs) = [] :: fields sep cs := by
  rw [fields]; simp

theorem fields_cons_ne (sep c : Char) (cs : List Char) (hc : c ≠ sep) :
    fields sep (c :: cs) = (c :: (fields sep cs).headD []) :: (fields sep cs).tail := by
  rw [fields, if_neg hc]
  cases fields sep cs with
  | nil => rfl
  | cons f fs => rfl

theorem fields_append_sep (sep : Char) (a b : List Char) :
    fields sep (a ++ sep :: b) = fields sep a ++ fields sep b := by
  induction a with
  | nil => simp [fields]
  | cons c cs ih =>
    by_cases hc : c = sep
    · rw [hc, List.cons_append, fields_cons_sep, fields_cons_sep, ih, List.cons_append]
    · rw [List.cons_append, fields_cons_ne sep c _ hc, fields_cons_ne sep c cs hc, ih]
      have hne := fields_ne_nil sep cs
      cases hf : fields sep cs with
      | nil => exact absurd hf hne
      | cons f fs => simp

theorem fields_no_sep_mem (sep : Char) (l : List Char) : ∀ f ∈ fields sep l, sep ∉ f := by
  induction l with
  | nil => simp [fields]
  | cons c cs ih =>
    by_cases hc : c = sep
    · rw [hc, fields_cons_sep]
      intro f hf
      rcases List.mem_cons.mp hf with h | h
      · rw [h]; simp
      · exact ih f h
    · rw [fields_cons_ne sep c cs hc]
      have hne := fields_ne_nil sep cs
      intro f hf
      cases hfs : fields sep cs with
      | nil => exact absurd hfs hne
      | cons g gs =>
        rw [hfs] at hf ih
        simp only [List.headD_cons, List.tail_cons] at hf
        rcases List.mem_cons.mp hf with h | h
        · rw [h]
          intro hmem
          rcases List.mem_cons.mp hmem with h1 | h1
          · exact hc h1.symm
          · exact ih g (List.mem_cons_self _ _) h1
        · exact ih f (List.mem_cons_of_mem _ h)

theorem intercalate_fields (sep : Char) (l : List Char) :
    List.intercalate [sep] (fields sep l) = l := by
  induction l with
  | nil => simp [fields, List.intercalate]
  | cons c cs ih =>
    have hne := fields_ne_nil sep cs
    by_cases hc : c = sep
    · rw [hc, fields_cons_sep]
      cases hf : fields sep cs with
      | nil => exact absurd hf hne
      | cons f fs =>
        rw [hf] at ih
        simp only [List.intercalate, List.intersperse] at ih ⊢
        rw [← ih]
        simp [List.flatten]
    · rw [fields_cons_ne sep c cs hc]
      cases hf : fields sep cs with
      | nil => exact absurd hf hne
      | cons f fs =>
        rw [hf] at ih
        simp only [List.headD_cons, List.tail_cons]
        cases fs with
        | nil =>
          simp only [List.intercalate, List.intersperse] at ih ⊢
          rw [← ih]
          simp [List.flatten]
        | cons g gs =>
          simp only [List.intercalate, List.intersperse] at ih ⊢
          rw [← ih]
          simp [List.flatten]

theorem getLast?_getD_cons (f : List Char) (F : List (List Char)) (hF : F ≠ []) :
    ((f :: F).getLast?).getD [] = (F.getLast?).getD [] := by
  cases F with
  | nil => exact absurd rfl hF
  | cons g gs => simp [List.getLast?_cons_cons]

theorem fields_append_nosep (sep : Char) (a b : List Char) (h : sep ∉ b) :
    fields sep (a ++ b) =
      (fields sep a).dropLast ++ [((fields sep a).getLast?).getD [] ++ b] := by
  induction a with
  | nil => simp [fields, fields_nosep sep b h]
  | cons c cs ih =>
    have hne := fields_ne_nil sep cs
    by_cases hc : c = sep
    · rw [hc, List.cons_append, fields_cons_sep, fields_cons_sep, ih,
        getLast?_getD_cons _ _ hne]
      cases hf : fields sep cs with
      | nil => exact absurd hf hne
      | cons f fs => simp
    · rw [List.cons_append, fields_cons_ne sep c _ hc, fields_cons_ne sep c cs hc, ih]
      cases hf : fields sep cs with
      | nil => exact absurd hf hne
      | cons f fs =>
        cases fs with
        | nil => simp
        | cons g gs => simp [List.getLast?_cons_cons]

theorem intercalate_cons_cons (sep f g : List Char) (gs : List (List Char)) :
    List.intercalate sep (f :: g :: gs) = f ++ sep ++ List.intercalate sep (g :: gs) := by
  simp [List.intercalate, List.intersperse, List.flatten]

theorem intercalate_append_singleton (sep : List Char) (F : List (List Char)) (x : List Char)
    (hF : F ≠ []) :
    List.intercalate sep (F ++ [x]) = List.intercalate sep F ++ sep ++ x := by
  induction F with
  | nil => exact absurd rfl hF
  | cons f fs ih =>
    cases fs with
    | nil => simp [List.intercalate, List.intersperse, List.flatten]
    | cons g gs =>
      have := ih (by simp)
      rw [List.cons_append, List.cons_append, intercalate_cons_cons, ← List.cons_append, this,
        intercalate_cons_cons]
      simp only [List.append_assoc]

/-- A list that holds the separator is its fields but the last, joined, then
the separator, then the last field, which holds no separator. -/
theorem fields_split_last (sep : Char) (l : List Char) (h : sep ∈ l) :
    l = List.intercalate [sep] (fields sep l).dropLast ++ [sep] ++
        ((fields sep l).getLast?).getD [] ∧
    sep ∉ ((fields sep l).getLast?).getD [] := by
  have hne := fields_ne_nil sep l
  have hj := intercalate_fields sep l
  have hmem := fields_no_sep_mem sep l
  obtain ⟨init, last, hF⟩ : ∃ init last, fields sep l = init ++ [last] :=
    ⟨_, _, (List.dropLast_append_getLast hne).symm⟩
  rw [hF] at hj hmem
  have hlast : sep ∉ last := hmem last (by simp)
  have hinit : init ≠ [] := by
    intro hi
    rw [hi] at hj
    simp [List.intercalate, List.intersperse, List.flatten] at hj
    rw [hj] at hlast
    exact hlast h
  have h1 : (init ++ [last]).dropLast = init := List.dropLast_concat
  have h2 : (init ++ [last]).getLast? = some last := List.getLast?_concat _
  rw [hF, h1, h2]
  refine ⟨?_, hlast⟩
  rw [Option.getD_some, ← intercalate_append_singleton _ _ _ hinit, hj]

/-- The fields of `a`, the separator and `b` without separator: those of `a`,
then `b`. -/
theorem fields_append_sep_nosep (sep : Char) (a b : List Char) (h : sep ∉ b) :
    (fields sep (a ++ sep :: b)).getLast? = some b ∧
    (fields sep (a ++ sep :: b)).dropLast = fields sep a := by
  rw [fields_append_sep, fields_nosep sep b h]
  simp

/-- The suffix of a path that ends in `.` and an extension (a text without
`.` and `/`) is the extension. -/
theorem QFileInfo_suffix_stem_ext (stem ext : String) (h1 : '.' ∉ ext.data)
    (h2 : '/' ∉ ext.data) : QFileInfo_suffix (stem ++ "." ++ ext) = ext := by
  have hd : (stem ++ "." ++ ext).data = stem.data ++ ('.' :: ext.data) := by
    simp [String.data_append]
  have hns : '/' ∉ ('.' :: ext.data) := by
    intro h
    rcases List.mem_cons.mp h with h | h
    · exact absurd h (by decide)
    · exact h2 h
  have hname : (QFileInfo_fileName (stem ++ "." ++ ext)).data =
      ((fields '/' stem.data).getLast?).getD [] ++ ('.' :: ext.data) := by
    simp only [QFileInfo_fileName, QString_section_last, hd]
    rw [fields_append_nosep '/' _ _ hns, List.getLast?_concat, Option.getD_some]
  have hname' : QFileInfo_fileName (stem ++ "." ++ ext) =
      ⟨((fields '/' stem.data).getLast?).getD [] ++ ('.' :: ext.data)⟩ := String.ext hname
  unfold QFileInfo_suffix
  simp only []
  rw [hname']
  have hc : QString_contains
      ⟨((fields '/' stem.data).getLast?).getD [] ++ ('.' :: ext.data)⟩ '.' = true := by
    simp [QString_contains]
  rw [if_pos hc]
  simp only [QString_section_last]
  rw [(fields_append_sep_nosep '.' _ _ h1).1, Option.getD_some]

/-- C24. `Segmenter::CanSegment` is true exactly when the suffix of the source
of the copy job, lower-cased, is `mp3` or `ogg`. It is false for a source
whose file name has no `.`. For a source that ends in `.` and an extension,
the suffix is the extension, so the result is decided by the lower-cased
extension and does not change when the letter case of the extension does. -/
theorem C24_CanSegment_by_suffix (job : CopyJob) :
    (Segmenter_CanSegment job = true ↔
      QString_toLower (QFileInfo_suffix job.source_) = "mp3" ∨
      QString_toLower (QFileInfo_suffix job.source_) = "ogg") ∧
    (QString_contains (QFileInfo_fileName job.source_) '.' = false →
      Segmenter_CanSegment job = false) ∧
    (∀ stem ext : String, job.source_ = stem ++ "." ++ ext → '.' ∉ ext.data → '/' ∉ ext.data →
      (Segmenter_CanSegment job = true ↔
        QString_toLower ext = "mp3" ∨ QString_toLower ext = "ogg")) ∧
    (∀ stem ext ext' : String, job.source_ = stem ++ "." ++ ext →
      '.' ∉ ext.data → '/' ∉ ext.data → '.' ∉ ext'.data → '/' ∉ ext'.data →
      QString_toLower ext' = QString_toLower ext →
      Segmenter_CanSegment { job with source_ := stem ++ "." ++ ext' } =
        Segmenter_CanSegment job) := by
  have hiff : ∀ j : CopyJob, (Segmenter_CanSegment j = true ↔
      QString_toLower (QFileInfo_suffix j.source_) = "mp3" ∨
      QString_toLower (QFileInfo_suffix j.source_) = "ogg") := by
    intro j
    unfold Segmenter_CanSegment Segmenter_CheckSource
    simp only []
    by_cases h1 : QString_toLower (QFileInfo_suffix j.source_) = "mp3"
    · simp [h1]
    · by_cases h2 : QString_toLower (QFileInfo_suffix j.source_) = "ogg"
      · simp [h2]
      · simp [h1, h2]
  refine ⟨hiff job, ?_, ?_, ?_⟩
  · intro h
    have hs : QFileInfo_suffix job.source_ = "" := by
      unfold QFileInfo_suffix
      simp [h]
    cases hcs : Segmenter_CanSegment job with
    | false => rfl
    | true =>
      have := (hiff job).mp hcs
      rw [hs] at this
      revert this
      decide
  · intro stem ext hsrc h1 h2
    rw [hiff job, hsrc, QFileInfo_suffix_stem_ext stem ext h1 h2]
  · intro stem ext ext' hsrc h1 h2 h1' h2' hlow
    have ha := hiff job
    have hb := hiff { job with source_ := stem ++ "." ++ ext' }
    rw [hsrc, QFileInfo_suffix_stem_ext stem ext h1 h2] at ha
    simp only [QFileInfo_suffix_stem_ext stem ext' h1' h2', hlow] at hb
    cases h : Segmenter_CanSegment job with
    | true => exact hb.mpr (ha.mp h)
    | false =>
      cases h' : Segmenter_CanSegment { job with source_ := stem ++ "." ++ ext' } with
      | false => rfl
      | true => rw [ha.mpr (hb.mp h')] at h; cases h

/-! ## Segmenter::Create and its split points (claims C25, C26) -/

/-- C25. `Segmenter::Create` succeeds exactly when the source can be segmented
and the splitter returns `SPLT_OK_SPLIT`. For a source that can be segmented
the splitter is called once; for any other status `Create` fails and
`CreatedFileName()` is empty. For a source that cannot be segmented `Create`
fails without a call of the splitter. On success `CreatedFileName()` is the
temporary directory, `/`, the generated base name, `.` and the lower-cased
suffix of the source. -/
theorem C25_Create_result (w : World) (job : CopyJob) :
    ((Segmenter_Create w job).1 = true ↔
      Segmenter_CanSegment job = true ∧
      w.mp3splt_split (MakeSegmentMp3Splt_request w job) = w.SPLT_OK_SPLIT) ∧
    (Segmenter_CanSegment job = true →
      (Segmenter_Create w job).2.2 = [Effect.mp3splt_split (MakeSegmentMp3Splt_request w job)]) ∧
    (Segmenter_CanSegment job = true →
      w.mp3splt_split (MakeSegmentMp3Splt_request w job) ≠ w.SPLT_OK_SPLIT →
      (Segmenter_Create w job).1 = false ∧ (Segmenter_Create w job).2.1 = "") ∧
    (Segmenter_CanSegment job = false →
      (Segmenter_Create w job).1 = false ∧ (Segmenter_Create w job).2.2 = []) ∧
    ((Segmenter_Create w job).1 = true →
      (Segmenter_Create w job).2.1 =
        w.tempPath ++ "/" ++ MakeSegmentMp3Splt_filename w job ++ "." ++
          QString_toLower (QFileInfo_suffix job.source_)) := by
  have hM : (MakeSegmentMp3Splt w job).request = MakeSegmentMp3Splt_request w job := by
    unfold MakeSegmentMp3Splt; simp only []; split <;> rfl
  have hok : ((MakeSegmentMp3Splt w job).ok = true ↔
      w.mp3splt_split (MakeSegmentMp3Splt_request w job) = w.SPLT_OK_SPLIT) := by
    unfold MakeSegmentMp3Splt; simp only []; split <;> simp [*]
  have hfile : (MakeSegmentMp3Splt w job).ok = true →
      (MakeSegmentMp3Splt w job).result_file =
        w.tempPath ++ "/" ++ MakeSegmentMp3Splt_filename w job ++ "." ++
          QString_toLower (QFileInfo_suffix job.source_) := by
    unfold MakeSegmentMp3Splt; simp only []; split <;> simp
  have hfail : (MakeSegmentMp3Splt w job).ok = false →
      (MakeSegmentMp3Splt w job).result_file = "" := by
    unfold MakeSegmentMp3Splt; simp only []; split <;> simp
  unfold Segmenter_CanSegment Segmenter_Create
  cases hsrc : Segmenter_CheckSource job with
  | UNSUPPORTED => simp
  | MP3 =>
    simp only [hM]
    refine ⟨by simp [hok], fun _ => trivial, ?_, by simp, fun h => hfile h⟩
    intro _ hne
    have : (MakeSegmentMp3Splt w job).ok = false := by
      cases h : (MakeSegmentMp3Splt w job).ok with
      | false => rfl
      | true => exact absurd (hok.mp h) hne
    exact ⟨this, hfail this⟩
  | OGG =>
    simp only [hM]
    refine ⟨by simp [hok], fun _ => trivial, ?_, by simp, fun h => hfile h⟩
    intro _ hne
    have : (MakeSegmentMp3Splt w job).ok = false := by
      cases h : (MakeSegmentMp3Splt w job).ok with
      | false => rfl
      | true => exact absurd (hok.mp h) hne
    exact ⟨this, hfail this⟩

/-- C26, the claim as stated fails: a track that begins at 0 and ends at
21474836480000000 ns (2^31 hundredths of a second) has an end offset that is
not negative, but the hundredths narrowed to `int` are negative and no skip
point is appended. -/
theorem C26_counterexample :
    (0 : Int) ≤ 21474836480000000 ∧
    (MakeSegmentMp3Splt_request sampleWorld
      { source_ := "/music/album.mp3"
        metadata_ := { beginning_ := 0, end_ := 21474836480000000 } }).splitpoints =
      [(0, "clementine_abcdef", true)] := by
  constructor <;> decide

/-- C26, amended. For a track whose beginning offset `b` is not negative, with
`b / 10,000,000` below 2^31, and whose end offset `e` is negative or has
`e / 10,000,000` below 2^31, the first split point given to the splitter is a
split point at `b / 10,000,000` under the generated name; a skip point at
`e / 10,000,000` follows exactly when `e` is not negative, and nothing else. -/
theorem C26_splitpoints (w : World) (job : CopyJob)
    (hb : 0 ≤ job.metadata_.beginning_)
    (hb32 : job.metadata_.beginning_ / 10000000 < 2147483648)
    (he32 : job.metadata_.end_ / 10000000 < 2147483648) :
    (MakeSegmentMp3Splt_request w job).splitpoints =
      [(job.metadata_.beginning_ / 10000000, MakeSegmentMp3Splt_filename w job, true)] ++
        (if 0 ≤ job.metadata_.end_ then [(job.metadata_.end_ / 10000000, "", false)] else []) ∧
    (job.metadata_.end_ < 0 → (MakeSegmentMp3Splt_request w job).splitpoints.length = 1) ∧
    (0 ≤ job.metadata_.end_ → (MakeSegmentMp3Splt_request w job).splitpoints.length = 2) := by
  have key : ∀ x : Int, 0 ≤ x → x / 10000000 < 2147483648 →
      toInt32 (NANO_TO_HECTO x) = x / 10000000 ∧ 0 ≤ x / 10000000 := by
    intro x hx h32
    have h0 : 0 ≤ x / 10000000 := Int.ediv_nonneg hx (by norm_num)
    have ht : NANO_TO_HECTO x = x / 10000000 := by
      unfold NANO_TO_HECTO
      exact Int.tdiv_eq_ediv hx (by norm_num)
    refine ⟨?_, h0⟩
    rw [ht]
    unfold toInt32
    omega
  obtain ⟨kb, _⟩ := key _ hb hb32
  have hsp : (MakeSegmentMp3Splt_request w job).splitpoints =
      [(job.metadata_.beginning_ / 10000000, MakeSegmentMp3Splt_filename w job, true)] ++
        (if 0 ≤ job.metadata_.end_ then [(job.metadata_.end_ / 10000000, "", false)] else []) := by
    unfold MakeSegmentMp3Splt_request
    simp only [kb]
    by_cases he : 0 ≤ job.metadata_.end_
    · obtain ⟨ke, ke0⟩ := key _ he he32
      simp [he, ke, ke0]
    · simp [he]
  refine ⟨hsp, ?_, ?_⟩
  · intro he
    rw [hsp, if_neg (by omega)]; rfl
  · intro he
    rw [hsp, if_pos he]; rfl

/-- C26, an instance: the track of `sampleCueTask`, from 180 s to 400 s. -/
theorem C26_splitpoints_witness :
    (MakeSegmentMp3Splt_request sampleWorld
      { source_ := "/music/album.mp3"
        metadata_ := (sampleCueTask "/music/album.mp3").song_or_file_.song_ }).splitpoints =
      [((180000000000 : Int) / 10000000, "clementine_abcdef", true)] ++
        (if (0 : Int) ≤ 400000000000 then [((400000000000 : Int) / 10000000, "", false)]
         else []) :=
  (C26_splitpoints sampleWorld
    { source_ := "/music/album.mp3"
      metadata_ := (sampleCueTask "/music/album.mp3").song_or_file_.song_ }
    (by decide) (by decide) (by decide)).1

/-! ## Organise::FiddleFileExtension (claim C29) -/

/-- A text that holds a `.` is its part before the last `.`
(`section('.', 0, -2)`), a `.`, and its last field, which holds no `.`. -/
theorem QString_section_init_last (s : String) (h : QString_contains s '.' = true) :
    s = QString_section_init '.' s ++ "." ++ QString_section_last '.' s ∧
    '.' ∉ (QString_section_last '.' s).data := by
  have hmem : '.' ∈ s.data := by simpa [QString_contains] using h
  obtain ⟨h1, h2⟩ := fields_split_last '.' s.data hmem
  refine ⟨?_, h2⟩
  apply String.ext
  simp only [QString_section_init, QString_section_last, String.data_append]
  exact h1

theorem QString_contains_of_last (sep : Char) (s : String) (c : Char)
    (h : QString_contains (QString_section_last sep s) c = true) : QString_contains s c = true := by
  have hne := fields_ne_nil sep s.data
  have hj := intercalate_fields sep s.data
  obtain ⟨init, last, hF⟩ : ∃ init last, fields sep s.data = init ++ [last] :=
    ⟨_, _, (List.dropLast_append_getLast hne).symm⟩
  have hl : (QString_section_last sep s).data = last := by
    simp [QString_section_last, hF]
  have hc : c ∈ last := by
    rw [← hl]; simpa [QString_contains] using h
  have : c ∈ s.data := by
    rw [← hj, hF]
    cases init with
    | nil => simpa [List.intercalate, List.intersperse, List.flatten] using hc
    | cons f fs =>
      rw [intercalate_append_singleton _ _ _ (by simp)]
      simp [hc]
  simpa [QString_contains] using this

/-- C29. `Organise::FiddleFileExtension` returns a text that ends in `.` and
the new extension. When the last `/`-component of the name holds a `.`, the
name is a stem, a `.` and a rest without `.`, and the result is the stem, `.`
and the new extension; otherwise it is the whole name, `.` and the new
extension. A task that carries a transcoded path (not a directory, valid
metadata) goes to the copy step with the song rewritten: the new file type,
the url and the base file name passed through this function, the size of the
transcoded file; it is not dispatched again: no `AddJob` is recorded and
`transcode_suffix_` is as it was. -/
theorem C29_FiddleFileExtension (filename new_extension : String) :
    (∃ stem, FiddleFileExtension filename new_extension = stem ++ "." ++ new_extension) ∧
    (QString_contains (QString_section_last '/' filename) '.' = true →
      ∃ stem rest, filename = stem ++ "." ++ rest ∧ '.' ∉ rest.data ∧
        FiddleFileExtension filename new_extension = stem ++ "." ++ new_extension) ∧
    (QString_contains (QString_section_last '/' filename) '.' = false →
      FiddleFileExtension filename new_extension = filename ++ "." ++ new_extension) ∧
    (∀ (w : World) (task : Task) (s : State),
      (task.song_or_file_.IsFile && w.isDir task.song_or_file_.file_) = false →
      (task.song_or_file_.IsFile && !(ProcessSomeFiles_read w task).valid_) = false →
      task.transcoded_filename_ ≠ "" →
      ProcessSomeFiles_body w task s =
        ProcessSomeFiles_copy w task
          { ProcessSomeFiles_read w task with
            filetype_ := task.new_filetype_
            url_ := FiddleFileExtension (ProcessSomeFiles_read w task).url_ task.new_extension_
            basefilename_ :=
              FiddleFileExtension (ProcessSomeFiles_read w task).basefilename_ task.new_extension_
            filesize_ := w.size task.transcoded_filename_ } s ∧
      transcodeOutputs (ProcessSomeFiles_body w task s).trace_ = transcodeOutputs s.trace_ ∧
      (ProcessSomeFiles_body w task s).transcode_suffix_ = s.transcode_suffix_) := by
  refine ⟨?_, ?_, ?_, ?_⟩
  · unfold FiddleFileExtension
    split
    · exact ⟨_, rfl⟩
    · exact ⟨_, rfl⟩
  · intro h
    obtain ⟨h1, h2⟩ := QString_section_init_last filename (QString_contains_of_last _ _ _ h)
    refine ⟨QString_section_init '.' filename, QString_section_last '.' filename, h1, h2, ?_⟩
    unfold FiddleFileExtension
    rw [if_pos h]
  · intro h
    unfold FiddleFileExtension
    rw [if_neg (by simp [h])]
  · intro w task s hnotdir hvalid htrans
    have hb : ProcessSomeFiles_body w task s =
        ProcessSomeFiles_copy w task
          (ProcessSomeFiles_retag w task (ProcessSomeFiles_read w task)) s := by
      unfold ProcessSomeFiles_body
      simp only [hnotdir, hvalid, Bool.false_eq_true, if_false]
      simp [htrans]
    have hu := Undispatched_copy w task
      (ProcessSomeFiles_retag w task (ProcessSomeFiles_read w task)) s
    rw [hb]
    exact ⟨rfl, hu.2.2.2, hu.2.1⟩

/-- Instances of `FiddleFileExtension`: the last `.` of the last component is
the one that counts, and a `.` in a directory name is not. -/
theorem FiddleFileExtension_examples :
    FiddleFileExtension "/music/a.b/song.tar.flac" "mp3" = "/music/a.b/song.tar.mp3" ∧
    FiddleFileExtension "/music/a.b/song" "mp3" = "/music/a.b/song.mp3" ∧
    FiddleFileExtension "song.flac" "ogg" = "song.ogg" := by
  decide

/-! ## Cue-sheet indexes (claims C27, C28) -/

theorem toInt_intCast_div (a : Int) (b : Nat) (ha : 0 ≤ a) (hb : a < 2147483648) :
    toInt ((a : ℚ) / (b : ℚ)) = a / (b : Int) := by
  have hq : (a : ℚ) / (b : ℚ) < 2147483648 := by
    have ha' : (0 : ℚ) ≤ (a : ℚ) := by exact_mod_cast ha
    have hb' : (a : ℚ) < 2147483648 := by exact_mod_cast hb
    rcases Nat.eq_zero_or_pos b with h0 | h0
    · subst h0; simp
    · have h1 : (1 : ℚ) ≤ (b : ℚ) := by exact_mod_cast h0
      have : (a : ℚ) / (b : ℚ) ≤ (a : ℚ) := div_le_self ha' h1
      linarith
  rw [toInt_of_nonneg _ (div_nonneg (by exact_mod_cast ha) (by positivity)) hq]
  exact Rat.floor_intCast_div_natCast a b

theorem round_intCast_div_100 (k : Int) :
    round ((k : ℚ) / 100) = (k + 50) / 100 := by
  rw [round_eq]
  have : (k : ℚ) / 100 + 1 / 2 = ((k + 50 : Int) : ℚ) / ((100 : Nat) : ℚ) := by
    push_cast; ring
  rw [this, Rat.floor_intCast_div_natCast]
  rfl

theorem NanoToIndex_fields_eq (t : Int) (ht : 0 ≤ t)
    (hmin : t / 10000000 / 100 / 60 < 2147483648) :
    NanoToIndex_fields t =
      (t / 10000000 / 100 / 60, t / 10000000 / 100 % 60, t / 10000000 % 100 * 75 / 100) := by
  have h1 : Int.tdiv t kNsecPerHsec = t / 10000000 := Int.tdiv_eq_ediv ht (by decide)
  have h0 : 0 ≤ t / 10000000 := Int.ediv_nonneg ht (by norm_num)
  have h2 : Int.tdiv (t / 10000000) 100 = t / 10000000 / 100 := Int.tdiv_eq_ediv h0 (by decide)
  have h00 : 0 ≤ t / 10000000 / 100 := Int.ediv_nonneg h0 (by norm_num)
  have h3 : Int.tdiv (t / 10000000 / 100) 60 = t / 10000000 / 100 / 60 :=
    Int.tdiv_eq_ediv h00 (by decide)
  have h4 : Int.tmod (t / 10000000 / 100) 60 = t / 10000000 / 100 % 60 :=
    Int.tmod_eq_emod h00 (by decide)
  have h5 : Int.tmod (t / 10000000) 100 = t / 10000000 % 100 := Int.tmod_eq_emod h0 (by decide)
  have h6 : 0 ≤ t / 10000000 % 100 := Int.emod_nonneg _ (by norm_num)
  have h7 : toInt ((((t / 10000000 % 100 : Int) : ℚ) * 75) / 100) =
      t / 10000000 % 100 * 75 / 100 := by
    have := toInt_intCast_div (t / 10000000 % 100 * 75) 100 (by positivity) (by omega)
    push_cast at this ⊢
    exact this
  unfold NanoToIndex_fields
  simp only [h1, h2, h3, h4, h5, h7]
  have h8 : toInt32 (t / 10000000 / 100 / 60) = t / 10000000 / 100 / 60 := by
    have : 0 ≤ t / 10000000 / 100 / 60 := Int.ediv_nonneg h00 (by norm_num)
    unfold toInt32; omega
  have h9 : toInt32 (t / 10000000 / 100 % 60) = t / 10000000 / 100 % 60 := by
    unfold toInt32; omega
  rw [h8, h9]

/-- C27, the divergence. For a time `t >= 0` in nanoseconds (minutes within
the `int` range) the minutes and the seconds that `NanoToIndex` prints are
`t / 10,000,000 / 100 / 60` and `t / 10,000,000 / 100 mod 60`, but the frames
are `h * 75 / 100` cut to an integer, not rounded, `h` being the hundredths
`t / 10,000,000 mod 100`: they equal the rounded value only when the cut-off
part is below one half, and are one less otherwise. -/
theorem C27_NanoToIndex_truncates (t : Int) (ht : 0 ≤ t)
    (hmin : t / 10000000 / 100 / 60 < 2147483648) :
    (NanoToIndex_fields t).1 = t / 10000000 / 100 / 60 ∧
    (NanoToIndex_fields t).2.1 = t / 10000000 / 100 % 60 ∧
    (NanoToIndex_fields t).2.2 = t / 10000000 % 100 * 75 / 100 ∧
    NanoToIndex t = sprintf_02d (t / 10000000 / 100 / 60) ++ ":" ++
      sprintf_02d (t / 10000000 / 100 % 60) ++ ":" ++
      sprintf_02d (t / 10000000 % 100 * 75 / 100) ∧
    (t / 10000000 % 100 * 75 % 100 < 50 → (NanoToIndex_fields t).2.2 = frames_rounded t) ∧
    (50 ≤ t / 10000000 % 100 * 75 % 100 → (NanoToIndex_fields t).2.2 = frames_rounded t - 1) := by
  have h := NanoToIndex_fields_eq t ht hmin
  have hr : frames_rounded t = (t / 10000000 % 100 * 75 + 50) / 100 := by
    unfold frames_rounded
    have := round_intCast_div_100 (t / 10000000 % 100 * 75)
    push_cast at this ⊢
    exact this
  refine ⟨by rw [h], by rw [h], by rw [h], by unfold NanoToIndex; rw [h], ?_, ?_⟩
  · intro hlt
    rw [h, hr]
    show t / 10000000 % 100 * 75 / 100 = _
    omega
  · intro hge
    rw [h, hr]
    show t / 10000000 % 100 * 75 / 100 = _
    omega

/-- C27, an instance: one hundredth of a second is 0.75 frames, which rounds
to 1; `NanoToIndex` prints frame 00. -/
theorem C27_NanoToIndex_truncates_witness :
    (NanoToIndex_fields 10000000).2.2 = frames_rounded 10000000 - 1 ∧
    (NanoToIndex_fields 10000000).2.2 = 0 ∧
    NanoToIndex 10000000 = "00:00:00" :=
  ⟨(C27_NanoToIndex_truncates 10000000 (by decide) (by decide)).2.2.2.2.2 (by decide),
   by decide!, by decide!⟩

theorem IndexToNano_hs_eq (mm ss ff : Int) (h1 : 0 ≤ mm) (h2 : mm ≤ 99) (h3 : 0 ≤ ss)
    (h4 : ss ≤ 59) (h5 : 0 ≤ ff) (h6 : ff ≤ 74) :
    IndexToNano_hs mm ss ff = mm * 6000 + ss * 100 + 100 * ff / 75 := by
  have h7 : toInt ((100 * (ff : ℚ)) / 75) = 100 * ff / 75 := by
    have := toInt_intCast_div (100 * ff) 75 (by positivity) (by omega)
    push_cast at this ⊢
    exact this
  unfold IndexToNano_hs
  rw [h7]
  unfold toInt32
  omega

theorem hs_parts (mm ss ff : Int) (h1 : 0 ≤ mm) (h3 : 0 ≤ ss)
    (h4 : ss ≤ 59) (h5 : 0 ≤ ff) (h6 : ff ≤ 74) :
    0 ≤ mm * 6000 + ss * 100 + 100 * ff / 75 ∧
    (mm * 6000 + ss * 100 + 100 * ff / 75) / 100 / 60 = mm ∧
    (mm * 6000 + ss * 100 + 100 * ff / 75) / 100 % 60 = ss ∧
    (mm * 6000 + ss * 100 + 100 * ff / 75) % 100 = 100 * ff / 75 ∧
    100 * ff / 75 * 75 / 100 = (if ff % 3 = 0 then ff else ff - 1) ∧
    (100 * ff / 75 * 75 + 50) / 100 = ff := by
  have hd0 : 0 ≤ 100 * ff / 75 := by omega
  have hd1 : 100 * ff / 75 ≤ 98 := by omega
  have hq : (mm * 6000 + ss * 100 + 100 * ff / 75) / 100 = mm * 60 + ss := by omega
  have hm : (mm * 6000 + ss * 100 + 100 * ff / 75) % 100 = 100 * ff / 75 := by omega
  refine ⟨by omega, by rw [hq]; omega, by rw [hq]; omega, hm, ?_, ?_⟩
  · interval_cases ff <;> decide
  · interval_cases ff <;> decide

/-- The fields `NanoToIndex` prints for the time `IndexToNano` computes from
the fields `mm`, `ss`, `ff`: the frames come back one less unless `ff` is a
multiple of 3. -/
theorem round_trip_fields (mm ss ff : Int) (h1 : 0 ≤ mm) (h2 : mm ≤ 99) (h3 : 0 ≤ ss)
    (h4 : ss ≤ 59) (h5 : 0 ≤ ff) (h6 : ff ≤ 74) :
    NanoToIndex_fields (IndexToNano_hs mm ss ff * kNsecPerHsec) =
      (mm, ss, if ff % 3 = 0 then ff else ff - 1) := by
  obtain ⟨p0, p1, p2, p3, p4, _⟩ := hs_parts mm ss ff h1 h3 h4 h5 h6
  rw [IndexToNano_hs_eq mm ss ff h1 h2 h3 h4 h5 h6]
  have hd : (mm * 6000 + ss * 100 + 100 * ff / 75) * kNsecPerHsec / 10000000 =
      mm * 6000 + ss * 100 + 100 * ff / 75 :=
    Int.mul_ediv_cancel _ (by decide)
  have hnn : 0 ≤ (mm * 6000 + ss * 100 + 100 * ff / 75) * kNsecPerHsec :=
    Int.mul_nonneg p0 (by decide)
  rw [NanoToIndex_fields_eq _ hnn (by rw [hd, p1]; omega), hd, p1, p2, p3, p4]

/-- With the frames rounded, as the specification words it, the frames of an
index come back as they were. -/
theorem round_trip_rounded (mm ss ff : Int) (h1 : 0 ≤ mm) (h2 : mm ≤ 99) (h3 : 0 ≤ ss)
    (h4 : ss ≤ 59) (h5 : 0 ≤ ff) (h6 : ff ≤ 74) :
    frames_rounded (IndexToNano_hs mm ss ff * kNsecPerHsec) = ff := by
  obtain ⟨_, _, _, p3, _, p5⟩ := hs_parts mm ss ff h1 h3 h4 h5 h6
  rw [IndexToNano_hs_eq mm ss ff h1 h2 h3 h4 h5 h6]
  have hd : (mm * 6000 + ss * 100 + 100 * ff / 75) * kNsecPerHsec / 10000000 =
      mm * 6000 + ss * 100 + 100 * ff / 75 :=
    Int.mul_ediv_cancel _ (by decide)
  unfold frames_rounded
  rw [hd, p3]
  have := round_intCast_div_100 (100 * ff / 75 * 75)
  push_cast at this ⊢
  rw [this]
  exact p5

theorem sprintf_02d_data : ∀ n : Nat, n < 100 →
    (sprintf_02d (n : Int)).data = [Nat.digitChar (n / 10), Nat.digitChar (n % 10)] := by
  decide

theorem digitChar_props : ∀ d : Nat, d < 10 →
    isDigit09 (Nat.digitChar d) = true ∧ QChar_isSpace (Nat.digitChar d) = false ∧
    Nat.digitChar d ≠ ':' := by
  decide

theorem QString_toInt_two_digits : ∀ n : Nat, n < 100 →
    QString_toInt ⟨[Nat.digitChar (n / 10), Nat.digitChar (n % 10)]⟩ = (n : Int) := by
  decide

theorem IndexToNano_chars (c1 c2 c3 c4 c5 c6 : Char)
    (h1 : isDigit09 c1 = true ∧ QChar_isSpace c1 = false ∧ c1 ≠ ':')
    (h2 : isDigit09 c2 = true ∧ QChar_isSpace c2 = false ∧ c2 ≠ ':')
    (h3 : isDigit09 c3 = true ∧ QChar_isSpace c3 = false ∧ c3 ≠ ':')
    (h4 : isDigit09 c4 = true ∧ QChar_isSpace c4 = false ∧ c4 ≠ ':')
    (h5 : isDigit09 c5 = true ∧ QChar_isSpace c5 = false ∧ c5 ≠ ':')
    (h6 : isDigit09 c6 = true ∧ QChar_isSpace c6 = false ∧ c6 ≠ ':') :
    IndexToNano ⟨[c1, c2, ':', c3, c4, ':', c5, c6]⟩ =
      IndexToNano_hs (QString_toInt ⟨[c1, c2]⟩) (QString_toInt ⟨[c3, c4]⟩)
        (QString_toInt ⟨[c5, c6]⟩) * kNsecPerHsec := by
  have hc : isDigit09 ':' = false := by decide
  have hs : QChar_isSpace ':' = false := by decide
  have hskip : IndexToNano_skip ⟨[c1, c2, ':', c3, c4, ':', c5, c6]⟩ =
      ⟨[c1, c2, ':', c3, c4, ':', c5, c6]⟩ := by
    unfold IndexToNano_skip
    simp [List.dropWhile, List.takeWhile, h1.1, h1.2.1, h2.1, hc, hs]
  have hf : fields ':' [c1, c2, ':', c3, c4, ':', c5, c6] = [[c1, c2], [c3, c4], [c5, c6]] := by
    simp [fields, h1.2.2, h2.2.2, h3.2.2, h4.2.2, h5.2.2, h6.2.2]
  unfold IndexToNano
  simp only [hskip, hf]
  rfl

/-- What `IndexToNano` makes of an index of three two-digit fields. -/
theorem IndexToNano_of_fields (mm ss ff : Nat) (hmm : mm < 100) (hss : ss < 100)
    (hff : ff < 100) :
    IndexToNano (sprintf_02d (mm : Int) ++ ":" ++ sprintf_02d (ss : Int) ++ ":" ++
        sprintf_02d (ff : Int)) =
      IndexToNano_hs mm ss ff * kNsecPerHsec := by
  have hd : sprintf_02d (mm : Int) ++ ":" ++ sprintf_02d (ss : Int) ++ ":" ++
      sprintf_02d (ff : Int) =
      ⟨[Nat.digitChar (mm / 10), Nat.digitChar (mm % 10), ':',
        Nat.digitChar (ss / 10), Nat.digitChar (ss % 10), ':',
        Nat.digitChar (ff / 10), Nat.digitChar (ff % 10)]⟩ := by
    apply String.ext
    simp [String.data_append, sprintf_02d_data mm hmm, sprintf_02d_data ss hss,
      sprintf_02d_data ff hff]
  rw [hd, IndexToNano_chars _ _ _ _ _ _
    (digitChar_props _ (by omega)) (digitChar_props _ (Nat.mod_lt _ (by decide)))
    (digitChar_props _ (by omega)) (digitChar_props _ (Nat.mod_lt _ (by decide)))
    (digitChar_props _ (by omega)) (digitChar_props _ (Nat.mod_lt _ (by decide))),
    QString_toInt_two_digits mm hmm, QString_toInt_two_digits ss hss,
    QString_toInt_two_digits ff hff]

theorem sprintf_02d_injective (a b : Nat) (ha : a < 100) (hb : b < 100)
    (h : sprintf_02d (a : Int) = sprintf_02d (b : Int)) : a = b := by
  have h1 := QString_toInt_two_digits a ha
  have h2 := QString_toInt_two_digits b hb
  have hda := sprintf_02d_data a ha
  have hdb := sprintf_02d_data b hb
  rw [h, hdb] at hda
  rw [← hda, h2] at h1
  exact_mod_cast h1.symm

/-- C28, the divergence. For an index `mm:ss:ff` of two-digit fields with
`mm <= 99`, `ss <= 59` and `ff <= 74`, `NanoToIndex(IndexToNano("mm:ss:ff"))`
has the same minutes and seconds, but its frames are `ff` only when `ff` is a
multiple of 3 and `ff - 1` otherwise: the index that is written and parsed
again names the frame before. -/
theorem C28_round_trip_frames (mm ss ff : Nat) (hmm : mm ≤ 99) (hss : ss ≤ 59) (hff : ff ≤ 74) :
    NanoToIndex (IndexToNano (sprintf_02d (mm : Int) ++ ":" ++ sprintf_02d (ss : Int) ++ ":" ++
        sprintf_02d (ff : Int))) =
      sprintf_02d (mm : Int) ++ ":" ++ sprintf_02d (ss : Int) ++ ":" ++
        sprintf_02d ((if ff % 3 = 0 then ff else ff - 1 : Nat) : Int) ∧
    (ff % 3 ≠ 0 →
      NanoToIndex (IndexToNano (sprintf_02d (mm : Int) ++ ":" ++ sprintf_02d (ss : Int) ++ ":" ++
        sprintf_02d (ff : Int))) ≠
      sprintf_02d (mm : Int) ++ ":" ++ sprintf_02d (ss : Int) ++ ":" ++ sprintf_02d (ff : Int)) ∧
    frames_rounded (IndexToNano (sprintf_02d (mm : Int) ++ ":" ++ sprintf_02d (ss : Int) ++ ":" ++
        sprintf_02d (ff : Int))) = (ff : Int) := by
  have hI := IndexToNano_of_fields mm ss ff (by omega) (by omega) (by omega)
  have hF := round_trip_fields mm ss ff (by omega) (by omega) (by omega) (by omega) (by omega)
    (by omega)
  have hcast : (if (ff : Int) % 3 = 0 then (ff : Int) else (ff : Int) - 1) =
      ((if ff % 3 = 0 then ff else ff - 1 : Nat) : Int) := by
    split <;> split <;> omega
  have hN : NanoToIndex (IndexToNano (sprintf_02d (mm : Int) ++ ":" ++ sprintf_02d (ss : Int) ++
        ":" ++ sprintf_02d (ff : Int))) =
      sprintf_02d (mm : Int) ++ ":" ++ sprintf_02d (ss : Int) ++ ":" ++
        sprintf_02d ((if ff % 3 = 0 then ff else ff - 1 : Nat) : Int) := by
    rw [hI]
    unfold NanoToIndex
    rw [hF, hcast]
  refine ⟨hN, ?_, ?_⟩
  · intro h3 heq
    rw [hN] at heq
    have := String_append_left_cancel _ _ _ heq
    have := sprintf_02d_injective _ _ (by split <;> omega) (by omega) this
    rw [if_neg h3] at this
    omega
  · rw [hI]
    exact round_trip_rounded mm ss ff (by omega) (by omega) (by omega) (by omega) (by omega)
      (by omega)

/-- C28, an instance: `00:00:01` comes back as `00:00:00`. -/
theorem C28_round_trip_frames_witness :
    NanoToIndex (IndexToNano "00:00:01") = "00:00:00" ∧
    NanoToIndex (IndexToNano (sprintf_02d ((0 : Nat) : Int) ++ ":" ++
        sprintf_02d ((0 : Nat) : Int) ++ ":" ++ sprintf_02d ((1 : Nat) : Int))) ≠
      sprintf_02d ((0 : Nat) : Int) ++ ":" ++ sprintf_02d ((0 : Nat) : Int) ++ ":" ++
        sprintf_02d ((1 : Nat) : Int) :=
  ⟨by decide!, (C28_round_trip_frames 0 0 1 (by decide) (by decide) (by decide)).2.1 (by decide)⟩

/-! ## End offsets of a parsed cue sheet (claim C30) -/

theorem Parse_album_songs (dir : CueDir) (line : String) (st : ParseState) :
    (Parse_album dir line st).songs_ = st.songs_ ∧ (Parse_album dir line st).song = st.song := by
  unfold Parse_album
  split
  · exact ⟨rfl, rfl⟩
  · simp only []
    split_ifs <;> exact ⟨rfl, rfl⟩

theorem Parse_track_EndsUnset (dir : CueDir) (line : String) (st : ParseState)
    (h : EndsUnset st) : EndsUnset (Parse_track dir line st) := by
  obtain ⟨h1, h2⟩ := h
  unfold Parse_track
  split
  · exact ⟨h1, h2⟩
  · simp only []
    split_ifs
    · refine ⟨?_, rfl⟩
      intro e he
      simp only [List.mem_append, List.mem_singleton] at he
      rcases he with he | he
      · exact h1 e he
      · rw [he]; exact h2
    · exact ⟨h1, rfl⟩
    all_goals exact ⟨h1, h2⟩

theorem Parse_line_in_tracks (dir : CueDir) (st : ParseState) (line : String)
    (h : st.in_tracks = true) : Parse_line dir st line = Parse_track dir line st := by
  simp [Parse_line, h]

theorem Parse_line_in_album (dir : CueDir) (st : ParseState) (line : String)
    (h : st.in_tracks = false) :
    Parse_line dir st line =
      if (Parse_album dir line st).in_tracks then Parse_track dir line (Parse_album dir line st)
      else Parse_album dir line st := by
  simp [Parse_line, h]

theorem Parse_line_EndsUnset (dir : CueDir) (st : ParseState) (line : String)
    (h : EndsUnset st) : EndsUnset (Parse_line dir st line) := by
  cases hin : st.in_tracks with
  | true =>
    rw [Parse_line_in_tracks dir st line hin]
    exact Parse_track_EndsUnset dir line st h
  | false =>
    rw [Parse_line_in_album dir st line hin]
    obtain ⟨a1, a2⟩ := Parse_album_songs dir line st
    have ha : EndsUnset (Parse_album dir line st) :=
      ⟨by rw [a1]; exact h.1, by rw [a2]; exact h.2⟩
    split
    · exact Parse_track_EndsUnset dir line _ ha
    · exact ha

theorem Parse_lines_EndsUnset (dir : CueDir) (lines : List String) (st : ParseState)
    (h : EndsUnset st) : EndsUnset (lines.foldl (Parse_line dir) st) := by
  induction lines generalizing st with
  | nil => exact h
  | cons line lines ih => exact ih _ (Parse_line_EndsUnset dir st line h)

theorem end_offsets_fold (L : List CueSheetEntry) (k : Nat) (hk : k ≤ L.length - 1) :
    ((List.range k).foldl Parse_end_offsets_step L).length = L.length ∧
    (∀ i, i < k → ((List.range k).foldl Parse_end_offsets_step L)[i]? =
      (L[i]?).map (withEndOffset L i)) ∧
    (∀ i, k ≤ i → ((List.range k).foldl Parse_end_offsets_step L)[i]? = L[i]?) := by
  induction k with
  | zero => exact ⟨rfl, fun i hi => absurd hi (Nat.not_lt_zero i), fun i _ => rfl⟩
  | succ k ih =>
    obtain ⟨ih1, ih2, ih3⟩ := ih (by omega)
    have hk1 : k < L.length := by omega
    have hk2 : k + 1 < L.length := by omega
    rw [List.range_succ, List.foldl_append, List.foldl_cons, List.foldl_nil]
    generalize hR : (List.range k).foldl Parse_end_offsets_step L = R at ih1 ih2 ih3 ⊢
    have hRk : R[k]? = some (L.get ⟨k, hk1⟩) := by
      rw [ih3 k (le_refl k)]; exact List.getElem?_eq_getElem hk1
    have hRk1 : R[k + 1]? = some (L.get ⟨k + 1, hk2⟩) := by
      rw [ih3 (k + 1) (by omega)]; exact List.getElem?_eq_getElem hk2
    have hLk : L[k]? = some (L.get ⟨k, hk1⟩) := List.getElem?_eq_getElem hk1
    have hLk1 : L[k + 1]? = some (L.get ⟨k + 1, hk2⟩) := List.getElem?_eq_getElem hk2
    unfold Parse_end_offsets_step
    rw [hRk, hRk1]
    simp only []
    by_cases hm : (L.get ⟨k, hk1⟩).media_file_ = (L.get ⟨k + 1, hk2⟩).media_file_
    · rw [if_pos hm]
      refine ⟨by rw [List.length_set, ih1], ?_, ?_⟩
      · intro i hi
        by_cases hik : i = k
        · subst hik
          rw [List.getElem?_set_self (by omega), hLk]
          simp only [List.get_eq_getElem] at hm
          simp [withEndOffset, hLk1, hm]
        · rw [List.getElem?_set_ne (fun h => hik h.symm)]
          exact ih2 i (by omega)
      · intro i hi
        rw [List.getElem?_set_ne (by omega)]
        exact ih3 i (by omega)
    · rw [if_neg hm]
      refine ⟨ih1, ?_, fun i hi => ih3 i (by omega)⟩
      intro i hi
      by_cases hik : i = k
      · subst hik
        rw [hRk, hLk]
        simp only [List.get_eq_getElem] at hm
        simp [withEndOffset, hLk1, hm]
      · exact ih2 i (by omega)

/-- What the loop over the end offsets makes of a list: every entry gets the
begin offset of the next as its end offset when their media files agree, and
is left as it is otherwise. -/
theorem Parse_end_offsets_spec (L : List CueSheetEntry) :
    (Parse_end_offsets L).length = L.length ∧
    ∀ i, (Parse_end_offsets L)[i]? = (L[i]?).map (withEndOffset L i) := by
  obtain ⟨h1, h2, h3⟩ := end_offsets_fold L (L.length - 1) (le_refl _)
  refine ⟨h1, ?_⟩
  intro i
  by_cases hi : i < L.length - 1
  · exact h2 i hi
  · unfold Parse_end_offsets
    rw [h3 i (by omega)]
    cases hL : L[i]? with
    | none => rfl
    | some s1 =>
      have : L[i + 1]? = none := by
        have := (List.getElem?_eq_some.mp hL).1
        exact List.getElem?_eq_none (by omega)
      simp [withEndOffset, this]

theorem withEndOffset_fields (L : List CueSheetEntry) (i : Nat) (s : CueSheetEntry) :
    (withEndOffset L i s).media_file_ = s.media_file_ ∧
    (withEndOffset L i s).begin_offset_ = s.begin_offset_ := by
  unfold withEndOffset
  split
  · split <;> exact ⟨rfl, rfl⟩
  · exact ⟨rfl, rfl⟩

/-- The entries of a parsed cue sheet are entries without end offset, put
through the loop over the end offsets. -/
theorem Parse_songs (dir : CueDir) (lines : List String) :
    ∃ L : List CueSheetEntry, (∀ e ∈ L, e.end_offset_ = -1) ∧
      (CueParser_Parse dir lines).songs_ = Parse_end_offsets L := by
  have h := Parse_lines_EndsUnset dir lines {} ⟨by simp, rfl⟩
  unfold CueParser_Parse
  simp only []
  split
  · refine ⟨_, ?_, rfl⟩
    intro e he
    simp only [List.mem_append, List.mem_singleton] at he
    rcases he with he | he
    · exact h.1 e he
    · rw [he]; exact h.2
  · exact ⟨_, h.1, rfl⟩

/-- C30. After `CueParser::Parse`, of two consecutive entries with the same
media file the first has the begin offset of the second as its end offset; an
entry whose successor has another media file has end offset -1, and so has
the last entry. -/
theorem C30_end_offsets (dir : CueDir) (lines : List String) (i : Nat) (s1 s2 : CueSheetEntry)
    (h1 : (CueParser_Parse dir lines).songs_[i]? = some s1)
    (h2 : (CueParser_Parse dir lines).songs_[i + 1]? = some s2) :
    (s1.media_file_ = s2.media_file_ → s1.end_offset_ = s2.begin_offset_) ∧
    (s1.media_file_ ≠ s2.media_file_ → s1.end_offset_ = -1) ∧
    (∀ s, (CueParser_Parse dir lines).songs_.getLast? = some s → s.end_offset_ = -1) := by
  obtain ⟨L, hL, hP⟩ := Parse_songs dir lines
  obtain ⟨hlen, hspec⟩ := Parse_end_offsets_spec L
  rw [hP] at h1 h2 ⊢
  rw [hspec i] at h1
  rw [hspec (i + 1)] at h2
  obtain ⟨l1, hl1, e1⟩ := Option.map_eq_some'.mp h1
  obtain ⟨l2, hl2, e2⟩ := Option.map_eq_some'.mp h2
  have hm2 := withEndOffset_fields L (i + 1) l2
  rw [e2] at hm2
  have hend1 : l1.end_offset_ = -1 := hL l1 (List.mem_iff_getElem?.mpr ⟨_, hl1⟩)
  have hs1 : s1 = if l1.media_file_ = l2.media_file_ then
      { l1 with end_offset_ := l2.begin_offset_ } else l1 := by
    rw [← e1]; simp [withEndOffset, hl2]
  refine ⟨?_, ?_, ?_⟩
  · intro hm
    have hm' : l1.media_file_ = l2.media_file_ := by
      have := (withEndOffset_fields L i l1).1
      rw [e1] at this
      rw [← this, ← hm2.1]; exact hm
    rw [hs1, if_pos hm', hm2.2]
  · intro hm
    have hm' : ¬ l1.media_file_ = l2.media_file_ := by
      intro h
      have := (withEndOffset_fields L i l1).1
      rw [e1] at this
      exact hm (by rw [this, hm2.1]; exact h)
    rw [hs1, if_neg hm']; exact hend1
  · intro s hs
    rw [List.getLast?_eq_getElem?, hspec] at hs
    obtain ⟨l, hl, e⟩ := Option.map_eq_some'.mp hs
    have hnone : L[(Parse_end_offsets L).length - 1 + 1]? = none := by
      apply List.getElem?_eq_none
      have := (List.getElem?_eq_some.mp hl).1
      omega
    rw [← e]
    simp only [withEndOffset, hnone]
    exact hL l (List.mem_iff_getElem?.mpr ⟨_, hl⟩)

/-- C30, an instance: the cue sheet `sampleCueSheet`, whose first two tracks
are in one file and whose third is in another. -/
theorem C30_end_offsets_witness :
    (CueParser_Parse sampleCueDir sampleCueSheet).songs_.map
        (fun e => (e.media_file_, e.begin_offset_, e.end_offset_)) =
      [("/music/a.flac", 0, 180000000000), ("/music/a.flac", 180000000000, -1),
       ("/music/b.flac", 0, -1)] ∧
    ((((CueParser_Parse sampleCueDir sampleCueSheet).songs_[0]?).getD ({} : CueSheetEntry)).media_file_ =
        (((CueParser_Parse sampleCueDir sampleCueSheet).songs_[1]?).getD ({} : CueSheetEntry)).media_file_ →
      (((CueParser_Parse sampleCueDir sampleCueSheet).songs_[0]?).getD ({} : CueSheetEntry)).end_offset_ =
        (((CueParser_Parse sampleCueDir sampleCueSheet).songs_[1]?).getD ({} : CueSheetEntry)).begin_offset_) :=
  ⟨by decide!,
   (C30_end_offsets sampleCueDir sampleCueSheet 0 _ _ (by decide!) (by decide!)).1⟩

/-! ## Organise::CheckTranscode and the original format (claim C32) -/

/-- C32 (counterexample). In mode Unsupported, with the supported list holding
only format 5 and the preferred format 2 set, an original of format 2 is
"transcoded" to format 2: the result is the original format and not "no
transcode". -/
theorem C32_counterexample :
    CheckTranscode (fun l => l.headD Type_Unknown) Transcode_Unsupported (Type_Other 2)
        [Type_Other 5] (Type_Other 2) = Type_Other 2 ∧
    CheckTranscode (fun l => l.headD Type_Unknown) Transcode_Unsupported (Type_Other 2)
        [Type_Other 5] (Type_Other 2) ≠ Type_Unknown := by
  decide

/-- C32 (amended). With `PickBestFormat` returning a member of a non-empty
list, `CheckTranscode` selects the original format as the transcode target in
exactly one situation: the mode is Unsupported, the supported list is not empty
and does not contain the original format, and the preferred format is set and
equal to the original format. In every other case, and so in the modes Never
and Always and whenever the preferred format is unset or differs from the
original, the result is "no transcode" or a format different from the
original. -/
theorem C32_original_selected_iff (PickBestFormat : List FileType → FileType)
    (mode : TranscodeMode) (format : FileType) (supported : List FileType)
    (original : FileType)
    (hpick : ∀ l : List FileType, l ≠ [] → PickBestFormat l ∈ l) :
    (CheckTranscode PickBestFormat mode format supported original = original ∧
      CheckTranscode PickBestFormat mode format supported original ≠ Type_Unknown) ↔
    (mode = Transcode_Unsupported ∧ original ≠ Type_Stream ∧ supported ≠ [] ∧
      original ∉ supported ∧ format = original ∧ format ≠ Type_Unknown) := by
  have hcond : (supported.isEmpty || supported.contains original) = true ↔
      (supported = [] ∨ original ∈ supported) := by
    simp [List.isEmpty_iff]
  constructor
  · rintro ⟨heq, hne⟩
    by_cases hstream : original = Type_Stream
    · simp [CheckTranscode, hstream] at hne
    · cases mode with
      | Transcode_Never => simp [CheckTranscode, hstream] at hne
      | Transcode_Always =>
          simp only [CheckTranscode, if_neg hstream] at heq hne
          by_cases hf : original = format
          · simp [hf] at hne
          · rw [if_neg hf] at heq
            exact absurd heq.symm hf
      | Transcode_Unsupported =>
          by_cases hc : (supported.isEmpty || supported.contains original) = true
          · simp only [CheckTranscode, if_neg hstream, if_pos hc] at hne
            exact absurd rfl hne
          · have hc2 : ¬ (supported = [] ∨ original ∈ supported) := fun h => hc (hcond.mpr h)
            simp only [CheckTranscode, if_neg hstream, if_neg hc] at heq hne
            by_cases hf : format = Type_Unknown
            · have hnf : ¬ (format ≠ Type_Unknown) := fun h => h hf
              rw [if_neg hnf] at heq
              have hm := hpick supported (fun h => hc2 (Or.inl h))
              rw [heq] at hm
              exact absurd (Or.inr hm) hc2
            · have hnf : format ≠ Type_Unknown := hf
              rw [if_pos hnf] at heq
              exact ⟨rfl, hstream, fun h => hc2 (Or.inl h), fun h => hc2 (Or.inr h), heq, hf⟩
  · rintro ⟨rfl, hstream, hne, hnot, hfo, hfu⟩
    have hc : ¬ ((supported.isEmpty || supported.contains original) = true) :=
      fun h => (hcond.mp h).elim hne hnot
    have hnf : format ≠ Type_Unknown := hfu
    simp only [CheckTranscode, if_neg hstream, if_neg hc, if_pos hnf]
    exact ⟨hfo, hfu⟩

/-- Witness of C32: a best-of that takes the first of the list; in mode Always
the format 2 with the preferred format 2 is not transcoded. -/
theorem C32_original_selected_iff_witness :
    (CheckTranscode (fun l => l.headD Type_Unknown) Transcode_Always (Type_Other 2)
        [Type_Other 5] (Type_Other 2) = Type_Other 2 ∧
      CheckTranscode (fun l => l.headD Type_Unknown) Transcode_Always (Type_Other 2)
        [Type_Other 5] (Type_Other 2) ≠ Type_Unknown) ↔
    (Transcode_Always = Transcode_Unsupported ∧ Type_Other 2 ≠ Type_Stream ∧
      ([Type_Other 5] : List FileType) ≠ [] ∧
      Type_Other 2 ∉ ([Type_Other 5] : List FileType) ∧
      (Type_Other 2 : FileType) = Type_Other 2 ∧ Type_Other 2 ≠ Type_Unknown) :=
  C32_original_selected_iff (fun l => l.headD Type_Unknown) Transcode_Always (Type_Other 2)
    [Type_Other 5] (Type_Other 2)
    (by intro l hl; cases l with
        | nil => exact absurd rfl hl
        | cons a t => simp)

/-! ## CueParser::indexOf (claim C33) -/

theorem indexOf_loop_found (track : Int) (l : List CueSheetEntry) (i index : Int) :
    CueParser_indexOf_loop track l i false index = index := by
  cases l <;> simp [CueParser_indexOf_loop]

theorem indexOf_loop_none (track : Int) (l : List CueSheetEntry) (i index : Int)
    (h : ∀ e ∈ l, e.track_ ≠ track) :
    CueParser_indexOf_loop track l i true index = index := by
  induction l generalizing i with
  | nil => rfl
  | cons e rest ih =>
      have he : e.track_ ≠ track := h e (List.mem_cons_self _ _)
      simp only [CueParser_indexOf_loop, if_true, if_neg he]
      exact ih (i + 1) (fun x hx => h x (List.mem_cons_of_mem _ hx))

theorem indexOf_loop_first (track : Int) (pre : List CueSheetEntry) (e : CueSheetEntry)
    (post : List CueSheetEntry) (i index : Int)
    (hpre : ∀ x ∈ pre, x.track_ ≠ track) (he : e.track_ = track) :
    CueParser_indexOf_loop track (pre ++ e :: post) i true index = i + pre.length := by
  induction pre generalizing i with
  | nil =>
      simp only [List.nil_append, CueParser_indexOf_loop, if_true, if_pos he,
        indexOf_loop_found]
      simp
  | cons x rest ih =>
      have hx : x.track_ ≠ track := hpre x (List.mem_cons_self _ _)
      have h1 := ih (i + 1) (fun y hy => hpre y (List.mem_cons_of_mem _ hy))
      show CueParser_indexOf_loop track (x :: (rest ++ e :: post)) i true index = _
      simp only [CueParser_indexOf_loop, if_true, if_neg hx]
      rw [h1]
      simp only [List.length_cons]
      push_cast
      ring

/-- A list either has no entry of the track number or splits at the first one. -/
theorem entries_split_first (track : Int) (l : List CueSheetEntry) :
    (∀ e ∈ l, e.track_ ≠ track) ∨
    ∃ pre e post, l = pre ++ e :: post ∧ (∀ x ∈ pre, x.track_ ≠ track) ∧ e.track_ = track := by
  induction l with
  | nil => left; simp
  | cons a rest ih =>
      by_cases ha : a.track_ = track
      · right; exact ⟨[], a, rest, rfl, by simp, ha⟩
      · rcases ih with h | ⟨pre, e, post, hl, hpre, he⟩
        · left
          intro x hx
          rcases List.mem_cons.mp hx with rfl | hx
          · exact ha
          · exact h x hx
        · right
          refine ⟨a :: pre, e, post, by rw [hl]; rfl, ?_, he⟩
          intro x hx
          rcases List.mem_cons.mp hx with rfl | hx
          · exact ha
          · exact hpre x hx

/-- C33. `CueParser::indexOf(song)` is -1 when the cue path of the song differs
from the cue file of the parser. Otherwise it is -1 when no entry has the track
number of the song, and it is `i` when entry `i` has that track number and no
entry before it has. The result is always -1 or an index below `Count()`. -/
theorem C33_indexOf (cueFile : String) (songs_ : List CueSheetEntry) (s : Song) :
    (s.cue_path_ ≠ cueFile → CueParser_indexOf cueFile songs_ s = -1) ∧
    (s.cue_path_ = cueFile → (∀ e ∈ songs_, e.track_ ≠ s.track_) →
        CueParser_indexOf cueFile songs_ s = -1) ∧
    (s.cue_path_ = cueFile → ∀ (i : Nat) (e : CueSheetEntry), songs_[i]? = some e →
        e.track_ = s.track_ →
        (∀ (j : Nat) (x : CueSheetEntry), j < i → songs_[j]? = some x → x.track_ ≠ s.track_) →
        CueParser_indexOf cueFile songs_ s = (i : Int)) ∧
    (CueParser_indexOf cueFile songs_ s = -1 ∨
      (0 ≤ CueParser_indexOf cueFile songs_ s ∧
        CueParser_indexOf cueFile songs_ s < (songs_.length : Int) ∧
        ∃ e, songs_[(CueParser_indexOf cueFile songs_ s).toNat]? = some e ∧
          e.track_ = s.track_)) := by
  refine ⟨?_, ?_, ?_, ?_⟩
  · intro h
    simp [CueParser_indexOf, h]
  · intro h hall
    simp only [CueParser_indexOf, h, ne_eq, not_true_eq_false, if_false]
    exact indexOf_loop_none _ _ _ _ hall
  · intro h i e hi he hbefore
    simp only [CueParser_indexOf, h, ne_eq, not_true_eq_false, if_false]
    rcases entries_split_first s.track_ songs_ with hall | ⟨pre, e', post, hl, hpre, he'⟩
    · exact absurd he (hall e (List.mem_iff_getElem?.mpr ⟨_, hi⟩))
    · rw [hl, indexOf_loop_first _ _ _ _ _ _ hpre he']
      have hlen : pre.length = i := by
        rcases Nat.lt_trichotomy pre.length i with hlt | heq | hgt
        · have hget : songs_[pre.length]? = some e' := by
            rw [hl, List.getElem?_append_right (le_refl _)]; simp
          exact absurd he' (hbefore _ _ hlt hget)
        · exact heq
        · have hget : pre[i]? = some e := by
            rw [hl, List.getElem?_append_left hgt] at hi
            exact hi
          exact absurd he (hpre e (List.mem_iff_getElem?.mpr ⟨_, hget⟩))
      rw [hlen]; simp
  · by_cases h : s.cue_path_ = cueFile
    · simp only [CueParser_indexOf, h, ne_eq, not_true_eq_false, if_false]
      rcases entries_split_first s.track_ songs_ with hall | ⟨pre, e', post, hl, hpre, he'⟩
      · left; exact indexOf_loop_none _ _ _ _ hall
      · right
        rw [hl, indexOf_loop_first _ _ _ _ _ _ hpre he']
        refine ⟨by positivity, ?_, e', ?_, he'⟩
        · simp only [List.length_append, List.length_cons]
          push_cast
          omega
        · rw [show ((0 : Int) + (pre.length : Int)).toNat = pre.length by simp,
            List.getElem?_append_right (le_refl _)]
          simp
    · left
      simp [CueParser_indexOf, h]

/-- Witness of C33: among the entries with the track numbers 4, 7 and 7 a song
of track 7 of the same cue file is found at index 1, a song of track 9 is not
found, and a song of another cue file is not looked for. -/
theorem C33_indexOf_witness :
    CueParser_indexOf "a.cue" sampleEntries { cue_path_ := "a.cue", track_ := 7 } = 1 ∧
    CueParser_indexOf "a.cue" sampleEntries { cue_path_ := "a.cue", track_ := 9 } = -1 ∧
    CueParser_indexOf "a.cue" sampleEntries { cue_path_ := "b.cue", track_ := 7 } = -1 :=
  ⟨(C33_indexOf "a.cue" sampleEntries { cue_path_ := "a.cue", track_ := 7 }).2.2.1 rfl 1
      { track_ := 7 } rfl rfl
      (by
        intro j x hj hx
        have hj0 : j = 0 := by omega
        subst hj0
        simp only [sampleEntries, List.getElem?_cons_zero, Option.some.injEq] at hx
        subst hx
        decide),
   (C33_indexOf "a.cue" sampleEntries { cue_path_ := "a.cue", track_ := 9 }).2.1 rfl
      (by decide),
   (C33_indexOf "a.cue" sampleEntries { cue_path_ := "b.cue", track_ := 7 }).1 (by decide)⟩

/-! ## CueParser::ProcessLine on quoted values (claim C36) -/

theorem dropWhile_append_stop (p : Char → Bool) (xs : List Char) (y : Char) (ys : List Char)
    (hy : p y = false) :
    (xs ++ y :: ys).dropWhile p = xs.dropWhile p ++ y :: ys := by
  induction xs with
  | nil => simp [List.dropWhile, hy]
  | cons x xs ih =>
      by_cases hx : p x = true
      · simp [List.dropWhile, hx, ih]
      · simp [List.dropWhile, hx]

theorem dropWhile_all (p : Char → Bool) (xs : List Char) (h : ∀ c ∈ xs, p c = true) :
    xs.dropWhile p = [] := by
  induction xs with
  | nil => rfl
  | cons x xs ih =>
      simp [List.dropWhile, h x (List.mem_cons_self _ _),
        ih (fun c hc => h c (List.mem_cons_of_mem _ hc))]

theorem dropWhile_spaces (ws : List Char) (y : Char) (ys : List Char)
    (hws : ∀ c ∈ ws, QChar_isSpace c = true) (hy : QChar_isSpace y = false) :
    (ws ++ y :: ys).dropWhile QChar_isSpace = y :: ys := by
  rw [dropWhile_append_stop _ _ _ _ hy, dropWhile_all _ _ hws, List.nil_append]

theorem isSpace_toLower (c : Char) (h : QChar_isSpace c = true) : c.toLower = c := by
  have hc : ¬ (c.toNat ≥ 65 ∧ c.toNat ≤ 90) := by
    simp only [QChar_isSpace, Bool.or_eq_true, Bool.and_eq_true, decide_eq_true_eq] at h
    omega
  show (if c.toNat ≥ 65 ∧ c.toNat ≤ 90 then Char.ofNat (c.toNat + 32) else c) = c
  rw [if_neg hc]

theorem not_space_of_toLower (c l : Char) (hc : c.toLower = l) (hl : QChar_isSpace l = false) :
    QChar_isSpace c = false := by
  by_contra h
  have h1 : QChar_isSpace c = true := by simpa using h
  rw [isSpace_toLower c h1] at hc
  rw [hc, hl] at h1
  exact absurd h1 (by decide)

theorem strip_none (p K r : List Char) (h : divergeL p (K.map Char.toLower) = true) :
    stripPrefixNoCase p (K ++ r) = none := by
  induction p generalizing K with
  | nil => simp [divergeL] at h
  | cons a ps ih =>
      cases K with
      | nil => simp [divergeL] at h
      | cons c cs =>
          simp only [List.map_cons, divergeL] at h
          simp only [List.cons_append, stripPrefixNoCase]
          by_cases hac : a.toLower = c.toLower
          · rw [if_pos hac] at h ⊢
            exact ih cs h
          · rw [if_neg hac]

theorem strip_some (p K r : List Char) (h : K.map Char.toLower = p.map Char.toLower) :
    stripPrefixNoCase p (K ++ r) = some r := by
  induction p generalizing K with
  | nil =>
      have : K = [] := by simpa using h
      subst this
      rfl
  | cons a ps ih =>
      cases K with
      | nil => simp at h
      | cons c cs =>
          simp only [List.map_cons, List.cons.injEq] at h
          simp only [List.cons_append, stripPrefixNoCase, h.1, if_true]
          exact ih cs h.2

theorem first_nonspace (K L : List Char) (hK : K.map Char.toLower = L)
    (hL : startsNonSpace L = true) :
    ∃ c K', K = c :: K' ∧ QChar_isSpace c = false := by
  cases K with
  | nil =>
      simp only [List.map_nil] at hK
      subst hK
      simp [startsNonSpace] at hL
  | cons c K' =>
      simp only [List.map_cons] at hK
      subst hK
      simp only [startsNonSpace, Bool.not_eq_true'] at hL
      exact ⟨c, K', rfl, not_space_of_toLower c _ rfl hL⟩

theorem after_keyword (gap : List Char) (y : Char) (ys : List Char)
    (hgap : gap ≠ []) (hsp : ∀ c ∈ gap, QChar_isSpace c = true) (hy : QChar_isSpace y = false) :
    (if (gap ++ y :: ys).takeWhile QChar_isSpace ≠ [] then
        some ((gap ++ y :: ys).dropWhile QChar_isSpace) else none) = some (y :: ys) := by
  cases gap with
  | nil => exact absurd rfl hgap
  | cons g gs =>
      have hg : QChar_isSpace g = true := hsp g (List.mem_cons_self _ _)
      have h1 : ((g :: gs) ++ y :: ys).takeWhile QChar_isSpace ≠ [] := by
        simp [List.takeWhile, hg]
      rw [if_pos h1, dropWhile_spaces _ _ _ hsp hy]

/-- The regular expression of the keyword `k` matches a line written for `k`,
and what follows the match is the text after the white space `gap`. -/
theorem kw_rest_match (k : Keyword) (ws R ws2 K gap : List Char) (y : Char) (ys : List Char)
    (hstart : k.startsWithLetter = true)
    (hws : ∀ c ∈ ws, QChar_isSpace c = true)
    (hR : R.map Char.toLower = "rem".data)
    (hws2 : ∀ c ∈ ws2, QChar_isSpace c = true)
    (hK : K.map Char.toLower = k.keyword_.data.map Char.toLower)
    (hgap : gap ≠ []) (hsp : ∀ c ∈ gap, QChar_isSpace c = true)
    (hy : QChar_isSpace y = false) :
    k.kw_rest (ws ++ ((if k.rem_ then R ++ ws2 else []) ++ (K ++ (gap ++ y :: ys)))) =
      some (y :: ys) := by
  obtain ⟨c, K', hKc, hc⟩ := first_nonspace K _ hK hstart
  obtain ⟨r0, R', hRr, hr0⟩ := first_nonspace R "rem".data hR (by decide)
  have hstrip := strip_some k.keyword_.data K (gap ++ y :: ys) hK
  by_cases hrem : k.rem_ = true
  · have hR2 : R.map Char.toLower = "rem".data.map Char.toLower := by rw [hR]; decide
    have h1 : (ws ++ (R ++ ws2 ++ (K ++ (gap ++ y :: ys)))).dropWhile QChar_isSpace
        = R ++ (ws2 ++ (K ++ (gap ++ y :: ys))) := by
      rw [hRr]
      simp only [List.cons_append, List.append_assoc]
      exact dropWhile_spaces _ _ _ hws hr0
    have h2 : (ws2 ++ (K ++ (gap ++ y :: ys))).dropWhile QChar_isSpace
        = K ++ (gap ++ y :: ys) := by
      rw [hKc]
      simp only [List.cons_append]
      exact dropWhile_spaces _ _ _ hws2 hc
    simp only [Keyword.kw_rest, hrem, if_true, h1, strip_some _ R _ hR2, Option.map_some',
      h2, Option.some_bind, hstrip]
    exact after_keyword gap y ys hgap hsp hy
  · have hrem2 : k.rem_ = false := by simpa using hrem
    have h1 : (ws ++ ([] ++ (K ++ (gap ++ y :: ys)))).dropWhile QChar_isSpace
        = K ++ (gap ++ y :: ys) := by
      rw [hKc]
      simp only [List.cons_append, List.nil_append]
      exact dropWhile_spaces _ _ _ hws hc
    simp only [Keyword.kw_rest, hrem2, Bool.false_eq_true, if_false, h1, Option.some_bind,
      hstrip]
    exact after_keyword gap y ys hgap hsp hy

/-- The regular expression of a keyword `e` that clashes with `k` does not
match a line written for `k`. -/
theorem kw_rest_clash (e k : Keyword) (ws R ws2 K tail : List Char)
    (hclash : e.clash k = true)
    (hstart : k.startsWithLetter = true)
    (hws : ∀ c ∈ ws, QChar_isSpace c = true)
    (hR : R.map Char.toLower = "rem".data)
    (hws2 : ∀ c ∈ ws2, QChar_isSpace c = true)
    (hK : K.map Char.toLower = k.keyword_.data.map Char.toLower) :
    e.kw_rest (ws ++ ((if k.rem_ then R ++ ws2 else []) ++ (K ++ tail))) = none := by
  obtain ⟨c, K', hKc, hc⟩ := first_nonspace K _ hK hstart
  obtain ⟨r0, R', hRr, hr0⟩ := first_nonspace R "rem".data hR (by decide)
  have hR2 : R.map Char.toLower = "rem".data.map Char.toLower := by rw [hR]; decide
  have hK2 : (ws2 ++ (K ++ tail)).dropWhile QChar_isSpace = K ++ tail := by
    rw [hKc]
    simp only [List.cons_append]
    exact dropWhile_spaces _ _ _ hws2 hc
  by_cases hrem : k.rem_ = true
  · have h1 : (ws ++ (R ++ ws2 ++ (K ++ tail))).dropWhile QChar_isSpace
        = R ++ (ws2 ++ (K ++ tail)) := by
      rw [hRr]
      simp only [List.cons_append, List.append_assoc]
      exact dropWhile_spaces _ _ _ hws hr0
    by_cases herem : e.rem_ = true
    · have hd : divergeL e.keyword_.data (K.map Char.toLower) = true := by
        rw [hK]
        simp only [Keyword.clash, Keyword.firstWord, herem, hrem, if_true, Bool.true_and,
          Bool.or_eq_true] at hclash
        rcases hclash with h | h
        · exact absurd h (by decide)
        · simpa using h
      simp only [Keyword.kw_rest, hrem, herem, if_true, h1, strip_some _ R _ hR2,
        Option.map_some', hK2, Option.some_bind, strip_none _ K tail hd]
    · have herem2 : e.rem_ = false := by simpa using herem
      have hd : divergeL e.keyword_.data (R.map Char.toLower) = true := by
        rw [hR]
        simpa [Keyword.clash, Keyword.firstWord, herem2, hrem] using hclash
      simp only [Keyword.kw_rest, hrem, herem2, if_true, Bool.false_eq_true, if_false, h1,
        Option.some_bind, strip_none _ R _ hd]
  · have hrem2 : k.rem_ = false := by simpa using hrem
    have h1 : (ws ++ ([] ++ (K ++ tail))).dropWhile QChar_isSpace = K ++ tail := by
      rw [hKc]
      simp only [List.cons_append, List.nil_append]
      exact dropWhile_spaces _ _ _ hws hc
    have hd : divergeL e.firstWord (K.map Char.toLower) = true := by
      rw [hK]
      simpa [Keyword.clash, Keyword.firstWord, hrem2] using hclash
    by_cases herem : e.rem_ = true
    · simp only [Keyword.firstWord, herem, if_true] at hd
      simp only [Keyword.kw_rest, hrem2, herem, if_true, Bool.false_eq_true, if_false, h1,
        strip_none _ K tail hd, Option.map_none', Option.none_bind]
    · have herem2 : e.rem_ = false := by simpa using herem
      simp only [Keyword.firstWord, herem2, Bool.false_eq_true, if_false] at hd
      simp only [Keyword.kw_rest, hrem2, herem2, Bool.false_eq_true, if_false, h1,
        Option.some_bind, strip_none _ K tail hd]

theorem trimmed_quoted (v T : List Char) :
    ∃ T2 : List Char, (∀ c ∈ T2, c ∈ T) ∧
      (QString_trimmed ⟨'"' :: (v ++ '"' :: T)⟩).data = '"' :: (v ++ '"' :: T2) := by
  refine ⟨(T.reverse.dropWhile QChar_isSpace).reverse, ?_, ?_⟩
  · intro c hc
    have h1 : c ∈ T.reverse.dropWhile QChar_isSpace := List.mem_reverse.mp hc
    exact List.mem_reverse.mp ((List.dropWhile_sublist _).subset h1)
  · have hq : QChar_isSpace '"' = false := by decide
    have h1 : ('"' :: (v ++ '"' :: T)).dropWhile QChar_isSpace = '"' :: (v ++ '"' :: T) := by
      simp [List.dropWhile, hq]
    have h2 : ('"' :: (v ++ '"' :: T)).reverse = T.reverse ++ '"' :: ('"' :: v).reverse := by
      simp
    simp only [QString_trimmed, h1, h2, dropWhile_append_stop _ _ _ _ hq]
    simp

/-- `unquote` of a line whose keyword match is followed by the value `v` in
double quotes and a text without a double quote is `v`. -/
theorem unquote_quoted (k : Keyword) (line : String) (v T : List Char)
    (hrest : k.kw_rest line.data = some ('"' :: (v ++ '"' :: T)))
    (hv : '"' ∉ v) (hT : '"' ∉ T) :
    k.unquote line = ⟨v⟩ := by
  obtain ⟨T2, hT2, htrim⟩ := trimmed_quoted v T
  have hT2q : '"' ∉ T2 := fun h => hT (hT2 _ h)
  have hcontains : (v ++ '"' :: T2).contains '"' = true := by simp
  have hf := (fields_append_sep_nosep '"' v T2 hT2q).2
  simp only [Keyword.unquote, hrest, Option.getD_some, htrim, List.length_cons, gt_iff_lt,
    Nat.zero_lt_succ, if_true, List.head?_cons, List.drop_succ_cons, List.drop_zero,
    removeFromLastQuote, hcontains, hf, fields_nosep '"' v hv]
  simp [List.intercalate]

theorem ProcessLine_first (line : String) (k : Keyword) (keys : List Keyword)
    (hk : k ∈ keys) (heq : k.eq line = true)
    (hothers : ∀ e ∈ keys, e ≠ k → e.eq line = false) :
    CueParser_ProcessLine line keys = some (k.keyword_, k.unquote line) := by
  induction keys with
  | nil => simp at hk
  | cons a rest ih =>
      by_cases hak : a = k
      · subst hak
        simp [CueParser_ProcessLine, heq]
      · have ha : a.eq line = false := hothers a (List.mem_cons_self _ _) hak
        have hk2 : k ∈ rest := by
          rcases List.mem_cons.mp hk with h | h
          · exact absurd h.symm hak
          · exact h
        simp only [CueParser_ProcessLine, ha, Bool.false_eq_true, if_false]
        exact ih hk2 (fun e he => hothers e (List.mem_cons_of_mem _ he))

theorem ProcessLine_none (line : String) (keys : List Keyword)
    (h : ∀ e ∈ keys, e.eq line = false) :
    CueParser_ProcessLine line keys = none := by
  induction keys with
  | nil => rfl
  | cons a rest ih =>
      simp only [CueParser_ProcessLine, h a (List.mem_cons_self _ _), Bool.false_eq_true,
        if_false]
      exact ih (fun e he => h e (List.mem_cons_of_mem _ he))

theorem keywords_start_with_letter :
    (∀ k ∈ album_keywords, k.startsWithLetter = true) ∧
    (∀ k ∈ track_keywords, k.startsWithLetter = true) := by
  constructor <;> decide

theorem keywords_clash :
    (∀ e ∈ album_keywords, ∀ k ∈ album_keywords, e ≠ k → e.clash k = true) ∧
    (∀ e ∈ track_keywords, ∀ k ∈ track_keywords, e ≠ k → e.clash k = true) := by
  constructor <;> decide

/-- `ProcessLine` on a line written for a keyword of one of the two lists. -/
theorem ProcessLine_quoted (keys : List Keyword) (k : Keyword)
    (ws R ws2 K gap v T : List Char)
    (hkeys : keys = album_keywords ∨ keys = track_keywords) (hk : k ∈ keys)
    (hws : ∀ c ∈ ws, QChar_isSpace c = true)
    (hR : k.rem_ = true → R.map Char.toLower = "rem".data)
    (hws2 : k.rem_ = true → ∀ c ∈ ws2, QChar_isSpace c = true)
    (hK : K.map Char.toLower = k.keyword_.data.map Char.toLower)
    (hgap : gap ≠ []) (hsp : ∀ c ∈ gap, QChar_isSpace c = true)
    (hv : '"' ∉ v) (hT : '"' ∉ T) :
    CueParser_ProcessLine (quotedLine k ws R ws2 K gap v T) keys = some (k.keyword_, ⟨v⟩) := by
  have hstart : k.startsWithLetter = true := by
    rcases hkeys with h | h
    · exact keywords_start_with_letter.1 k (h ▸ hk)
    · exact keywords_start_with_letter.2 k (h ▸ hk)
  have hclash : ∀ e ∈ keys, e ≠ k → e.clash k = true := by
    intro e he hne
    rcases hkeys with h | h
    · exact keywords_clash.1 e (h ▸ he) k (h ▸ hk) hne
    · exact keywords_clash.2 e (h ▸ he) k (h ▸ hk) hne
  have hq : QChar_isSpace '"' = false := by decide
  -- the word `R` and the white space after it matter for a keyword after `REM` only
  have hline : ∃ R2 ws3, R2.map Char.toLower = "rem".data ∧
      (∀ c ∈ ws3, QChar_isSpace c = true) ∧
      quotedLine k ws R ws2 K gap v T = quotedLine k ws R2 ws3 K gap v T := by
    by_cases hrem : k.rem_ = true
    · exact ⟨R, ws2, hR hrem, hws2 hrem, rfl⟩
    · refine ⟨"rem".data, [], by decide, by simp, ?_⟩
      simp [quotedLine, hrem]
  obtain ⟨R2, ws3, hR2, hws3, hl⟩ := hline
  rw [hl]
  have hm : k.kw_rest (quotedLine k ws R2 ws3 K gap v T).data = some ('"' :: (v ++ '"' :: T)) :=
    kw_rest_match k ws R2 ws3 K gap '"' (v ++ '"' :: T) hstart hws hR2 hws3 hK hgap hsp hq
  have heq : k.eq (quotedLine k ws R2 ws3 K gap v T) = true := by
    simp [Keyword.eq, hm]
  have hothers : ∀ e ∈ keys, e ≠ k → e.eq (quotedLine k ws R2 ws3 K gap v T) = false := by
    intro e he hne
    have := kw_rest_clash e k ws R2 ws3 K (gap ++ '"' :: (v ++ '"' :: T)) (hclash e he hne)
      hstart hws hR2 hws3 hK
    simp only [Keyword.eq, quotedLine, this, Option.isSome_none]
  rw [ProcessLine_first _ k keys hk heq hothers, unquote_quoted k _ v T hm hv hT]

/-- The keyword `file` without `REM` clashes with every track keyword. -/
theorem plain_file_clash :
    ∀ e ∈ track_keywords, e.clash { keyword_ := "file" } = true := by
  decide

/-- C36. For every keyword `k` of the album or of the track keyword list and
every value `v` without a double quote, `ProcessLine` with that list, on a line
made of white space, the keyword in any letter case (after `REM` in any letter
case and white space, for a keyword after `REM`), white space (one character at
least), `v` in double quotes and a text without a double quote, returns the
keyword and exactly `v`. Of the quoted fields that `CueParser::Write` emits,
those of the header (`REM DATE`, `REM IMAGE`, `REM GENRE`, `REM COMPOSER`,
`TITLE`, `PERFORMER`, `FILE`, cueparser.cpp:520-531), which are read with the
album keywords, and those of a track (`TITLE`, `PERFORMER`, `REM PIECE`,
`REM COMPOSER`, `REM DATE`, cueparser.cpp:544-548), which are read with the
track keywords, are read back unchanged. The line `FILE "v" WAVE` that `Write`
emits between two tracks (cueparser.cpp:541) is read with the track keywords
and is not read back: `ProcessLine` returns false on it for every `v`, because
the `file` keyword of the track list is a keyword after `REM`; the line
`REM FILE "v" WAVE`, which `Write` never emits, is the one that gives `v`. -/
theorem C36_ProcessLine_quoted :
    (∀ (keys : List Keyword) (k : Keyword) (ws R ws2 K gap v T : List Char),
      (keys = album_keywords ∨ keys = track_keywords) → k ∈ keys →
      (∀ c ∈ ws, QChar_isSpace c = true) →
      (k.rem_ = true → R.map Char.toLower = "rem".data) →
      (k.rem_ = true → ∀ c ∈ ws2, QChar_isSpace c = true) →
      K.map Char.toLower = k.keyword_.data.map Char.toLower →
      gap ≠ [] → (∀ c ∈ gap, QChar_isSpace c = true) →
      '"' ∉ v → '"' ∉ T →
      CueParser_ProcessLine (quotedLine k ws R ws2 K gap v T) keys
        = some (k.keyword_, ⟨v⟩)) ∧
    (∀ v : String, '"' ∉ v.data →
      CueParser_ProcessLine ("REM DATE \"" ++ v ++ "\"") album_keywords = some ("date", v) ∧
      CueParser_ProcessLine ("REM IMAGE \"" ++ v ++ "\"") album_keywords = some ("image", v) ∧
      CueParser_ProcessLine ("REM GENRE \"" ++ v ++ "\"") album_keywords = some ("genre", v) ∧
      CueParser_ProcessLine ("REM COMPOSER \"" ++ v ++ "\"") album_keywords
        = some ("composer", v) ∧
      CueParser_ProcessLine ("TITLE \"" ++ v ++ "\"") album_keywords = some ("title", v) ∧
      CueParser_ProcessLine ("PERFORMER \"" ++ v ++ "\"") album_keywords
        = some ("performer", v) ∧
      CueParser_ProcessLine ("FILE \"" ++ v ++ "\" WAVE") album_keywords = some ("file", v)) ∧
    (∀ v : String, '"' ∉ v.data →
      CueParser_ProcessLine ("    TITLE \"" ++ v ++ "\"") track_keywords = some ("title", v) ∧
      CueParser_ProcessLine ("    PERFORMER \"" ++ v ++ "\"") track_keywords
        = some ("performer", v) ∧
      CueParser_ProcessLine ("    REM PIECE \"" ++ v ++ "\"") track_keywords
        = some ("piece", v) ∧
      CueParser_ProcessLine ("    REM COMPOSER \"" ++ v ++ "\"") track_keywords
        = some ("composer", v) ∧
      CueParser_ProcessLine ("    REM DATE \"" ++ v ++ "\"") track_keywords
        = some ("date", v) ∧
      CueParser_ProcessLine ("REM FILE \"" ++ v ++ "\" WAVE") track_keywords
        = some ("file", v)) ∧
    (∀ v : String,
      CueParser_ProcessLine ("FILE \"" ++ v ++ "\" WAVE") track_keywords = none) := by
  refine ⟨fun keys k ws R ws2 K gap v T hkeys hk hws hR hws2 hK hgap hsp hv hT =>
    ProcessLine_quoted keys k ws R ws2 K gap v T hkeys hk hws hR hws2 hK hgap hsp hv hT, ?_, ?_,
    ?_⟩
  · rintro ⟨v⟩ hv
    have hv2 : '"' ∉ v := hv
    refine ⟨?_, ?_, ?_, ?_, ?_, ?_, ?_⟩
    · exact ProcessLine_quoted album_keywords { keyword_ := "date", rem_ := true } []
        "REM".data " ".data "DATE".data " ".data v [] (Or.inl rfl) (by decide) (by decide)
        (fun _ => by decide) (fun _ => by decide) (by decide) (by decide) (by decide) hv2
        (by decide)
    · exact ProcessLine_quoted album_keywords { keyword_ := "image", rem_ := true } []
        "REM".data " ".data "IMAGE".data " ".data v [] (Or.inl rfl) (by decide) (by decide)
        (fun _ => by decide) (fun _ => by decide) (by decide) (by decide) (by decide) hv2
        (by decide)
    · exact ProcessLine_quoted album_keywords { keyword_ := "genre", rem_ := true } []
        "REM".data " ".data "GENRE".data " ".data v [] (Or.inl rfl) (by decide) (by decide)
        (fun _ => by decide) (fun _ => by decide) (by decide) (by decide) (by decide) hv2
        (by decide)
    · exact ProcessLine_quoted album_keywords { keyword_ := "composer", rem_ := true } []
        "REM".data " ".data "COMPOSER".data " ".data v [] (Or.inl rfl) (by decide) (by decide)
        (fun _ => by decide) (fun _ => by decide) (by decide) (by decide) (by decide) hv2
        (by decide)
    · exact ProcessLine_quoted album_keywords { keyword_ := "title" } [] [] []
        "TITLE".data " ".data v [] (Or.inl rfl) (by decide) (by decide) (by decide) (by decide)
        (by decide) (by decide) (by decide) hv2 (by decide)
    · exact ProcessLine_quoted album_keywords { keyword_ := "performer" } [] [] []
        "PERFORMER".data " ".data v [] (Or.inl rfl) (by decide) (by decide) (by decide)
        (by decide) (by decide) (by decide) (by decide) hv2 (by decide)
    · exact ProcessLine_quoted album_keywords { keyword_ := "file", has_end_keyword_ := true }
        [] [] [] "FILE".data " ".data v " WAVE".data (Or.inl rfl) (by decide) (by decide)
        (by decide) (by decide) (by decide) (by decide) (by decide) hv2 (by decide)
  · rintro ⟨v⟩ hv
    have hv2 : '"' ∉ v := hv
    refine ⟨?_, ?_, ?_, ?_, ?_, ?_⟩
    · exact ProcessLine_quoted track_keywords { keyword_ := "title" } "    ".data [] []
        "TITLE".data " ".data v [] (Or.inr rfl) (by decide) (by decide) (by decide) (by decide)
        (by decide) (by decide) (by decide) hv2 (by decide)
    · exact ProcessLine_quoted track_keywords { keyword_ := "performer" } "    ".data [] []
        "PERFORMER".data " ".data v [] (Or.inr rfl) (by decide) (by decide) (by decide)
        (by decide) (by decide) (by decide) (by decide) hv2 (by decide)
    · exact ProcessLine_quoted track_keywords { keyword_ := "piece", rem_ := true } "    ".data
        "REM".data " ".data "PIECE".data " ".data v [] (Or.inr rfl) (by decide) (by decide)
        (fun _ => by decide) (fun _ => by decide) (by decide) (by decide) (by decide) hv2
        (by decide)
    · exact ProcessLine_quoted track_keywords { keyword_ := "composer", rem_ := true } "    ".data
        "REM".data " ".data "COMPOSER".data " ".data v [] (Or.inr rfl) (by decide) (by decide)
        (fun _ => by decide) (fun _ => by decide) (by decide) (by decide) (by decide) hv2
        (by decide)
    · exact ProcessLine_quoted track_keywords { keyword_ := "date", rem_ := true } "    ".data
        "REM".data " ".data "DATE".data " ".data v [] (Or.inr rfl) (by decide) (by decide)
        (fun _ => by decide) (fun _ => by decide) (by decide) (by decide) (by decide) hv2
        (by decide)
    · exact ProcessLine_quoted track_keywords { keyword_ := "file", rem_ := true } []
        "REM".data " ".data "FILE".data " ".data v " WAVE".data (Or.inr rfl) (by decide)
        (by decide) (fun _ => by decide) (fun _ => by decide) (by decide) (by decide)
        (by decide) hv2 (by decide)
  · rintro ⟨v⟩
    apply ProcessLine_none
    intro e he
    have := kw_rest_clash e { keyword_ := "file" } [] "rem".data [] "FILE".data
      (" ".data ++ '"' :: (v ++ "\" WAVE".data))
      (plain_file_clash e he) (by decide) (by decide) (by decide) (by decide) (by decide)
    exact (by simpa [Keyword.eq] using this)

/-- Witness of C36: the album line `FILE "x.mp3" WAVE` gives the keyword `file`
and the value `x.mp3`, and the track line `rem Date "1999"` after a tab gives
the keyword `date` and the value `1999`; the line `FILE "b.flac" WAVE` gives
`b.flac` with the album keywords, and with the track keywords it is not
matched. -/
theorem C36_ProcessLine_quoted_witness :
    CueParser_ProcessLine "FILE \"x.mp3\" WAVE" album_keywords = some ("file", "x.mp3") ∧
    CueParser_ProcessLine "\trem Date  \"1999\"" track_keywords = some ("date", "1999") ∧
    CueParser_ProcessLine "FILE \"b.flac\" WAVE" album_keywords = some ("file", "b.flac") ∧
    CueParser_ProcessLine "FILE \"b.flac\" WAVE" track_keywords = none :=
  ⟨C36_ProcessLine_quoted.1 album_keywords { keyword_ := "file", has_end_keyword_ := true }
      [] [] [] "FILE".data " ".data "x.mp3".data " WAVE".data (Or.inl rfl) (by decide)
      (by decide) (by decide) (by decide) (by decide) (by decide) (by decide) (by decide)
      (by decide),
   C36_ProcessLine_quoted.1 track_keywords { keyword_ := "date", rem_ := true }
      "\t".data "rem".data " ".data "Date".data "  ".data "1999".data [] (Or.inr rfl)
      (by decide) (by decide) (fun _ => by decide) (fun _ => by decide) (by decide)
      (by decide) (by decide) (by decide) (by decide),
   (C36_ProcessLine_quoted.2.1 "b.flac" (by decide)).2.2.2.2.2.2,
   C36_ProcessLine_quoted.2.2.2 "b.flac"⟩

/-! ## FILE and REM DATE lines in the track part (claims C34, C35) -/

theorem Parse_track_of_track (dir : CueDir) (st : ParseState) (line r : String)
    (h : CueParser_ProcessLine line track_keywords = some ("track", r)) :
    (Parse_track dir line st).song.media_file_ = st.media_file ∧
    (Parse_track dir line st).song.year_ = st.year ∧
    (Parse_track dir line st).song.track_ = st.songnr + 1 ∧
    (Parse_track dir line st).media_file = st.media_file ∧
    (Parse_track dir line st).year = st.year ∧
    (Parse_track dir line st).in_tracks = st.in_tracks := by
  simp only [Parse_track, h, if_true]
  by_cases hn : st.songnr > 0 <;> simp [hn, CueSheetEntry.Clear]

/-- C34. In the track part of `CueParser::Parse` a line `FILE "name"` (white
space, `FILE` in any letter case, any text) matches no track keyword, the
`file` keyword of the track list being one after `REM`: the line changes
nothing, and the entry that a following `TRACK` line creates has the media file
that was current before the line. A line `REM FILE "name"` is applied: the
entry that a following `TRACK` line creates has `name`, resolved against the
directory of the cue sheet, as its media file. -/
theorem C34_file_in_track_part (dir : CueDir) (st : ParseState)
    (ws R ws2 K gap v T : List Char) (trackLine r : String)
    (hin : st.in_tracks = true)
    (hws : ∀ c ∈ ws, QChar_isSpace c = true)
    (hR : R.map Char.toLower = "rem".data)
    (hws2 : ∀ c ∈ ws2, QChar_isSpace c = true)
    (hK : K.map Char.toLower = "file".data)
    (hgap : gap ≠ []) (hsp : ∀ c ∈ gap, QChar_isSpace c = true)
    (hv : '"' ∉ v) (hT : '"' ∉ T)
    (htrack : CueParser_ProcessLine trackLine track_keywords = some ("track", r)) :
    Parse_line dir st (quotedLine { keyword_ := "file" } ws R ws2 K gap v T) = st ∧
    (Parse_line dir (Parse_line dir st (quotedLine { keyword_ := "file" } ws R ws2 K gap v T))
        trackLine).song.media_file_ = st.media_file ∧
    (Parse_line dir
        (Parse_line dir st (quotedLine { keyword_ := "file", rem_ := true } ws R ws2 K gap v T))
        trackLine).song.media_file_ =
      (if dir.isAbsolutePath ⟨v⟩ then ⟨v⟩ else dir.absoluteFilePath ⟨v⟩) := by
  have hK2 : K.map Char.toLower = ("file" : String).data.map Char.toLower := by
    rw [hK]; decide
  have hplain : Parse_line dir st (quotedLine { keyword_ := "file" } ws R ws2 K gap v T) = st := by
    have hnone : CueParser_ProcessLine (quotedLine { keyword_ := "file" } ws R ws2 K gap v T)
        track_keywords = none := by
      apply ProcessLine_none
      intro e he
      have := kw_rest_clash e { keyword_ := "file" } ws R ws2 K (gap ++ '"' :: (v ++ '"' :: T))
        (plain_file_clash e he) (by decide) hws hR hws2 hK2
      simp only [Keyword.eq, quotedLine, this, Option.isSome_none]
    rw [Parse_line_in_tracks dir st _ hin]
    simp only [Parse_track, hnone]
  have hrem : CueParser_ProcessLine
      (quotedLine { keyword_ := "file", rem_ := true } ws R ws2 K gap v T) track_keywords
        = some ("file", ⟨v⟩) :=
    ProcessLine_quoted track_keywords { keyword_ := "file", rem_ := true } ws R ws2 K gap v T
      (Or.inr rfl) (by decide) hws (fun _ => hR) (fun _ => hws2) hK2 hgap hsp hv hT
  refine ⟨hplain, ?_, ?_⟩
  · rw [hplain, Parse_line_in_tracks dir st _ hin]
    exact (Parse_track_of_track dir st trackLine r htrack).1
  · have h1 : Parse_line dir st
        (quotedLine { keyword_ := "file", rem_ := true } ws R ws2 K gap v T) =
        { st with media_file :=
            if dir.isAbsolutePath ⟨v⟩ then ⟨v⟩ else dir.absoluteFilePath ⟨v⟩ } := by
      rw [Parse_line_in_tracks dir st _ hin]
      simp only [Parse_track, hrem]
      simp
    rw [h1, Parse_line_in_tracks dir _ _ (by simpa using hin)]
    exact (Parse_track_of_track dir _ trackLine r htrack).1

/-- Witness of C34: after two tracks of `/music/a.flac` the line
`FILE "b.flac" WAVE` leaves the third entry in `/music/a.flac`, and the line
`REM FILE "b.flac" WAVE` puts it in `/music/b.flac`. In the cue sheet of two
files both entries get the first file. -/
theorem C34_file_in_track_part_witness :
    ((Parse_line sampleCueDir
        (Parse_line sampleCueDir ((sampleCueSheet.take 11).foldl (Parse_line sampleCueDir) {})
          "FILE \"b.flac\" WAVE") "  TRACK 03 AUDIO").song.media_file_ = "/music/a.flac" ∧
     (Parse_line sampleCueDir
        (Parse_line sampleCueDir ((sampleCueSheet.take 11).foldl (Parse_line sampleCueDir) {})
          "REM FILE \"b.flac\" WAVE") "  TRACK 03 AUDIO").song.media_file_ = "/music/b.flac") ∧
    (CueParser_Parse sampleCueDir twoFileSheet).songs_.map (fun e => (e.track_, e.media_file_))
      = [(1, "/music/a.flac"), (2, "/music/a.flac")] :=
  ⟨⟨(C34_file_in_track_part sampleCueDir
        ((sampleCueSheet.take 11).foldl (Parse_line sampleCueDir) {})
        [] "REM".data " ".data "FILE".data " ".data "b.flac".data " WAVE".data
        "  TRACK 03 AUDIO" "03 AUDIO" (by decide!) (by decide) (by decide) (by decide)
        (by decide) (by decide) (by decide) (by decide) (by decide) (by decide!)).2.1.trans
        (by decide!),
     (C34_file_in_track_part sampleCueDir
        ((sampleCueSheet.take 11).foldl (Parse_line sampleCueDir) {})
        [] "REM".data " ".data "FILE".data " ".data "b.flac".data " WAVE".data
        "  TRACK 03 AUDIO" "03 AUDIO" (by decide!) (by decide) (by decide) (by decide)
        (by decide) (by decide) (by decide) (by decide) (by decide) (by decide!)).2.2.trans
        (by decide!)⟩,
   by decide!⟩

/-- In the track part a line that is not a `date` line leaves the local
`year` as it is. -/
theorem Parse_line_year (dir : CueDir) (st : ParseState) (line : String)
    (hin : st.in_tracks = true)
    (h : ∀ r, CueParser_ProcessLine line track_keywords ≠ some ("date", r)) :
    (Parse_line dir st line).year = st.year ∧ (Parse_line dir st line).in_tracks = true := by
  rw [Parse_line_in_tracks dir st line hin]
  cases hp : CueParser_ProcessLine line track_keywords with
  | none => simp [Parse_track, hp, hin]
  | some kr =>
      obtain ⟨keyword, result⟩ := kr
      have hd : keyword ≠ "date" := fun hk => h result (by rw [hp, hk])
      simp only [Parse_track, hp]
      split_ifs <;> simp [hin]

theorem Parse_lines_year (dir : CueDir) (mid : List String) (st : ParseState)
    (hin : st.in_tracks = true)
    (h : ∀ l ∈ mid, ∀ r, CueParser_ProcessLine l track_keywords ≠ some ("date", r)) :
    (mid.foldl (Parse_line dir) st).year = st.year ∧
    (mid.foldl (Parse_line dir) st).in_tracks = true := by
  induction mid generalizing st with
  | nil => exact ⟨rfl, hin⟩
  | cons l rest ih =>
      have h1 := Parse_line_year dir st l hin (h l (List.mem_cons_self _ _))
      have h2 := ih (Parse_line dir st l) h1.2 (fun x hx => h x (List.mem_cons_of_mem _ hx))
      simp only [List.foldl_cons]
      exact ⟨h2.1.trans h1.1, h2.2⟩

/-- C35. In the track part of `CueParser::Parse` a `REM DATE "v"` line stores
the number `v` in the year of the current entry and in the local `year`, which
also holds the year of the album. The lines `mid` that follow, none of them a
`date` line, leave it there, and the entry that a later `TRACK` line creates
gets the number `v` as its year, whatever the year of the album was. -/
theorem C35_track_date_carries_over (dir : CueDir) (st : ParseState)
    (ws R ws2 K gap v T : List Char) (mid : List String) (trackLine r : String)
    (hin : st.in_tracks = true)
    (hws : ∀ c ∈ ws, QChar_isSpace c = true)
    (hR : R.map Char.toLower = "rem".data)
    (hws2 : ∀ c ∈ ws2, QChar_isSpace c = true)
    (hK : K.map Char.toLower = "date".data)
    (hgap : gap ≠ []) (hsp : ∀ c ∈ gap, QChar_isSpace c = true)
    (hv : '"' ∉ v) (hT : '"' ∉ T)
    (hmid : ∀ l ∈ mid, ∀ r, CueParser_ProcessLine l track_keywords ≠ some ("date", r))
    (htrack : CueParser_ProcessLine trackLine track_keywords = some ("track", r)) :
    (Parse_line dir st
        (quotedLine { keyword_ := "date", rem_ := true } ws R ws2 K gap v T)).song.year_
      = QString_toInt ⟨v⟩ ∧
    (Parse_line dir
        (mid.foldl (Parse_line dir)
          (Parse_line dir st
            (quotedLine { keyword_ := "date", rem_ := true } ws R ws2 K gap v T)))
        trackLine).song.year_ = QString_toInt ⟨v⟩ := by
  have hK2 : K.map Char.toLower = ("date" : String).data.map Char.toLower := by
    rw [hK]; decide
  have hdate : CueParser_ProcessLine
      (quotedLine { keyword_ := "date", rem_ := true } ws R ws2 K gap v T) track_keywords
        = some ("date", ⟨v⟩) :=
    ProcessLine_quoted track_keywords { keyword_ := "date", rem_ := true } ws R ws2 K gap v T
      (Or.inr rfl) (by decide) hws (fun _ => hR) (fun _ => hws2) hK2 hgap hsp hv hT
  have h1 : Parse_line dir st
      (quotedLine { keyword_ := "date", rem_ := true } ws R ws2 K gap v T) =
      { st with year := QString_toInt ⟨v⟩,
                song := { st.song with year_ := QString_toInt ⟨v⟩ } } := by
    rw [Parse_line_in_tracks dir st _ hin]
    simp only [Parse_track, hdate]
    simp
  rw [h1]
  refine ⟨rfl, ?_⟩
  have h2 := Parse_lines_year dir mid
    { st with year := QString_toInt ⟨v⟩, song := { st.song with year_ := QString_toInt ⟨v⟩ } }
    (by simpa using hin) hmid
  rw [Parse_line_in_tracks dir _ _ h2.2, (Parse_track_of_track dir _ trackLine r htrack).2.1,
    h2.1]

/-- Witness of C35: in a cue sheet of the album year 1999 the line
`REM DATE "2005"` of the first track gives the year 2005 to the second track
too, which has no `REM DATE` line. -/
theorem C35_track_date_carries_over_witness :
    (Parse_line sampleCueDir
        (["    INDEX 01 00:00:00"].foldl (Parse_line sampleCueDir)
          (Parse_line sampleCueDir ((datedSheet.take 3).foldl (Parse_line sampleCueDir) {})
            "    REM DATE \"2005\""))
        "  TRACK 02 AUDIO").song.year_ = 2005 ∧
    ((datedSheet.take 3).foldl (Parse_line sampleCueDir) {}).year = 1999 ∧
    (CueParser_Parse sampleCueDir datedSheet).songs_.map (fun e => (e.track_, e.year_))
      = [(1, 2005), (2, 2005)] :=
  ⟨(C35_track_date_carries_over sampleCueDir
      ((datedSheet.take 3).foldl (Parse_line sampleCueDir) {})
      "    ".data "REM".data " ".data "DATE".data " ".data "2005".data []
      ["    INDEX 01 00:00:00"] "  TRACK 02 AUDIO" "02 AUDIO"
      (by decide!) (by decide) (by decide) (by decide) (by decide) (by decide) (by decide)
      (by decide) (by decide)
      (by
        intro l hl r
        rw [List.mem_singleton.mp hl]
        have h : CueParser_ProcessLine "    INDEX 01 00:00:00" track_keywords
            = some ("index", "01 00:00:00") := by decide!
        rw [h]
        intro hc
        exact absurd (Prod.mk.inj (Option.some.inj hc)).1 (by decide))
      (by decide!)).2.trans (by decide!),
   by decide!, by decide!⟩

/-! ## Transcoded tracks of a cue sheet (claim C31) -/

theorem toDigitsCore_digits (fuel : Nat) : ∀ (n : Nat) (ds : List Char),
    (∀ c ∈ ds, isDigit09 c = true) →
    ∀ c ∈ Nat.toDigitsCore 10 fuel n ds, isDigit09 c = true := by
  induction fuel with
  | zero => intro n ds h; simpa [Nat.toDigitsCore] using h
  | succ fuel ih =>
    intro n ds h
    have hd : isDigit09 (Nat.digitChar (n % 10)) = true :=
      (digitChar_props (n % 10) (Nat.mod_lt _ (by decide))).1
    have hds : ∀ c ∈ Nat.digitChar (n % 10) :: ds, isDigit09 c = true := by
      intro c hc
      rcases List.mem_cons.mp hc with hc | hc
      · rw [hc]; exact hd
      · exact h c hc
    unfold Nat.toDigitsCore
    simp only []
    split
    · exact hds
    · exact ih _ _ hds

/-- The text of a number has no `/` and no `.`. -/
theorem QString_number_chars (n : Int) :
    '/' ∉ (QString_number n).data ∧ '.' ∉ (QString_number n).data := by
  have hnat : ∀ m : Nat, ∀ c ∈ (Nat.repr m).data, isDigit09 c = true := by
    intro m c hc
    have : c ∈ Nat.toDigits 10 m := by simpa [Nat.repr, List.asString] using hc
    exact toDigitsCore_digits _ _ [] (by simp) c this
  have hall : ∀ c ∈ (QString_number n).data, c = '-' ∨ isDigit09 c = true := by
    intro c hc
    cases n with
    | ofNat m => exact Or.inr (hnat m c hc)
    | negSucc m =>
      have h1 : (QString_number (Int.negSucc m)).data = '-' :: (Nat.repr (m + 1)).data := rfl
      rw [h1] at hc
      rcases List.mem_cons.mp hc with hc | hc
      · exact Or.inl hc
      · exact Or.inr (hnat _ c hc)
  constructor
  · intro h
    rcases hall _ h with h | h
    · exact absurd h (by decide)
    · exact absurd h (by decide)
  · intro h
    rcases hall _ h with h | h
    · exact absurd h (by decide)
    · exact absurd h (by decide)

/-- The suffix of a path that ends in a text without `/` and `.` is empty or
ends in that text. -/
theorem suffix_append_plain (a b : List Char) (h1 : '/' ∉ b) (h2 : '.' ∉ b) :
    (QFileInfo_suffix ⟨a ++ b⟩).data = [] ∨ ∃ M, (QFileInfo_suffix ⟨a ++ b⟩).data = M ++ b := by
  have hname : (QFileInfo_fileName ⟨a ++ b⟩).data = ((fields '/' a).getLast?).getD [] ++ b := by
    simp [QFileInfo_fileName, QString_section_last, fields_append_nosep '/' a b h1]
  unfold QFileInfo_suffix
  simp only []
  split
  · right
    refine ⟨((fields '.' (((fields '/' a).getLast?).getD [])).getLast?).getD [], ?_⟩
    simp [QString_section_last, hname, fields_append_nosep '.' _ b h2]
  · left; rfl

/-- A path that ends in `-` and a number is no source for the Segmenter: its
suffix, lower-cased, is not `mp3` and not `ogg`. -/
theorem CanSegment_temp_name (job : CopyJob) (temp : String) (n : Int)
    (h : job.source_ = temp ++ "-" ++ QString_number n) :
    Segmenter_CanSegment job = false := by
  obtain ⟨hn1, hn2⟩ := QString_number_chars n
  have hb1 : '/' ∉ '-' :: (QString_number n).data := by
    intro hc
    rcases List.mem_cons.mp hc with hc | hc
    · exact absurd hc (by decide)
    · exact hn1 hc
  have hb2 : '.' ∉ '-' :: (QString_number n).data := by
    intro hc
    rcases List.mem_cons.mp hc with hc | hc
    · exact absurd hc (by decide)
    · exact hn2 hc
  have hsrc : job.source_ = ⟨temp.data ++ '-' :: (QString_number n).data⟩ := by
    rw [h]
    apply String.ext
    simp
  have hext : ∀ ext : String, '-' ∉ ext.data → ext ≠ "" →
      QString_toLower (QFileInfo_suffix job.source_) ≠ ext := by
    intro ext hdash hne heq
    rw [hsrc] at heq
    rcases suffix_append_plain temp.data _ hb1 hb2 with h0 | ⟨M, hM⟩
    · apply hne
      rw [← heq]
      apply String.ext
      simp [QString_toLower, h0]
    · apply hdash
      rw [← heq]
      simp only [QString_toLower, hM, List.map_append, List.map_cons, List.mem_append,
        List.mem_cons]
      right; left
      decide
  have h1 := hext "mp3" (by decide) (by decide)
  have h2 := hext "ogg" (by decide) (by decide)
  simp [Segmenter_CanSegment, Segmenter_CheckSource, h1, h2]

theorem KeepsNames_refl (s : State) : KeepsNames s s :=
  ⟨rfl, fun kv h => ⟨kv, h, rfl⟩⟩

theorem KeepsNames_trans {s1 s2 s3 : State} (h1 : KeepsNames s1 s2) (h2 : KeepsNames s2 s3) :
    KeepsNames s1 s3 := by
  refine ⟨h2.1.trans h1.1, ?_⟩
  intro kv3 h3
  obtain ⟨kv2, hm2, e2⟩ := h2.2 kv3 h3
  obtain ⟨kv1, hm1, e1⟩ := h1.2 kv2 hm2
  exact ⟨kv1, hm1, e2.trans e1⟩

theorem KeepsNames_of {s s' : State} (hp : s'.tasks_pending_ = s.tasks_pending_)
    (hm : s'.tasks_transcoding_ = s.tasks_transcoding_) : KeepsNames s s' :=
  ⟨hp, fun kv h => ⟨kv, hm ▸ h, rfl⟩⟩

theorem KeepsNames_UpdateProgress (gp : List (String × CFloat)) (s : State) :
    KeepsNames s (UpdateProgress gp s) := by
  refine ⟨rfl, ?_⟩
  intro kv' h
  obtain ⟨kv, hkv, _, he, _⟩ := UpdateProgress_mem gp s kv' h
  exact ⟨kv, hkv, he⟩

theorem KeepsNames_SetSongProgress (gp : List (String × CFloat)) (f : CFloat) (tr : Bool) (s : State) :
    KeepsNames s (SetSongProgress gp f tr s) := by
  unfold SetSongProgress
  exact @KeepsNames_trans s { s with current_copy_progress_ := _ } _
    (KeepsNames_of rfl rfl) (KeepsNames_UpdateProgress _ _)

theorem KeepsNames_callbacks (cbs : List (CFloat × List (String × CFloat))) (tr : Bool) (s : State) :
    KeepsNames s (cbs.foldl (fun s cb =>
        SetSongProgress (Transcoder_GetProgress cb.2 s.transcoder_jobs_) cb.1 tr s) s) := by
  induction cbs generalizing s with
  | nil => exact KeepsNames_refl s
  | cons cb rest ih =>
    simp only [List.foldl_cons]
    exact KeepsNames_trans (KeepsNames_SetSongProgress _ _ _ _) (ih _)

theorem KeepsNames_CopyToStorage (w : World) (job : CopyJob) (s : State) :
    KeepsNames s (CopyToStorage w job s).2 := by
  unfold CopyToStorage
  simp only []
  exact @KeepsNames_trans s (s.emit (Effect.CopyToStorage job)) _
    (KeepsNames_of rfl rfl) (KeepsNames_callbacks _ _ _)

theorem KeepsNames_copy (w : World) (task : Task) (song : Song) (s : State) :
    KeepsNames s (ProcessSomeFiles_copy w task song s) := by
  unfold ProcessSomeFiles_copy
  simp only []
  have hseg : KeepsNames s
      (ProcessSomeFiles_segment w song (ProcessSomeFiles_job w task song s) s).2.2 := by
    unfold ProcessSomeFiles_segment
    split
    · split
      · simp only []
        split
        · exact KeepsNames_of rfl rfl
        · exact KeepsNames_of rfl rfl
      · exact KeepsNames_refl _
    · exact KeepsNames_refl _
  have hstore : ∀ (ns : Bool) (sf : String) (job : CopyJob) (s1 : State),
      KeepsNames s1 (ProcessSomeFiles_store w task ns sf job s1) := by
    intro ns sf job s1
    unfold ProcessSomeFiles_store
    split
    · exact KeepsNames_of rfl rfl
    · simp only []
      split
      · exact KeepsNames_trans (KeepsNames_CopyToStorage w job s1) (KeepsNames_of rfl rfl)
      · exact KeepsNames_CopyToStorage w job s1
  have hclean : ∀ (sf : String) (s1 : State),
      KeepsNames s1 (ProcessSomeFiles_cleanup task sf s1) := by
    intro sf s1
    refine KeepsNames_of ?_ ?_
    · unfold ProcessSomeFiles_cleanup; split <;> split <;> rfl
    · unfold ProcessSomeFiles_cleanup; split <;> split <;> rfl
  exact KeepsNames_trans hseg (KeepsNames_trans (hstore _ _ _ _) (hclean _ _))

theorem KeepsNames_finish (w : World) (s : State) :
    KeepsNames s (ProcessSomeFiles_finish w s) := by
  have h1 := KeepsNames_UpdateProgress
    (Transcoder_GetProgress w.progress_report s.transcoder_jobs_) s
  refine KeepsNames_trans h1 (KeepsNames_of ?_ ?_)
  · unfold ProcessSomeFiles_finish; simp only []; split <;> rfl
  · unfold ProcessSomeFiles_finish; simp only []; split <;> rfl

theorem FormInv_of_KeepsNames {s s' : State} (h : FormInv s) (hk : KeepsNames s s') :
    FormInv s' := by
  refine ⟨?_, ?_⟩
  · intro task ht
    rw [hk.1] at ht
    exact h.1 task ht
  · intro kv' hkv
    obtain ⟨kv, hm, he⟩ := hk.2 kv' hkv
    rw [he]
    exact h.2 kv hm

theorem FormInv_expand (w : World) (task : Task) (s : State) (h : FormInv s) :
    FormInv (ProcessSomeFiles_expand w task s) := by
  unfold ProcessSomeFiles_expand
  generalize w.entryList task.song_or_file_.file_ = entries
  induction entries generalizing s with
  | nil => exact h
  | cons e rest ih =>
    simp only [List.foldl_cons]
    apply ih
    refine ⟨?_, h.2⟩
    intro t ht
    rcases List.mem_append.mp ht with ht | ht
    · exact h.1 t ht
    · rw [List.mem_singleton.mp ht]
      exact Or.inl rfl

theorem FormInv_transcode (w : World) (task : Task) (dest_type : FileType) (s : State)
    (h : FormInv s) : FormInv (ProcessSomeFiles_transcode w task dest_type s) := by
  refine ⟨h.1, ?_⟩
  intro kv hkv
  have hkv2 : kv ∈ QMap_set s.tasks_transcoding_ task.song_or_file_.file_
      { task with
        transcoded_filename_ := s.transcode_temp_name_ ++ "-" ++ QString_number s.transcode_suffix_
        new_extension_ := (w.PresetForFileType dest_type).extension_
        new_filetype_ := dest_type } := hkv
  rcases QMap_set_mem _ _ _ kv hkv2 with hk | hk
  · rw [hk]
    exact Or.inr ⟨_, _, rfl⟩
  · exact h.2 kv hk

theorem FormInv_body (w : World) (task : Task) (s : State) (h : FormInv s) :
    FormInv (ProcessSomeFiles_body w task s) := by
  unfold ProcessSomeFiles_body
  simp only []
  split
  · exact FormInv_expand w task s h
  · split
    · exact h
    · split
      · exact FormInv_of_KeepsNames h (KeepsNames_copy w task _ s)
      · split
        · exact FormInv_transcode w task _ s h
        · exact FormInv_of_KeepsNames h (KeepsNames_copy w task _ s)

theorem FormInv_loop (ws : Nat → World) (n i : Nat) (s : State) (h : FormInv s) :
    FormInv (ProcessSomeFiles_loop ws i n s) := by
  induction n generalizing i s with
  | zero => exact h
  | succ n ih =>
    have h1 := FormInv_of_KeepsNames h (KeepsNames_SetSongProgress
      (Transcoder_GetProgress (ws (i + 1)).progress_report s.transcoder_jobs_) 0 false s)
    have hp1 : (SetSongProgress
        (Transcoder_GetProgress (ws (i + 1)).progress_report s.transcoder_jobs_) 0 false
        s).tasks_pending_ = s.tasks_pending_ := (KeepsNames_SetSongProgress _ _ _ _).1
    cases hp : s.tasks_pending_ with
    | nil =>
      rw [loop_nil ws i n s hp]
      exact h1
    | cons task rest =>
      rw [loop_cons ws i n s task rest hp]
      apply ih
      apply FormInv_body
      refine ⟨?_, h1.2⟩
      intro t ht
      apply h.1
      rw [hp]
      exact List.mem_cons_of_mem _ ht

theorem FormInv_start (w : World) (s : State) (h : FormInv s) :
    FormInv (ProcessSomeFiles_start w s) := by
  unfold ProcessSomeFiles_start
  split
  · simp only []
    split
    · exact ⟨by simp, h.2⟩
    · exact h
  · exact h

theorem FormInv_tick (ws : Nat → World) (s : State) (h : FormInv s) :
    FormInv (ProcessSomeFiles ws s) := by
  have h0 := FormInv_start (ws 0) s h
  by_cases hp : (ProcessSomeFiles_start (ws 0) s).tasks_pending_ = []
  · by_cases hm : (ProcessSomeFiles_start (ws 0) s).tasks_transcoding_ = []
    · rw [tick_finish ws s hp hm]
      exact FormInv_of_KeepsNames h0 (KeepsNames_finish _ _)
    · rw [tick_wait ws s hp hm]
      exact h0
  · rw [tick_batch ws s hp]
    exact FormInv_of_KeepsNames (FormInv_loop ws kBatchSize 0 _ h0)
      (KeepsNames_SetSongProgress _ _ _ _)

theorem FormInv_FileTranscoded (filename : String) (success : Bool) (s : State)
    (h : FormInv s) : FormInv (FileTranscoded filename success s) := by
  have htake : TempForm (QMap_take s.tasks_transcoding_ filename).1.transcoded_filename_ := by
    rcases QMap_take_fst s.tasks_transcoding_ filename with h0 | ⟨kv, hkv, h1⟩
    · rw [h0]; exact Or.inl rfl
    · rw [h1]; exact h.2 kv hkv
  have hmap : ∀ kv ∈ (QMap_take s.tasks_transcoding_ filename).2,
      TempForm kv.2.transcoded_filename_ :=
    fun kv hkv => h.2 kv (QMap_take_snd_mem _ _ kv hkv).1
  unfold FileTranscoded
  simp only []
  cases success
  · exact ⟨h.1, hmap⟩
  · refine ⟨?_, hmap⟩
    intro t ht
    have ht2 : t ∈ s.tasks_pending_ ++ [(QMap_take s.tasks_transcoding_ filename).1] := ht
    rcases List.mem_append.mp ht2 with ht2 | ht2
    · exact h.1 t ht2
    · rw [List.mem_singleton.mp ht2]; exact htake

theorem FormInv_step {s s' : State} (h : FormInv s) (hstep : Step s s') : FormInv s' := by
  cases hstep with
  | tick ws => exact FormInv_tick ws s h
  | timer report => exact FormInv_of_KeepsNames h (KeepsNames_UpdateProgress _ _)
  | transcoded filename success hmem =>
    exact FormInv_FileTranscoded filename success _ h

theorem FormInv_init (copy overwrite eject_after : Bool) (items : List SongOrFilePair) :
    FormInv (Organise copy overwrite eject_after items) := by
  refine ⟨?_, by simp [Organise]⟩
  intro t ht
  obtain ⟨sof, _, rfl⟩ := List.mem_map.mp ht
  exact Or.inl rfl

theorem FormInv_reachable {s0 s : State} (h : FormInv s0) (hr : Reachable s0 s) :
    FormInv s := by
  induction hr with
  | refl => exact h
  | tail _ hstep ih => exact FormInv_step ih hstep

/-- The batch step on a transcoded track of a cue sheet whose job the
Segmenter cannot segment: the track is marked failed, the temporary file is
removed, the task counts as complete; nothing else happens. -/
theorem body_cannot_segment (w : World) (task : Task) (s : State)
    (hnotdir : (task.song_or_file_.IsFile && w.isDir task.song_or_file_.file_) = false)
    (hvalid : (task.song_or_file_.IsFile && !(ProcessSomeFiles_read w task).valid_) = false)
    (hne : task.transcoded_filename_ ≠ "")
    (hcue : (ProcessSomeFiles_read w task).has_cue = true)
    (hcan : Segmenter_CanSegment
      (ProcessSomeFiles_job w task (ProcessSomeFiles_song w task) s) = false) :
    ProcessSomeFiles_body w task s =
      { s with
        files_with_errors_ := s.files_with_errors_ ++ [task.song_or_file_.DisplayName]
        trace_ := s.trace_ ++ [Effect.QFile_remove task.transcoded_filename_]
        tasks_complete_ := s.tasks_complete_ + 1 } := by
  rw [body_eq_copy w task s hnotdir hvalid (Or.inl hne)]
  have hcue2 : (ProcessSomeFiles_song w task).has_cue = true := by rw [song_has_cue]; exact hcue
  unfold ProcessSomeFiles_copy
  simp only [hcue2, segment_cannot _ _ _ _ hcan, store_no_segment]
  simp [ProcessSomeFiles_cleanup, hne, State.emit]

/-- C31. In every state that a run reaches, a task of the queue with a
non-empty transcoded path has a path of the form temporary name, `-`, decimal
number. For such a task, when the batch step gets to copy it (it is no
directory and its metadata is valid) and its track has a cue reference, the
Segmenter made for its copy job cannot segment, the suffix of the path being
neither `mp3` nor `ogg`: the step appends the display name to the failure
list, removes the temporary file and counts the task, and it calls neither the
splitter nor the storage, in any world and from any state `s1`. -/
theorem C31_transcoded_cue_track_fails (copy overwrite eject_after : Bool)
    (items : List SongOrFilePair) (s : State) (task : Task) (w : World) (s1 : State)
    (hr : Reachable (Organise copy overwrite eject_after items) s)
    (hmem : task ∈ s.tasks_pending_)
    (hne : task.transcoded_filename_ ≠ "")
    (hnotdir : (task.song_or_file_.IsFile && w.isDir task.song_or_file_.file_) = false)
    (hvalid : (task.song_or_file_.IsFile && !(ProcessSomeFiles_read w task).valid_) = false)
    (hcue : (ProcessSomeFiles_read w task).has_cue = true) :
    (∃ (temp : String) (n : Int), task.transcoded_filename_ = temp ++ "-" ++ QString_number n) ∧
    (ProcessSomeFiles_job w task (ProcessSomeFiles_song w task) s1).source_
      = task.transcoded_filename_ ∧
    Segmenter_CanSegment (ProcessSomeFiles_job w task (ProcessSomeFiles_song w task) s1)
      = false ∧
    ProcessSomeFiles_body w task s1 =
      { s1 with
        files_with_errors_ := s1.files_with_errors_ ++ [task.song_or_file_.DisplayName]
        trace_ := s1.trace_ ++ [Effect.QFile_remove task.transcoded_filename_]
        tasks_complete_ := s1.tasks_complete_ + 1 } := by
  have hform := (FormInv_reachable (FormInv_init copy overwrite eject_after items) hr).1 task hmem
  have hex : ∃ (temp : String) (n : Int),
      task.transcoded_filename_ = temp ++ "-" ++ QString_number n :=
    hform.resolve_left hne
  have hsrc : (ProcessSomeFiles_job w task (ProcessSomeFiles_song w task) s1).source_
      = task.transcoded_filename_ := by
    simp [ProcessSomeFiles_job, hne]
  obtain ⟨temp, n, hn⟩ := hex
  have hcan := CanSegment_temp_name
    (ProcessSomeFiles_job w task (ProcessSomeFiles_song w task) s1) temp n (hsrc.trans hn)
  exact ⟨⟨temp, n, hn⟩, hsrc, hcan, body_cannot_segment w task s1 hnotdir hvalid hne hcue hcan⟩

theorem sampleTranscodedCue_reachable :
    Reachable (Organise true false false [SongOrFilePair.ofFile "/music/album.mp3"])
      sampleTranscodedCue :=
  Relation.ReflTransGen.tail
    (Relation.ReflTransGen.single (Step.tick (fun _ => sampleWorld) _))
    (Step.transcoded "/music/album.mp3" true _ (by decide!))

/-- Witness of C31: the raw path `/music/album.mp3`, a track of a cue sheet
that the storage wants transcoded, comes back from the transcoder as
`/tmp/qt_temp.1-1`; the Segmenter cannot segment that file and the track is
marked failed. -/
theorem C31_transcoded_cue_track_fails_witness :
    sampleTranscodedCue.tasks_pending_ = [sampleTranscodedTask] ∧
    Segmenter_CanSegment
      (ProcessSomeFiles_job sampleWorld sampleTranscodedTask
        (ProcessSomeFiles_song sampleWorld sampleTranscodedTask) sampleTranscodedCue) = false ∧
    (ProcessSomeFiles_body sampleWorld sampleTranscodedTask
      sampleTranscodedCue).files_with_errors_ = ["/music/album.mp3"] :=
  ⟨by decide!,
   (C31_transcoded_cue_track_fails true false false
      [SongOrFilePair.ofFile "/music/album.mp3"] sampleTranscodedCue sampleTranscodedTask
      sampleWorld sampleTranscodedCue sampleTranscodedCue_reachable (by decide!) (by decide)
      (by decide) (by decide!) (by decide!)).2.2.1,
   (congrArg State.files_with_errors_
      (C31_transcoded_cue_track_fails true false false
        [SongOrFilePair.ofFile "/music/album.mp3"] sampleTranscodedCue sampleTranscodedTask
        sampleWorld sampleTranscodedCue sampleTranscodedCue_reachable (by decide!) (by decide)
        (by decide) (by decide!) (by decide!)).2.2.2).trans (by decide!)⟩

end Clementine
